import Mathlib

/-!
adbplus-dedup-diff: domain pruning tree and sorted-merge diff

A shallow embedding of `domaintree.c`, `tld_hash_context.c`, `pfb_prune.c`,
`rw_pfb_csv.c`, `carry_over.c`, `inputargs.c`, `main.c` (`sort_adbplus_adlists`) and
`pfb_differ.c`, followed by the properties proved about it.

Conventions of the embedding.

* A byte is a `Nat` (the value of an `unsigned char`); a label is the list of
  its bytes.
* A uthash table (`DomainTree_t *` head pointer, entries linked through
  `hh.next` in insertion order) is the inductive type `DomainTree_t`:
  `nil` is `nullptr`, `node tld di child next` is one entry followed by the
  rest of the table.
* `ASSERT` is compiled out (`RELEASE`, see `dedupdomains.h`); where the code
  past a failed assertion dereferences a null pointer the embedding returns
  `none`.
-/

namespace AdbDedup

/-! ## Data model -/

/-- One domain label: its bytes, not NUL-terminated. -/
abbrev Label := List Nat

/-- Modelled from the spec: `matchstrength.h` is not part of the sources at hand.
The spec orders the strengths `NotSet < Bogus < Weak < Regex < Full`. -/
inductive MatchStrength_t where
  | MATCH_NOTSET
  | MATCH_BOGUS
  | MATCH_WEAK
  | MATCH_REGEX
  | MATCH_FULL
  deriving DecidableEq, Repr

open MatchStrength_t

/-- Modelled from the spec: numeric order of the strengths
(`NotSet < Bogus < Weak < Regex < Full`), used by the `>` of `replace_if_stronger`. -/
def MatchStrength_t.rank : MatchStrength_t → Nat
  | MATCH_NOTSET => 0
  | MATCH_BOGUS => 1
  | MATCH_WEAK => 2
  | MATCH_REGEX => 3
  | MATCH_FULL => 4

/-- The `line_info_t` of `carry_over.h`: byte offset and length of a line. -/
structure line_info_t where
  offset : Int
  line_len : Nat
  deriving DecidableEq, Repr

/-- The `DomainInfo_t` of `domaininfo.h`; `context` stands for the
`pfb_context *` of the producing input. -/
structure DomainInfo_t where
  context : Nat
  match_strength : MatchStrength_t
  li : line_info_t
  deriving DecidableEq, Repr

/-- Modelled from the spec: `domain.h` is not part of the sources at hand.
`labels` lists the labels in the order `label_indexes[0], label_indexes[1], ...`,
which is the order `next_DomainView` yields them: the TLD first.
`segs_used` is `labels.length`. -/
structure DomainView_t where
  labels : List Label
  match_strength : MatchStrength_t
  context : Nat
  li : line_info_t
  deriving DecidableEq, Repr

/-- The function `convert_DomainInfo` of `domaintree.c`. -/
def convert_DomainInfo (dv : DomainView_t) : DomainInfo_t :=
  { context := dv.context, match_strength := dv.match_strength, li := dv.li }

/-! ## Label comparison -/

/-- The libc `memcmp` over the first `n` bytes: zero when they agree, otherwise the
difference of the first pair of bytes that differ (only its sign is used). -/
def memcmp : List Nat → List Nat → Nat → Int
  | _, _, 0 => 0
  | a :: as, b :: bs, n + 1 => if a = b then memcmp as bs n else (a : Int) - (b : Int)
  | _, _, _ + 1 => 0

/-- The comparator `sort_by_tld` of `domaintree.c`. -/
def sort_by_tld (a b : Label) : Int :=
  let first_n := memcmp a b (min a.length b.length)
  if first_n = 0 then (a.length : Int) - (b.length : Int) else first_n

/-- The conversion of a 32-bit unsigned value to `int`. -/
def uint_to_int (x : Nat) : Int :=
  if x % 4294967296 < 2147483648 then ((x % 4294967296 : Nat) : Int)
  else ((x % 4294967296 : Nat) : Int) - 4294967296

/-- The comparator `sort_TLD_entry_by_tld` of `tld_hash_context.c`; the lengths are
`size_len_t` (32-bit unsigned), so `a->len - b->len` wraps before it is
converted to `int`. -/
def sort_TLD_entry_by_tld (a b : Label) : Int :=
  let first_n := memcmp a b (min a.length b.length)
  if first_n = 0 then
    uint_to_int (a.length % 4294967296 + 4294967296 - b.length % 4294967296)
  else first_n

/-! ## `compare_dv` and `action_dv` (pfb_differ.c) -/

/-- Value of `enum dv_comparison`. -/
def dv_A_eq_dv_B : Int := 0
/-- Value of `enum dv_comparison`. -/
def dv_A_blk_dv_B : Int := 1
/-- Value of `enum dv_comparison`. -/
def dv_B_blk_dv_A : Int := 2
/-- Value of `enum dv_comparison`. -/
def dv_A_lt_dv_B_write_A : Int := 7
/-- Value of `enum dv_comparison`. -/
def dv_A_gt_dv_B_write_B : Int := 8

/-- The `for` loop of `compare_dv`: `as`, `bs` are the labels from the current index
on, `last_cmp` the value assigned so far. -/
def compare_dv_loop (segsA segsB : Nat) : List Label → List Label → Int → Int
  | a :: as, b :: bs, _ =>
    let ret := memcmp a b (min a.length b.length)
    let ret := if ret = 0 then (a.length : Int) - (b.length : Int) else ret
    if ret = 0 then
      compare_dv_loop segsA segsB as bs
        (if segsA = segsB then dv_A_eq_dv_B
         else if segsA < segsB then dv_A_blk_dv_B
         else dv_B_blk_dv_A)
    else if ret < 0 then dv_A_lt_dv_B_write_A
    else dv_A_gt_dv_B_write_B
  | [], _, last_cmp => last_cmp
  | _ :: _, [], last_cmp => last_cmp

/-- The function `compare_dv` of `pfb_differ.c`; `-1` is the initial `last_cmp`. -/
def compare_dv (dv_A dv_B : DomainView_t) : Int :=
  compare_dv_loop dv_A.labels.length dv_B.labels.length dv_A.labels dv_B.labels (-1)

/-- Value of `enum diff_codes`: `'+'`. -/
def WINNER : Nat := 43
/-- Value of `enum diff_codes`: `'-'`. -/
def LOSER : Nat := 45
/-- Value of `enum diff_codes`: `' '`. -/
def NEUTRAL : Nat := 32

/-- The function `action_dv` of `pfb_differ.c`. `σ` is the program state, `ι` the type
of the iterator handles (`void *`); the `bool` returned by `advance_dv_iter`
is discarded by `action_dv`, so the callback is taken as a state update. -/
def action_dv {σ ι : Type} (cmp : Int)
    (write_dv_line : ι → Nat → σ → σ) (advance_dv_iter : ι → σ → σ)
    (dviter_A dviter_B : ι) (s : σ) : σ :=
  if cmp = dv_A_eq_dv_B then
    advance_dv_iter dviter_B (advance_dv_iter dviter_A (write_dv_line dviter_A NEUTRAL s))
  else if cmp = dv_A_lt_dv_B_write_A then
    advance_dv_iter dviter_A (write_dv_line dviter_A WINNER s)
  else if cmp = dv_A_gt_dv_B_write_B then
    advance_dv_iter dviter_B (write_dv_line dviter_B WINNER s)
  else if cmp = dv_A_blk_dv_B then
    advance_dv_iter dviter_B (write_dv_line dviter_B LOSER (write_dv_line dviter_A WINNER s))
  else if cmp = dv_B_blk_dv_A then
    advance_dv_iter dviter_A (write_dv_line dviter_A LOSER (write_dv_line dviter_B WINNER s))
  else s

/-! ## The domain tree (domaintree.c) -/

/-- A uthash table of `DomainTree_t` entries, given by its head pointer: `nil` is
`nullptr` (the empty table), `node tld di child next` is the first entry (label
`tld`, optional info `di`, table of children `child`) followed by the remaining
entries `next` in list order (`hh.next`). -/
inductive DomainTree_t where
  | nil : DomainTree_t
  | node (tld : Label) (di : Option DomainInfo_t) (child : DomainTree_t)
      (next : DomainTree_t) : DomainTree_t
  deriving DecidableEq, Repr

open DomainTree_t

/-- The uthash `HASH_FIND` on the label bytes: info and children of the entry found. -/
def HASH_FIND : DomainTree_t → Label → Option (Option DomainInfo_t × DomainTree_t)
  | nil, _ => none
  | node tld di child next, key => if tld = key then some (di, child) else HASH_FIND next key

/-- The uthash `HASH_COUNT`: number of entries of the table. -/
def HASH_COUNT : DomainTree_t → Nat
  | nil => 0
  | node _ _ _ next => HASH_COUNT next + 1

/-- The uthash `HASH_ADD_KEYPTR`: the new entry goes to the end of the list. -/
def HASH_ADD : DomainTree_t → Label → Option DomainInfo_t → DomainTree_t → DomainTree_t
  | nil, key, di, child => node key di child nil
  | node tld0 di0 child0 next, key, di, child =>
    node tld0 di0 child0 (HASH_ADD next key di child)

/-- A write through an `entry` pointer obtained by `HASH_FIND` with `key`: the info
and the child table of that entry are replaced by `f di child`. -/
def with_entry : DomainTree_t → Label →
    (Option DomainInfo_t → DomainTree_t → Option DomainInfo_t × DomainTree_t) → DomainTree_t
  | nil, _, _ => nil
  | node tld di child next, key, f =>
    if tld = key then node tld (f di child).1 (f di child).2 next
    else node tld di child (with_entry next key f)

/-- The function `leaf_DomainTree`: `HASH_COUNT(dt->child) == 0`. -/
def leaf_DomainTree (child : DomainTree_t) : Bool :=
  HASH_COUNT child == 0

/-- The function `ctor_DomainTree`: the `do ... while(next_DomainView)` loop adds an
entry for `sdv` to the table `dt` and then one entry per remaining label, each in
the (new, empty) child table of the previous one; the last entry receives the
info of the view. -/
def ctor_DomainTree (dv : DomainView_t) : DomainTree_t → Label → List Label → DomainTree_t
  | dt, sdv, [] => HASH_ADD dt sdv (some (convert_DomainInfo dv)) nil
  | dt, sdv, l :: it => HASH_ADD dt sdv none (ctor_DomainTree dv nil l it)

/-- The function `find_leaf_Domain`. The arguments are the labels the iterator has
still to yield, the table `*dt`, and whether `entry` is non-null. The result is
the table after the call and whether the returned pointer is non-null; a
non-null result points to the entry reached from `*root_dt` by the labels of the
iterator. `none`: `entry->di` is dereferenced while null. -/
def find_leaf_Domain (dv : DomainView_t) :
    List Label → DomainTree_t → Bool → Option (DomainTree_t × Bool)
  | [], dt, entry => some (dt, entry)
  | sdv :: it, dt, _ =>
    match HASH_FIND dt sdv with
    | none => some (ctor_DomainTree dv dt sdv it, true)
    | some (di, child) =>
      if leaf_DomainTree child then
        match di with
        | none => none
        | some i =>
          if i.match_strength = MATCH_FULL then some (dt, false)
          else
            (find_leaf_Domain dv it child true).map
              fun r => (with_entry dt sdv (fun d _ => (d, r.1)), r.2)
      else
        (find_leaf_Domain dv it child true).map
          fun r => (with_entry dt sdv (fun d _ => (d, r.1)), r.2)

/-- The function `replace_if_stronger` (with `replace_DomainInfo` and
`free_DomainTree` of the children) as an update of the entry's info and child
table. -/
def replace_if_stronger (dv : DomainView_t) (di : Option DomainInfo_t)
    (child : DomainTree_t) : Option DomainInfo_t × DomainTree_t :=
  match di with
  | none =>
    (some (convert_DomainInfo dv), if dv.match_strength = MATCH_FULL then nil else child)
  | some i =>
    if dv.match_strength.rank > i.match_strength.rank then
      (some (convert_DomainInfo dv), if dv.match_strength = MATCH_FULL then nil else child)
    else (some i, child)

/-- A write through the pointer returned by `find_leaf_Domain`: `f` is applied to the
entry reached from the table by following the labels. -/
def at_entry (f : Option DomainInfo_t → DomainTree_t → Option DomainInfo_t × DomainTree_t) :
    List Label → DomainTree_t → DomainTree_t
  | [], dt => dt
  | [l], dt => with_entry dt l f
  | l :: l2 :: it, dt => with_entry dt l (fun d c => (d, at_entry f (l2 :: it) c))

/-- The part of `insert_DomainTree` below the TLD entry: `find_leaf_Domain` followed,
when it returns an entry, by `replace_if_stronger` on that entry. -/
def insert_below (dv : DomainView_t) (it : List Label) (dt : DomainTree_t) :
    Option DomainTree_t :=
  match find_leaf_Domain dv it dt false with
  | none => none
  | some (dt1, entry) =>
    if entry then some (at_entry (replace_if_stronger dv) it dt1) else some dt1

/-! ## The TLD index (tld_hash_context.c) -/

/-- The `TLD_entry_impl_t` of `tld_hash_context.c`. -/
structure TLD_entry_impl_t where
  tld : Label
  child : DomainTree_t
  deriving DecidableEq, Repr

/-- The `TLD_context_impl_t`: the uthash table `root` as the list of its entries in
list order. -/
abbrev TLD_context_impl_t := List TLD_entry_impl_t

/-- The subtree slot of the first TLD entry with the given label (`nil` when none). -/
def tld_slot : TLD_context_impl_t → Label → DomainTree_t
  | [], _ => nil
  | e :: rest, key => if e.tld = key then e.child else tld_slot rest key

/-- A write of `dt` through the `DomainTree_t **` of the TLD entry with the given label. -/
def tld_set_slot : TLD_context_impl_t → Label → DomainTree_t → TLD_context_impl_t
  | [], _, _ => []
  | e :: rest, key, dt =>
    if e.tld = key then { e with child := dt } :: rest else e :: tld_set_slot rest key dt

/-- The function `hash_context_insert_tld`: the index afterwards; the returned
`DomainTree_t **` is the slot of the entry with label `sdv`. -/
def hash_context_insert_tld : TLD_context_impl_t → Label → TLD_context_impl_t
  | [], sdv => [{ tld := sdv, child := nil }]
  | e :: rest, sdv => if e.tld = sdv then e :: rest else e :: hash_context_insert_tld rest sdv

/-- The function `insert_DomainTree`. `none`: undefined behaviour (a view without
labels leaves `sdv` uninitialised; a null `entry->di` is dereferenced). -/
def insert_DomainTree (c : TLD_context_impl_t) (dv : DomainView_t) :
    Option TLD_context_impl_t :=
  if dv.match_strength = MATCH_NOTSET then some c
  else if dv.match_strength = MATCH_BOGUS then some c
  else
    match dv.labels with
    | [] => none
    | sdv :: it =>
      match insert_below dv it (tld_slot (hash_context_insert_tld c sdv) sdv) with
      | none => none
      | some dt => some (tld_set_slot (hash_context_insert_tld c sdv) sdv dt)

/-- The calls `insert_DomainTree(tld_impl, dv)` for the views of a list, in order
(`pfb_read_all` with `pfb_insert`). -/
def insert_all : TLD_context_impl_t → List DomainView_t → Option TLD_context_impl_t
  | c, [] => some c
  | c, dv :: rest =>
    match insert_DomainTree c dv with
    | none => none
    | some c1 => insert_all c1 rest

/-! ## Consolidation (transfer_DomainInfo, pfb_consolidate) -/

/-- Order of two labelled blocks under `sort_DomainTree_by_tld`. -/
def block_le {α : Type} (a b : Label × α) : Prop := sort_by_tld a.1 b.1 ≤ 0

instance {α : Type} : DecidableRel (block_le (α := α)) :=
  fun a b => inferInstanceAs (Decidable (sort_by_tld a.1 b.1 ≤ 0))

/-- For each entry of the table, in list order: its label and the infos that
`transfer_DomainInfo` hands to the collector while it processes that entry (those
of the entry's child table, then the entry's own info). -/
def transfer_blocks : DomainTree_t → List (Label × List DomainInfo_t)
  | nil => []
  | node tld di child next =>
    (tld, (List.map Prod.snd (List.insertionSort block_le (transfer_blocks child))).flatten
            ++ di.toList) :: transfer_blocks next

/-- The function `transfer_DomainInfo`: the sequence of infos passed to the collector.
`HASH_SRT` (a stable sort) orders the entries by `sort_DomainTree_by_tld`, then
each entry in that order contributes its block. -/
def transfer_DomainInfo (root : DomainTree_t) : List DomainInfo_t :=
  (List.map Prod.snd (List.insertionSort block_le (transfer_blocks root))).flatten

/-- The blocks of `transfer_blocks`, each info paired with the domain of its node: the
labels from the TLD down to the node (`pfx` is the path to the table). -/
def transfer_blocks_dom (pfx : List Label) :
    DomainTree_t → List (Label × List (List Label × DomainInfo_t))
  | nil => []
  | node tld di child next =>
    (tld, (List.map Prod.snd (List.insertionSort block_le
              (transfer_blocks_dom (pfx ++ [tld]) child))).flatten
            ++ (di.toList.map fun i => (pfx ++ [tld], i))) :: transfer_blocks_dom pfx next

/-- The sequence of `transfer_DomainInfo`, each info paired with the domain of its node. -/
def transfer_dom (pfx : List Label) (root : DomainTree_t) : List (List Label × DomainInfo_t) :=
  (List.map Prod.snd (List.insertionSort block_le (transfer_blocks_dom pfx root))).flatten

/-- Order of two TLD entries under `sort_TLD_entry_by_tld`. -/
def tld_entry_le (a b : TLD_entry_impl_t) : Prop := sort_TLD_entry_by_tld a.tld b.tld ≤ 0

instance : DecidableRel tld_entry_le :=
  fun a b => inferInstanceAs (Decidable (sort_TLD_entry_by_tld a.tld b.tld ≤ 0))

/-- The function `hash_context_sort_entries`: `HASH_SRT` with `sort_TLD_entry_by_tld`. -/
def hash_context_sort_entries (c : TLD_context_impl_t) : TLD_context_impl_t :=
  List.insertionSort tld_entry_le c

/-- The `while(dt != nullptr && *dt != nullptr)` loop of `pfb_consolidate` over the
sorted entries: it stops at the first entry whose slot is empty. -/
def consolidate_loop : List TLD_entry_impl_t → List DomainInfo_t
  | [] => []
  | e :: rest =>
    if e.child = nil then [] else transfer_DomainInfo e.child ++ consolidate_loop rest

/-- The function `pfb_consolidate`: the sequence of infos handed to
`pfb_write_DomainInfo`. `none`: the index is empty and `create_entry_iter`
dereferences the null `root`. -/
def pfb_consolidate (c : TLD_context_impl_t) : Option (List DomainInfo_t) :=
  match hash_context_sort_entries c with
  | [] => none
  | e :: rest => some (consolidate_loop (e :: rest))

/-- The loop of `pfb_consolidate`, each info paired with the domain of its node. -/
def consolidate_loop_dom : List TLD_entry_impl_t → List (List Label × DomainInfo_t)
  | [] => []
  | e :: rest =>
    if e.child = nil then [] else transfer_dom [e.tld] e.child ++ consolidate_loop_dom rest

/-- The sequence of `pfb_consolidate`, each info paired with the domain of its node;
empty when `pfb_consolidate` fails before the first emission. -/
def consolidate_dom (c : TLD_context_impl_t) : List (List Label × DomainInfo_t) :=
  consolidate_loop_dom (hash_context_sort_entries c)

/-- The sequence of infos `pfb_consolidate` hands to the collector, empty when it fails
before the first emission. -/
def consolidate_emitted (c : TLD_context_impl_t) : List DomainInfo_t :=
  (pfb_consolidate c).getD []


/-! ## The sorted-merge diff (pfb_differ.c) -/

/-- The function `core_write_DV`: the bytes of one output line, two marker bytes, the rule
and `'\n'`. A winner of iterator `b` (98) is marked `" b"`, one of iterator `a` (97)
`"+a"`; a winner with any other marker gets no marker bytes. -/
def core_write_DV (buffer : List Nat) (code marker : Nat) : List Nat :=
  (if code = NEUTRAL then [32, 32]
   else if code = WINNER then
     (if marker = 98 then [32, marker] else if marker = 97 then [code, marker] else [])
   else [code, marker]) ++ buffer ++ [10]

/-- The iterator `DV_BUFFER_iter_t`. `rest` holds the entries from `cur_li_idx` on, each
as the bytes `buffer[li[i].offset .. + li[i].line_len]` of its line, so that
`cur_li_idx < li_used` reads `rest ≠ []` and `cur_li_idx++` drops the head; the view
`dv` of the current entry is `process_one_line` of the head. -/
structure DV_BUFFER_iter_t where
  rest : List (List Nat)
  written : Bool
  marker : Nat
  deriving DecidableEq, Repr

/-- The two iterators of `diff_adbplus_adlists_BUFFER` and the lines written to the
output file so far. -/
structure diff_state where
  dv_iterA : DV_BUFFER_iter_t
  dv_iterB : DV_BUFFER_iter_t
  out_file : List (List Nat)
  deriving DecidableEq, Repr

/-- The function `write_DV_BUFFER_iter` on iterator A (`false`) or B (`true`). -/
def write_DV_BUFFER_iter (iter : Bool) (code : Nat) (s : diff_state) : diff_state :=
  if iter then
    if s.dv_iterB.written = false then
      { s with
        out_file := s.out_file ++
          [core_write_DV (s.dv_iterB.rest.headD []) code s.dv_iterB.marker]
        dv_iterB := { s.dv_iterB with written := true } }
    else s
  else
    if s.dv_iterA.written = false then
      { s with
        out_file := s.out_file ++
          [core_write_DV (s.dv_iterA.rest.headD []) code s.dv_iterA.marker]
        dv_iterA := { s.dv_iterA with written := true } }
    else s

/-- The function `advance_DV_BUFFER_iter` on iterator A (`false`) or B (`true`). -/
def advance_DV_BUFFER_iter (iter : Bool) (s : diff_state) : diff_state :=
  if iter then
    { s with dv_iterB := { s.dv_iterB with written := false, rest := s.dv_iterB.rest.tail } }
  else
    { s with dv_iterA := { s.dv_iterA with written := false, rest := s.dv_iterA.rest.tail } }

/-- The `do ... while` loop of `diff_adbplus_adlists_BUFFER`, at most `fuel` iterations
(`none` when they do not suffice). `process_one_line` (whose `update_DomainView` is
not part of the sources at hand) is a parameter: the view of a line. -/
def diff_loop (process_one_line : List Nat → DomainView_t) : Nat → diff_state → Option diff_state
  | 0, _ => none
  | fuel + 1, s =>
    let cmp := compare_dv (process_one_line (s.dv_iterA.rest.headD []))
      (process_one_line (s.dv_iterB.rest.headD []))
    let s1 := action_dv cmp write_DV_BUFFER_iter advance_DV_BUFFER_iter false true s
    if s1.dv_iterA.rest ≠ [] ∧ s1.dv_iterB.rest ≠ [] then diff_loop process_one_line fuel s1
    else some s1

/-- One of the two `while` loops that write the remainder of an iterator as winners;
`fuel` bounds the iterations. -/
def diff_drain (iter : Bool) : Nat → diff_state → diff_state
  | 0, s => s
  | fuel + 1, s =>
    if (if iter then s.dv_iterB.rest else s.dv_iterA.rest) ≠ [] then
      diff_drain iter fuel (advance_DV_BUFFER_iter iter (write_DV_BUFFER_iter iter 43 s))
    else s

/-- The function `diff_adbplus_adlists_BUFFER` on the entries of the two buffers: the
lines written to the output file. `none`: one input is empty (the first line is then
parsed from memory that holds no entry), or `fuel` iterations of the merge loop do
not suffice. Each drain loop gets as many iterations as its iterator has entries
left. -/
def diff_adbplus_adlists_BUFFER (process_one_line : List Nat → DomainView_t) (fuel : Nat)
    (pcc_A pcc_B : List (List Nat)) : Option (List (List Nat)) :=
  if pcc_A = [] ∨ pcc_B = [] then none
  else
    match diff_loop process_one_line fuel
        { dv_iterA := { rest := pcc_A, written := false, marker := 97 }
          dv_iterB := { rest := pcc_B, written := false, marker := 98 }
          out_file := [] } with
    | none => none
    | some s =>
      let s1 := diff_drain false s.dv_iterA.rest.length s
      some (diff_drain true s1.dv_iterB.rest.length s1).out_file

/-! ## Specification vocabulary -/

/-- One call made by `action_dv` through its callbacks (`iter`: `false` for iterator A,
`true` for iterator B). -/
inductive dv_call where
  | write (iter : Bool) (code : Nat)
  | advance (iter : Bool)
  deriving DecidableEq, Repr

/-- The labels of the entries of a table, in list order. -/
def keys : DomainTree_t → List Label
  | nil => []
  | node tld _ _ next => tld :: keys next

/-- No table of the tree holds two entries with the same label. -/
def KeysNodup : DomainTree_t → Prop
  | nil => True
  | node tld _ child next => tld ∉ keys next ∧ KeysNodup child ∧ KeysNodup next

/-- Every entry without children carries an info, and every entry whose info has
strength `MATCH_FULL` has no children. -/
def WellFormed : DomainTree_t → Prop
  | nil => True
  | node _ di child next =>
    (child = nil → di ≠ none) ∧
    (∀ i, di = some i → i.match_strength = MATCH_FULL → child = nil) ∧
    WellFormed child ∧ WellFormed next

/-- The info of the node reached from the table by following the labels, if that node
exists and is terminal. -/
def term_at : List Label → DomainTree_t → Option DomainInfo_t
  | [], _ => none
  | [l], dt => (HASH_FIND dt l).bind Prod.fst
  | l :: l2 :: it, dt =>
    match HASH_FIND dt l with
    | none => none
    | some (_, child) => term_at (l2 :: it) child

/-- The info is present and has strength `MATCH_FULL`. -/
def info_is_full : Option DomainInfo_t → Bool
  | none => false
  | some i => decide (i.match_strength = MATCH_FULL)

/-- Following the labels from the table passes through (or ends at) a node whose info
has strength `MATCH_FULL`. -/
def dominated : List Label → DomainTree_t → Bool
  | [], _ => false
  | l :: it, dt =>
    match HASH_FIND dt l with
    | none => false
    | some (di, child) => info_is_full di || dominated it child

/-- `find_leaf_Domain` followed by `replace_if_stronger`, as one descent. -/
def insert_descent (dv : DomainView_t) : List Label → DomainTree_t → Option DomainTree_t
  | [], dt => some dt
  | l :: it, dt =>
    match HASH_FIND dt l with
    | none => some (ctor_DomainTree dv dt l it)
    | some (di, child) =>
      match (if leaf_DomainTree child then di.map (fun i => decide (i.match_strength = MATCH_FULL))
             else some false) with
      | none => none
      | some true => some dt
      | some false =>
        if it = [] then some (with_entry dt l (replace_if_stronger dv))
        else (insert_descent dv it child).map fun c => with_entry dt l (fun d _ => (d, c))

/-- The insertion of the view below the TLD entry changes nothing: there is no label
left, or the walk is stopped by a `MATCH_FULL` node, or the node of the domain
already holds an info at least as strong. -/
def insert_noop (dv : DomainView_t) (it : List Label) (dt : DomainTree_t) : Prop :=
  it = [] ∨ dominated it dt = true ∨
    ∃ i, term_at it dt = some i ∧ dv.match_strength.rank ≤ i.match_strength.rank

/-- The info of the terminal node of a domain (labels TLD first) in the index, if any. -/
def ctx_term_at (c : TLD_context_impl_t) : List Label → Option DomainInfo_t
  | [] => none
  | tld :: it => term_at it (tld_slot c tld)

/-- The invariants of an index: distinct TLD labels, and below every TLD entry a
well-formed tree without duplicate labels among siblings. -/
def CtxOK (c : TLD_context_impl_t) : Prop :=
  (c.map TLD_entry_impl_t.tld).Nodup ∧ ∀ e ∈ c, WellFormed e.child ∧ KeysNodup e.child

/-- The view is one `insert_DomainTree` does not reject: its strength is neither
`MATCH_NOTSET` nor `MATCH_BOGUS`. -/
def accepted (dv : DomainView_t) : Prop :=
  dv.match_strength ≠ MATCH_NOTSET ∧ dv.match_strength ≠ MATCH_BOGUS

instance (dv : DomainView_t) : Decidable (accepted dv) :=
  inferInstanceAs (Decidable (_ ∧ _))

/-- The view changes nothing in an index whose terminal nodes are given by `D`: it has
fewer than two labels, or a prefix of its labels (the domain itself included) holds
a `MATCH_FULL` info, or its own node holds an info at least as strong. -/
def ctx_noop (dv : DomainView_t) (D : List Label → Option DomainInfo_t) : Prop :=
  dv.labels.length < 2 ∨
    (∃ q i, q <+: dv.labels ∧ D q = some i ∧ i.match_strength = MATCH_FULL) ∨
    ∃ i, D dv.labels = some i ∧ dv.match_strength.rank ≤ i.match_strength.rank

/-- How the terminal nodes `D` of an index relate to the views `rs` inserted so far:
every info stems from an accepted view of that very domain (which has at least two
labels); every accepted view with at least two labels is covered, by a `MATCH_FULL`
info on a prefix of its labels or by an info at least as strong on its own node; and
below a `MATCH_FULL` info there is no terminal node. -/
def Covers (D : List Label → Option DomainInfo_t) (rs : List DomainView_t) : Prop :=
  (∀ d i, D d = some i →
    2 ≤ d.length ∧ ∃ r ∈ rs, accepted r ∧ r.labels = d ∧ i = convert_DomainInfo r) ∧
  (∀ r ∈ rs, accepted r → 2 ≤ r.labels.length →
    (∃ q i, q <+: r.labels ∧ D q = some i ∧ i.match_strength = MATCH_FULL) ∨
    ∃ i, D r.labels = some i ∧ r.match_strength.rank ≤ i.match_strength.rank) ∧
  (∀ d i, D d = some i → i.match_strength = MATCH_FULL →
    ∀ p, d <+: p → p ≠ d → D p = none)

/-- The terminal nodes of a table, each once, with the domain of the node (the labels
from the TLD down, `pfx` being the path to the table): for every entry in list order
the terminal nodes below it, then the entry itself when it carries an info. -/
def terminals (pfx : List Label) : DomainTree_t → List (List Label × DomainInfo_t)
  | nil => []
  | node tld di child next =>
    terminals (pfx ++ [tld]) child ++ (di.toList.map fun i => (pfx ++ [tld], i))
      ++ terminals pfx next

/-- The terminal nodes of the whole index, each once. -/
def ctx_terminals (c : TLD_context_impl_t) : List (List Label × DomainInfo_t) :=
  (c.map fun e => terminals [e.tld] e.child).flatten

/-- The domain `p` precedes `q` at their first difference: they agree on the labels
before some index, where the label of `p` is smaller (bytes compared
lexicographically, a proper prefix first). Labels are listed TLD first. -/
def lex_lt (p q : List Label) : Prop :=
  ∃ (c : List Label) (a b : Label) (p1 q1 : List Label),
    p = c ++ a :: p1 ∧ q = c ++ b :: q1 ∧ a < b

/-- The order of emission: `p` precedes `q` at their first difference, or `q` is a proper
prefix of `p` (a node is emitted after the nodes below it). -/
def post_lt (p q : List Label) : Prop :=
  lex_lt p q ∨ (q <+: p ∧ q ≠ p)

/-- The first label of the view is shorter than `2^31` bytes, so that the 32-bit
subtraction of `sort_TLD_entry_by_tld` yields the sign of the length difference. -/
def tld_len_ok (dv : DomainView_t) : Prop :=
  ∀ l, dv.labels.head? = some l → l.length < 2147483648

instance (dv : DomainView_t) : Decidable (tld_len_ok dv) := by
  unfold tld_len_ok
  cases dv.labels.head? with
  | none => exact isTrue (fun l h => by cases h)
  | some l0 =>
    exact if h : l0.length < 2147483648 then isTrue (fun l e => by cases e; exact h)
      else isFalse (fun e => h (e l0 rfl))

/-- An emitted rule as the view the diff engine builds from it: the labels of its
domain, TLD first. -/
def emitted_view (x : List Label × DomainInfo_t) : DomainView_t :=
  { labels := x.1, match_strength := x.2.match_strength, context := x.2.context, li := x.2.li }

/-- The domain and the strength of an emitted rule. -/
def emitted_rule (x : List Label × DomainInfo_t) : List Label × MatchStrength_t :=
  (x.1, x.2.match_strength)

/-- Scenario A of the specification: the rules `abc.www.example.com`, `www.example.com`
and `example.com` (labels TLD first, as bytes), all `MATCH_FULL`, with the offsets and
lengths of their lines in the input. -/
def scenario_A : List DomainView_t :=
  [⟨[[99, 111, 109], [101, 120, 97, 109, 112, 108, 101], [119, 119, 119], [97, 98, 99]],
      MATCH_FULL, 0, ⟨0, 24⟩⟩,
   ⟨[[99, 111, 109], [101, 120, 97, 109, 112, 108, 101], [119, 119, 119]],
      MATCH_FULL, 0, ⟨25, 20⟩⟩,
   ⟨[[99, 111, 109], [101, 120, 97, 109, 112, 108, 101]], MATCH_FULL, 0, ⟨46, 16⟩⟩]

/-- The state of `diff_adbplus_adlists_BUFFER` with the given remaining entries and
`written` flags. -/
def diff_mk (ra : List (List Nat)) (wa : Bool) (rb : List (List Nat)) (wb : Bool)
    (out : List (List Nat)) : diff_state :=
  { dv_iterA := { rest := ra, written := wa, marker := 97 }
    dv_iterB := { rest := rb, written := wb, marker := 98 }
    out_file := out }

/-- The merge loop from its `while` condition on: it runs while both iterators have an
entry. -/
def diff_rest (process_one_line : List Nat → DomainView_t) (fuel : Nat) (s : diff_state) :
    Option diff_state :=
  if s.dv_iterA.rest ≠ [] ∧ s.dv_iterB.rest ≠ [] then diff_loop process_one_line fuel s
  else some s

/-- The lines a drain loop writes for an iterator with the given remaining entries,
`written` flag and marker. -/
def drain_lines (rest : List (List Nat)) (w : Bool) (marker : Nat) : List (List Nat) :=
  match rest with
  | [] => []
  | a :: r =>
    (if w then [] else [core_write_DV a WINNER marker]) ++ r.map fun x => core_write_DV x WINNER marker

/-- The output file after the two drain loops. -/
def diff_final (s : diff_state) : List (List Nat) :=
  (diff_drain true (diff_drain false s.dv_iterA.rest.length s).dv_iterB.rest.length
    (diff_drain false s.dv_iterA.rest.length s)).out_file

/-- The code under which a rule of side A belongs in the diff against the rules `rb` of
side B: NEUTRAL when `rb` has the same domain, LOSER when the domain of a rule of `rb`
is a proper suffix of its domain (`B blk A`), WINNER otherwise. -/
def diff_class_A (pol : List Nat → DomainView_t) (a : List Nat) (rb : List (List Nat)) : Nat :=
  if ∃ b ∈ rb, compare_dv (pol a) (pol b) = dv_A_eq_dv_B then NEUTRAL
  else if ∃ b ∈ rb, compare_dv (pol a) (pol b) = dv_B_blk_dv_A then LOSER
  else WINNER

/-- The code under which a rule of side B belongs in the diff against the rules `ra` of
side A: none when `ra` has the same domain (the rule is written once, from side A),
LOSER when the domain of a rule of `ra` is a proper suffix of its domain (`A blk B`),
WINNER otherwise. -/
def diff_class_B (pol : List Nat → DomainView_t) (b : List Nat) (ra : List (List Nat)) :
    Option Nat :=
  if ∃ a ∈ ra, compare_dv (pol a) (pol b) = dv_A_eq_dv_B then none
  else if ∃ a ∈ ra, compare_dv (pol a) (pol b) = dv_A_blk_dv_B then some LOSER
  else some WINNER

/-- The output lines of the rules `ra` of side A against side B, one per rule. -/
def diff_lines_A (pol : List Nat → DomainView_t) (ra rb : List (List Nat)) : List (List Nat) :=
  ra.map fun a => core_write_DV a (diff_class_A pol a rb) 97

/-- The output lines of the rules `rb` of side B against side A, one per rule that is not
also a rule of side A. -/
def diff_lines_B (pol : List Nat → DomainView_t) (ra rb : List (List Nat)) : List (List Nat) :=
  rb.filterMap fun b => (diff_class_B pol b ra).map fun code => core_write_DV b code 98

/-- The lines still to be written for side A: those of `diff_lines_A`, without the line
of the current entry when it is already written. -/
def diff_expected_A (pol : List Nat → DomainView_t) (wa : Bool) (ra rb : List (List Nat)) :
    List (List Nat) :=
  match ra with
  | [] => []
  | a :: ra1 =>
    (if wa then [] else [core_write_DV a (diff_class_A pol a rb) 97]) ++ diff_lines_A pol ra1 rb

/-- The lines still to be written for side B: those of `diff_lines_B`, without the line
of the current entry when it is already written. -/
def diff_expected_B (pol : List Nat → DomainView_t) (wb : Bool) (ra rb : List (List Nat)) :
    List (List Nat) :=
  match rb with
  | [] => []
  | b :: rb1 =>
    (if wb then []
      else ((diff_class_B pol b ra).map fun code => core_write_DV b code 98).toList)
      ++ diff_lines_B pol ra rb1

/-- The invariant of the merge loop: every remaining entry has a view with a label, each
side is strictly increasing under `compare_dv`, and a current entry that is already
written (it won a `blk` step) meets only entries of the other side that it precedes or
dominates. -/
def diff_inv (pol : List Nat → DomainView_t) (ra : List (List Nat)) (wa : Bool)
    (rb : List (List Nat)) (wb : Bool) : Prop :=
  (∀ x ∈ ra, (pol x).labels ≠ []) ∧ (∀ x ∈ rb, (pol x).labels ≠ []) ∧
  ra.Pairwise (fun x y => compare_dv (pol x) (pol y) = dv_A_lt_dv_B_write_A) ∧
  rb.Pairwise (fun x y => compare_dv (pol x) (pol y) = dv_A_lt_dv_B_write_A) ∧
  (wa = true → ∃ a ra1, ra = a :: ra1 ∧ ∀ b ∈ rb,
    compare_dv (pol a) (pol b) = dv_A_lt_dv_B_write_A ∨
    compare_dv (pol a) (pol b) = dv_A_blk_dv_B) ∧
  (wb = true → ∃ b rb1, rb = b :: rb1 ∧ ∀ a ∈ ra,
    compare_dv (pol a) (pol b) = dv_A_gt_dv_B_write_B ∨
    compare_dv (pol a) (pol b) = dv_B_blk_dv_A)

/-- The rule of an output line of the diff: the line without its two marker bytes and
without its line feed. -/
def diff_payload (line : List Nat) : List Nat :=
  (line.drop 2).dropLast

/-- The rules of the output lines of the diff that begin with the bytes `p`. -/
def diff_rules_with (p : List Nat) (out : List (List Nat)) : List (List Nat) :=
  (out.filter fun l => l.take p.length = p).map diff_payload

/-- The labels of a domain, in reading order: the bytes between the dots. -/
def split_labels (domain : List Nat) : List Label :=
  domain.foldr
    (fun c acc =>
      if c = 46 then [] :: acc
      else
        match acc with
        | [] => [[c]]
        | l :: r => (c :: l) :: r)
    [[]]

/-- Modelled from the spec: the view that `process_one_line` holds for a clean line
`||domain^` (`update_DomainView` is not part of the sources at hand): the labels of the
domain between `||` and `^`, the TLD first. -/
def clean_line_view (line : List Nat) : DomainView_t :=
  { labels := (split_labels (line.drop 2).dropLast).reverse
    match_strength := MATCH_FULL
    context := 0
    li := ⟨0, line.length⟩ }

/-- Side A of scenario E of the specification: `||alpha.com^`, `||gamma.com^`. -/
def scenario_E_A : List (List Nat) :=
  [[124, 124, 97, 108, 112, 104, 97, 46, 99, 111, 109, 94],
   [124, 124, 103, 97, 109, 109, 97, 46, 99, 111, 109, 94]]

/-- Side B of scenario E of the specification: `||beta.com^`, `||gamma.com^`. -/
def scenario_E_B : List (List Nat) :=
  [[124, 124, 98, 101, 116, 97, 46, 99, 111, 109, 94],
   [124, 124, 103, 97, 109, 109, 97, 46, 99, 111, 109, 94]]

/-- A side A whose rule dominates two rules of `scenario_blk_B`: `||ex.com^`. -/
def scenario_blk_A : List (List Nat) :=
  [[124, 124, 101, 120, 46, 99, 111, 109, 94]]

/-- A side B with the rules `||a.ex.com^` and `||b.ex.com^`. -/
def scenario_blk_B : List (List Nat) :=
  [[124, 124, 97, 46, 101, 120, 46, 99, 111, 109, 94],
   [124, 124, 98, 46, 101, 120, 46, 99, 111, 109, 94]]

/-- A line of the diff of `A` and `B` as `core_write_DV` writes it: a rule of `A` under
marker `a` (97), or a rule of `B` under marker `b` (98) and a code other than NEUTRAL,
the code being NEUTRAL, WINNER or LOSER. -/
def diff_line_ok (A B : List (List Nat)) (l : List Nat) : Prop :=
  ∃ r code, (code = NEUTRAL ∨ code = WINNER ∨ code = LOSER) ∧
    ((r ∈ A ∧ l = core_write_DV r code 97) ∨
      (r ∈ B ∧ code ≠ NEUTRAL ∧ l = core_write_DV r code 98))

/-- What holds of every state of the diff of `A` and `B`, sorted or not: the remaining
entries are the inputs from the current positions on, every line written so far is a
line of the diff, and a current entry whose `written` flag is set is on a WINNER line
of the output. -/
def diff_wf (A B : List (List Nat)) (ra : List (List Nat)) (wa : Bool)
    (rb : List (List Nat)) (wb : Bool) (out : List (List Nat)) : Prop :=
  ra <:+ A ∧ rb <:+ B ∧ (∀ l ∈ out, diff_line_ok A B l) ∧
  (wa = true → ∃ a ra1, ra = a :: ra1 ∧ core_write_DV a WINNER 97 ∈ out) ∧
  (wb = true → ∃ b rb1, rb = b :: rb1 ∧ core_write_DV b WINNER 98 ∈ out)

/-! ## The line parser (adbplus.c) -/

/-- The constant `LINE_TERMINAL` of `pfb_prune.c`. -/
def LINE_TERMINAL : Nat := 0

/-- Modelled from the spec: the values `parse_adbplus_line` stores in `lv->ms`
(`matchstrength.h` is not part of the sources at hand): the line classes comment,
header and candidate block rule, next to the strengths. -/
inductive AdbplusMatch_t where
  | MATCH_COMMENT
  | MATCH_HEADER
  | MATCH_POSSIBLE
  | strength (ms : MatchStrength_t)
  deriving DecidableEq, Repr

open AdbplusMatch_t

/-- Modelled from the spec: the `AdbplusView_t` of `adbplusline.h`, which is not part of
the sources at hand. `data` is the offset of `lv->data` from the start of the line,
`len` the length of the domain slice. -/
structure AdbplusView_t where
  data : Nat
  len : Nat
  ms : AdbplusMatch_t
  deriving DecidableEq, Repr

/-- The loop `while(*c && *c != LINE_TERMINAL) c++` of `parse_adbplus_line`: the bytes
from `c` on and the index `c`; the index where the loop stops. The end of the list is
the terminating NUL. -/
def scan_to_end : List Nat → Nat → Nat
  | [], c => c
  | x :: rest, c => if x ≠ 0 ∧ x ≠ LINE_TERMINAL then scan_to_end rest (c + 1) else c

/-- The `switch` on the first byte in `parse_adbplus_line`: `(c, prev, lv->ms)` after
it, or `none` where it returns false. `input_line` holds the bytes of the string; a
read past its end reads the terminating NUL. -/
def parse_switch (input_line : List Nat) : Option (Nat × Nat × AdbplusMatch_t) :=
  let c0 := input_line.getD 0 0
  if c0 = 0 then none
  else if c0 = 33 then some (0, 0, MATCH_COMMENT)
  else if c0 = 91 then some (0, 0, MATCH_HEADER)
  else if c0 = 124 then
    if input_line.getD 1 0 = 124 then some (2, 2, MATCH_POSSIBLE)
    else some (1, 0, strength MATCH_BOGUS)
  else none

/-- The part of `parse_adbplus_line` after the `switch`: the scan to the end of the
string, the byte `peak` before the end, and the classification. -/
def parse_scan (lv : AdbplusView_t) (input_line : List Nat) (c prev : Nat)
    (ms : AdbplusMatch_t) : Bool × AdbplusView_t :=
  let c1 := scan_to_end (input_line.drop c) c
  let peak := input_line.getD (c1 - 1) 0
  if ms = MATCH_COMMENT ∨ ms = MATCH_HEADER then (true, { lv with ms := ms })
  else if ms = MATCH_POSSIBLE ∧ peak = 94 then
    (true, { data := prev, len := c1 - prev - 1, ms := strength MATCH_FULL })
  else (false, { lv with ms := strength MATCH_BOGUS })

/-- The function `parse_adbplus_line`. `lv` is the caller's struct before the call (the
function leaves `data` and `len` as they are unless it finds a block rule). The result
is the return value and the struct after the call. -/
def parse_adbplus_line (lv : AdbplusView_t) (input_line : List Nat) : Bool × AdbplusView_t :=
  match parse_switch input_line with
  | none => (false, { lv with ms := strength MATCH_BOGUS })
  | some (c, prev, ms) => parse_scan lv input_line c prev ms

/-- The rule `notlong.com` of `test_e2e_discovered` (labels TLD first), `MATCH_FULL`. -/
def scenario_notlong : DomainView_t :=
  ⟨[[99, 111, 109], [110, 111, 116, 108, 111, 110, 103]], MATCH_FULL, 0, ⟨0, 15⟩⟩

/-- The rule `01proxy.notlong.com` of `test_e2e_discovered`, `MATCH_WEAK`. -/
def scenario_proxy : DomainView_t :=
  ⟨[[99, 111, 109], [110, 111, 116, 108, 111, 110, 103], [48, 49, 112, 114, 111, 120, 121]],
    MATCH_WEAK, 0, ⟨16, 23⟩⟩

/-- The index after the insertion of `scenario_notlong` into the empty index: the TLD
entry `com` with the single node `notlong`. -/
def scenario_notlong_index : TLD_context_impl_t :=
  [{ tld := [99, 111, 109]
     child := node [110, 111, 116, 108, 111, 110, 103]
       (some (convert_DomainInfo scenario_notlong)) nil nil }]

/-- The info and the table of children of the node reached from the table by following
the labels, if that node exists. -/
def node_at : List Label → DomainTree_t → Option (Option DomainInfo_t × DomainTree_t)
  | [], _ => none
  | [l], dt => HASH_FIND dt l
  | l :: l2 :: it, dt =>
    match HASH_FIND dt l with
    | none => none
    | some (_, child) => node_at (l2 :: it) child

/-- The info and the table of children of the node of a domain (labels TLD first) in the
index, if that node exists. The TLD entries carry no info and are no nodes. -/
def ctx_node_at (c : TLD_context_impl_t) : List Label → Option (Option DomainInfo_t × DomainTree_t)
  | [] => none
  | tld :: it => node_at it (tld_slot c tld)

/-- Every entry of the tree whose info has strength `MATCH_FULL` has no children. -/
def FullIsLeaf : DomainTree_t → Prop
  | nil => True
  | node _ di child next =>
    (∀ i, di = some i → i.match_strength = MATCH_FULL → child = nil) ∧
    FullIsLeaf child ∧ FullIsLeaf next

/-- The position, in the index after `hash_context_insert_tld`, of the entry whose
`child` slot the function returns: the entry found by `HASH_FIND`, or the entry just
added at the end. -/
def hash_context_insert_tld_entry : TLD_context_impl_t → Label → Nat
  | [], _ => 0
  | e :: rest, sdv => if e.tld = sdv then 0 else hash_context_insert_tld_entry rest sdv + 1

/-- The per-label comparison in the body of the loop of `compare_dv`: the value of
`ret` after the `if(ret == 0) ret = dv_A.lengths[i] - dv_B.lengths[j]` adjustment. -/
def compare_dv_label (a b : Label) : Int :=
  let ret := memcmp a b (min a.length b.length)
  if ret = 0 then (a.length : Int) - (b.length : Int) else ret

/-- The label order in the words of the specification: lexicographic on the bytes, a
proper prefix before the longer label. -/
def label_precedes : Label → Label → Bool
  | [], [] => false
  | [], _ :: _ => true
  | _ :: _, [] => false
  | x :: xs, y :: ys => decide (x < y) || (decide (x = y) && label_precedes xs ys)

/-- The rules `a.b.c.com` and `b.c.com`, both `MATCH_WEAK`. -/
def scenario_weak_pair : List DomainView_t :=
  [⟨[[99, 111, 109], [99], [98], [97]], MATCH_WEAK, 0, ⟨0, 9⟩⟩,
   ⟨[[99, 111, 109], [99], [98]], MATCH_WEAK, 0, ⟨10, 7⟩⟩]

/-- The index after the two insertions of `scenario_weak_pair`. -/
def scenario_weak_pair_index : TLD_context_impl_t :=
  (insert_all [] scenario_weak_pair).getD []

/-- The rule `||c.com^` (`MATCH_FULL`). -/
def scenario_full_ccom : DomainView_t :=
  ⟨[[99, 111, 109], [99]], MATCH_FULL, 0, ⟨18, 8⟩⟩

/-- The rule `c.com` (`MATCH_WEAK`). -/
def scenario_weak_ccom : DomainView_t :=
  ⟨[[99, 111, 109], [99]], MATCH_WEAK, 0, ⟨18, 5⟩⟩

/-- The rule `b.c.com` (`MATCH_WEAK`) once more, from a later line. -/
def scenario_weak_bccom_again : DomainView_t :=
  ⟨[[99, 111, 109], [99], [98]], MATCH_WEAK, 0, ⟨30, 7⟩⟩

/-! ## The command line (inputargs.c) -/

/-- The fields of `input_args_t` that `parse_input_args` reads after
`do_parse_input_args` and those it fills in diff mode: the mode, whether an output
file was asked for, its name (`none`: the null pointer), and the `path` fields of the
entries of `input_paths_A` and `input_paths_B` (`none`: the null pointer). -/
structure input_args_t where
  deduplicate_mode : Bool
  write_to_output_file : Bool
  output_filename : Option (List Nat)
  input_paths_A : List (Option (List Nat))
  input_paths_B : List (Option (List Nat))
  deriving DecidableEq, Repr

/-- The outcome of the libc `stat` on the output path inside `extract_stat_info`: it
returns 0, it fails with `errno == ENOENT`, or it fails with another `errno`. -/
inductive stat_outcome where
  | stat_ok
  | stat_ENOENT
  | stat_failed
  deriving DecidableEq, Repr

/-- The function `extract_stat_info`: true when `stat` succeeds and when the path does
not exist; `none`: for any other failure it calls `exit(EXIT_FAILURE)` and does not
return. -/
def extract_stat_info (st : stat_outcome) : Option Bool :=
  match st with
  | stat_outcome.stat_ok => some true
  | stat_outcome.stat_ENOENT => some true
  | stat_outcome.stat_failed => none

/-- The function `pfb_strdup` of `pfb_prune.c` (`none`: the null pointer): it reports
the null pointer and the empty string on stderr and returns the null pointer for them,
and returns a copy of any other string. -/
def pfb_strdup (s : Option (List Nat)) : Option (List Nat) :=
  match s with
  | none => none
  | some [] => none
  | some (c :: cs) => some (c :: cs)

/-- The function `paths_list_add` on the `path` fields of the list: the entry appended
holds what `pfb_strdup` returns for `path`. The `stat` fields of the entry are not part
of the model. -/
def paths_list_add (list : List (Option (List Nat))) (path : Option (List Nat)) :
    List (Option (List Nat)) :=
  list ++ [pfb_strdup path]

/-- The function `read_argv_path` on `argv[i]`, `none` being the null pointer
`argv[argc]`: it calls `stat`, does not look at what `stat` returns, and hands the
pointer to `paths_list_add`. -/
def read_argv_path (argv : Option (List Nat)) (pl : List (Option (List Nat))) :
    List (Option (List Nat)) :=
  paths_list_add pl argv

/-- The function `parse_input_args` after the call of `do_parse_input_args`, whose
result is `parsed`; `iargs` is as that call left it. `paths` are `argv[optind]` to
`argv[argc - 1]`, so that `remainder = argc - optind` is their number and `argv[argc]`
is the null pointer; `st` is the outcome of `stat` on the output path. The result is
the value returned and `iargs` afterwards; `none`: `extract_stat_info` ends the process
with `exit(EXIT_FAILURE)`. In dedup mode `input_paths_list` is filled, which is not
part of the model. The build is one without `BUILD_TESTS`. -/
def parse_input_args (parsed : Bool) (iargs : input_args_t) (st : stat_outcome)
    (paths : List (List Nat)) : Option (Bool × input_args_t) :=
  if !parsed then some (false, iargs)
  else
    let remainder : Int := (paths.length : Int)
    if iargs.deduplicate_mode && decide (remainder = 0) then some (false, iargs)
    else if !iargs.deduplicate_mode && (decide (remainder ≤ 0) || decide (remainder > 2)) then
      some (false, iargs)
    else if iargs.write_to_output_file &&
        (match iargs.output_filename with
         | none => true
         | some name => decide (name.length = 0)) then some (false, iargs)
    else
      match (if iargs.write_to_output_file then extract_stat_info st else some true) with
      | none => none
      | some valid =>
        if !valid then some (false, iargs)
        else if iargs.deduplicate_mode then some (true, iargs)
        else
          some (true,
            { iargs with
              input_paths_A := read_argv_path paths[0]? []
              input_paths_B := read_argv_path paths[1]? [] })

/-! ## The buffer sink (pfb_prune.c) -/

/-- The `LiteLineData_t` of `pfb_context.h`: `li` holds the entries of the array below
`used`. -/
structure LiteLineData_t where
  alloc : Nat
  used : Nat
  li : List line_info_t
  deriving DecidableEq, Repr

/-- The `pfb_out_buffer_t` of `pfb_context.h`: `buffer` holds the bytes of the store
below `next_idx`. -/
structure pfb_out_buffer_t where
  buffer : List Nat
  next_idx : Nat
  alloc_len : Nat
  litelines : LiteLineData_t
  deriving DecidableEq, Repr

/-- The function `realloc_litelines`: `growth = 10 + alloc * 0.5`; the fields are
`size_len_t` (32-bit unsigned). -/
def realloc_litelines (litelines : LiteLineData_t) : LiteLineData_t :=
  if litelines.used = litelines.alloc then
    { litelines with
      alloc := (litelines.alloc + (10 + litelines.alloc / 2) % 4294967296) % 4294967296 }
  else litelines

/-- The function `pfb_out_context_write_BUFFER` with `count` the length of `buffer`.
`count + 1` is 32-bit unsigned arithmetic, `alloc_len - next_idx` and
`alloc_len += growth` are `size_t` arithmetic, `line_len` is a 16-bit field. `none`:
after at most one growth by half the `count + 1` bytes do not fit the allocation and
`memcpy` writes past it, or the line index has no free entry after
`realloc_litelines`. -/
def pfb_out_context_write_BUFFER (buffer : List Nat) (c : pfb_out_buffer_t) :
    Option pfb_out_buffer_t :=
  let count := buffer.length
  let alloc_len :=
    if (count + 1) % 4294967296 <
        (c.alloc_len + 18446744073709551616 - c.next_idx) % 18446744073709551616
    then c.alloc_len
    else (c.alloc_len + c.alloc_len / 2) % 18446744073709551616
  if c.next_idx + count + 1 ≤ alloc_len then
    let offset : Int := (c.next_idx : Int)
    let litelines := realloc_litelines c.litelines
    if litelines.used < litelines.alloc then
      some
        { buffer := c.buffer.take c.next_idx ++ buffer ++ [LINE_TERMINAL]
          next_idx := c.next_idx + count + 1
          alloc_len := alloc_len
          litelines :=
            { litelines with
              li := litelines.li.take litelines.used ++ [⟨offset, count % 65536⟩]
              used := litelines.used + 1 } }
    else none
  else none

/-- The writes of a sequence of payloads through `writer_cb`, in order. -/
def write_all_BUFFER : List (List Nat) → pfb_out_buffer_t → Option pfb_out_buffer_t
  | [], c => some c
  | p :: ps, c =>
    match pfb_out_context_write_BUFFER p c with
    | none => none
    | some c1 => write_all_BUFFER ps c1

/-- The empty buffer sink of `main`: `out_buffer_size = 4096` bytes allocated, nothing
written, an empty line index. -/
def out_buffer_init : pfb_out_buffer_t :=
  { buffer := [], next_idx := 0, alloc_len := 4096, litelines := ⟨0, 0, []⟩ }

/-- The entries of the line index for payloads written from offset `off` on: each
payload at the offset after the previous payload and its terminator. -/
def litelines_of : Nat → List (List Nat) → List line_info_t
  | _, [] => []
  | off, p :: ps => ⟨(off : Int), p.length⟩ :: litelines_of (off + p.length + 1) ps

/-- The invariant of the buffer sink between writes: the store and the line index hold
what was written, the allocation covers it, and one growth by half makes room for a
payload of 2048 bytes and its terminator. -/
def buffer_inv (c : pfb_out_buffer_t) : Prop :=
  c.buffer.length = c.next_idx ∧ c.litelines.li.length = c.litelines.used ∧
  c.next_idx ≤ c.alloc_len ∧ 4096 ≤ c.alloc_len ∧
  c.next_idx + 2049 ≤ c.alloc_len + c.alloc_len / 2 ∧
  c.alloc_len ≤ 3 * c.next_idx + 6144 ∧ c.next_idx ≤ 2049 * c.litelines.used ∧
  c.litelines.used ≤ c.litelines.alloc ∧
  c.litelines.alloc ≤ c.litelines.used + c.litelines.used / 2 + 10

/-! ## Carry-over of header and comment lines (carry_over.c, pfb_prune.c, main.c) -/

/-- The `PortLineData_t` of `rw_pfb_csv.h`: the bytes of a line and where it stands in
its file. -/
structure PortLineData_t where
  data : List Nat
  li : line_info_t
  deriving DecidableEq, Repr

/-- The `carry_over_t` of `carry_over.h`: `li` holds the entries of the array below
`used`. -/
structure carry_over_t where
  alloc : Nat
  used : Nat
  li : List line_info_t
  deriving DecidableEq, Repr

/-- The function `insert_carry_over`: room for 10 entries at first, for 3 more whenever
the array is full; the entry is stored at index `used`. -/
def insert_carry_over (co : carry_over_t) (li : line_info_t) : carry_over_t :=
  let alloc :=
    if co.used = co.alloc then (if co.alloc = 0 then 10 else co.alloc + 3) else co.alloc
  { alloc := alloc, used := co.used + 1, li := co.li.take co.used ++ [li] }

/-- The function `pfb_insert` for the input context number `pfbc`, on that context's
carry-over list and the shared index. `update_DomainView` (not part of the sources at
hand) is a parameter: the labels of the domain slice, TLD first, or `none` when it
returns false. The local `lv` is not initialised before the call; it starts as zeros
here, and its `data` and `len` are read only after `parse_adbplus_line` has set them.
`none`: `insert_DomainTree` runs into undefined behaviour, or `lv.ms` is a value that
is no strength (`parse_adbplus_line` never returns true with it). -/
def pfb_insert (update_DomainView : List Nat → Option (List Label)) (pfbc : Nat)
    (pld : PortLineData_t) (s : carry_over_t × TLD_context_impl_t) :
    Option (carry_over_t × TLD_context_impl_t) :=
  let r := parse_adbplus_line ⟨0, 0, strength MATCH_NOTSET⟩ pld.data
  if r.1 = false then some s
  else
    match r.2.ms with
    | MATCH_COMMENT => some (insert_carry_over s.1 pld.li, s.2)
    | MATCH_HEADER => some (insert_carry_over s.1 pld.li, s.2)
    | MATCH_POSSIBLE => none
    | strength ms =>
      match update_DomainView ((pld.data.drop r.2.data).take r.2.len) with
      | none => some s
      | some labels =>
        (insert_DomainTree s.2 ⟨labels, ms, pfbc, pld.li⟩).map fun t => (s.1, t)

/-- The calls `do_stuff(&pld, pfbc, context)` that `read_pfb_line` makes with
`do_stuff = pfb_insert`, for the lines it delivers, in order. -/
def pfb_insert_lines (update_DomainView : List Nat → Option (List Label)) (pfbc : Nat) :
    List PortLineData_t → carry_over_t × TLD_context_impl_t →
      Option (carry_over_t × TLD_context_impl_t)
  | [], s => some s
  | pld :: rest, s =>
    match pfb_insert update_DomainView pfbc pld s with
    | none => none
    | some s1 => pfb_insert_lines update_DomainView pfbc rest s1

/-- The line is one `pfb_insert` carries over: `parse_adbplus_line` accepts it as a
comment or a header. -/
def is_carry_over (pld : PortLineData_t) : Bool :=
  let r := parse_adbplus_line ⟨0, 0, strength MATCH_NOTSET⟩ pld.data
  r.1 && (decide (r.2.ms = MATCH_COMMENT) || decide (r.2.ms = MATCH_HEADER))

/-- The view `pfb_insert` hands to `insert_DomainTree` for the line, if it does. -/
def line_view (update_DomainView : List Nat → Option (List Label)) (pfbc : Nat)
    (pld : PortLineData_t) : Option DomainView_t :=
  let r := parse_adbplus_line ⟨0, 0, strength MATCH_NOTSET⟩ pld.data
  if r.1 = false then none
  else
    match r.2.ms with
    | strength ms =>
      (update_DomainView ((pld.data.drop r.2.data).take r.2.len)).map
        fun labels => ⟨labels, ms, pfbc, pld.li⟩
    | _ => none

/-- Modelled from the spec: `update_DomainView` on a domain slice, the labels between the
dots with the TLD first; the function is not part of the sources at hand. -/
def update_DomainView_spec (domain : List Nat) : Option (List Label) :=
  some (split_labels domain).reverse

/-! ## The line reader (rw_pfb_csv.c) -/

/-- The constant `READ_BUFFER_SIZE` of `rw_pfb_csv.c`. -/
def READ_BUFFER_SIZE : Nat := 4096

/-- The constant `MAX_ACCEPTABLE_LINE_LENGTH`: `READ_BUFFER_SIZE * 0.5`. -/
def MAX_ACCEPTABLE_LINE_LENGTH : Nat := 2048

/-- The constant `MAX_ALLOC_LINE`: one more, for the terminator. -/
def MAX_ALLOC_LINE : Nat := MAX_ACCEPTABLE_LINE_LENGTH + 1

/-- The `LineData_t` of `rw_pfb_csv.c`: `data` holds the bytes from `buffer` up to `pos`,
the part of the pending line copied so far. -/
structure LineData_t where
  data : List Nat
  alloc : Nat
  li : line_info_t
  deriving DecidableEq, Repr

/-- The function `init_LineData`: an empty copy with room for 100 bytes. -/
def init_LineData : LineData_t :=
  { data := [], alloc := 100, li := ⟨0, 0⟩ }

/-- The function `reset_LineData`: `pos` back to `buffer`, `li` zeroed. -/
def reset_LineData (ld : LineData_t) : LineData_t :=
  { ld with data := [], li := ⟨0, 0⟩ }

/-- The byte is neither `'\n'` nor `'\r'`. -/
def not_newline (c : Nat) : Bool :=
  c != 10 && c != 13

/-- The function `load_LineData` on the span from `buffer` to `end_buffer`. The result
is the value returned, the span from the new `*pos_buffer` to `end_buffer`, and the
`LineData_t` afterwards. `line_len` is a 16-bit field (`line_len_t` is `ushort`),
while `request_alloc` is computed in `size_t`. -/
def load_LineData (buffer : List Nat) (ld : LineData_t) : Bool × List Nat × LineData_t :=
  let line := buffer.takeWhile not_newline
  let pos_buffer := buffer.dropWhile not_newline
  let real_len := line.length
  let found_newline := decide (ld.li.line_len + real_len ≠ 0) && decide (pos_buffer ≠ [])
  let request_alloc := ld.li.line_len + real_len + 1
  let li : line_info_t := { ld.li with line_len := (ld.li.line_len + real_len) % 65536 }
  if request_alloc > MAX_ALLOC_LINE then
    (found_newline, pos_buffer, { ld with data := [], li := li })
  else
    (found_newline, pos_buffer,
      { data := ld.data ++ line
        alloc := if request_alloc > ld.alloc then request_alloc else ld.alloc
        li := li })

/-- The state of `read_pfb_line`: the pending line, the offset `f_location`, and the
lines handed to the callback `do_stuff` so far, in order. The data of a call is the
string at `ld.buffer`, that is the bytes up to `pos` (lines are taken to hold no NUL
byte). -/
structure reader_state where
  ld : LineData_t
  f_location : Int
  calls : List PortLineData_t
  deriving DecidableEq, Repr

/-- The inner `do ... while(pos_buffer != end_buffer)` loop of `read_pfb_line` on the
span from `pos_buffer` to `end_buffer`; the first argument bounds the number of
iterations (`none` when it is used up). -/
def read_pfb_line_chunk : Nat → List Nat → reader_state → Option reader_state
  | 0, _, _ => none
  | n + 1, pos_buffer, s =>
    let r := load_LineData pos_buffer s.ld
    let s1 : reader_state :=
      if r.1 then
        { ld := reset_LineData r.2.2
          f_location := s.f_location + (r.2.2.li.line_len : Int)
          calls := s.calls ++ [⟨r.2.2.data, ⟨s.f_location, r.2.2.li.line_len⟩⟩] }
      else { s with ld := r.2.2 }
    let skipped := r.2.1.takeWhile fun c => !not_newline c
    let pos2 := r.2.1.dropWhile fun c => !not_newline c
    let s2 : reader_state := { s1 with f_location := s1.f_location + (skipped.length : Int) }
    if pos2 = [] then some s2 else read_pfb_line_chunk n pos2 s2

/-- The outer loop of `read_pfb_line` over the chunks `fread` returns, in order. -/
def read_pfb_line_loop : List (List Nat) → reader_state → Option reader_state
  | [], s => some s
  | chunk :: rest, s =>
    if chunk = [] then read_pfb_line_loop rest s
    else
      match read_pfb_line_chunk chunk.length chunk s with
      | none => none
      | some s1 => read_pfb_line_loop rest s1

/-- The function `read_pfb_line` on the chunks `fread` returns: the lines handed to
`do_stuff`, in order; a pending line at the end of the file is handed over last. -/
def read_pfb_line (chunks : List (List Nat)) : Option (List PortLineData_t) :=
  match read_pfb_line_loop chunks ⟨init_LineData, 0, []⟩ with
  | none => none
  | some s =>
    if s.ld.li.line_len ≠ 0 then
      some (s.calls ++ [⟨s.ld.data, ⟨s.f_location, s.ld.li.line_len⟩⟩])
    else some s.calls

/-! ## The visitor (domaintree.c) -/

/-- The infos of the entries of a table, in list order (`dt->di` for each `dt` of
`HASH_ITER`). -/
def entry_infos : DomainTree_t → List (Option DomainInfo_t)
  | nil => []
  | node _ di _ next => di :: entry_infos next

/-- The function `do_visit_DomainTree` on the table `*root`: the infos handed to the
visitor, in order. For every entry `dt` of the table the body first calls itself on
`&(*root)->child`, the table of children of the first entry of the table, and then
hands over `dt->di` when there is one. -/
def do_visit_DomainTree : DomainTree_t → List DomainInfo_t
  | nil => []
  | node tld di child next =>
    ((entry_infos (node tld di child next)).map fun d =>
      do_visit_DomainTree child ++ d.toList).flatten

/-- The function `visit_DomainTree`. -/
def visit_DomainTree (root : DomainTree_t) : List DomainInfo_t :=
  do_visit_DomainTree root

/-- The first two insertions of `test_e2e_discovered`: `notlong.com` (`MATCH_FULL`) and
`www.somedomain.com` (`MATCH_WEAK`). -/
def scenario_discovered : List DomainView_t :=
  [⟨[[99, 111, 109], [110, 111, 116, 108, 111, 110, 103]], MATCH_FULL, 0, ⟨0, 11⟩⟩,
   ⟨[[99, 111, 109], [115, 111, 109, 101, 100, 111, 109, 97, 105, 110], [119, 119, 119]],
     MATCH_WEAK, 0, ⟨12, 18⟩⟩]

/-- The rules `a.b.com` and `x.com`, both `MATCH_WEAK`. -/
def scenario_two_siblings : List DomainView_t :=
  [⟨[[99, 111, 109], [98], [97]], MATCH_WEAK, 0, ⟨0, 7⟩⟩,
   ⟨[[99, 111, 109], [120]], MATCH_WEAK, 0, ⟨8, 5⟩⟩]

/-- One write to the line index as `pfb_out_context_write_BUFFER` does it, on the pair
(`alloc`, `used`): `realloc_litelines`, then `used++`. -/
def litelines_step (l : Nat × Nat) : Nat × Nat :=
  ((realloc_litelines ⟨l.1, l.2, []⟩).alloc, l.2 + 1)

/-! ## Reading the inputs and writing the output (rw_pfb_csv.c, pfb_prune.c, main.c) -/

/-- An input stream (`FILE *`) open for reading: the bytes of the file and the file
position. -/
structure FILE_t where
  bytes : List Nat
  pos : Nat
  deriving DecidableEq, Repr

/-- The libc `fseek(f, offset, SEEK_SET)`: the position becomes `offset`; with a negative
`offset` the call fails and the position stays where it is. -/
def fseek_SET (f : FILE_t) (offset : Int) : FILE_t :=
  if 0 ≤ offset then { f with pos := offset.toNat } else f

/-- The libc `fread(ptr, 1, count, f)`: the bytes stored at `ptr`, which are the next
`count` bytes of the file or all that are left of it, and the stream afterwards. -/
def fread (f : FILE_t) (count : Nat) : List Nat × FILE_t :=
  let got := (f.bytes.drop f.pos).take count
  (got, { f with pos := f.pos + got.length })

/-- The chunks the outer loop of `read_pfb_line` gets from
`fread(*buffer, 1, buffer_size, f)` until `feof(f)`, and the stream afterwards: the
end of the file is flagged by the first read that returns fewer than `buffer_size`
bytes. The first argument bounds the number of reads (`none` when it is used up). -/
def fread_chunks (buffer_size : Nat) : Nat → FILE_t → Option (List (List Nat) × FILE_t)
  | 0, _ => none
  | n + 1, f =>
    let r := fread f buffer_size
    if r.1.length < buffer_size then some ([r.1], r.2)
    else (fread_chunks buffer_size n r.2).map fun rest => (r.1 :: rest.1, rest.2)

/-- The fields of `pfb_context_t` that reading and writing use: the input stream and the
carry-over list. `mem_buffer` stays the null pointer: `paths_list_add` sets
`use_mem_buffer` to false for every path, and `pfb_read_one_context` allocates
`mem_buffer` only when it is true. -/
structure pfb_context_t where
  in_file : FILE_t
  co : carry_over_t
  deriving DecidableEq, Repr

/-- The input contexts for files with the given bytes after `pfb_init_in_contexts`
(`calloc`: empty carry-over lists) and `pfb_open_contexts` (`fopen`: position 0). -/
def pfb_open_contexts (files : List (List Nat)) : List pfb_context_t :=
  files.map fun bytes => { in_file := ⟨bytes, 0⟩, co := ⟨0, 0, []⟩ }

/-- The lines `read_pfb_line(pfbc, nullptr, READ_BUFFER_SIZE, do_stuff, context)` hands
to `do_stuff` for the stream, and the stream afterwards. -/
def read_pfb_line_FILE (in_file : FILE_t) : Option (List PortLineData_t × FILE_t) :=
  match fread_chunks READ_BUFFER_SIZE (in_file.bytes.length + 1) in_file with
  | none => none
  | some (chunks, f) => (read_pfb_line chunks).map fun lines => (lines, f)

/-- The function `pfb_read_one_context` with `do_stuff = pfb_insert` for the input
context number `pfbc`, on the context and the shared index (`use_mem_buffer` is false:
the file is read in chunks of `READ_BUFFER_SIZE` bytes). -/
def pfb_read_one_context (update_DomainView : List Nat → Option (List Label)) (pfbc : Nat)
    (c : pfb_context_t) (tld_impl : TLD_context_impl_t) :
    Option (pfb_context_t × TLD_context_impl_t) :=
  match read_pfb_line_FILE c.in_file with
  | none => none
  | some (lines, f) =>
    (pfb_insert_lines update_DomainView pfbc lines (c.co, tld_impl)).map fun s =>
      ({ in_file := f, co := s.1 }, s.2)

/-- The function `pfb_read_all`: the input contexts in order, from number `pfbc` on, all
on the shared index. -/
def pfb_read_all (update_DomainView : List Nat → Option (List Label)) :
    Nat → List pfb_context_t → TLD_context_impl_t →
      Option (List pfb_context_t × TLD_context_impl_t)
  | _, [], t => some ([], t)
  | pfbc, c :: rest, t =>
    match pfb_read_one_context update_DomainView pfbc c t with
    | none => none
    | some (c1, t1) =>
      match pfb_read_all update_DomainView (pfbc + 1) rest t1 with
      | none => none
      | some (cs, t2) => some (c1 :: cs, t2)

/-- The constant `rw_buffer_size` of `pfb_prune.c`: the size of the buffer
`pfb_write_line` allocates for `out_c->buffer`. -/
def rw_buffer_size : Nat := 512

/-- The fields of `pfb_out_context_t` that writing uses: `out` is the sink, which is
the union of `out_file` and `out_buffer`, and `counter` the number of rules written.
The callback `writer_cb` is passed to the functions below as an argument. -/
structure pfb_out_context_t (σ : Type) where
  out : σ
  counter : Nat
  deriving DecidableEq, Repr

/-- The function `pfb_out_context_write_FILE`, the `writer_cb` of `pfb_init_out_context`
and of `pfb_init_contexts_FILE`, on the bytes written to `out_file` so far: the bytes
of `buffer` and `'\n'` are appended. The result has the type of a `writer_cb` and is
never `none`. -/
def pfb_out_context_write_FILE (buffer : List Nat) (out_file : List Nat) :
    Option (List Nat) :=
  some (out_file ++ buffer ++ [10])

/-- The function `write_line_from_file`: `fseek` to `li.offset`, `fread` of
`li.line_len` bytes into `out_c->buffer`, which has `rw_buffer_size` bytes, and the call
of `writer_cb` on the bytes read. `none`: `fread` stores more than `rw_buffer_size`
bytes and writes past the allocation, or `writer_cb` runs into undefined behaviour. -/
def write_line_from_file {σ : Type} (writer_cb : List Nat → σ → Option σ)
    (in_file : FILE_t) (li : line_info_t) (out : σ) : Option (FILE_t × σ) :=
  let r := fread (fseek_SET in_file li.offset) li.line_len
  if r.1.length ≤ rw_buffer_size then (writer_cb r.1 out).map fun o => (r.2, o)
  else none

/-- The function `pfb_write_line` on the input stream and the sink. `in_c->mem_buffer`
is the null pointer, so the branch taken allocates `out_c->buffer` on the first call
and calls `write_line_from_file`. -/
def pfb_write_line {σ : Type} (writer_cb : List Nat → σ → Option σ)
    (in_file : FILE_t) (li : line_info_t) (out : σ) : Option (FILE_t × σ) :=
  write_line_from_file writer_cb in_file li out

/-- The function `pfb_write_DomainInfo` on the input contexts and the output context;
`di.context` is the number of the input context the info points to. `none`: it points
to none of them, or `pfb_write_line` runs into undefined behaviour. -/
def pfb_write_DomainInfo {σ : Type} (writer_cb : List Nat → σ → Option σ)
    (di : DomainInfo_t) (pcc : List pfb_context_t × pfb_out_context_t σ) :
    Option (List pfb_context_t × pfb_out_context_t σ) :=
  match pcc.1[di.context]? with
  | none => none
  | some in_c =>
    (pfb_write_line writer_cb in_c.in_file di.li pcc.2.out).map fun r =>
      (pcc.1.set di.context { in_c with in_file := r.1 },
        { out := r.2, counter := pcc.2.counter + 1 })

/-- The calls of the collector `pfb_write_DomainInfo` for a sequence of infos, in
order. -/
def pfb_write_DomainInfo_all {σ : Type} (writer_cb : List Nat → σ → Option σ) :
    List DomainInfo_t → List pfb_context_t × pfb_out_context_t σ →
      Option (List pfb_context_t × pfb_out_context_t σ)
  | [], pcc => some pcc
  | di :: rest, pcc =>
    match pfb_write_DomainInfo writer_cb di pcc with
    | none => none
    | some pcc1 => pfb_write_DomainInfo_all writer_cb rest pcc1

/-- The function `pfb_consolidate` with the collector `pfb_write_DomainInfo` and the
output context as its context: the collector is called on the infos in the order
`pfb_consolidate` hands them over. `none`: the index is empty, or a call of the
collector runs into undefined behaviour. -/
def pfb_consolidate_out {σ : Type} (writer_cb : List Nat → σ → Option σ)
    (tld_impl : TLD_context_impl_t) (pcc : List pfb_context_t × pfb_out_context_t σ) :
    Option (List pfb_context_t × pfb_out_context_t σ) :=
  match pfb_consolidate tld_impl with
  | none => none
  | some infos => pfb_write_DomainInfo_all writer_cb infos pcc

/-- The loop of `pfb_write_carry_over` over the entries of the carry-over list: the
calls `pfb_write_line(begin_context, co.li[i], out_context)`, in order. -/
def pfb_write_lines {σ : Type} (writer_cb : List Nat → σ → Option σ) :
    List line_info_t → FILE_t × σ → Option (FILE_t × σ)
  | [], s => some s
  | li :: rest, s =>
    match pfb_write_line writer_cb s.1 li s.2 with
    | none => none
    | some s1 => pfb_write_lines writer_cb rest s1

/-- The function `pfb_write_carry_over`: with exactly one input context its carry-over
lines are written, with any other number nothing is done. -/
def pfb_write_carry_over {σ : Type} (writer_cb : List Nat → σ → Option σ)
    (pcc : List pfb_context_t × pfb_out_context_t σ) :
    Option (List pfb_context_t × pfb_out_context_t σ) :=
  match pcc.1 with
  | [c] =>
    (pfb_write_lines writer_cb (c.co.li.take c.co.used) (c.in_file, pcc.2.out)).map fun r =>
      ([{ c with in_file := r.1 }], { pcc.2 with out := r.2 })
  | _ => some pcc

/-- The function `sort_adbplus_adlists` for input contexts whose files hold the given
bytes, on the output context as `pfb_open_out_context` leaves it, with the empty index
of `create_tld_hash_impl`:
`pfb_open_contexts`, `pfb_read_all`, then `pfb_write_carry_over` when
`include_carry_over` is set, then `pfb_consolidate`. The result holds the input
contexts and the output context afterwards. `none`: undefined behaviour while reading,
writing or consolidating. -/
def sort_adbplus_adlists {σ : Type} (update_DomainView : List Nat → Option (List Label))
    (writer_cb : List Nat → σ → Option σ) (files : List (List Nat))
    (out_context : pfb_out_context_t σ) (include_carry_over : Bool) :
    Option (List pfb_context_t × pfb_out_context_t σ) :=
  match pfb_read_all update_DomainView 0 (pfb_open_contexts files) [] with
  | none => none
  | some (cs, tld_impl) =>
    match (if include_carry_over then pfb_write_carry_over writer_cb (cs, out_context)
        else some (cs, out_context)) with
    | none => none
    | some pcc => pfb_consolidate_out writer_cb tld_impl pcc

/-- The bytes of a file that a `line_info` names: `line_len` bytes from `offset` on. -/
def line_at (bytes : List Nat) (li : line_info_t) : List Nat :=
  (bytes.drop li.offset.toNat).take li.line_len

/-- The writes of a sequence of payloads through `writer_cb`, in order. -/
def write_all {σ : Type} (writer_cb : List Nat → σ → Option σ) :
    List (List Nat) → σ → Option σ
  | [], o => some o
  | p :: ps, o =>
    match writer_cb p o with
    | none => none
    | some o1 => write_all writer_cb ps o1

/-- The bytes of the file `[Adblock Plus]`, `! title`, `||b.com^`, `||a.com^`, each line
ended by `'\n'`. -/
def scenario_carry : List Nat :=
  [91, 65, 100, 98, 108, 111, 99, 107, 32, 80, 108, 117, 115, 93, 10,
   33, 32, 116, 105, 116, 108, 101, 10,
   124, 124, 98, 46, 99, 111, 109, 94, 10,
   124, 124, 97, 46, 99, 111, 109, 94, 10]

/-- The bytes of the file of the input context number `k` (empty when there is no such
context). -/
def file_of (cs : List pfb_context_t) (k : Nat) : List Nat :=
  match cs[k]? with
  | none => []
  | some c => c.in_file.bytes

/-- The rules of `scenario_carry` as views: `b.com` at offset 23 and `a.com` at offset
32, both `MATCH_FULL`, 8 bytes each, of input context 0. -/
def scenario_carry_views : List DomainView_t :=
  [⟨[[99, 111, 109], [98]], MATCH_FULL, 0, ⟨23, 8⟩⟩,
   ⟨[[99, 111, 109], [97]], MATCH_FULL, 0, ⟨32, 8⟩⟩]

/-- The bare TLD `com` (one label) and `a.net`, both `MATCH_FULL`. -/
def scenario_bare_tld : List DomainView_t :=
  [⟨[[99, 111, 109]], MATCH_FULL, 0, ⟨0, 7⟩⟩,
   ⟨[[110, 101, 116], [97]], MATCH_FULL, 0, ⟨8, 9⟩⟩]

/-- A rule `a.com` whose `line_info` names 513 bytes at offset 0. -/
def scenario_long_rule : List DomainView_t :=
  [⟨[[99, 111, 109], [97]], MATCH_FULL, 0, ⟨0, 513⟩⟩]

/-- A line handed to `do_stuff` agrees with the file `bytes`: its offset is not negative,
and its data is the text the `line_info` names when that is at most
`MAX_ACCEPTABLE_LINE_LENGTH` bytes long and empty when it is longer. -/
def line_ok (bytes : List Nat) (c : PortLineData_t) : Prop :=
  0 ≤ c.li.offset ∧
  (c.li.line_len ≤ MAX_ACCEPTABLE_LINE_LENGTH → c.data = line_at bytes c.li) ∧
  (MAX_ACCEPTABLE_LINE_LENGTH < c.li.line_len → c.data = [])

/-- The invariant of `read_pfb_line` on the file `bytes` when the bytes `pre` of it have
been consumed: `f_location` is the offset at which the pending line starts, the pending
line is the end of `pre` and holds no newline byte, the copy of it is complete or, when
it is too long, empty, and the lines handed over so far agree with the file. -/
def reader_inv (bytes pre : List Nat) (s : reader_state) : Prop :=
  ∃ done pending : List Nat, pre = done ++ pending ∧ s.f_location = (done.length : Int) ∧
    s.ld.li.line_len = pending.length ∧ (∀ x ∈ pending, not_newline x = true) ∧
    (pending.length ≤ MAX_ACCEPTABLE_LINE_LENGTH → s.ld.data = pending) ∧
    (MAX_ACCEPTABLE_LINE_LENGTH < pending.length → s.ld.data = []) ∧
    ∀ c ∈ s.calls, line_ok bytes c

/-- No line of the file is 65536 bytes long or longer: from any place on, fewer than
65536 bytes follow before the next newline byte or the end of the file. -/
def short_lines (bytes : List Nat) : Prop :=
  ∀ p q : List Nat, bytes = p ++ q → (q.takeWhile not_newline).length < 65536

/-- The lines `read_pfb_line` hands to `do_stuff` for the file with the given bytes, read
from position 0 in chunks of `READ_BUFFER_SIZE` bytes. -/
def file_lines (bytes : List Nat) : List PortLineData_t :=
  match read_pfb_line_FILE ⟨bytes, 0⟩ with
  | none => []
  | some r => r.1

/-- The file of one comment line, `! t`. -/
def scenario_comment_only : List Nat :=
  [33, 32, 116, 10]

/-- The file of a comment line of 600 bytes, `!` and 599 times `a`, and the rule
`||a.com^`. -/
def scenario_long_comment : List Nat :=
  33 :: List.replicate 599 97 ++ [10, 124, 124, 97, 46, 99, 111, 109, 94, 10]
/-! ## Label order -/

theorem sort_by_tld_cons_cons (x y : Nat) (xs ys : List Nat) :
    sort_by_tld (x :: xs) (y :: ys) = if x = y then sort_by_tld xs ys else (x : Int) - (y : Int) := by
  unfold sort_by_tld
  have hmin : min (x :: xs).length (y :: ys).length = min xs.length ys.length + 1 := by
    simp [Nat.succ_min_succ]
  rw [hmin]
  by_cases h : x = y
  · subst h
    simp [memcmp]
  · have hne : (x : Int) - (y : Int) ≠ 0 := by omega
    simp [memcmp, h, hne]

theorem list_cons_lt_cons (x y : Nat) (xs ys : List Nat) :
    (x :: xs) < (y :: ys) ↔ x < y ∨ (x = y ∧ xs < ys) := by
  constructor
  · intro h
    cases h with
    | cons h => exact Or.inr ⟨rfl, h⟩
    | rel h => exact Or.inl h
  · rintro (h | ⟨rfl, h⟩)
    · exact List.Lex.rel h
    · exact List.Lex.cons h

theorem sort_by_tld_spec (a : Label) : ∀ b : Label,
    (sort_by_tld a b < 0 ↔ a < b) ∧ (sort_by_tld a b = 0 ↔ a = b) ∧
      (0 < sort_by_tld a b ↔ b < a) := by
  induction a with
  | nil =>
    intro b
    cases b with
    | nil => simp [sort_by_tld, memcmp]
    | cons y ys =>
      have : ([] : List Nat) < y :: ys := List.Lex.nil
      have hn : ¬ (y :: ys < ([] : List Nat)) := List.Lex.not_nil_right _ _
      simp [sort_by_tld, memcmp, this, hn]
      omega
  | cons x xs ih =>
    intro b
    cases b with
    | nil =>
      have : ([] : List Nat) < x :: xs := List.Lex.nil
      have hn : ¬ (x :: xs < ([] : List Nat)) := List.Lex.not_nil_right _ _
      simp [sort_by_tld, memcmp, this, hn]
      omega
    | cons y ys =>
      rw [sort_by_tld_cons_cons, list_cons_lt_cons, list_cons_lt_cons]
      by_cases h : x = y
      · subst h
        simp [ih ys]
      · simp only [h, if_false, false_and, or_false, List.cons.injEq]
        have h2 : ¬ y = x := fun e => h e.symm
        simp only [h2, false_and, or_false]
        simp [sub_neg, sub_pos, sub_eq_zero, h]


/-! ## `compare_dv` -/

/-- The value `compare_dv` assigns when the labels at the current index are equal. -/
theorem compare_dv_loop_cons (n m : Nat) (a b : Label) (as bs : List Label) (c : Int) :
    compare_dv_loop n m (a :: as) (b :: bs) c =
      if sort_by_tld a b = 0 then
        compare_dv_loop n m as bs
          (if n = m then dv_A_eq_dv_B else if n < m then dv_A_blk_dv_B else dv_B_blk_dv_A)
      else if sort_by_tld a b < 0 then dv_A_lt_dv_B_write_A
      else dv_A_gt_dv_B_write_B := by
  simp only [compare_dv_loop, sort_by_tld]

theorem compare_dv_loop_diff (n m : Nat) : ∀ (as bs : List Label) (c : Int) (i : Nat)
    (a b : Label), as[i]? = some a → bs[i]? = some b → (∀ j < i, as[j]? = bs[j]?) → a ≠ b →
    compare_dv_loop n m as bs c =
      if a < b then dv_A_lt_dv_B_write_A else dv_A_gt_dv_B_write_B := by
  intro as
  induction as with
  | nil => intro bs c i a b ha; simp at ha
  | cons x xs ih =>
    intro bs c i a b ha hb hpre hne
    cases bs with
    | nil => simp at hb
    | cons y ys =>
      rw [compare_dv_loop_cons]
      cases i with
      | zero =>
        simp only [List.getElem?_cons_zero, Option.some.injEq] at ha hb
        subst ha hb
        have h0 : ¬ sort_by_tld x y = 0 := fun h => hne ((sort_by_tld_spec x y).2.1.1 h)
        simp only [h0, if_false, (sort_by_tld_spec x y).1]
      | succ k =>
        have hxy : x = y := by
          have := hpre 0 (Nat.succ_pos k)
          simpa using this
        subst hxy
        have h0 : sort_by_tld x x = 0 := (sort_by_tld_spec x x).2.1.2 rfl
        simp only [h0, if_true]
        simp only [List.getElem?_cons_succ] at ha hb
        apply ih ys _ k a b ha hb _ hne
        intro j hj
        have := hpre (j + 1) (Nat.succ_lt_succ hj)
        simpa using this

theorem compare_dv_loop_same (n m : Nat) : ∀ (as bs : List Label) (c : Int),
    (∀ j, j < as.length → j < bs.length → as[j]? = bs[j]?) →
    compare_dv_loop n m as bs c =
      if as = [] ∨ bs = [] then c
      else if n = m then dv_A_eq_dv_B else if n < m then dv_A_blk_dv_B else dv_B_blk_dv_A := by
  intro as
  induction as with
  | nil => intro bs c _; simp [compare_dv_loop]
  | cons x xs ih =>
    intro bs c hsame
    cases bs with
    | nil => simp [compare_dv_loop]
    | cons y ys =>
      rw [compare_dv_loop_cons]
      have hxy : x = y := by
        have := hsame 0 (by simp) (by simp)
        simpa using this
      subst hxy
      have h0 : sort_by_tld x x = 0 := (sort_by_tld_spec x x).2.1.2 rfl
      simp only [h0, if_true]
      rw [ih ys]
      · simp only [reduceCtorEq, or_self, if_false]
        split <;> rfl
      · intro j hj1 hj2
        have := hsame (j + 1) (by simpa using hj1) (by simpa using hj2)
        simpa using this

/-- C9. `compare_dv` follows the comparison algorithm: with the labels taken in the order
`compare_dv` indexes them, at the least index `i` (below both label counts) where the
labels `a` of A and `b` of B differ, the result is `A<B` when `a` precedes `b` in the
byte-wise lexicographic order (a proper prefix first) and `A>B` when `b` precedes `a`;
when the labels agree at every index below both counts, the result is `A≡B` for equal
counts, `A blk B` when A has fewer labels and `B blk A` when B has fewer. -/
theorem compare_dv_algorithm (dv_A dv_B : DomainView_t)
    (hA : 1 ≤ dv_A.labels.length) (hB : 1 ≤ dv_B.labels.length) :
    (∀ (i : Nat) (a b : Label), dv_A.labels[i]? = some a → dv_B.labels[i]? = some b →
        (∀ j < i, dv_A.labels[j]? = dv_B.labels[j]?) → a ≠ b →
        (a < b → compare_dv dv_A dv_B = dv_A_lt_dv_B_write_A) ∧
        (b < a → compare_dv dv_A dv_B = dv_A_gt_dv_B_write_B)) ∧
    ((∀ j, j < dv_A.labels.length → j < dv_B.labels.length →
          dv_A.labels[j]? = dv_B.labels[j]?) →
        (dv_A.labels.length = dv_B.labels.length → compare_dv dv_A dv_B = dv_A_eq_dv_B) ∧
        (dv_A.labels.length < dv_B.labels.length → compare_dv dv_A dv_B = dv_A_blk_dv_B) ∧
        (dv_B.labels.length < dv_A.labels.length → compare_dv dv_A dv_B = dv_B_blk_dv_A)) := by
  constructor
  · intro i a b ha hb hpre hne
    have h := compare_dv_loop_diff dv_A.labels.length dv_B.labels.length
      dv_A.labels dv_B.labels (-1) i a b ha hb hpre hne
    constructor
    · intro hlt
      unfold compare_dv
      rw [h, if_pos hlt]
    · intro hgt
      unfold compare_dv
      rw [h, if_neg (lt_asymm hgt)]
  · intro hsame
    have h := compare_dv_loop_same dv_A.labels.length dv_B.labels.length
      dv_A.labels dv_B.labels (-1) hsame
    have hA0 : dv_A.labels ≠ [] := by
      intro e; rw [e] at hA; simp at hA
    have hB0 : dv_B.labels ≠ [] := by
      intro e; rw [e] at hB; simp at hB
    unfold compare_dv
    rw [h]
    simp only [hA0, hB0, or_self, if_false]
    refine ⟨fun e => by simp [e], fun e => ?_, fun e => ?_⟩
    · have : ¬ dv_A.labels.length = dv_B.labels.length := by omega
      simp [this, e]
    · have h1 : ¬ dv_A.labels.length = dv_B.labels.length := by omega
      have h2 : ¬ dv_A.labels.length < dv_B.labels.length := by omega
      simp [h1, h2]

/-- Witness of C9: `www.example.com` against `example.com` (labels TLD first) is `B blk A`. -/
theorem compare_dv_algorithm_witness :
    compare_dv ⟨[[99, 111, 109], [101, 120], [119, 119, 119]], MATCH_FULL, 0, ⟨0, 0⟩⟩
        ⟨[[99, 111, 109], [101, 120]], MATCH_FULL, 0, ⟨0, 0⟩⟩ = dv_B_blk_dv_A :=
  ((compare_dv_algorithm
      ⟨[[99, 111, 109], [101, 120], [119, 119, 119]], MATCH_FULL, 0, ⟨0, 0⟩⟩
      ⟨[[99, 111, 109], [101, 120]], MATCH_FULL, 0, ⟨0, 0⟩⟩ (by decide) (by decide)).2
    (by decide)).2.2 (by decide)

/-! ## `action_dv` -/

/-- C10. `action_dv` makes exactly the tabled calls, in the tabled order (`false` names
iterator A, `true` iterator B; the state is the log of the calls): `A≡B` writes A as
NEUTRAL and advances A and B; `A<B` writes A as WINNER and advances A; `A>B` writes B
as WINNER and advances B; `A blk B` writes A as WINNER, B as LOSER and advances B;
`B blk A` writes B as WINNER, A as LOSER and advances A; any other value makes no call. -/
theorem action_dv_table (cmp : Int) (log : List dv_call) :
    action_dv cmp (fun it code s => s ++ [dv_call.write it code])
        (fun it s => s ++ [dv_call.advance it]) false true log =
      log ++
        (if cmp = dv_A_eq_dv_B then
          [dv_call.write false NEUTRAL, dv_call.advance false, dv_call.advance true]
         else if cmp = dv_A_lt_dv_B_write_A then
          [dv_call.write false WINNER, dv_call.advance false]
         else if cmp = dv_A_gt_dv_B_write_B then
          [dv_call.write true WINNER, dv_call.advance true]
         else if cmp = dv_A_blk_dv_B then
          [dv_call.write false WINNER, dv_call.write true LOSER, dv_call.advance true]
         else if cmp = dv_B_blk_dv_A then
          [dv_call.write true WINNER, dv_call.write false LOSER, dv_call.advance false]
         else []) := by
  unfold action_dv
  split_ifs <;> simp

/-! ## Tables -/

theorem HASH_FIND_with_entry (f : Option DomainInfo_t → DomainTree_t → Option DomainInfo_t × DomainTree_t)
    (l : Label) : ∀ (dt : DomainTree_t) (k : Label),
    HASH_FIND (with_entry dt l f) k =
      if k = l then (HASH_FIND dt l).map (fun e => f e.1 e.2) else HASH_FIND dt k := by
  intro dt
  induction dt with
  | nil => intro k; simp [with_entry, HASH_FIND]
  | node tld di child next _ ih =>
    intro k
    by_cases h : tld = l
    · subst h
      by_cases hk : k = tld
      · subst hk; simp [with_entry, HASH_FIND]
      · have hk2 : ¬ tld = k := fun e => hk e.symm
        simp [with_entry, HASH_FIND, hk, hk2]
    · by_cases hk : k = l
      · subst hk
        simp [with_entry, HASH_FIND, h, ih]
      · simp [with_entry, HASH_FIND, h, hk, ih]

theorem HASH_FIND_HASH_ADD (l : Label) (d : Option DomainInfo_t) (c : DomainTree_t) :
    ∀ (dt : DomainTree_t) (k : Label),
    HASH_FIND (HASH_ADD dt l d c) k =
      match HASH_FIND dt k with
      | some e => some e
      | none => if l = k then some (d, c) else none := by
  intro dt
  induction dt with
  | nil => intro k; simp [HASH_ADD, HASH_FIND]
  | node tld di child next _ ih =>
    intro k
    by_cases h : tld = k
    · simp [HASH_ADD, HASH_FIND, h]
    · simp [HASH_ADD, HASH_FIND, h, ih]

theorem with_entry_id (l : Label) (f : Option DomainInfo_t → DomainTree_t → Option DomainInfo_t × DomainTree_t) :
    ∀ (dt : DomainTree_t), (∀ e, HASH_FIND dt l = some e → f e.1 e.2 = e) →
    with_entry dt l f = dt := by
  intro dt
  induction dt with
  | nil => intro _; rfl
  | node tld di child next _ ih =>
    intro h
    by_cases hk : tld = l
    · have := h (di, child) (by simp [HASH_FIND, hk])
      simp only at this
      simp [with_entry, hk, this]
    · simp only [with_entry, hk, if_false]
      rw [ih]
      intro e he
      exact h e (by simpa [HASH_FIND, hk] using he)

theorem with_entry_with_entry (l : Label)
    (f g : Option DomainInfo_t → DomainTree_t → Option DomainInfo_t × DomainTree_t) :
    ∀ (dt : DomainTree_t),
    with_entry (with_entry dt l f) l g = with_entry dt l (fun d c => g (f d c).1 (f d c).2) := by
  intro dt
  induction dt with
  | nil => rfl
  | node tld di child next _ ih =>
    by_cases hk : tld = l
    · simp [with_entry, hk]
    · simp [with_entry, hk, ih]

theorem with_entry_congr (l : Label)
    (f g : Option DomainInfo_t → DomainTree_t → Option DomainInfo_t × DomainTree_t) :
    ∀ (dt : DomainTree_t), (∀ e, HASH_FIND dt l = some e → f e.1 e.2 = g e.1 e.2) →
    with_entry dt l f = with_entry dt l g := by
  intro dt
  induction dt with
  | nil => intro _; rfl
  | node tld di child next _ ih =>
    intro h
    by_cases hk : tld = l
    · have := h (di, child) (by simp [HASH_FIND, hk])
      simp only at this
      simp [with_entry, hk, this]
    · simp only [with_entry, hk, if_false]
      rw [ih]
      intro e he
      exact h e (by simpa [HASH_FIND, hk] using he)

theorem with_entry_HASH_ADD (l : Label) (d : Option DomainInfo_t) (c : DomainTree_t)
    (f : Option DomainInfo_t → DomainTree_t → Option DomainInfo_t × DomainTree_t) :
    ∀ (dt : DomainTree_t), HASH_FIND dt l = none →
    with_entry (HASH_ADD dt l d c) l f = HASH_ADD dt l (f d c).1 (f d c).2 := by
  intro dt
  induction dt with
  | nil => intro _; simp [HASH_ADD, with_entry]
  | node tld di child next _ ih =>
    intro h
    by_cases hk : tld = l
    · simp [HASH_FIND, hk] at h
    · simp only [HASH_FIND, hk, if_false] at h
      simp [HASH_ADD, with_entry, hk, ih h]

/-! ## `insert_DomainTree` below the TLD as one descent -/

theorem at_entry_ctor (dv : DomainView_t) : ∀ (it : List Label) (dt : DomainTree_t) (l : Label),
    HASH_FIND dt l = none →
    at_entry (replace_if_stronger dv) (l :: it) (ctor_DomainTree dv dt l it) =
      ctor_DomainTree dv dt l it := by
  intro it
  induction it with
  | nil =>
    intro dt l h
    simp only [at_entry, ctor_DomainTree]
    rw [with_entry_HASH_ADD _ _ _ _ _ h]
    simp [replace_if_stronger, convert_DomainInfo]
  | cons l2 it2 ih =>
    intro dt l h
    simp only [at_entry, ctor_DomainTree]
    rw [with_entry_HASH_ADD _ _ _ _ _ h]
    simp only
    rw [ih nil l2 rfl]

theorem find_then_replace_step (dv : DomainView_t) (l : Label) (dt : DomainTree_t)
    (di : Option DomainInfo_t) (child : DomainTree_t) (rest : List Label)
    (hf : HASH_FIND dt l = some (di, child))
    (hih : (match find_leaf_Domain dv rest child true with
      | none => none
      | some (dt1, entry) =>
        if entry then some (at_entry (replace_if_stronger dv) rest dt1) else some dt1) =
      insert_descent dv rest child) :
    (match Option.map (fun r => (with_entry dt l (fun d _ => (d, r.1)), r.2))
          (find_leaf_Domain dv rest child true) with
      | none => none
      | some (dt1, entry) =>
        if entry then some (at_entry (replace_if_stronger dv) (l :: rest) dt1)
        else some dt1) =
    (if rest = [] then some (with_entry dt l (replace_if_stronger dv))
      else (insert_descent dv rest child).map
          fun c => with_entry dt l (fun d _ => (d, c))) := by
  cases rest with
  | nil =>
    simp only [find_leaf_Domain, Option.map_some', if_true, at_entry]
    rw [with_entry_with_entry]
    congr 1
    apply with_entry_congr
    intro e2 he2
    rw [hf] at he2
    cases he2
    rfl
  | cons l2 it2 =>
    rw [← hih]
    cases hfl : find_leaf_Domain dv (l2 :: it2) child true with
    | none => simp
    | some r =>
      obtain ⟨c1, entry⟩ := r
      cases entry with
      | true =>
        simp only [Option.map_some', if_true, at_entry]
        rw [with_entry_with_entry]
        simp
      | false =>
        simp

theorem find_then_replace_eq (dv : DomainView_t) : ∀ (it : List Label) (dt : DomainTree_t)
    (e : Bool),
    (match find_leaf_Domain dv it dt e with
      | none => none
      | some (dt1, entry) =>
        if entry then some (at_entry (replace_if_stronger dv) it dt1) else some dt1) =
      insert_descent dv it dt := by
  intro it
  induction it with
  | nil => intro dt e; cases e <;> simp [find_leaf_Domain, insert_descent, at_entry]
  | cons l rest ih =>
    intro dt e
    unfold find_leaf_Domain insert_descent
    cases hf : HASH_FIND dt l with
    | none =>
      simp only [if_true]
      rw [at_entry_ctor dv rest dt l hf]
    | some p =>
      obtain ⟨di, child⟩ := p
      simp only
      have hrec := find_then_replace_step dv l dt di child rest hf (ih child true)
      by_cases hleaf : leaf_DomainTree child = true
      · simp only [hleaf, if_true]
        cases di with
        | none => simp
        | some i =>
          by_cases hfull : i.match_strength = MATCH_FULL
          · simp [hfull]
          · simp only [hfull, if_false, Option.map_some', decide_False]
            exact hrec
      · simp only [hleaf]
        exact hrec

theorem insert_below_eq (dv : DomainView_t) (it : List Label) (dt : DomainTree_t) :
    insert_below dv it dt = insert_descent dv it dt := by
  unfold insert_below
  exact find_then_replace_eq dv it dt false

/-! ## Invariants and denotation of the tables -/

theorem term_at_nil (p : List Label) : term_at p nil = none := by
  cases p with
  | nil => rfl
  | cons l p =>
    cases p with
    | nil => simp [term_at, HASH_FIND]
    | cons l2 p2 => simp [term_at, HASH_FIND]

theorem term_at_cons (l : Label) (p : List Label) (dt : DomainTree_t) :
    term_at (l :: p) dt =
      match HASH_FIND dt l with
      | none => none
      | some e => if p = [] then e.1 else term_at p e.2 := by
  cases p with
  | nil =>
    cases h : HASH_FIND dt l <;> simp [term_at, h]
  | cons l2 p2 =>
    cases h : HASH_FIND dt l <;> simp [term_at, h]

theorem HASH_FIND_none_iff (l : Label) : ∀ dt : DomainTree_t,
    HASH_FIND dt l = none ↔ l ∉ keys dt := by
  intro dt
  induction dt with
  | nil => simp [HASH_FIND, keys]
  | node tld di child next _ ih =>
    by_cases h : tld = l
    · simp [HASH_FIND, keys, h]
    · have h2 : ¬ l = tld := fun e => h e.symm
      simp [HASH_FIND, keys, h, h2, ih]

theorem keys_with_entry (l : Label)
    (f : Option DomainInfo_t → DomainTree_t → Option DomainInfo_t × DomainTree_t) :
    ∀ dt : DomainTree_t, keys (with_entry dt l f) = keys dt := by
  intro dt
  induction dt with
  | nil => rfl
  | node tld di child next _ ih =>
    by_cases h : tld = l
    · simp [with_entry, keys, h]
    · simp [with_entry, keys, h, ih]

theorem keys_HASH_ADD (l : Label) (d : Option DomainInfo_t) (c : DomainTree_t) :
    ∀ dt : DomainTree_t, keys (HASH_ADD dt l d c) = keys dt ++ [l] := by
  intro dt
  induction dt with
  | nil => rfl
  | node tld di child next _ ih => simp [HASH_ADD, keys, ih]

theorem KeysNodup_HASH_ADD (l : Label) (d : Option DomainInfo_t) (c : DomainTree_t) :
    ∀ dt : DomainTree_t, KeysNodup dt → l ∉ keys dt → KeysNodup c →
    KeysNodup (HASH_ADD dt l d c) := by
  intro dt
  induction dt with
  | nil => intro _ _ hc; simp [HASH_ADD, KeysNodup, keys, hc]
  | node tld di child next _ ih =>
    intro h hl hc
    simp only [KeysNodup] at h
    simp only [keys, List.mem_cons, not_or] at hl
    simp only [HASH_ADD, KeysNodup, keys_HASH_ADD, List.mem_append, List.mem_singleton, not_or]
    exact ⟨⟨h.1, fun e => hl.1 e.symm⟩, h.2.1, ih h.2.2 hl.2 hc⟩

theorem KeysNodup_with_entry (l : Label)
    (f : Option DomainInfo_t → DomainTree_t → Option DomainInfo_t × DomainTree_t) :
    ∀ dt : DomainTree_t, KeysNodup dt →
    (∀ e, HASH_FIND dt l = some e → KeysNodup e.2 → KeysNodup (f e.1 e.2).2) →
    KeysNodup (with_entry dt l f) := by
  intro dt
  induction dt with
  | nil => intro _ _; trivial
  | node tld di child next _ ih =>
    intro h hf
    simp only [KeysNodup] at h
    by_cases hk : tld = l
    · have := hf (di, child) (by simp [HASH_FIND, hk]) h.2.1
      simp only [with_entry, hk, if_true, KeysNodup]
      subst hk
      exact ⟨h.1, this, h.2.2⟩
    · simp only [with_entry, hk, if_false, KeysNodup, keys_with_entry]
      refine ⟨h.1, h.2.1, ih h.2.2 ?_⟩
      intro e he
      exact hf e (by simpa [HASH_FIND, hk] using he)

theorem KeysNodup_find (l : Label) : ∀ dt : DomainTree_t, KeysNodup dt →
    ∀ e, HASH_FIND dt l = some e → KeysNodup e.2 := by
  intro dt
  induction dt with
  | nil => intro _ e he; simp [HASH_FIND] at he
  | node tld di child next _ ih =>
    intro h e he
    simp only [KeysNodup] at h
    by_cases hk : tld = l
    · simp only [HASH_FIND, hk, if_true, Option.some.injEq] at he
      subst he
      exact h.2.1
    · simp only [HASH_FIND, hk, if_false] at he
      exact ih h.2.2 e he

/-- The conditions `WellFormed` puts on one entry. -/
theorem WellFormed_find (l : Label) : ∀ dt : DomainTree_t, WellFormed dt →
    ∀ e, HASH_FIND dt l = some e →
      (e.2 = nil → e.1 ≠ none) ∧
      (∀ i, e.1 = some i → i.match_strength = MATCH_FULL → e.2 = nil) ∧ WellFormed e.2 := by
  intro dt
  induction dt with
  | nil => intro _ e he; simp [HASH_FIND] at he
  | node tld di child next _ ih =>
    intro h e he
    simp only [WellFormed] at h
    by_cases hk : tld = l
    · simp only [HASH_FIND, hk, if_true, Option.some.injEq] at he
      subst he
      exact ⟨h.1, h.2.1, h.2.2.1⟩
    · simp only [HASH_FIND, hk, if_false] at he
      exact ih h.2.2.2 e he

theorem WellFormed_with_entry (l : Label)
    (f : Option DomainInfo_t → DomainTree_t → Option DomainInfo_t × DomainTree_t) :
    ∀ dt : DomainTree_t, WellFormed dt →
    (∀ e, HASH_FIND dt l = some e →
      ((f e.1 e.2).2 = nil → (f e.1 e.2).1 ≠ none) ∧
      (∀ i, (f e.1 e.2).1 = some i → i.match_strength = MATCH_FULL → (f e.1 e.2).2 = nil) ∧
      WellFormed (f e.1 e.2).2) →
    WellFormed (with_entry dt l f) := by
  intro dt
  induction dt with
  | nil => intro _ _; trivial
  | node tld di child next _ ih =>
    intro h hf
    simp only [WellFormed] at h
    by_cases hk : tld = l
    · have := hf (di, child) (by simp [HASH_FIND, hk])
      simp only [with_entry, hk, if_true, WellFormed]
      exact ⟨this.1, this.2.1, this.2.2, h.2.2.2⟩
    · simp only [with_entry, hk, if_false, WellFormed]
      refine ⟨h.1, h.2.1, h.2.2.1, ih h.2.2.2 ?_⟩
      intro e he
      exact hf e (by simpa [HASH_FIND, hk] using he)

theorem WellFormed_HASH_ADD (l : Label) (d : Option DomainInfo_t) (c : DomainTree_t) :
    ∀ dt : DomainTree_t, WellFormed dt → (c = nil → d ≠ none) →
    (∀ i, d = some i → i.match_strength = MATCH_FULL → c = nil) → WellFormed c →
    WellFormed (HASH_ADD dt l d c) := by
  intro dt
  induction dt with
  | nil => intro _ h1 h2 h3; exact ⟨h1, h2, h3, trivial⟩
  | node tld di child next _ ih =>
    intro h h1 h2 h3
    simp only [WellFormed] at h
    simp only [HASH_ADD, WellFormed]
    exact ⟨h.1, h.2.1, h.2.2.1, ih h.2.2.2 h1 h2 h3⟩

theorem HASH_ADD_ne_nil (l : Label) (d : Option DomainInfo_t) (c dt : DomainTree_t) :
    HASH_ADD dt l d c ≠ nil := by
  cases dt <;> simp [HASH_ADD]

theorem with_entry_ne_nil (l : Label)
    (f : Option DomainInfo_t → DomainTree_t → Option DomainInfo_t × DomainTree_t)
    (dt : DomainTree_t) (h : dt ≠ nil) : with_entry dt l f ≠ nil := by
  cases dt with
  | nil => exact absurd rfl h
  | node tld di child next =>
    by_cases hk : tld = l <;> simp [with_entry, hk]

theorem ctor_ne_nil (dv : DomainView_t) (dt : DomainTree_t) (l : Label) (it : List Label) :
    ctor_DomainTree dv dt l it ≠ nil := by
  cases it <;> simp [ctor_DomainTree, HASH_ADD_ne_nil]

theorem leaf_iff (c : DomainTree_t) : leaf_DomainTree c = true ↔ c = nil := by
  cases c <;> simp [leaf_DomainTree, HASH_COUNT]

theorem WellFormed_ctor (dv : DomainView_t) : ∀ (it : List Label) (dt : DomainTree_t)
    (l : Label), WellFormed dt → WellFormed (ctor_DomainTree dv dt l it) := by
  intro it
  induction it with
  | nil =>
    intro dt l h
    exact WellFormed_HASH_ADD _ _ _ dt h (by simp) (by simp) trivial
  | cons l2 it2 ih =>
    intro dt l h
    exact WellFormed_HASH_ADD _ _ _ dt h (fun e => absurd e (ctor_ne_nil _ _ _ _))
      (by simp) (ih nil l2 trivial)

theorem KeysNodup_ctor (dv : DomainView_t) : ∀ (it : List Label) (dt : DomainTree_t)
    (l : Label), KeysNodup dt → l ∉ keys dt → KeysNodup (ctor_DomainTree dv dt l it) := by
  intro it
  induction it with
  | nil =>
    intro dt l h hl
    exact KeysNodup_HASH_ADD _ _ _ dt h hl trivial
  | cons l2 it2 ih =>
    intro dt l h hl
    exact KeysNodup_HASH_ADD _ _ _ dt h hl (ih nil l2 trivial (by simp [keys]))

theorem term_at_ctor (dv : DomainView_t) : ∀ (it : List Label) (dt : DomainTree_t)
    (l : Label), HASH_FIND dt l = none → ∀ p,
    term_at p (ctor_DomainTree dv dt l it) =
      if p = l :: it then some (convert_DomainInfo dv) else term_at p dt := by
  intro it
  induction it with
  | nil =>
    intro dt l h p
    cases p with
    | nil => simp [term_at]
    | cons l1 p1 =>
      rw [term_at_cons, term_at_cons, ctor_DomainTree, HASH_FIND_HASH_ADD]
      by_cases hl : l = l1
      · subst hl
        rw [h]
        by_cases hp : p1 = []
        · simp [hp]
        · simp [hp, term_at_nil]
      · have hl2 : ¬ l1 = l := fun e => hl e.symm
        cases hf : HASH_FIND dt l1 <;> simp [hl, hl2]
  | cons l2 it2 ih =>
    intro dt l h p
    cases p with
    | nil => simp [term_at]
    | cons l1 p1 =>
      rw [term_at_cons, term_at_cons, ctor_DomainTree, HASH_FIND_HASH_ADD]
      by_cases hl : l = l1
      · subst hl
        rw [h]
        by_cases hp : p1 = []
        · simp [hp]
        · simp only [if_true, hp, if_false, List.cons.injEq, true_and]
          rw [ih nil l2 rfl p1, term_at_nil]
      · have hl2 : ¬ l1 = l := fun e => hl e.symm
        cases hf : HASH_FIND dt l1 <;> simp [hl, hl2]

/-! ## What one insertion does to a table -/

/-- The guard of `find_leaf_Domain` on a well-formed entry: it fires exactly when the
entry's info has strength `MATCH_FULL`. -/
theorem guard_eq (di : Option DomainInfo_t) (child : DomainTree_t)
    (h1 : child = nil → di ≠ none)
    (h2 : ∀ i, di = some i → i.match_strength = MATCH_FULL → child = nil) :
    (if leaf_DomainTree child then di.map (fun i => decide (i.match_strength = MATCH_FULL))
      else some false) =
      some (info_is_full di) := by
  by_cases hc : child = nil
  · have hl : leaf_DomainTree child = true := (leaf_iff child).2 hc
    cases di with
    | none => exact absurd rfl (h1 hc)
    | some i => simp [hl, info_is_full]
  · have hl : ¬ leaf_DomainTree child = true := fun e => hc ((leaf_iff child).1 e)
    cases di with
    | none => simp [hl, info_is_full]
    | some i =>
      have : ¬ i.match_strength = MATCH_FULL := fun e => hc (h2 i rfl e)
      simp [hl, this, info_is_full]

theorem insert_descent_spec (dv : DomainView_t) : ∀ (it : List Label) (dt : DomainTree_t),
    WellFormed dt →
    ∃ dt', insert_descent dv it dt = some dt' ∧ WellFormed dt' ∧
      (KeysNodup dt → KeysNodup dt') ∧ (it ≠ [] → dt' ≠ nil) ∧
      (insert_noop dv it dt → dt' = dt) ∧
      (¬ insert_noop dv it dt → ∀ p, term_at p dt' =
        if p = it then some (convert_DomainInfo dv)
        else if dv.match_strength = MATCH_FULL ∧ it <+: p then none
        else term_at p dt) := by
  intro it
  induction it with
  | nil =>
    intro dt h
    exact ⟨dt, rfl, h, id, fun e => absurd rfl e, fun _ => rfl,
      fun e => absurd (Or.inl rfl) e⟩
  | cons l it ih =>
    intro dt hwf
    unfold insert_descent
    cases hf : HASH_FIND dt l with
    | none =>
      refine ⟨_, rfl, WellFormed_ctor dv it dt l hwf,
        fun hk => KeysNodup_ctor dv it dt l hk ((HASH_FIND_none_iff l dt).1 hf),
        fun _ => ctor_ne_nil _ _ _ _, ?_, ?_⟩
      · intro hn
        rcases hn with hn | hn | ⟨i, hi, _⟩
        · cases hn
        · simp [dominated, hf] at hn
        · rw [term_at_cons, hf] at hi
          cases hi
      · intro _ p
        rw [term_at_ctor dv it dt l hf p]
        by_cases hp : p = l :: it
        · simp [hp]
        · simp only [hp, if_false]
          by_cases hpre : dv.match_strength = MATCH_FULL ∧ l :: it <+: p
          · obtain ⟨t, rfl⟩ := hpre.2
            simp only [hpre.1, true_and, List.prefix_append, if_true]
            rw [List.cons_append, term_at_cons, hf]
          · simp only [hpre, if_false]
    | some e =>
      obtain ⟨di, child⟩ := e
      obtain ⟨hw1, hw2, hw3⟩ := WellFormed_find l dt hwf (di, child) hf
      simp only at hw1 hw2 hw3
      have hdt : dt ≠ nil := by
        intro e; rw [e] at hf; simp [HASH_FIND] at hf
      simp only
      rw [guard_eq di child hw1 hw2]
      cases hfull : info_is_full di with
      | true =>
        refine ⟨dt, rfl, hwf, id, fun _ => hdt, fun _ => rfl, ?_⟩
        intro hn
        exact absurd (Or.inr (Or.inl (by simp [dominated, hf, hfull]))) hn
      | false =>
        have hnotfull : ∀ i, di = some i → ¬ i.match_strength = MATCH_FULL := by
          intro i hi hF
          rw [hi] at hfull
          simp [info_is_full, hF] at hfull
        simp only
        by_cases hit : it = []
        · subst hit
          simp only [if_true]
          have hterm : term_at [l] dt = di := by
            rw [term_at_cons, hf]; simp
          by_cases hkeep : ∃ i, di = some i ∧ dv.match_strength.rank ≤ i.match_strength.rank
          · obtain ⟨i, hi, hr⟩ := hkeep
            have hid : with_entry dt l (replace_if_stronger dv) = dt := by
              apply with_entry_id
              intro e he
              rw [hf] at he
              cases he
              subst hi
              have : ¬ dv.match_strength.rank > i.match_strength.rank := by omega
              simp [replace_if_stronger, this]
            rw [hid]
            refine ⟨dt, rfl, hwf, id, fun _ => hdt, fun _ => rfl, ?_⟩
            intro hn
            exact absurd (Or.inr (Or.inr ⟨i, by rw [hterm, hi], hr⟩)) hn
          · have hrep : replace_if_stronger dv di child =
                (some (convert_DomainInfo dv),
                  if dv.match_strength = MATCH_FULL then nil else child) := by
              cases di with
              | none => rfl
              | some i =>
                have : dv.match_strength.rank > i.match_strength.rank := by
                  by_contra hc
                  exact hkeep ⟨i, rfl, by omega⟩
                simp [replace_if_stronger, this]
            refine ⟨_, rfl, ?_, ?_, fun _ => with_entry_ne_nil _ _ _ hdt, ?_, ?_⟩
            · apply WellFormed_with_entry _ _ _ hwf
              intro e he
              rw [hf] at he
              cases he
              rw [hrep]
              refine ⟨by simp, ?_, ?_⟩
              · intro i hi hF
                simp only [Option.some.injEq] at hi
                subst hi
                simp only [convert_DomainInfo] at hF
                simp [hF]
              · by_cases hF : dv.match_strength = MATCH_FULL
                · simp [hF, WellFormed]
                · simp [hF, hw3]
            · intro hk
              apply KeysNodup_with_entry _ _ _ hk
              intro e he hke
              rw [hf] at he
              cases he
              rw [hrep]
              by_cases hF : dv.match_strength = MATCH_FULL
              · simp [hF, KeysNodup]
              · simp only [hF, if_false]; exact hke
            · intro hn
              rcases hn with hn | hn | ⟨i, hi, hr⟩
              · cases hn
              · simp [dominated, hf, hfull] at hn
              · rw [hterm] at hi
                exact absurd ⟨i, hi, hr⟩ hkeep
            · intro _ p
              cases p with
              | nil => simp [term_at]
              | cons l1 p1 =>
                rw [term_at_cons, term_at_cons, HASH_FIND_with_entry]
                by_cases hl : l1 = l
                · subst hl
                  simp only [if_true, hf, Option.map_some', hrep, List.cons.injEq, true_and]
                  by_cases hp : p1 = []
                  · simp [hp]
                  · simp only [hp, if_false]
                    have hpre : [l1] <+: l1 :: p1 := by
                      simp
                    by_cases hF : dv.match_strength = MATCH_FULL
                    · simp [hF, hpre, term_at_nil]
                    · simp [hF]
                · have hne : ¬ (l1 :: p1 = [l]) := by
                    intro e; cases e; exact hl rfl
                  have hnp : ¬ ([l] <+: l1 :: p1) := by
                    intro e
                    obtain ⟨t, ht⟩ := e
                    simp only [List.singleton_append, List.cons.injEq] at ht
                    exact hl ht.1.symm
                  simp only [hl, if_false, hne, hnp, and_false]
        · simp only [hit, if_false]
          obtain ⟨c1, hc1, hwf1, hk1, hnn1, hnoop1, hchg1⟩ := ih child hw3
          rw [hc1]
          simp only [Option.map_some']
          have hnoop_iff : insert_noop dv (l :: it) dt ↔ insert_noop dv it child := by
            unfold insert_noop
            have hd : dominated (l :: it) dt = dominated it child := by
              simp [dominated, hf, hfull]
            have ht : term_at (l :: it) dt = term_at it child := by
              rw [term_at_cons, hf]; simp [hit]
            rw [hd, ht]
            simp [hit]
          refine ⟨_, rfl, ?_, ?_, fun _ => with_entry_ne_nil _ _ _ hdt, ?_, ?_⟩
          · apply WellFormed_with_entry _ _ _ hwf
            intro e he
            rw [hf] at he
            cases he
            simp only
            refine ⟨fun e => absurd e (hnn1 hit), ?_, hwf1⟩
            intro i hi hF
            exact absurd hF (hnotfull i hi)
          · intro hk
            apply KeysNodup_with_entry _ _ _ hk
            intro e he hke
            rw [hf] at he
            cases he
            exact hk1 hke
          · intro hn
            rw [hnoop1 (hnoop_iff.1 hn)]
            apply with_entry_id
            intro e he
            rw [hf] at he
            cases he
            rfl
          · intro hn p
            have hchg := hchg1 (fun e => hn (hnoop_iff.2 e))
            cases p with
            | nil => simp [term_at]
            | cons l1 p1 =>
              rw [term_at_cons, term_at_cons, HASH_FIND_with_entry]
              by_cases hl : l1 = l
              · subst hl
                simp only [if_true, hf, Option.map_some', List.cons.injEq, true_and]
                by_cases hp : p1 = []
                · subst hp
                  have h1 : ¬ ([] = it) := fun e => hit e.symm
                  have h2 : ¬ (l1 :: it <+: [l1]) := by
                    intro e
                    have := e.length_le
                    cases it with
                    | nil => exact hit rfl
                    | cons a b => simp at this
                  simp [h1, h2]
                · simp only [hp, if_false]
                  rw [hchg p1]
                  have hpre : (l1 :: it <+: l1 :: p1) ↔ (it <+: p1) := by
                    simp [List.cons_prefix_cons]
                  simp only [hpre]
              · have hne : ¬ (l1 :: p1 = l :: it) := by
                  intro e; cases e; exact hl rfl
                have hnp : ¬ (l :: it <+: l1 :: p1) := by
                  intro e
                  obtain ⟨t, ht⟩ := e
                  simp only [List.cons_append, List.cons.injEq] at ht
                  exact hl ht.1.symm
                simp only [hl, if_false, hne, hnp, and_false]

/-! ## What one insertion does to the index -/

theorem dominated_iff : ∀ (it : List Label) (dt : DomainTree_t),
    dominated it dt = true ↔
      ∃ q i, q <+: it ∧ term_at q dt = some i ∧ i.match_strength = MATCH_FULL := by
  intro it
  induction it with
  | nil =>
    intro dt
    simp only [dominated, Bool.false_eq_true, false_iff, not_exists, not_and]
    intro q i hq
    rw [List.prefix_nil] at hq
    subst hq
    simp [term_at]
  | cons l it ih =>
    intro dt
    cases hf : HASH_FIND dt l with
    | none =>
      simp only [dominated, hf, Bool.false_eq_true, false_iff, not_exists, not_and]
      intro q i hq
      cases q with
      | nil => simp [term_at]
      | cons l1 q1 =>
        have : l1 = l := by
          obtain ⟨t, ht⟩ := hq
          simp only [List.cons_append, List.cons.injEq] at ht
          exact ht.1
        subst this
        rw [term_at_cons, hf]
        simp
    | some e =>
      obtain ⟨di, child⟩ := e
      simp only [dominated, hf, Bool.or_eq_true, ih child]
      constructor
      · rintro (h | ⟨q, i, hq, ht, hF⟩)
        · cases di with
          | none => simp [info_is_full] at h
          | some i =>
            simp only [info_is_full, decide_eq_true_eq] at h
            refine ⟨[l], i, ?_, ?_, h⟩
            · simp
            · rw [term_at_cons, hf]; simp
        · have hq0 : q ≠ [] := by
            intro e; subst e; simp [term_at] at ht
          refine ⟨l :: q, i, ?_, ?_, hF⟩
          · simpa [List.cons_prefix_cons] using hq
          · rw [term_at_cons, hf]; simp [hq0, ht]
      · rintro ⟨q, i, hq, ht, hF⟩
        cases q with
        | nil => simp [term_at] at ht
        | cons l1 q1 =>
          have hl : l1 = l ∧ q1 <+: it := by
            simpa [List.cons_prefix_cons] using hq
          obtain ⟨rfl, hq1⟩ := hl
          rw [term_at_cons, hf] at ht
          by_cases hq0 : q1 = []
          · simp only [hq0, if_true] at ht
            left
            rw [ht]
            simp [info_is_full, hF]
          · simp only [hq0, if_false] at ht
            right
            exact ⟨q1, i, hq1, ht, hF⟩

theorem tld_slot_insert_tld (l : Label) : ∀ (c : TLD_context_impl_t) (k : Label),
    tld_slot (hash_context_insert_tld c l) k = tld_slot c k := by
  intro c
  induction c with
  | nil =>
    intro k
    by_cases h : l = k <;> simp [hash_context_insert_tld, tld_slot, h]
  | cons e rest ih =>
    intro k
    by_cases h : e.tld = l
    · simp [hash_context_insert_tld, h]
    · by_cases hk : e.tld = k
      · subst hk
        simp [hash_context_insert_tld, h, tld_slot]
      · simp [hash_context_insert_tld, h, tld_slot, hk, ih]

theorem tlds_insert_tld (l : Label) : ∀ (c : TLD_context_impl_t),
    (hash_context_insert_tld c l).map TLD_entry_impl_t.tld =
      if l ∈ c.map TLD_entry_impl_t.tld then c.map TLD_entry_impl_t.tld
      else c.map TLD_entry_impl_t.tld ++ [l] := by
  intro c
  induction c with
  | nil => simp [hash_context_insert_tld]
  | cons e rest ih =>
    by_cases h : e.tld = l
    · simp [hash_context_insert_tld, h]
    · have h2 : ¬ l = e.tld := fun x => h x.symm
      simp only [hash_context_insert_tld, h, if_false, List.map_cons, ih, List.mem_cons, h2,
        false_or]
      split <;> simp

theorem mem_insert_tld (l : Label) : ∀ (c : TLD_context_impl_t) (e : TLD_entry_impl_t),
    e ∈ hash_context_insert_tld c l → e ∈ c ∨ e = { tld := l, child := nil } := by
  intro c
  induction c with
  | nil => intro e he; simpa [hash_context_insert_tld] using he
  | cons e0 rest ih =>
    intro e he
    by_cases h : e0.tld = l
    · left; simpa [hash_context_insert_tld, h] using he
    · simp only [hash_context_insert_tld, h, if_false, List.mem_cons] at he
      rcases he with he | he
      · left; simp [he]
      · rcases ih e he with h1 | h1
        · left; simp [h1]
        · right; exact h1

theorem tld_slot_set_slot (l : Label) (dt : DomainTree_t) : ∀ (c : TLD_context_impl_t)
    (k : Label), l ∈ c.map TLD_entry_impl_t.tld →
    tld_slot (tld_set_slot c l dt) k = if k = l then dt else tld_slot c k := by
  intro c
  induction c with
  | nil => intro k h; simp at h
  | cons e rest ih =>
    intro k h
    by_cases he : e.tld = l
    · by_cases hk : k = l
      · subst hk; simp [tld_set_slot, tld_slot, he]
      · have : ¬ l = k := fun x => hk x.symm
        simp [tld_set_slot, tld_slot, he, hk, this]
    · have hl : l ∈ rest.map TLD_entry_impl_t.tld := by
        simp only [List.map_cons, List.mem_cons] at h
        rcases h with h | h
        · exact absurd h.symm he
        · exact h
      by_cases hk : k = l
      · subst hk
        simp [tld_set_slot, tld_slot, he, ih k hl]
      · by_cases hek : e.tld = k
        · simp [tld_set_slot, tld_slot, he, hek, hk]
        · simp [tld_set_slot, tld_slot, he, hek, hk, ih k hl]

theorem tlds_set_slot (l : Label) (dt : DomainTree_t) : ∀ (c : TLD_context_impl_t),
    (tld_set_slot c l dt).map TLD_entry_impl_t.tld = c.map TLD_entry_impl_t.tld := by
  intro c
  induction c with
  | nil => rfl
  | cons e rest ih =>
    by_cases he : e.tld = l <;> simp [tld_set_slot, he, ih]

theorem mem_set_slot (l : Label) (dt : DomainTree_t) : ∀ (c : TLD_context_impl_t)
    (e : TLD_entry_impl_t), e ∈ tld_set_slot c l dt → e ∈ c ∨ e = { tld := l, child := dt } := by
  intro c
  induction c with
  | nil => intro e he; simp [tld_set_slot] at he
  | cons e0 rest ih =>
    intro e he
    by_cases h : e0.tld = l
    · simp only [tld_set_slot, h, if_true, List.mem_cons] at he
      rcases he with he | he
      · right; rw [he]
      · left; simp [he]
    · simp only [tld_set_slot, h, if_false, List.mem_cons] at he
      rcases he with he | he
      · left; simp [he]
      · rcases ih e he with h1 | h1
        · left; simp [h1]
        · right; exact h1

theorem tld_slot_mem (k : Label) : ∀ (c : TLD_context_impl_t),
    tld_slot c k = nil ∨ ∃ e ∈ c, e.tld = k ∧ e.child = tld_slot c k := by
  intro c
  induction c with
  | nil => left; rfl
  | cons e rest ih =>
    by_cases h : e.tld = k
    · right; exact ⟨e, by simp, h, by simp [tld_slot, h]⟩
    · rcases ih with h1 | ⟨e1, he1, h2, h3⟩
      · left; simp [tld_slot, h, h1]
      · right; exact ⟨e1, by simp [he1], h2, by simp [tld_slot, h, h3]⟩

theorem CtxOK_slot (c : TLD_context_impl_t) (h : CtxOK c) (k : Label) :
    WellFormed (tld_slot c k) ∧ KeysNodup (tld_slot c k) := by
  rcases tld_slot_mem k c with h1 | ⟨e, he, _, h3⟩
  · rw [h1]; exact ⟨trivial, trivial⟩
  · rw [← h3]; exact h.2 e he

theorem ctx_noop_iff (dv : DomainView_t) (c : TLD_context_impl_t) (tld : Label)
    (it : List Label) (hl : dv.labels = tld :: it) :
    ctx_noop dv (ctx_term_at c) ↔ insert_noop dv it (tld_slot c tld) := by
  unfold ctx_noop insert_noop
  rw [hl, dominated_iff]
  have h1 : (tld :: it).length < 2 ↔ it = [] := by
    cases it <;> simp
  have h2 : (∃ q i, q <+: tld :: it ∧ ctx_term_at c q = some i ∧
        i.match_strength = MATCH_FULL) ↔
      ∃ q i, q <+: it ∧ term_at q (tld_slot c tld) = some i ∧
        i.match_strength = MATCH_FULL := by
    constructor
    · rintro ⟨q, i, hq, ht, hF⟩
      cases q with
      | nil => simp [ctx_term_at] at ht
      | cons l1 q1 =>
        have hl : l1 = tld ∧ q1 <+: it := by
          simpa [List.cons_prefix_cons] using hq
        obtain ⟨rfl, hq1⟩ := hl
        exact ⟨q1, i, hq1, ht, hF⟩
    · rintro ⟨q, i, hq, ht, hF⟩
      exact ⟨tld :: q, i, by simpa [List.cons_prefix_cons] using hq, ht, hF⟩
  rw [h1, h2]
  rfl

theorem insert_DomainTree_spec (c : TLD_context_impl_t) (dv : DomainView_t)
    (hc : CtxOK c) (hacc : accepted dv) (hne : dv.labels ≠ []) :
    ∃ c1, insert_DomainTree c dv = some c1 ∧ CtxOK c1 ∧
      (2 ≤ dv.labels.length → (∀ e ∈ c, e.child ≠ nil) → ∀ e ∈ c1, e.child ≠ nil) ∧
      (∀ k, k ∈ c1.map TLD_entry_impl_t.tld ↔
        k ∈ c.map TLD_entry_impl_t.tld ∨ dv.labels.head? = some k) ∧
      (ctx_noop dv (ctx_term_at c) → ∀ p, ctx_term_at c1 p = ctx_term_at c p) ∧
      (¬ ctx_noop dv (ctx_term_at c) → ∀ p, ctx_term_at c1 p =
        if p = dv.labels then some (convert_DomainInfo dv)
        else if dv.match_strength = MATCH_FULL ∧ dv.labels <+: p then none
        else ctx_term_at c p) := by
  obtain ⟨tld, it, hl⟩ : ∃ tld it, dv.labels = tld :: it := by
    cases h : dv.labels with
    | nil => exact absurd h hne
    | cons a b => exact ⟨a, b, rfl⟩
  have hslot : tld_slot (hash_context_insert_tld c tld) tld = tld_slot c tld :=
    tld_slot_insert_tld tld c tld
  obtain ⟨hwf, hkn⟩ := CtxOK_slot c hc tld
  obtain ⟨dt1, hd1, hwf1, hk1, hnn1, hnoop1, hchg1⟩ :=
    insert_descent_spec dv it (tld_slot c tld) hwf
  have hins : insert_DomainTree c dv =
      some (tld_set_slot (hash_context_insert_tld c tld) tld dt1) := by
    unfold insert_DomainTree
    simp only [hacc.1, hacc.2, if_false, hl, insert_below_eq, hslot, hd1]
  have hmem : tld ∈ (hash_context_insert_tld c tld).map TLD_entry_impl_t.tld := by
    rw [tlds_insert_tld]
    split
    · assumption
    · simp
  have hterm : ∀ p, ctx_term_at (tld_set_slot (hash_context_insert_tld c tld) tld dt1) p =
      match p with
      | [] => none
      | k :: q => if k = tld then term_at q dt1 else ctx_term_at c (k :: q) := by
    intro p
    cases p with
    | nil => rfl
    | cons k q =>
      simp only [ctx_term_at]
      rw [tld_slot_set_slot tld dt1 _ k hmem, tld_slot_insert_tld]
      split <;> rfl
  refine ⟨_, hins, ⟨?_, ?_⟩, ?_, ?_, ?_, ?_⟩
  · rw [tlds_set_slot, tlds_insert_tld]
    split
    · exact hc.1
    · rename_i hnm
      exact List.Nodup.append hc.1 (List.nodup_singleton tld) (by simpa using hnm)
  · intro e he
    rcases mem_set_slot _ _ _ e he with h1 | h1
    · rcases mem_insert_tld _ _ e h1 with h2 | h2
      · exact hc.2 e h2
      · rw [h2]; exact ⟨trivial, trivial⟩
    · rw [h1]; exact ⟨hwf1, hk1 hkn⟩
  · intro h2 hall e he
    have hit : it ≠ [] := by
      intro e; rw [hl, e] at h2; simp at h2
    rcases mem_set_slot _ _ _ e he with h1 | h1
    · rcases mem_insert_tld _ _ e h1 with h3 | h3
      · exact hall e h3
      · -- the fresh entry is overwritten by `tld_set_slot`
        exfalso
        have hnil : e.child = nil := by rw [h3]
        have htld : e.tld = tld := by rw [h3]
        clear h1 h3
        -- every entry of the result with label `tld` has the new child
        have key : ∀ (c0 : TLD_context_impl_t) (x : TLD_entry_impl_t),
            (c0.map TLD_entry_impl_t.tld).Nodup → x ∈ tld_set_slot c0 tld dt1 →
            x.tld = tld → x.child = dt1 := by
          intro c0
          induction c0 with
          | nil => intro x _ hx; simp [tld_set_slot] at hx
          | cons e0 rest ih =>
            intro x hnd hx hxt
            simp only [List.map_cons, List.nodup_cons] at hnd
            by_cases h0 : e0.tld = tld
            · simp only [tld_set_slot, h0, if_true, List.mem_cons] at hx
              rcases hx with hx | hx
              · rw [hx]
              · exfalso
                apply hnd.1
                rw [h0, ← hxt]
                exact List.mem_map_of_mem _ hx
            · simp only [tld_set_slot, h0, if_false, List.mem_cons] at hx
              rcases hx with hx | hx
              · rw [hx] at hxt; exact absurd hxt h0
              · exact ih x hnd.2 hx hxt
        have hnd : ((hash_context_insert_tld c tld).map TLD_entry_impl_t.tld).Nodup := by
          rw [tlds_insert_tld]
          split
          · exact hc.1
          · rename_i hnm
            exact List.Nodup.append hc.1 (List.nodup_singleton tld) (by simpa using hnm)
        have := key _ e hnd he htld
        rw [hnil] at this
        exact hnn1 hit this.symm
    · rw [h1]; exact hnn1 hit
  · intro k
    rw [tlds_set_slot, tlds_insert_tld, hl]
    simp only [List.head?_cons, Option.some.injEq]
    split
    · rename_i hin
      constructor
      · intro h; exact Or.inl h
      · rintro (h | h)
        · exact h
        · rw [← h]; exact hin
    · simp only [List.mem_append, List.mem_singleton]
      constructor
      · rintro (h | h)
        · exact Or.inl h
        · exact Or.inr h.symm
      · rintro (h | h)
        · exact Or.inl h
        · exact Or.inr h.symm
  · intro hn p
    have hn1 := hnoop1 ((ctx_noop_iff dv c tld it hl).1 hn)
    rw [hterm p]
    cases p with
    | nil => rfl
    | cons k q =>
      simp only
      split
      · rename_i hk
        rw [hn1, hk]
        rfl
      · rfl
  · intro hn p
    have hc1 := hchg1 (fun e => hn ((ctx_noop_iff dv c tld it hl).2 e))
    rw [hterm p, hl]
    cases p with
    | nil => simp [ctx_term_at]
    | cons k q =>
      simp only
      by_cases hk : k = tld
      · subst hk
        simp only [if_true, hc1 q, List.cons.injEq, true_and, List.cons_prefix_cons, ctx_term_at]
      · have h1 : ¬ (k :: q = tld :: it) := by
          intro e; cases e; exact hk rfl
        have h2 : ¬ (tld :: it <+: k :: q) := by
          intro e
          rw [List.cons_prefix_cons] at e
          exact hk e.1.symm
        simp only [hk, if_false, h1, h2, and_false]

/-! ## The index after a sequence of insertions -/

theorem rank_full_le (s : MatchStrength_t) (h : MATCH_FULL.rank ≤ s.rank) : s = MATCH_FULL := by
  cases s <;> simp [MatchStrength_t.rank] at h ⊢

theorem Covers_skip (D : List Label → Option DomainInfo_t) (rs : List DomainView_t)
    (r : DomainView_t) (hr : ¬ accepted r) (h : Covers D rs) : Covers D (rs ++ [r]) := by
  obtain ⟨h1, h2, h3⟩ := h
  refine ⟨?_, ?_, h3⟩
  · intro d i hd
    obtain ⟨hlen, r0, hr0, hrest⟩ := h1 d i hd
    exact ⟨hlen, r0, by simp [hr0], hrest⟩
  · intro r0 hr0 hacc hlen
    simp only [List.mem_append, List.mem_singleton] at hr0
    rcases hr0 with hr0 | hr0
    · exact h2 r0 hr0 hacc hlen
    · subst hr0; exact absurd hacc hr

theorem Covers_step (D D1 : List Label → Option DomainInfo_t) (rs : List DomainView_t)
    (r : DomainView_t) (hacc : accepted r) (h : Covers D rs)
    (hnoop : ctx_noop r D → ∀ p, D1 p = D p)
    (hchg : ¬ ctx_noop r D → ∀ p, D1 p =
        if p = r.labels then some (convert_DomainInfo r)
        else if r.match_strength = MATCH_FULL ∧ r.labels <+: p then none
        else D p) :
    Covers D1 (rs ++ [r]) := by
  obtain ⟨h1, h2, h3⟩ := h
  by_cases hn : ctx_noop r D
  · have hD : ∀ p, D1 p = D p := hnoop hn
    refine ⟨?_, ?_, ?_⟩
    · intro d i hd
      rw [hD] at hd
      obtain ⟨hlen, r0, hr0, hrest⟩ := h1 d i hd
      exact ⟨hlen, r0, by simp [hr0], hrest⟩
    · intro r0 hr0 hacc0 hlen
      simp only [List.mem_append, List.mem_singleton] at hr0
      rcases hr0 with hr0 | hr0
      · rcases h2 r0 hr0 hacc0 hlen with ⟨q, i, hq, hdq, hF⟩ | ⟨i, hi, hrk⟩
        · exact Or.inl ⟨q, i, hq, by rw [hD]; exact hdq, hF⟩
        · exact Or.inr ⟨i, by rw [hD]; exact hi, hrk⟩
      · subst hr0
        rcases hn with hn | ⟨q, i, hq, hdq, hF⟩ | ⟨i, hi, hrk⟩
        · omega
        · exact Or.inl ⟨q, i, hq, by rw [hD]; exact hdq, hF⟩
        · exact Or.inr ⟨i, by rw [hD]; exact hi, hrk⟩
    · intro d i hd hF p hp hne
      rw [hD] at hd ⊢
      exact h3 d i hd hF p hp hne
  · have hD := hchg hn
    have hlenr : 2 ≤ r.labels.length := by
      by_contra hc
      exact hn (Or.inl (by omega))
    have hnofull : ∀ q i, q <+: r.labels → D q = some i → ¬ i.match_strength = MATCH_FULL :=
      fun q i hq hdq hF => hn (Or.inr (Or.inl ⟨q, i, hq, hdq, hF⟩))
    have hweaker : ∀ i, D r.labels = some i → i.match_strength.rank < r.match_strength.rank := by
      intro i hi
      by_contra hc
      exact hn (Or.inr (Or.inr ⟨i, hi, by omega⟩))
    have hself : D1 r.labels = some (convert_DomainInfo r) := by
      rw [hD]; simp
    refine ⟨?_, ?_, ?_⟩
    · intro d i hd
      rw [hD] at hd
      by_cases hdl : d = r.labels
      · simp only [hdl, if_true, Option.some.injEq] at hd
        exact ⟨by rw [hdl]; exact hlenr, r, by simp, hacc, hdl.symm, hd.symm⟩
      · simp only [hdl, if_false] at hd
        split at hd
        · cases hd
        · obtain ⟨hlen, r0, hr0, hrest⟩ := h1 d i hd
          exact ⟨hlen, r0, by simp [hr0], hrest⟩
    · intro r0 hr0 hacc0 hlen
      simp only [List.mem_append, List.mem_singleton] at hr0
      rcases hr0 with hr0 | hr0
      · by_cases hdom : r.match_strength = MATCH_FULL ∧ r.labels <+: r0.labels
        · exact Or.inl ⟨r.labels, convert_DomainInfo r, hdom.2, hself, hdom.1⟩
        · rcases h2 r0 hr0 hacc0 hlen with ⟨q, i, hq, hdq, hF⟩ | ⟨i, hi, hrk⟩
          · left
            refine ⟨q, i, hq, ?_, hF⟩
            rw [hD]
            have hq1 : ¬ q = r.labels := by
              intro e
              rw [e] at hdq
              exact hnofull r.labels i (List.prefix_refl _) hdq hF
            have hq2 : ¬ (r.match_strength = MATCH_FULL ∧ r.labels <+: q) :=
              fun e => hdom ⟨e.1, e.2.trans hq⟩
            simp only [hq1, hq2, if_false]
            exact hdq
          · by_cases hl0 : r0.labels = r.labels
            · right
              refine ⟨convert_DomainInfo r, by rw [hl0]; exact hself, ?_⟩
              rw [hl0] at hi
              have := hweaker i hi
              simp only [convert_DomainInfo]
              omega
            · right
              refine ⟨i, ?_, hrk⟩
              rw [hD]
              simp only [hl0, hdom, if_false]
              exact hi
      · subst hr0
        exact Or.inr ⟨convert_DomainInfo r0, hself, le_refl _⟩
    · intro d i hd hF p hp hne
      rw [hD] at hd
      by_cases hdl : d = r.labels
      · simp only [hdl, if_true, Option.some.injEq] at hd
        subst hd
        simp only [convert_DomainInfo] at hF
        rw [hD]
        have hp1 : ¬ p = r.labels := fun e => hne (by rw [e, hdl])
        have hp2 : r.labels <+: p := by rw [← hdl]; exact hp
        simp [hp1, hF, hp2]
      · simp only [hdl, if_false] at hd
        split at hd
        · cases hd
        · rename_i hnd
          rw [hD]
          by_cases hpl : p = r.labels
          · exfalso
            rw [hpl] at hp
            exact hnofull d i hp hd hF
          · simp only [hpl, if_false]
            split
            · rfl
            · exact h3 d i hd hF p hp hne

theorem insert_all_append (rs : List DomainView_t) : ∀ (c : TLD_context_impl_t)
    (r : DomainView_t),
    insert_all c (rs ++ [r]) = (insert_all c rs).bind (fun c1 => insert_DomainTree c1 r) := by
  induction rs with
  | nil =>
    intro c r
    simp only [List.nil_append, insert_all, Option.some_bind]
    cases insert_DomainTree c r <;> rfl
  | cons r0 rest ih =>
    intro c r
    simp only [List.cons_append, insert_all]
    cases insert_DomainTree c r0 with
    | none => rfl
    | some c1 => exact ih c1 r

/-- The index after inserting the views `rs` (none without a label) into the empty index:
it exists, satisfies the invariants, its terminal nodes are tied to `rs` by `Covers`,
its TLD labels are the first labels of the accepted views, and no subtree slot is
empty when every view has at least two labels. -/
theorem insert_all_spec (rs : List DomainView_t) (hne : ∀ r ∈ rs, r.labels ≠ []) :
    ∃ c, insert_all [] rs = some c ∧ CtxOK c ∧ Covers (ctx_term_at c) rs ∧
      (∀ k, k ∈ c.map TLD_entry_impl_t.tld ↔ ∃ r ∈ rs, accepted r ∧ r.labels.head? = some k) ∧
      ((∀ r ∈ rs, 2 ≤ r.labels.length) → ∀ e ∈ c, e.child ≠ nil) := by
  induction rs using List.reverseRecOn with
  | nil =>
    refine ⟨[], rfl, ⟨by simp, by simp⟩, ⟨?_, ?_, ?_⟩, by simp, by simp⟩
    · intro d i hd
      cases d <;> simp [ctx_term_at, tld_slot, term_at_nil] at hd
    · intro r hr; simp at hr
    · intro d i hd
      cases d <;> simp [ctx_term_at, tld_slot, term_at_nil] at hd
  | append_singleton rs r ih =>
    obtain ⟨c, hc, hok, hcov, hk, hnn⟩ := ih (fun r0 h0 => hne r0 (by simp [h0]))
    rw [insert_all_append, hc]
    simp only [Option.some_bind]
    by_cases hacc : accepted r
    · obtain ⟨c1, hc1, hok1, hnn1, hk1, hnoop, hchg⟩ :=
        insert_DomainTree_spec c r hok hacc (hne r (by simp))
      refine ⟨c1, hc1, hok1, Covers_step _ _ rs r hacc hcov hnoop hchg, ?_, ?_⟩
      · intro k
        rw [hk1, hk]
        constructor
        · rintro (⟨r0, hr0, h0⟩ | h)
          · exact ⟨r0, by simp [hr0], h0⟩
          · exact ⟨r, by simp, hacc, h⟩
        · rintro ⟨r0, hr0, h0⟩
          simp only [List.mem_append, List.mem_singleton] at hr0
          rcases hr0 with hr0 | hr0
          · exact Or.inl ⟨r0, hr0, h0⟩
          · subst hr0; exact Or.inr h0.2
      · intro hall
        exact hnn1 (hall r (by simp)) (hnn (fun r0 h0 => hall r0 (by simp [h0])))
    · have hsame : insert_DomainTree c r = some c := by
        unfold insert_DomainTree
        unfold accepted at hacc
        by_cases h1 : r.match_strength = MATCH_NOTSET
        · simp [h1]
        · have h2 : r.match_strength = MATCH_BOGUS := by
            by_contra h2; exact hacc ⟨h1, h2⟩
          simp [h2]
      refine ⟨c, hsame, hok, Covers_skip _ rs r hacc hcov, ?_, ?_⟩
      · intro k
        rw [hk]
        constructor
        · rintro ⟨r0, hr0, h0⟩
          exact ⟨r0, by simp [hr0], h0⟩
        · rintro ⟨r0, hr0, h0⟩
          simp only [List.mem_append, List.mem_singleton] at hr0
          rcases hr0 with hr0 | hr0
          · exact ⟨r0, hr0, h0⟩
          · subst hr0; exact absurd h0.1 hacc
      · intro hall
        exact hnn (fun r0 h0 => hall r0 (by simp [h0]))

/-! ## Emission: `transfer_DomainInfo` -/

theorem block_le_iff {α : Type} (a b : Label × α) : block_le a b ↔ a.1 ≤ b.1 := by
  unfold block_le
  have h := sort_by_tld_spec a.1 b.1
  rw [show (sort_by_tld a.1 b.1 ≤ 0) ↔ (sort_by_tld a.1 b.1 < 0 ∨ sort_by_tld a.1 b.1 = 0)
    from Int.le_iff_lt_or_eq, h.1, h.2.1]
  exact le_iff_lt_or_eq.symm

theorem block_le_total {α : Type} : IsTotal (Label × α) block_le :=
  ⟨fun a b => by
    rw [block_le_iff, block_le_iff]
    exact le_total a.1 b.1⟩

theorem block_le_trans {α : Type} : IsTrans (Label × α) block_le :=
  ⟨fun a b c => by
    rw [block_le_iff, block_le_iff, block_le_iff]
    exact le_trans⟩

theorem transfer_blocks_dom_keys (pfx : List Label) : ∀ t : DomainTree_t,
    (transfer_blocks_dom pfx t).map Prod.fst = keys t := by
  intro t
  induction t with
  | nil => rfl
  | node tld di child next _ ih => simp [transfer_blocks_dom, keys, ih]

theorem transfer_blocks_eq : ∀ (t : DomainTree_t) (pfx : List Label),
    transfer_blocks t =
      (transfer_blocks_dom pfx t).map (fun b => (b.1, b.2.map Prod.snd)) := by
  intro t
  induction t with
  | nil => intro pfx; rfl
  | node tld di child next ih1 ih2 =>
    intro pfx
    simp only [transfer_blocks, transfer_blocks_dom, List.map_cons, List.map_append,
      List.map_map]
    rw [← ih2 pfx, ih1 (pfx ++ [tld])]
    congr 1
    congr 1
    · congr 1
      · rw [← List.map_insertionSort (r := block_le) (s := block_le)]
        · simp only [List.map_flatten, List.map_map]
          congr 1
        · intro a _ b _
          rfl
      · cases di <;> simp

/-- The sequence of `transfer_DomainInfo` is the sequence of `transfer_dom` without
the domains. -/
theorem transfer_DomainInfo_eq (t : DomainTree_t) (pfx : List Label) :
    transfer_DomainInfo t = (transfer_dom pfx t).map Prod.snd := by
  unfold transfer_DomainInfo transfer_dom
  rw [transfer_blocks_eq t pfx, ← List.map_insertionSort (r := block_le) (s := block_le)]
  · simp only [List.map_flatten, List.map_map]
    congr 1
  · intro a _ b _
    rfl

theorem transfer_blocks_dom_perm : ∀ (t : DomainTree_t) (pfx : List Label),
    ((transfer_blocks_dom pfx t).map Prod.snd).flatten.Perm (terminals pfx t) := by
  intro t
  induction t with
  | nil => intro pfx; exact List.Perm.refl _
  | node tld di child next ih1 ih2 =>
    intro pfx
    simp only [transfer_blocks_dom, List.map_cons, List.flatten_cons, terminals]
    refine List.Perm.append (List.Perm.append ?_ (List.Perm.refl _)) (ih2 pfx)
    exact (((List.perm_insertionSort block_le _).map Prod.snd).flatten).trans
      (ih1 (pfx ++ [tld]))

/-- `transfer_DomainInfo` hands every terminal node of the table to the collector
exactly once. -/
theorem transfer_dom_perm (t : DomainTree_t) (pfx : List Label) :
    (transfer_dom pfx t).Perm (terminals pfx t) :=
  (((List.perm_insertionSort block_le _).map Prod.snd).flatten).trans
    (transfer_blocks_dom_perm t pfx)

theorem mem_terminals_iff : ∀ (t : DomainTree_t) (pfx : List Label), KeysNodup t →
    ∀ p i, (p, i) ∈ terminals pfx t ↔ ∃ q, p = pfx ++ q ∧ term_at q t = some i := by
  intro t
  induction t with
  | nil =>
    intro pfx _ p i
    simp [terminals, term_at_nil]
  | node tld di child next ih1 ih2 =>
    intro pfx hk p i
    simp only [KeysNodup] at hk
    simp only [terminals, List.mem_append, List.mem_map, Option.mem_toList, Option.mem_def,
      Prod.mk.injEq]
    rw [ih1 (pfx ++ [tld]) hk.2.1, ih2 pfx hk.2.2]
    have hnone : HASH_FIND next tld = none := (HASH_FIND_none_iff tld next).2 hk.1
    constructor
    · rintro ((⟨q, hq, ht⟩ | ⟨i0, hi0, hp, hi⟩) | ⟨q, hq, ht⟩)
      · have hq0 : q ≠ [] := by
          intro e; subst e; simp [term_at] at ht
        refine ⟨tld :: q, by simp [hq], ?_⟩
        rw [term_at_cons]
        simp [HASH_FIND, hq0, ht]
      · subst hi
        refine ⟨[tld], hp.symm, ?_⟩
        simp [term_at, HASH_FIND, hi0]
      · refine ⟨q, hq, ?_⟩
        cases q with
        | nil => simp [term_at] at ht
        | cons l q1 =>
          rw [term_at_cons] at ht ⊢
          by_cases hl : tld = l
          · subst hl
            rw [hnone] at ht
            cases ht
          · simp only [HASH_FIND, hl, if_false]
            exact ht
    · rintro ⟨q, hq, ht⟩
      cases q with
      | nil => simp [term_at] at ht
      | cons l q1 =>
        rw [term_at_cons] at ht
        by_cases hl : tld = l
        · subst hl
          simp only [HASH_FIND, if_true] at ht
          by_cases hq1 : q1 = []
          · subst hq1
            simp only [if_true] at ht
            exact Or.inl (Or.inr ⟨i, ht, hq.symm, rfl⟩)
          · simp only [hq1, if_false] at ht
            exact Or.inl (Or.inl ⟨q1, by simp [hq], ht⟩)
        · simp only [HASH_FIND, hl, if_false] at ht
          refine Or.inr ⟨l :: q1, hq, ?_⟩
          rw [term_at_cons]
          exact ht

theorem keys_nodup_of_KeysNodup : ∀ t : DomainTree_t, KeysNodup t → (keys t).Nodup := by
  intro t
  induction t with
  | nil => intro _; simp [keys]
  | node tld di child next _ ih =>
    intro h
    simp only [KeysNodup] at h
    simp only [keys, List.nodup_cons]
    exact ⟨h.1, ih h.2.2⟩

/-- Blocks with distinct labels whose items lie below `pfx ++ [label]` and are in emission
order: laid out by increasing label they are in emission order as a whole. -/
theorem sorted_blocks_flatten (pfx : List Label)
    (Bs : List (Label × List (List Label × DomainInfo_t)))
    (hnd : (Bs.map Prod.fst).Nodup)
    (hpre : ∀ b ∈ Bs, ∀ x ∈ b.2, ∃ q, x.1 = pfx ++ b.1 :: q)
    (hpw : ∀ b ∈ Bs, b.2.Pairwise (fun x y => post_lt x.1 y.1)) :
    ((List.insertionSort block_le Bs).map Prod.snd).flatten.Pairwise
      (fun x y => post_lt x.1 y.1) := by
  haveI := @block_le_total (List (List Label × DomainInfo_t))
  haveI := @block_le_trans (List (List Label × DomainInfo_t))
  have hs : (List.insertionSort block_le Bs).Pairwise block_le :=
    List.sorted_insertionSort block_le Bs
  have hperm := List.perm_insertionSort block_le Bs
  have hnd1 : ((List.insertionSort block_le Bs).map Prod.fst).Nodup :=
    (hperm.map Prod.fst).nodup_iff.2 hnd
  have hne : (List.insertionSort block_le Bs).Pairwise (fun a b => a.1 ≠ b.1) :=
    List.pairwise_map.1 hnd1
  have hlt : (List.insertionSort block_le Bs).Pairwise (fun a b => a.1 < b.1) :=
    (hs.and hne).imp (fun h => lt_of_le_of_ne ((block_le_iff _ _).1 h.1) h.2)
  rw [List.pairwise_flatten]
  constructor
  · intro l hl
    rw [List.mem_map] at hl
    obtain ⟨b, hb, rfl⟩ := hl
    exact hpw b (hperm.mem_iff.1 hb)
  · rw [List.pairwise_map]
    refine hlt.imp_of_mem ?_
    intro a b ha hb hab x hx y hy
    obtain ⟨q, hq⟩ := hpre a (hperm.mem_iff.1 ha) x hx
    obtain ⟨q1, hq1⟩ := hpre b (hperm.mem_iff.1 hb) y hy
    exact Or.inl ⟨pfx, a.1, b.1, q, q1, hq, hq1, hab⟩

theorem transfer_blocks_dom_props : ∀ (t : DomainTree_t) (pfx : List Label), KeysNodup t →
    ∀ b ∈ transfer_blocks_dom pfx t,
      (∀ x ∈ b.2, ∃ q, x.1 = pfx ++ b.1 :: q) ∧
      b.2.Pairwise (fun x y => post_lt x.1 y.1) := by
  intro t
  induction t with
  | nil => intro pfx _ b hb; simp [transfer_blocks_dom] at hb
  | node tld di child next ih1 ih2 =>
    intro pfx hk b hb
    simp only [KeysNodup] at hk
    simp only [transfer_blocks_dom, List.mem_cons] at hb
    rcases hb with hb | hb
    · have hchild : ∀ x ∈ ((List.insertionSort block_le
            (transfer_blocks_dom (pfx ++ [tld]) child)).map Prod.snd).flatten,
          ∃ q, x.1 = pfx ++ tld :: q ∧ q ≠ [] := by
        intro x hx
        rw [List.mem_flatten] at hx
        obtain ⟨l, hl, hxl⟩ := hx
        rw [List.mem_map] at hl
        obtain ⟨b1, hb1, rfl⟩ := hl
        rw [List.mem_insertionSort] at hb1
        obtain ⟨q, hq⟩ := (ih1 (pfx ++ [tld]) hk.2.1 b1 hb1).1 x hxl
        exact ⟨b1.1 :: q, by simp [hq], by simp⟩
      subst hb
      constructor
      · intro x hx
        simp only [List.mem_append, List.mem_map, Option.mem_toList, Option.mem_def] at hx
        rcases hx with hx | ⟨i, _, hi⟩
        · obtain ⟨q, hq, _⟩ := hchild x hx
          exact ⟨q, hq⟩
        · exact ⟨[], by rw [← hi]⟩
      · rw [List.pairwise_append]
        refine ⟨?_, ?_, ?_⟩
        · apply sorted_blocks_flatten (pfx ++ [tld])
          · rw [transfer_blocks_dom_keys]
            exact keys_nodup_of_KeysNodup child hk.2.1
          · intro b1 hb1
            exact (ih1 (pfx ++ [tld]) hk.2.1 b1 hb1).1
          · intro b1 hb1
            exact (ih1 (pfx ++ [tld]) hk.2.1 b1 hb1).2
        · cases di <;> simp
        · intro x hx y hy
          simp only [List.mem_map, Option.mem_toList, Option.mem_def] at hy
          obtain ⟨i, _, hi⟩ := hy
          obtain ⟨q, hq, hq0⟩ := hchild x hx
          right
          rw [← hi, hq]
          constructor
          · exact ⟨q, by simp⟩
          · intro e
            have := congrArg List.length e
            simp only [List.length_append, List.length_cons, List.length_nil] at this
            have : q.length = 0 := by omega
            exact hq0 (List.length_eq_zero.1 this)
    · exact ih2 pfx hk.2.2 b hb

/-- The sequence of `transfer_DomainInfo` is in emission order. -/
theorem transfer_dom_sorted (t : DomainTree_t) (pfx : List Label) (hk : KeysNodup t) :
    (transfer_dom pfx t).Pairwise (fun x y => post_lt x.1 y.1) := by
  apply sorted_blocks_flatten pfx
  · rw [transfer_blocks_dom_keys]
    exact keys_nodup_of_KeysNodup t hk
  · intro b hb
    exact (transfer_blocks_dom_props t pfx hk b hb).1
  · intro b hb
    exact (transfer_blocks_dom_props t pfx hk b hb).2

theorem transfer_dom_prefix (t : DomainTree_t) (pfx : List Label) (hk : KeysNodup t) :
    ∀ x ∈ transfer_dom pfx t, ∃ l q, x.1 = pfx ++ l :: q := by
  intro x hx
  unfold transfer_dom at hx
  rw [List.mem_flatten] at hx
  obtain ⟨l, hl, hxl⟩ := hx
  rw [List.mem_map] at hl
  obtain ⟨b1, hb1, rfl⟩ := hl
  rw [List.mem_insertionSort] at hb1
  obtain ⟨q, hq⟩ := (transfer_blocks_dom_props t pfx hk b1 hb1).1 x hxl
  exact ⟨b1.1, q, hq⟩

/-! ## Emission: `pfb_consolidate` -/

theorem sort_TLD_entry_by_tld_eq (a b : Label) (ha : a.length < 2147483648)
    (hb : b.length < 2147483648) : sort_TLD_entry_by_tld a b = sort_by_tld a b := by
  unfold sort_TLD_entry_by_tld sort_by_tld
  have : uint_to_int (a.length % 4294967296 + 4294967296 - b.length % 4294967296) =
      (a.length : Int) - (b.length : Int) := by
    unfold uint_to_int
    have h1 : a.length % 4294967296 = a.length := Nat.mod_eq_of_lt (by omega)
    have h2 : b.length % 4294967296 = b.length := Nat.mod_eq_of_lt (by omega)
    rw [h1, h2]
    by_cases hle : b.length ≤ a.length
    · have h3 : (a.length + 4294967296 - b.length) % 4294967296 = a.length - b.length := by
        omega
      rw [h3]
      have h4 : a.length - b.length < 2147483648 := by omega
      simp only [h4, if_true]
      omega
    · have h3 : (a.length + 4294967296 - b.length) % 4294967296 =
          a.length + 4294967296 - b.length := by
        omega
      rw [h3]
      have h4 : ¬ a.length + 4294967296 - b.length < 2147483648 := by omega
      simp only [h4, if_false]
      omega
  simp only [this]

theorem consolidate_loop_dom_sublist : ∀ l : List TLD_entry_impl_t,
    List.Sublist (consolidate_loop_dom l)
      (l.map fun e => transfer_dom [e.tld] e.child).flatten := by
  intro l
  induction l with
  | nil => exact List.Sublist.refl _
  | cons e rest ih =>
    simp only [consolidate_loop_dom, List.map_cons, List.flatten_cons]
    split
    · exact List.nil_sublist _
    · exact List.Sublist.append (List.Sublist.refl _) ih

theorem consolidate_loop_dom_full : ∀ l : List TLD_entry_impl_t,
    (∀ e ∈ l, e.child ≠ nil) →
    consolidate_loop_dom l = (l.map fun e => transfer_dom [e.tld] e.child).flatten := by
  intro l
  induction l with
  | nil => intro _; rfl
  | cons e rest ih =>
    intro h
    simp only [consolidate_loop_dom, List.map_cons, List.flatten_cons]
    rw [if_neg (h e (by simp)), ih (fun e1 h1 => h e1 (by simp [h1]))]

theorem consolidate_loop_eq : ∀ l : List TLD_entry_impl_t,
    consolidate_loop l = (consolidate_loop_dom l).map Prod.snd := by
  intro l
  induction l with
  | nil => rfl
  | cons e rest ih =>
    simp only [consolidate_loop, consolidate_loop_dom]
    split
    · rfl
    · rw [List.map_append, ih, transfer_DomainInfo_eq e.child [e.tld]]

/-- The infos `pfb_consolidate` hands to the collector are those of `consolidate_dom`, in
the same order. -/
theorem consolidate_emitted_eq (c : TLD_context_impl_t) :
    consolidate_emitted c = (consolidate_dom c).map Prod.snd := by
  unfold consolidate_emitted pfb_consolidate consolidate_dom
  cases h : hash_context_sort_entries c with
  | nil => rfl
  | cons e rest => simp [consolidate_loop_eq]

theorem pfb_consolidate_isSome (c : TLD_context_impl_t) (h : c ≠ []) :
    ∃ out, pfb_consolidate c = some out := by
  unfold pfb_consolidate
  cases hs : hash_context_sort_entries c with
  | nil =>
    exfalso
    have := List.length_insertionSort tld_entry_le c
    unfold hash_context_sort_entries at hs
    rw [hs] at this
    exact h (List.length_eq_zero.1 this.symm)
  | cons e rest => exact ⟨_, rfl⟩

theorem tld_slot_of_mem : ∀ (c : TLD_context_impl_t), (c.map TLD_entry_impl_t.tld).Nodup →
    ∀ e ∈ c, tld_slot c e.tld = e.child := by
  intro c
  induction c with
  | nil => intro _ e he; simp at he
  | cons e0 rest ih =>
    intro hnd e he
    simp only [List.map_cons, List.nodup_cons] at hnd
    simp only [List.mem_cons] at he
    rcases he with he | he
    · subst he; simp [tld_slot]
    · have : ¬ e0.tld = e.tld := by
        intro h
        apply hnd.1
        rw [h]
        exact List.mem_map_of_mem _ he
      simp only [tld_slot, this, if_false]
      exact ih hnd.2 e he

theorem mem_ctx_terminals_iff (c : TLD_context_impl_t) (hc : CtxOK c) (p : List Label)
    (i : DomainInfo_t) : (p, i) ∈ ctx_terminals c ↔ ctx_term_at c p = some i := by
  unfold ctx_terminals
  simp only [List.mem_flatten, List.mem_map]
  constructor
  · rintro ⟨l, ⟨e, he, rfl⟩, hpi⟩
    rw [mem_terminals_iff e.child [e.tld] (hc.2 e he).2] at hpi
    obtain ⟨q, hq, ht⟩ := hpi
    subst hq
    simp only [List.singleton_append, ctx_term_at]
    rw [tld_slot_of_mem c hc.1 e he]
    exact ht
  · intro h
    cases p with
    | nil => simp [ctx_term_at] at h
    | cons k q =>
      simp only [ctx_term_at] at h
      rcases tld_slot_mem k c with h1 | ⟨e, he, hek, hchild⟩
      · rw [h1, term_at_nil] at h; cases h
      · refine ⟨_, ⟨e, he, rfl⟩, ?_⟩
        rw [mem_terminals_iff e.child [e.tld] (hc.2 e he).2]
        exact ⟨q, by simp [hek], by rw [hchild]; exact h⟩

theorem full_perm_ctx_terminals (c : TLD_context_impl_t) :
    ((hash_context_sort_entries c).map fun e => transfer_dom [e.tld] e.child).flatten.Perm
      (ctx_terminals c) := by
  unfold ctx_terminals hash_context_sort_entries
  refine (((List.perm_insertionSort tld_entry_le c).map _).flatten).trans ?_
  induction c with
  | nil => exact List.Perm.refl _
  | cons e rest ih =>
    simp only [List.map_cons, List.flatten_cons]
    exact List.Perm.append (transfer_dom_perm e.child [e.tld]) ih

/-- Everything `pfb_consolidate` emits is a terminal node of the index. -/
theorem consolidate_dom_subperm (c : TLD_context_impl_t) :
    List.Subperm (consolidate_dom c) (ctx_terminals c) :=
  (consolidate_loop_dom_sublist _).subperm.trans (full_perm_ctx_terminals c).subperm

/-- When no subtree slot is empty, `pfb_consolidate` emits every terminal node of the
index exactly once. -/
theorem consolidate_dom_perm (c : TLD_context_impl_t) (h : ∀ e ∈ c, e.child ≠ nil) :
    (consolidate_dom c).Perm (ctx_terminals c) := by
  unfold consolidate_dom
  rw [consolidate_loop_dom_full]
  · exact full_perm_ctx_terminals c
  · intro e he
    unfold hash_context_sort_entries at he
    rw [List.mem_insertionSort] at he
    exact h e he

/-- The sequence of `pfb_consolidate` is in emission order. -/
theorem consolidate_dom_sorted (c : TLD_context_impl_t) (hc : CtxOK c)
    (hlen : ∀ e ∈ c, e.tld.length < 2147483648) :
    (consolidate_dom c).Pairwise (fun x y => post_lt x.1 y.1) := by
  unfold consolidate_dom
  refine List.Pairwise.sublist (consolidate_loop_dom_sublist _) ?_
  have hmap : (hash_context_sort_entries c).map
        (fun e => (e.tld, transfer_dom [e.tld] e.child)) =
      List.insertionSort block_le (c.map fun e => (e.tld, transfer_dom [e.tld] e.child)) := by
    unfold hash_context_sort_entries
    apply List.map_insertionSort
    intro a ha b hb
    unfold tld_entry_le block_le
    rw [sort_TLD_entry_by_tld_eq a.tld b.tld (hlen a ha) (hlen b hb)]
  have hfl : ((hash_context_sort_entries c).map fun e => transfer_dom [e.tld] e.child) =
      ((hash_context_sort_entries c).map
        (fun e => (e.tld, transfer_dom [e.tld] e.child))).map Prod.snd := by
    rw [List.map_map]
    rfl
  rw [hfl, hmap]
  apply sorted_blocks_flatten []
  · rw [List.map_map]
    exact hc.1
  · intro b hb x hx
    rw [List.mem_map] at hb
    obtain ⟨e, he, rfl⟩ := hb
    obtain ⟨l, q, hq⟩ := transfer_dom_prefix e.child [e.tld] (hc.2 e he).2 x hx
    exact ⟨l :: q, by simpa using hq⟩
  · intro b hb
    rw [List.mem_map] at hb
    obtain ⟨e, he, rfl⟩ := hb
    exact transfer_dom_sorted e.child [e.tld] (hc.2 e he).2

/-! ## The order of emission -/

theorem lex_lt_nil_left (q : List Label) : ¬ lex_lt [] q := by
  rintro ⟨c, a, b, p1, q1, h, _, _⟩
  cases c <;> simp at h

theorem lex_lt_nil_right (p : List Label) : ¬ lex_lt p [] := by
  rintro ⟨c, a, b, p1, q1, _, h, _⟩
  cases c <;> simp at h

theorem lex_lt_cons_cons (a b : Label) (p q : List Label) :
    lex_lt (a :: p) (b :: q) ↔ a < b ∨ (a = b ∧ lex_lt p q) := by
  constructor
  · rintro ⟨c, x, y, p1, q1, hp, hq, hxy⟩
    cases c with
    | nil =>
      simp only [List.nil_append, List.cons.injEq] at hp hq
      left
      rw [hp.1, hq.1]
      exact hxy
    | cons c0 c1 =>
      simp only [List.cons_append, List.cons.injEq] at hp hq
      right
      exact ⟨by rw [hp.1, hq.1], c1, x, y, p1, q1, hp.2, hq.2, hxy⟩
  · rintro (h | ⟨rfl, c, x, y, p1, q1, hp, hq, hxy⟩)
    · exact ⟨[], a, b, p, q, rfl, rfl, h⟩
    · exact ⟨a :: c, x, y, p1, q1, by simp [hp], by simp [hq], hxy⟩

theorem post_lt_nil_left (q : List Label) : ¬ post_lt [] q := by
  rintro (h | ⟨h1, h2⟩)
  · exact lex_lt_nil_left q h
  · apply h2
    exact List.prefix_nil.1 h1

theorem post_lt_cons_cons (a b : Label) (p q : List Label) :
    post_lt (a :: p) (b :: q) ↔ a < b ∨ (a = b ∧ post_lt p q) := by
  unfold post_lt
  rw [lex_lt_cons_cons, List.cons_prefix_cons]
  constructor
  · rintro ((h | ⟨h1, h2⟩) | ⟨⟨h1, h2⟩, h3⟩)
    · exact Or.inl h
    · exact Or.inr ⟨h1, Or.inl h2⟩
    · refine Or.inr ⟨h1.symm, Or.inr ⟨h2, ?_⟩⟩
      intro e
      apply h3
      rw [h1, e]
  · rintro (h | ⟨h1, h2 | ⟨h2, h3⟩⟩)
    · exact Or.inl (Or.inl h)
    · exact Or.inl (Or.inr ⟨h1, h2⟩)
    · refine Or.inr ⟨⟨h1.symm, h2⟩, ?_⟩
      intro e
      apply h3
      simp only [List.cons.injEq] at e
      exact e.2

theorem post_lt_asymm : ∀ (p q : List Label), post_lt p q → post_lt q p → False := by
  intro p
  induction p with
  | nil => intro q h _; exact post_lt_nil_left q h
  | cons a p ih =>
    intro q h1 h2
    cases q with
    | nil => exact post_lt_nil_left _ h2
    | cons b q =>
      rw [post_lt_cons_cons] at h1 h2
      rcases h1 with h1 | ⟨h1, h1p⟩
      · rcases h2 with h2 | ⟨h2, _⟩
        · exact lt_asymm h1 h2
        · rw [h2] at h1; exact lt_irrefl _ h1
      · rcases h2 with h2 | ⟨_, h2p⟩
        · rw [h1] at h2; exact lt_irrefl _ h2
        · exact ih q h1p h2p

/-- Two lists in emission order (by the first component) with the same elements are
equal. -/
theorem emission_unique {β : Type} (l1 l2 : List (List Label × β))
    (h1 : l1.Pairwise (fun x y => post_lt x.1 y.1))
    (h2 : l2.Pairwise (fun x y => post_lt x.1 y.1))
    (hmem : ∀ x, x ∈ l1 ↔ x ∈ l2) : l1 = l2 := by
  haveI : IsAntisymm (List Label × β) (fun x y => post_lt x.1 y.1) :=
    ⟨fun a b hab hba => (post_lt_asymm _ _ hab hba).elim⟩
  have hne : ∀ (x y : List Label × β), post_lt x.1 y.1 → x ≠ y := by
    intro x y hxy e
    rw [e] at hxy
    exact post_lt_asymm _ _ hxy hxy
  have hn1 : l1.Nodup := h1.imp (fun h => hne _ _ h)
  have hn2 : l2.Nodup := h2.imp (fun h => hne _ _ h)
  exact List.eq_of_perm_of_sorted ((List.perm_ext_iff_of_nodup hn1 hn2).2 hmem) h1 h2

theorem compare_dv_loop_lt_iff (n m : Nat) : ∀ (p q : List Label) (c : Int),
    c ≠ dv_A_lt_dv_B_write_A →
    (compare_dv_loop n m p q c = dv_A_lt_dv_B_write_A ↔ lex_lt p q) := by
  intro p
  induction p with
  | nil =>
    intro q c hc
    simp only [compare_dv_loop]
    exact ⟨fun h => absurd h hc, fun h => absurd h (lex_lt_nil_left q)⟩
  | cons a p ih =>
    intro q c hc
    cases q with
    | nil =>
      simp only [compare_dv_loop]
      exact ⟨fun h => absurd h hc, fun h => absurd h (lex_lt_nil_right _)⟩
    | cons b q =>
      rw [compare_dv_loop_cons, lex_lt_cons_cons]
      have hs := sort_by_tld_spec a b
      by_cases h0 : sort_by_tld a b = 0
      · have hab : a = b := hs.2.1.1 h0
        subst hab
        simp only [h0, if_true, lt_irrefl, false_or, true_and]
        apply ih
        unfold dv_A_lt_dv_B_write_A dv_A_eq_dv_B dv_A_blk_dv_B dv_B_blk_dv_A
        split
        · decide
        · split <;> decide
      · have hab : ¬ a = b := fun e => h0 (hs.2.1.2 e)
        simp only [h0, if_false, hab, false_and, or_false]
        by_cases hlt : sort_by_tld a b < 0
        · simp only [hlt, if_true, true_iff]
          exact hs.1.1 hlt
        · simp only [hlt, if_false]
          constructor
          · intro h
            unfold dv_A_gt_dv_B_write_B dv_A_lt_dv_B_write_A at h
            exact absurd h (by decide)
          · intro h
            exact absurd (hs.1.2 h) hlt

/-- `compare_dv` yields `A<B` exactly when A precedes B at their first difference. -/
theorem compare_dv_lt_iff (dv_A dv_B : DomainView_t) :
    compare_dv dv_A dv_B = dv_A_lt_dv_B_write_A ↔ lex_lt dv_A.labels dv_B.labels := by
  unfold compare_dv
  apply compare_dv_loop_lt_iff
  unfold dv_A_lt_dv_B_write_A
  decide

theorem rank_injective (a b : MatchStrength_t) (h : a.rank = b.rank) : a = b := by
  cases a <;> cases b <;> simp [MatchStrength_t.rank] at h ⊢

theorem accepted_of_full (r : DomainView_t) (h : r.match_strength = MATCH_FULL) :
    accepted r := by
  unfold accepted
  rw [h]
  exact ⟨by decide, by decide⟩

/-! ## Deduplication: the emitted set -/

/-- Inserting views with at least two labels each and consolidating: the index exists,
and a rule is emitted for a domain exactly when that domain has a terminal node. -/
theorem dedup_members (rs : List DomainView_t) (h2 : ∀ r ∈ rs, 2 ≤ r.labels.length) :
    ∃ c, insert_all [] rs = some c ∧ CtxOK c ∧ Covers (ctx_term_at c) rs ∧
      (∀ e ∈ c, e.child ≠ nil) ∧
      (∀ k, k ∈ c.map TLD_entry_impl_t.tld ↔ ∃ r ∈ rs, accepted r ∧ r.labels.head? = some k) ∧
      ∀ d i, (d, i) ∈ consolidate_dom c ↔ ctx_term_at c d = some i := by
  have hne : ∀ r ∈ rs, r.labels ≠ [] := by
    intro r hr e
    have := h2 r hr
    rw [e] at this
    simp at this
  obtain ⟨c, hc, hok, hcov, hk, hnn⟩ := insert_all_spec rs hne
  refine ⟨c, hc, hok, hcov, hnn h2, hk, ?_⟩
  intro d i
  rw [(consolidate_dom_perm c (hnn h2)).mem_iff, mem_ctx_terminals_iff c hok]

/-- A terminal node below a `MATCH_FULL` rule's domain does not exist once that rule
has been inserted. -/
theorem Covers_dominated (D : List Label → Option DomainInfo_t) (rs : List DomainView_t)
    (hcov : Covers D rs) (r : DomainView_t) (hr : r ∈ rs)
    (hF : r.match_strength = MATCH_FULL) (hlen : 2 ≤ r.labels.length)
    (d : List Label) (hpre : r.labels <+: d) (hne : r.labels ≠ d) : D d = none := by
  obtain ⟨_, h2, h3⟩ := hcov
  rcases h2 r hr (accepted_of_full r hF) hlen with ⟨q, i, hq, hdq, hiF⟩ | ⟨i, hi, hrk⟩
  · apply h3 q i hdq hiF d (hq.trans hpre)
    intro e
    apply hne
    exact List.IsPrefix.eq_of_length_le hpre (by rw [e]; exact hq.length_le)
  · rw [hF] at hrk
    exact h3 r.labels i hi (rank_full_le _ hrk) d hpre (fun e => hne e.symm)

/-- C1. Minimal-set dedup: for every list of `MATCH_FULL` views with at least two labels
each, inserting them all into the empty index succeeds, consolidating does not fail
when the list is not empty, and a rule is emitted for the domain `d` if and only if
`d` is the domain of an input view and no input domain is a proper prefix of `d` in
the TLD-first label order (a proper suffix of the dotted name at a label boundary). -/
theorem minimal_set_dedup (rs : List DomainView_t)
    (hfull : ∀ r ∈ rs, r.match_strength = MATCH_FULL)
    (h2 : ∀ r ∈ rs, 2 ≤ r.labels.length) :
    ∃ c, insert_all [] rs = some c ∧
      (rs ≠ [] → ∃ out, pfb_consolidate c = some out) ∧
      consolidate_emitted c = (consolidate_dom c).map Prod.snd ∧
      ∀ d, (∃ i, (d, i) ∈ consolidate_dom c) ↔
        ((∃ r ∈ rs, r.labels = d) ∧ ¬ ∃ r ∈ rs, r.labels <+: d ∧ r.labels ≠ d) := by
  obtain ⟨c, hc, hok, hcov, hnn, hk, hmem⟩ := dedup_members rs h2
  refine ⟨c, hc, ?_, consolidate_emitted_eq c, ?_⟩
  · intro hrs
    apply pfb_consolidate_isSome
    intro e
    cases rs with
    | nil => exact hrs rfl
    | cons r rest =>
      have hl := h2 r (by simp)
      cases hlab : r.labels with
      | nil => rw [hlab] at hl; simp at hl
      | cons k it =>
        have : k ∈ c.map TLD_entry_impl_t.tld :=
          (hk k).2 ⟨r, by simp, accepted_of_full r (hfull r (by simp)), by simp [hlab]⟩
        rw [e] at this
        simp at this
  · intro d
    constructor
    · rintro ⟨i, hi⟩
      rw [hmem] at hi
      obtain ⟨_, r, hr, _, hrl, _⟩ := hcov.1 d i hi
      refine ⟨⟨r, hr, hrl⟩, ?_⟩
      rintro ⟨r1, hr1, hpre, hne⟩
      have := Covers_dominated _ rs hcov r1 hr1 (hfull r1 hr1) (h2 r1 hr1) d hpre hne
      rw [this] at hi
      cases hi
    · rintro ⟨⟨r, hr, hrl⟩, hmin⟩
      subst hrl
      rcases hcov.2.1 r hr (accepted_of_full r (hfull r hr)) (h2 r hr) with
        ⟨q, i, hq, hdq, _⟩ | ⟨i, hi, _⟩
      · obtain ⟨_, r1, hr1, _, hr1l, _⟩ := hcov.1 q i hdq
        by_cases hqe : q = r.labels
        · exact ⟨i, (hmem _ _).2 (by rw [← hqe]; exact hdq)⟩
        · exact absurd ⟨r1, hr1, by rw [hr1l]; exact hq, by rw [hr1l]; exact hqe⟩ hmin
      · exact ⟨i, (hmem _ _).2 hi⟩

/-- Witness of C1: `abc.www.example.com`, `www.example.com`, `example.com`. -/
theorem minimal_set_dedup_witness :
    ∃ c, insert_all [] scenario_A = some c ∧
      (scenario_A ≠ [] → ∃ out, pfb_consolidate c = some out) ∧
      consolidate_emitted c = (consolidate_dom c).map Prod.snd ∧
      ∀ d, (∃ i, (d, i) ∈ consolidate_dom c) ↔
        ((∃ r ∈ scenario_A, r.labels = d) ∧
          ¬ ∃ r ∈ scenario_A, r.labels <+: d ∧ r.labels ≠ d) :=
  minimal_set_dedup scenario_A (by decide) (by decide)

/-- Counterexample to C2 as stated: in scenario A the rule `www.example.com` is a proper
suffix (at a label boundary) of `abc.www.example.com` and both are `MATCH_FULL`, yet
the output, which is `example.com` alone, does not contain `www.example.com`. -/
theorem domination_law_counterexample :
    (insert_all [] scenario_A).map (fun c => (consolidate_dom c).map Prod.fst) =
        some [[[99, 111, 109], [101, 120, 97, 109, 112, 108, 101]]] ∧
      (⟨[[99, 111, 109], [101, 120, 97, 109, 112, 108, 101], [119, 119, 119]],
          MATCH_FULL, 0, ⟨25, 20⟩⟩ : DomainView_t) ∈ scenario_A ∧
      (⟨[[99, 111, 109], [101, 120, 97, 109, 112, 108, 101], [119, 119, 119], [97, 98, 99]],
          MATCH_FULL, 0, ⟨0, 24⟩⟩ : DomainView_t) ∈ scenario_A ∧
      [[99, 111, 109], [101, 120, 97, 109, 112, 108, 101], [119, 119, 119]] ∉
        [[[99, 111, 109], [101, 120, 97, 109, 112, 108, 101]]] := by
  decide

/-- C2, amended. Domination law: for every list of views with at least two labels each
(any strengths), if `r1` and `r2` are `MATCH_FULL` views of the list and the domain of
`r1` is a proper prefix of the domain of `r2` in the TLD-first label order, then no
rule is emitted for the domain of `r2`; and a rule is emitted for the domain of `r1`
exactly when no `MATCH_FULL` view of the list has a domain that is a proper prefix of
the domain of `r1`. -/
theorem domination_law (rs : List DomainView_t) (h2 : ∀ r ∈ rs, 2 ≤ r.labels.length)
    (r1 r2 : DomainView_t) (hr1 : r1 ∈ rs) (_hr2 : r2 ∈ rs)
    (hF1 : r1.match_strength = MATCH_FULL) (_hF2 : r2.match_strength = MATCH_FULL)
    (hpre : r1.labels <+: r2.labels) (hne : r1.labels ≠ r2.labels) :
    ∃ c, insert_all [] rs = some c ∧
      consolidate_emitted c = (consolidate_dom c).map Prod.snd ∧
      (¬ ∃ i, (r2.labels, i) ∈ consolidate_dom c) ∧
      ((∃ i, (r1.labels, i) ∈ consolidate_dom c) ↔
        ¬ ∃ r0 ∈ rs, r0.match_strength = MATCH_FULL ∧ r0.labels <+: r1.labels ∧
          r0.labels ≠ r1.labels) := by
  obtain ⟨c, hc, hok, hcov, hnn, hk, hmem⟩ := dedup_members rs h2
  refine ⟨c, hc, consolidate_emitted_eq c, ?_, ?_⟩
  · rintro ⟨i, hi⟩
    rw [hmem] at hi
    rw [Covers_dominated _ rs hcov r1 hr1 hF1 (h2 r1 hr1) r2.labels hpre hne] at hi
    cases hi
  · constructor
    · rintro ⟨i, hi⟩ ⟨r0, hr0, hF0, hpre0, hne0⟩
      rw [hmem] at hi
      rw [Covers_dominated _ rs hcov r0 hr0 hF0 (h2 r0 hr0) r1.labels hpre0 hne0] at hi
      cases hi
    · intro hmin
      rcases hcov.2.1 r1 hr1 (accepted_of_full r1 hF1) (h2 r1 hr1) with
        ⟨q, i, hq, hdq, hiF⟩ | ⟨i, hi, _⟩
      · obtain ⟨_, r0, hr0, _, hr0l, hconv⟩ := hcov.1 q i hdq
        by_cases hqe : q = r1.labels
        · exact ⟨i, (hmem _ _).2 (by rw [← hqe]; exact hdq)⟩
        · have hF0 : r0.match_strength = MATCH_FULL := by
            rw [hconv] at hiF
            exact hiF
          exact absurd ⟨r0, hr0, hF0, by rw [hr0l]; exact hq, by rw [hr0l]; exact hqe⟩ hmin
      · exact ⟨i, (hmem _ _).2 hi⟩

/-- Witness of C2 (amended): in scenario A, `www.example.com` against
`abc.www.example.com`. -/
theorem domination_law_witness :
    ∃ c, insert_all [] scenario_A = some c ∧
      consolidate_emitted c = (consolidate_dom c).map Prod.snd ∧
      (¬ ∃ i, ([[99, 111, 109], [101, 120, 97, 109, 112, 108, 101], [119, 119, 119],
          [97, 98, 99]], i) ∈ consolidate_dom c) ∧
      ((∃ i, ([[99, 111, 109], [101, 120, 97, 109, 112, 108, 101], [119, 119, 119]], i)
          ∈ consolidate_dom c) ↔
        ¬ ∃ r0 ∈ scenario_A, r0.match_strength = MATCH_FULL ∧
          r0.labels <+: [[99, 111, 109], [101, 120, 97, 109, 112, 108, 101], [119, 119, 119]] ∧
          r0.labels ≠ [[99, 111, 109], [101, 120, 97, 109, 112, 108, 101], [119, 119, 119]]) :=
  domination_law scenario_A (by decide)
    ⟨[[99, 111, 109], [101, 120, 97, 109, 112, 108, 101], [119, 119, 119]],
      MATCH_FULL, 0, ⟨25, 20⟩⟩
    ⟨[[99, 111, 109], [101, 120, 97, 109, 112, 108, 101], [119, 119, 119], [97, 98, 99]],
      MATCH_FULL, 0, ⟨0, 24⟩⟩
    (by decide) (by decide) rfl rfl (by decide) (by decide)


/-! ## Deduplication: order of the output -/

theorem tld_len_of_index (rs : List DomainView_t) (hlen : ∀ r ∈ rs, tld_len_ok r)
    (c : TLD_context_impl_t)
    (hk : ∀ k, k ∈ c.map TLD_entry_impl_t.tld ↔
      ∃ r ∈ rs, accepted r ∧ r.labels.head? = some k) :
    ∀ e ∈ c, e.tld.length < 2147483648 := by
  intro e he
  obtain ⟨r, hr, _, hhead⟩ := (hk e.tld).1 (List.mem_map_of_mem _ he)
  exact hlen r hr e.tld hhead

/-- The terminal nodes of two indexes built from lists with the same views carry the same
strengths. -/
theorem Covers_strength_mono (D D1 : List Label → Option DomainInfo_t)
    (rs rs1 : List DomainView_t) (hcov : Covers D rs) (hcov1 : Covers D1 rs1)
    (hsub : ∀ r, r ∈ rs ↔ r ∈ rs1) (d : List Label) (i : DomainInfo_t)
    (hd : D d = some i) : ∃ j, D1 d = some j ∧ j.match_strength = i.match_strength := by
  obtain ⟨h1, h2, h3⟩ := hcov
  obtain ⟨g1, g2, g3⟩ := hcov1
  obtain ⟨hlen, r, hr, hacc, hrl, hconv⟩ := h1 d i hd
  have hrk : r.match_strength = i.match_strength := by rw [hconv]; rfl
  subst hrl
  have hfull_case : ∀ q, q <+: r.labels → (∃ k, D q = some k ∧ k.match_strength = MATCH_FULL) →
      q = r.labels ∧ i.match_strength = MATCH_FULL := by
    rintro q hq ⟨k, hk, hkF⟩
    by_cases hqe : r.labels = q
    · rw [← hqe] at hk
      rw [hd] at hk
      cases hk
      exact ⟨hqe.symm, hkF⟩
    · have := h3 q k hk hkF r.labels hq hqe
      rw [this] at hd
      cases hd
  rcases g2 r ((hsub r).1 hr) hacc hlen with ⟨q, j, hq, hdq, hjF⟩ | ⟨j, hj, hrj⟩
  · obtain ⟨hqlen, r1, hr1, hacc1, hr1l, hconv1⟩ := g1 q j hdq
    have hF1 : r1.match_strength = MATCH_FULL := by
      rw [hconv1] at hjF; exact hjF
    have hr1in : r1 ∈ rs := (hsub r1).2 hr1
    have hq1 : r1.labels <+: r.labels := by rw [hr1l]; exact hq
    have hkey : q = r.labels ∧ i.match_strength = MATCH_FULL := by
      rcases h2 r1 hr1in hacc1 (by rw [hr1l]; exact hqlen) with
        ⟨q2, k, hq2, hdq2, hkF⟩ | ⟨k, hk, hrk1⟩
      · obtain ⟨e1, e2⟩ := hfull_case q2 (hq2.trans hq1) ⟨k, hdq2, hkF⟩
        refine ⟨?_, e2⟩
        rw [← hr1l]
        apply List.IsPrefix.eq_of_length_le hq1
        rw [e1] at hq2
        exact hq2.length_le
      · rw [hF1] at hrk1
        have := hfull_case r1.labels hq1 ⟨k, hk, rank_full_le _ hrk1⟩
        exact ⟨by rw [← hr1l]; exact this.1, this.2⟩
    refine ⟨j, by rw [← hkey.1]; exact hdq, ?_⟩
    rw [hjF, hkey.2]
  · refine ⟨j, hj, ?_⟩
    obtain ⟨_, r2, hr2, hacc2, hr2l, hconv2⟩ := g1 r.labels j hj
    have hr2in : r2 ∈ rs := (hsub r2).2 hr2
    have hj2 : j.match_strength = r2.match_strength := by rw [hconv2]; rfl
    rcases h2 r2 hr2in hacc2 (by rw [hr2l]; exact hlen) with
      ⟨q2, k, hq2, hdq2, hkF⟩ | ⟨k, hk, hrk2⟩
    · obtain ⟨_, e2⟩ := hfull_case q2 (by rw [← hr2l]; exact hq2) ⟨k, hdq2, hkF⟩
      rw [hrk, e2] at hrj
      rw [rank_full_le _ hrj, e2]
    · rw [hr2l, hd] at hk
      cases hk
      apply rank_injective
      rw [hj2]
      rw [hrk, hj2] at hrj
      omega

/-- C3. Order-independence: for every list of views with at least two labels each (any
strengths, in particular Weak or Full; first labels shorter than `2^31` bytes) and
every permutation of it, inserting either list into the empty index succeeds, and
consolidating emits the same sequence of rules: the same domains with the same
strengths, in the same order. -/
theorem order_independence (rs rs1 : List DomainView_t) (hperm : rs.Perm rs1)
    (h2 : ∀ r ∈ rs, 2 ≤ r.labels.length) (hlen : ∀ r ∈ rs, tld_len_ok r) :
    ∃ c c1, insert_all [] rs = some c ∧ insert_all [] rs1 = some c1 ∧
      consolidate_emitted c = (consolidate_dom c).map Prod.snd ∧
      consolidate_emitted c1 = (consolidate_dom c1).map Prod.snd ∧
      (consolidate_dom c1).map emitted_rule = (consolidate_dom c).map emitted_rule := by
  have hsub : ∀ r, r ∈ rs ↔ r ∈ rs1 := fun r => hperm.mem_iff
  have h21 : ∀ r ∈ rs1, 2 ≤ r.labels.length := fun r hr => h2 r ((hsub r).2 hr)
  have hlen1 : ∀ r ∈ rs1, tld_len_ok r := fun r hr => hlen r ((hsub r).2 hr)
  obtain ⟨c, hc, hok, hcov, hnn, hk, hmem⟩ := dedup_members rs h2
  obtain ⟨c1, hc1, hok1, hcov1, hnn1, hk1, hmem1⟩ := dedup_members rs1 h21
  refine ⟨c, c1, hc, hc1, consolidate_emitted_eq c, consolidate_emitted_eq c1, ?_⟩
  apply emission_unique
  · rw [List.pairwise_map]
    exact consolidate_dom_sorted c1 hok1 (tld_len_of_index rs1 hlen1 c1 hk1)
  · rw [List.pairwise_map]
    exact consolidate_dom_sorted c hok (tld_len_of_index rs hlen c hk)
  · intro x
    simp only [List.mem_map, emitted_rule]
    constructor
    · rintro ⟨⟨d, i⟩, hin, rfl⟩
      rw [hmem1] at hin
      obtain ⟨j, hj, hjs⟩ := Covers_strength_mono _ _ rs1 rs hcov1 hcov
        (fun r => (hsub r).symm) d i hin
      exact ⟨(d, j), (hmem d j).2 hj, by simp [hjs]⟩
    · rintro ⟨⟨d, i⟩, hin, rfl⟩
      rw [hmem] at hin
      obtain ⟨j, hj, hjs⟩ := Covers_strength_mono _ _ rs rs1 hcov hcov1 hsub d i hin
      exact ⟨(d, j), (hmem1 d j).2 hj, by simp [hjs]⟩

/-- Witness of C3: scenario A against its reversal. -/
theorem order_independence_witness :
    ∃ c c1, insert_all [] scenario_A = some c ∧ insert_all [] scenario_A.reverse = some c1 ∧
      consolidate_emitted c = (consolidate_dom c).map Prod.snd ∧
      consolidate_emitted c1 = (consolidate_dom c1).map Prod.snd ∧
      (consolidate_dom c1).map emitted_rule = (consolidate_dom c).map emitted_rule :=
  order_independence scenario_A scenario_A.reverse (List.reverse_perm scenario_A).symm
    (by decide) (by decide)

/-- What is known of every rule emitted for `MATCH_FULL` views without an empty label
list: it is a terminal node of the index with strength `MATCH_FULL`. -/
theorem emitted_full (rs : List DomainView_t)
    (hfull : ∀ r ∈ rs, r.match_strength = MATCH_FULL) (c : TLD_context_impl_t)
    (hok : CtxOK c) (hcov : Covers (ctx_term_at c) rs) :
    ∀ x ∈ consolidate_dom c, ctx_term_at c x.1 = some x.2 ∧
      x.2.match_strength = MATCH_FULL ∧ 2 ≤ x.1.length := by
  intro x hx
  have hx1 : (x.1, x.2) ∈ ctx_terminals c := (consolidate_dom_subperm c).subset hx
  rw [mem_ctx_terminals_iff c hok] at hx1
  obtain ⟨hl, r, hr, _, _, hconv⟩ := hcov.1 x.1 x.2 hx1
  refine ⟨hx1, ?_, hl⟩
  rw [hconv]
  exact hfull r hr

/-- C5. Sort order: for every list of `MATCH_FULL` views (none without labels, first labels
shorter than `2^31` bytes), the insertions succeed and `compare_dv` yields `A<B` for
every pair of emitted rules with A emitted before B, in particular for every pair of
consecutive emitted rules, also across TLD boundaries. -/
theorem sort_order (rs : List DomainView_t)
    (hfull : ∀ r ∈ rs, r.match_strength = MATCH_FULL)
    (hne : ∀ r ∈ rs, r.labels ≠ []) (hlen : ∀ r ∈ rs, tld_len_ok r) :
    ∃ c, insert_all [] rs = some c ∧
      consolidate_emitted c = (consolidate_dom c).map Prod.snd ∧
      (consolidate_dom c).Chain'
        (fun x y => compare_dv (emitted_view x) (emitted_view y) = dv_A_lt_dv_B_write_A) ∧
      (consolidate_dom c).Pairwise
        (fun x y => compare_dv (emitted_view x) (emitted_view y) = dv_A_lt_dv_B_write_A) := by
  obtain ⟨c, hc, hok, hcov, hk, _⟩ := insert_all_spec rs hne
  have hpw : (consolidate_dom c).Pairwise
      (fun x y => compare_dv (emitted_view x) (emitted_view y) = dv_A_lt_dv_B_write_A) := by
    refine (consolidate_dom_sorted c hok (tld_len_of_index rs hlen c hk)).imp_of_mem ?_
    intro x y hx hy hxy
    rw [compare_dv_lt_iff]
    rcases hxy with h | ⟨hpre, hne1⟩
    · exact h
    · exfalso
      obtain ⟨hdx, _, _⟩ := emitted_full rs hfull c hok hcov x hx
      obtain ⟨hdy, hyF, _⟩ := emitted_full rs hfull c hok hcov y hy
      have := hcov.2.2 y.1 y.2 hdy hyF x.1 hpre (fun e => hne1 e.symm)
      rw [this] at hdx
      cases hdx
  exact ⟨c, hc, consolidate_emitted_eq c, hpw.chain', hpw⟩

/-- Scenario C of the specification: `z.com`, `a.net`, `a.com`. -/
theorem sort_order_witness :
    ∃ c, insert_all []
        [⟨[[99, 111, 109], [122]], MATCH_FULL, 0, ⟨0, 9⟩⟩,
         ⟨[[110, 101, 116], [97]], MATCH_FULL, 0, ⟨10, 9⟩⟩,
         ⟨[[99, 111, 109], [97]], MATCH_FULL, 0, ⟨20, 9⟩⟩] = some c ∧
      consolidate_emitted c = (consolidate_dom c).map Prod.snd ∧
      (consolidate_dom c).Chain'
        (fun x y => compare_dv (emitted_view x) (emitted_view y) = dv_A_lt_dv_B_write_A) ∧
      (consolidate_dom c).Pairwise
        (fun x y => compare_dv (emitted_view x) (emitted_view y) = dv_A_lt_dv_B_write_A) :=
  sort_order
    [⟨[[99, 111, 109], [122]], MATCH_FULL, 0, ⟨0, 9⟩⟩,
     ⟨[[110, 101, 116], [97]], MATCH_FULL, 0, ⟨10, 9⟩⟩,
     ⟨[[99, 111, 109], [97]], MATCH_FULL, 0, ⟨20, 9⟩⟩]
    (by decide) (by decide) (by decide)

/-- C4. Idempotence of dedup: for every list of `MATCH_FULL` views (none without labels,
first labels shorter than `2^31` bytes) the insertions succeed, and for every list
`rs2` of views whose domains and strengths are, in order, those of the rules emitted
by consolidating (the rules read back from the output), inserting `rs2` into a fresh
empty index succeeds and consolidating emits the identical sequence of domains and
strengths. -/
theorem dedup_idempotent (rs : List DomainView_t)
    (hfull : ∀ r ∈ rs, r.match_strength = MATCH_FULL)
    (hne : ∀ r ∈ rs, r.labels ≠ []) (hlen : ∀ r ∈ rs, tld_len_ok r) :
    ∃ c, insert_all [] rs = some c ∧
      consolidate_emitted c = (consolidate_dom c).map Prod.snd ∧
      ∀ rs2 : List DomainView_t,
        rs2.map (fun r => (r.labels, r.match_strength)) =
          (consolidate_dom c).map emitted_rule →
        ∃ c2, insert_all [] rs2 = some c2 ∧
          consolidate_emitted c2 = (consolidate_dom c2).map Prod.snd ∧
          (consolidate_dom c2).map emitted_rule = (consolidate_dom c).map emitted_rule := by
  obtain ⟨c, hc, hok, hcov, hk, _⟩ := insert_all_spec rs hne
  refine ⟨c, hc, consolidate_emitted_eq c, ?_⟩
  intro rs2 hrs2
  have hE := emitted_full rs hfull c hok hcov
  -- every view of `rs2` is one of the emitted rules
  have hfrom : ∀ r ∈ rs2, ∃ x ∈ consolidate_dom c, x.1 = r.labels ∧
      x.2.match_strength = r.match_strength := by
    intro r hr
    have : (r.labels, r.match_strength) ∈ (consolidate_dom c).map emitted_rule := by
      rw [← hrs2]
      exact List.mem_map_of_mem (fun r => (r.labels, r.match_strength)) hr
    rw [List.mem_map] at this
    obtain ⟨x, hx, hxe⟩ := this
    simp only [emitted_rule, Prod.mk.injEq] at hxe
    exact ⟨x, hx, hxe.1, hxe.2⟩
  have hto : ∀ x ∈ consolidate_dom c, ∃ r ∈ rs2, r.labels = x.1 ∧
      r.match_strength = x.2.match_strength := by
    intro x hx
    have : emitted_rule x ∈ rs2.map (fun r => (r.labels, r.match_strength)) := by
      rw [hrs2]
      exact List.mem_map_of_mem emitted_rule hx
    rw [List.mem_map] at this
    obtain ⟨r, hr, hre⟩ := this
    simp only [emitted_rule, Prod.mk.injEq] at hre
    exact ⟨r, hr, hre.1, hre.2⟩
  have h22 : ∀ r ∈ rs2, 2 ≤ r.labels.length := by
    intro r hr
    obtain ⟨x, hx, hxl, _⟩ := hfrom r hr
    rw [← hxl]
    exact (hE x hx).2.2
  have hfull2 : ∀ r ∈ rs2, r.match_strength = MATCH_FULL := by
    intro r hr
    obtain ⟨x, hx, _, hxs⟩ := hfrom r hr
    rw [← hxs]
    exact (hE x hx).2.1
  have hlen2 : ∀ r ∈ rs2, tld_len_ok r := by
    intro r hr l hl
    obtain ⟨x, hx, hxl, _⟩ := hfrom r hr
    have hdx := (hE x hx).1
    rw [hxl] at hdx
    cases hlab : r.labels with
    | nil => rw [hlab] at hl; simp at hl
    | cons k q =>
      rw [hlab] at hl hdx
      simp only [List.head?_cons, Option.some.injEq] at hl
      subst hl
      simp only [ctx_term_at] at hdx
      rcases tld_slot_mem k c with h1 | ⟨e, he, hek, _⟩
      · rw [h1, term_at_nil] at hdx
        cases hdx
      · rw [← hek]
        exact tld_len_of_index rs hlen c hk e he
  obtain ⟨c2, hc2, hok2, hcov2, hnn2, hk2, hmem2⟩ := dedup_members rs2 h22
  refine ⟨c2, hc2, consolidate_emitted_eq c2, ?_⟩
  apply emission_unique
  · rw [List.pairwise_map]
    exact consolidate_dom_sorted c2 hok2 (tld_len_of_index rs2 hlen2 c2 hk2)
  · rw [List.pairwise_map]
    exact consolidate_dom_sorted c hok (tld_len_of_index rs hlen c hk)
  · intro y
    simp only [List.mem_map]
    constructor
    · rintro ⟨⟨d, j⟩, hin, rfl⟩
      rw [hmem2] at hin
      obtain ⟨_, r, hr, _, hrl, hconv⟩ := hcov2.1 d j hin
      obtain ⟨x, hx, hxl, hxs⟩ := hfrom r hr
      refine ⟨x, hx, ?_⟩
      simp only [emitted_rule, Prod.mk.injEq]
      refine ⟨by rw [hxl, hrl], ?_⟩
      rw [hxs, hconv]
      rfl
    · rintro ⟨x, hx, rfl⟩
      obtain ⟨hdx, hxF, _⟩ := hE x hx
      obtain ⟨r, hr, hrl, hrs⟩ := hto x hx
      rcases hcov2.2.1 r hr (accepted_of_full r (hfull2 r hr)) (h22 r hr) with
        ⟨q, j, hq, hdq, hjF⟩ | ⟨j, hj, hrj⟩
      · obtain ⟨_, r1, hr1, _, hr1l, _⟩ := hcov2.1 q j hdq
        obtain ⟨x1, hx1, hx1l, _⟩ := hfrom r1 hr1
        obtain ⟨hdx1, hx1F, _⟩ := hE x1 hx1
        have hqx : q = x.1 := by
          by_contra hqx
          have hpre : x1.1 <+: x.1 := by
            rw [hx1l, hr1l, ← hrl]; exact hq
          have := hcov.2.2 x1.1 x1.2 hdx1 hx1F x.1 hpre
            (fun e => hqx (by rw [← hr1l, ← hx1l, e]))
          rw [this] at hdx
          cases hdx
        refine ⟨(x.1, j), (hmem2 _ _).2 (by rw [← hqx]; exact hdq), ?_⟩
        simp only [emitted_rule, Prod.mk.injEq, true_and]
        rw [hjF, hxF]
      · refine ⟨(x.1, j), (hmem2 _ _).2 (by rw [← hrl]; exact hj), ?_⟩
        simp only [emitted_rule, Prod.mk.injEq, true_and]
        rw [hfull2 r hr] at hrj
        rw [rank_full_le _ hrj, hxF]

/-- Witness of C4: scenario A. -/
theorem dedup_idempotent_witness :
    ∃ c, insert_all [] scenario_A = some c ∧
      consolidate_emitted c = (consolidate_dom c).map Prod.snd ∧
      ∀ rs2 : List DomainView_t,
        rs2.map (fun r => (r.labels, r.match_strength)) =
          (consolidate_dom c).map emitted_rule →
        ∃ c2, insert_all [] rs2 = some c2 ∧
          consolidate_emitted c2 = (consolidate_dom c2).map Prod.snd ∧
          (consolidate_dom c2).map emitted_rule = (consolidate_dom c).map emitted_rule :=
  dedup_idempotent scenario_A (by decide) (by decide) (by decide)

/-! ## `compare_dv` as a relation on label lists -/

theorem lex_lt_trans : ∀ (p q r : List Label), lex_lt p q → lex_lt q r → lex_lt p r := by
  intro p
  induction p with
  | nil => intro q r h _; exact absurd h (lex_lt_nil_left q)
  | cons a p ih =>
    intro q r h1 h2
    cases q with
    | nil => exact absurd h1 (lex_lt_nil_right _)
    | cons b q =>
      cases r with
      | nil => exact absurd h2 (lex_lt_nil_right _)
      | cons c r =>
        rw [lex_lt_cons_cons] at h1 h2 ⊢
        rcases h1 with h1 | ⟨h1, h1p⟩
        · rcases h2 with h2 | ⟨h2, _⟩
          · exact Or.inl (lt_trans h1 h2)
          · exact Or.inl (h2 ▸ h1)
        · rcases h2 with h2 | ⟨h2, h2p⟩
          · exact Or.inl (h1 ▸ h2)
          · exact Or.inr ⟨h1.trans h2, ih q r h1p h2p⟩

theorem lex_lt_no_pre : ∀ (p q : List Label), lex_lt p q → ¬ p <+: q ∧ ¬ q <+: p := by
  intro p
  induction p with
  | nil => intro q h; exact absurd h (lex_lt_nil_left q)
  | cons a p ih =>
    intro q h
    cases q with
    | nil => exact absurd h (lex_lt_nil_right _)
    | cons b q =>
      rw [lex_lt_cons_cons] at h
      rw [List.cons_prefix_cons, List.cons_prefix_cons]
      rcases h with h | ⟨h, hp⟩
      · exact ⟨fun e => (ne_of_lt h) e.1, fun e => (ne_of_lt h) e.1.symm⟩
      · exact ⟨fun e => (ih q hp).1 e.2, fun e => (ih q hp).2 e.2⟩

theorem lex_lt_asymm (p q : List Label) (h1 : lex_lt p q) (h2 : lex_lt q p) : False :=
  post_lt_asymm p q (Or.inl h1) (Or.inl h2)

/-- A prefix of `q` precedes whatever `q` precedes, or is a proper prefix of it. -/
theorem prefix_lex_lt : ∀ (p q r : List Label), p <+: q → lex_lt q r →
    lex_lt p r ∨ (p <+: r ∧ p ≠ r) := by
  intro p
  induction p with
  | nil =>
    intro q r _ h
    right
    refine ⟨List.nil_prefix, ?_⟩
    intro e
    rw [← e] at h
    exact lex_lt_nil_right _ h
  | cons a p ih =>
    intro q r hpre h
    cases q with
    | nil => simp at hpre
    | cons b q =>
      cases r with
      | nil => exact absurd h (lex_lt_nil_right _)
      | cons c r =>
        rw [List.cons_prefix_cons] at hpre
        obtain ⟨hab, hpq⟩ := hpre
        subst hab
        rw [lex_lt_cons_cons] at h ⊢
        rw [List.cons_prefix_cons]
        rcases h with h | ⟨h, hqr⟩
        · exact Or.inl (Or.inl h)
        · rcases ih q r hpq hqr with h3 | ⟨h3, h4⟩
          · exact Or.inl (Or.inr ⟨h, h3⟩)
          · refine Or.inr ⟨⟨h, h3⟩, ?_⟩
            intro e
            simp only [List.cons.injEq] at e
            exact h4 e.2

/-- What a list precedes, its extensions precede too. -/
theorem lex_lt_of_prefix_left : ∀ (p q r : List Label), p <+: q → lex_lt p r → lex_lt q r := by
  intro p
  induction p with
  | nil => intro q r _ h; exact absurd h (lex_lt_nil_left r)
  | cons a p ih =>
    intro q r hpre h
    cases q with
    | nil => simp at hpre
    | cons b q =>
      cases r with
      | nil => exact absurd h (lex_lt_nil_right _)
      | cons c r =>
        rw [List.cons_prefix_cons] at hpre
        obtain ⟨hab, hpq⟩ := hpre
        subst hab
        rw [lex_lt_cons_cons] at h ⊢
        rcases h with h | ⟨h, hpr⟩
        · exact Or.inl h
        · exact Or.inr ⟨h, ih q r hpq hpr⟩

/-- What precedes a list precedes its extensions too. -/
theorem lex_lt_of_prefix_right : ∀ (p q r : List Label), q <+: r → lex_lt p q → lex_lt p r := by
  intro p
  induction p with
  | nil => intro q r _ h; exact absurd h (lex_lt_nil_left q)
  | cons a p ih =>
    intro q r hpre h
    cases q with
    | nil => exact absurd h (lex_lt_nil_right _)
    | cons b q =>
      cases r with
      | nil => simp at hpre
      | cons c r =>
        rw [List.cons_prefix_cons] at hpre
        obtain ⟨hbc, hqr⟩ := hpre
        subst hbc
        rw [lex_lt_cons_cons] at h ⊢
        rcases h with h | ⟨h, hpq⟩
        · exact Or.inl h
        · exact Or.inr ⟨h, ih q r hqr hpq⟩

theorem compare_dv_loop_value (n m : Nat) : ∀ (p q : List Label) (c : Int),
    (lex_lt p q ∧ compare_dv_loop n m p q c = dv_A_lt_dv_B_write_A) ∨
    (lex_lt q p ∧ compare_dv_loop n m p q c = dv_A_gt_dv_B_write_B) ∨
    ((p <+: q ∨ q <+: p) ∧ compare_dv_loop n m p q c =
      if p = [] ∨ q = [] then c
      else if n = m then dv_A_eq_dv_B else if n < m then dv_A_blk_dv_B else dv_B_blk_dv_A) := by
  intro p
  induction p with
  | nil =>
    intro q c
    right; right
    exact ⟨Or.inl List.nil_prefix, by simp [compare_dv_loop]⟩
  | cons a p ih =>
    intro q c
    cases q with
    | nil =>
      right; right
      exact ⟨Or.inr List.nil_prefix, by simp [compare_dv_loop]⟩
    | cons b q =>
      rw [compare_dv_loop_cons]
      have hs := sort_by_tld_spec a b
      by_cases h0 : sort_by_tld a b = 0
      · have hab : a = b := hs.2.1.1 h0
        subst hab
        simp only [h0, if_true]
        rcases ih q (if n = m then dv_A_eq_dv_B else if n < m then dv_A_blk_dv_B
          else dv_B_blk_dv_A) with ⟨h1, h2⟩ | ⟨h1, h2⟩ | ⟨h1, h2⟩
        · left
          exact ⟨(lex_lt_cons_cons a a p q).2 (Or.inr ⟨rfl, h1⟩), h2⟩
        · right; left
          exact ⟨(lex_lt_cons_cons a a q p).2 (Or.inr ⟨rfl, h1⟩), h2⟩
        · right; right
          refine ⟨?_, ?_⟩
          · rw [List.cons_prefix_cons, List.cons_prefix_cons]
            rcases h1 with h1 | h1
            · exact Or.inl ⟨rfl, h1⟩
            · exact Or.inr ⟨rfl, h1⟩
          · rw [h2]
            simp only [reduceCtorEq, or_self, if_false]
            split <;> rfl
      · simp only [h0, if_false]
        by_cases hlt : sort_by_tld a b < 0
        · left
          simp only [hlt, if_true, and_true]
          exact (lex_lt_cons_cons a b p q).2 (Or.inl (hs.1.1 hlt))
        · right; left
          simp only [hlt, if_false, and_true]
          have hpos : 0 < sort_by_tld a b := by omega
          exact (lex_lt_cons_cons b a q p).2 (Or.inl (hs.2.2.1 hpos))

/-- The five results of `compare_dv` on views with at least one label each, as relations
between the label lists. -/
theorem compare_dv_cases (dv_A dv_B : DomainView_t) (hA : dv_A.labels ≠ [])
    (hB : dv_B.labels ≠ []) :
    (compare_dv dv_A dv_B = dv_A_lt_dv_B_write_A ↔ lex_lt dv_A.labels dv_B.labels) ∧
    (compare_dv dv_A dv_B = dv_A_gt_dv_B_write_B ↔ lex_lt dv_B.labels dv_A.labels) ∧
    (compare_dv dv_A dv_B = dv_A_eq_dv_B ↔ dv_A.labels = dv_B.labels) ∧
    (compare_dv dv_A dv_B = dv_A_blk_dv_B ↔
      dv_A.labels <+: dv_B.labels ∧ dv_A.labels ≠ dv_B.labels) ∧
    (compare_dv dv_A dv_B = dv_B_blk_dv_A ↔
      dv_B.labels <+: dv_A.labels ∧ dv_B.labels ≠ dv_A.labels) := by
  unfold compare_dv
  have hcodes : dv_A_lt_dv_B_write_A = 7 ∧ dv_A_gt_dv_B_write_B = 8 ∧ dv_A_eq_dv_B = 0 ∧
      dv_A_blk_dv_B = 1 ∧ dv_B_blk_dv_A = 2 := ⟨rfl, rfl, rfl, rfl, rfl⟩
  obtain ⟨e7, e8, e0, e1, e2⟩ := hcodes
  rcases compare_dv_loop_value dv_A.labels.length dv_B.labels.length dv_A.labels dv_B.labels
    (-1) with ⟨h1, h2⟩ | ⟨h1, h2⟩ | ⟨h1, h2⟩
  · have hnp := lex_lt_no_pre _ _ h1
    rw [h2, e7, e8, e0, e1, e2]
    refine ⟨by simp [h1], ?_, ?_, ?_, ?_⟩
    · simp only [show ¬ ((7 : Int) = 8) by decide, false_iff]
      exact fun h => lex_lt_asymm _ _ h1 h
    · simp only [show ¬ ((7 : Int) = 0) by decide, false_iff]
      intro e
      exact hnp.1 (by rw [e])
    · simp only [show ¬ ((7 : Int) = 1) by decide, false_iff]
      exact fun h => hnp.1 h.1
    · simp only [show ¬ ((7 : Int) = 2) by decide, false_iff]
      exact fun h => hnp.2 h.1
  · have hnp := lex_lt_no_pre _ _ h1
    rw [h2, e7, e8, e0, e1, e2]
    refine ⟨?_, by simp [h1], ?_, ?_, ?_⟩
    · simp only [show ¬ ((8 : Int) = 7) by decide, false_iff]
      exact fun h => lex_lt_asymm _ _ h h1
    · simp only [show ¬ ((8 : Int) = 0) by decide, false_iff]
      intro e
      exact hnp.1 (by rw [e])
    · simp only [show ¬ ((8 : Int) = 1) by decide, false_iff]
      exact fun h => hnp.2 h.1
    · simp only [show ¬ ((8 : Int) = 2) by decide, false_iff]
      exact fun h => hnp.1 h.1
  · have hno1 : ¬ lex_lt dv_A.labels dv_B.labels := by
      intro h
      have := lex_lt_no_pre _ _ h
      rcases h1 with h1 | h1
      · exact this.1 h1
      · exact this.2 h1
    have hno2 : ¬ lex_lt dv_B.labels dv_A.labels := by
      intro h
      have := lex_lt_no_pre _ _ h
      rcases h1 with h1 | h1
      · exact this.2 h1
      · exact this.1 h1
    rw [h2, e7, e8, e0, e1, e2]
    simp only [hA, hB, or_self, if_false]
    have hlen_eq : dv_A.labels.length = dv_B.labels.length → dv_A.labels = dv_B.labels := by
      intro e
      rcases h1 with h1 | h1
      · exact h1.eq_of_length e
      · exact (h1.eq_of_length e.symm).symm
    by_cases hn : dv_A.labels.length = dv_B.labels.length
    · have heq := hlen_eq hn
      simp only [hn, if_true, hno1, hno2]
      refine ⟨by decide, by decide, by simp [heq], ?_, ?_⟩
      · simp only [show ¬ ((0 : Int) = 1) by decide, false_iff]
        exact fun h => h.2 heq
      · simp only [show ¬ ((0 : Int) = 2) by decide, false_iff]
        exact fun h => h.2 heq.symm
    · have hne : dv_A.labels ≠ dv_B.labels := fun e => hn (by rw [e])
      simp only [hn, if_false, hno1, hno2]
      by_cases hlt : dv_A.labels.length < dv_B.labels.length
      · have hpre : dv_A.labels <+: dv_B.labels := by
          rcases h1 with h1 | h1
          · exact h1
          · have := h1.length_le
            omega
        have hnpre : ¬ dv_B.labels <+: dv_A.labels := by
          intro h
          have := h.length_le
          omega
        simp only [hlt, if_true]
        refine ⟨by decide, by decide, ?_, ?_, ?_⟩
        · simp only [show ¬ ((1 : Int) = 0) by decide, false_iff]
          exact hne
        · simp [hpre, hne]
        · simp only [show ¬ ((1 : Int) = 2) by decide, false_iff]
          exact fun h => hnpre h.1
      · have hpre : dv_B.labels <+: dv_A.labels := by
          rcases h1 with h1 | h1
          · have := h1.length_le
            omega
          · exact h1
        have hnpre : ¬ dv_A.labels <+: dv_B.labels := by
          intro h
          have := h.length_le
          omega
        simp only [hlt, if_false]
        refine ⟨by decide, by decide, ?_, ?_, ?_⟩
        · simp only [show ¬ ((2 : Int) = 0) by decide, false_iff]
          exact hne
        · simp only [show ¬ ((2 : Int) = 1) by decide, false_iff]
          exact fun h => hnpre h.1
        · simp [hpre, Ne.symm hne]

/-! ## The merge loop of the diff -/

theorem diff_drain_A : ∀ (n : Nat) (ra : List (List Nat)) (wa : Bool) (rb : List (List Nat))
    (wb : Bool) (out : List (List Nat)), ra.length ≤ n →
    diff_drain false n (diff_mk ra wa rb wb out) =
      diff_mk [] (if ra = [] then wa else false) rb wb
        (out ++ drain_lines ra wa 97) := by
  intro n
  induction n with
  | zero =>
    intro ra wa rb wb out h
    have : ra = [] := List.length_eq_zero.1 (by omega)
    subst this
    simp [diff_drain, diff_mk, drain_lines]
  | succ n ih =>
    intro ra wa rb wb out h
    cases ra with
    | nil => simp [diff_drain, diff_mk, drain_lines]
    | cons a ra1 =>
      simp only [List.length_cons] at h
      have hstep : advance_DV_BUFFER_iter false
          (write_DV_BUFFER_iter false 43 (diff_mk (a :: ra1) wa rb wb out)) =
          diff_mk ra1 false rb wb (out ++ if wa then [] else [core_write_DV a WINNER 97]) := by
        cases wa <;>
          simp [advance_DV_BUFFER_iter, write_DV_BUFFER_iter, diff_mk, WINNER]
      have hne : (if false = true then (diff_mk (a :: ra1) wa rb wb out).dv_iterB.rest
          else (diff_mk (a :: ra1) wa rb wb out).dv_iterA.rest) ≠ [] := by
        simp [diff_mk]
      rw [diff_drain, if_pos hne, hstep, ih ra1 false rb wb _ (by omega)]
      cases ra1 with
      | nil => simp [diff_mk, drain_lines]
      | cons a2 ra2 => simp [diff_mk, drain_lines]

theorem diff_drain_B : ∀ (n : Nat) (ra : List (List Nat)) (wa : Bool) (rb : List (List Nat))
    (wb : Bool) (out : List (List Nat)), rb.length ≤ n →
    diff_drain true n (diff_mk ra wa rb wb out) =
      diff_mk ra wa [] (if rb = [] then wb else false)
        (out ++ drain_lines rb wb 98) := by
  intro n
  induction n with
  | zero =>
    intro ra wa rb wb out h
    have : rb = [] := List.length_eq_zero.1 (by omega)
    subst this
    simp [diff_drain, diff_mk, drain_lines]
  | succ n ih =>
    intro ra wa rb wb out h
    cases rb with
    | nil => simp [diff_drain, diff_mk, drain_lines]
    | cons b rb1 =>
      simp only [List.length_cons] at h
      have hstep : advance_DV_BUFFER_iter true
          (write_DV_BUFFER_iter true 43 (diff_mk ra wa (b :: rb1) wb out)) =
          diff_mk ra wa rb1 false (out ++ if wb then [] else [core_write_DV b WINNER 98]) := by
        cases wb <;>
          simp [advance_DV_BUFFER_iter, write_DV_BUFFER_iter, diff_mk, WINNER]
      have hne : (if true = true then (diff_mk ra wa (b :: rb1) wb out).dv_iterB.rest
          else (diff_mk ra wa (b :: rb1) wb out).dv_iterA.rest) ≠ [] := by
        simp [diff_mk]
      rw [diff_drain, if_pos hne, hstep, ih ra wa rb1 false _ (by omega)]
      cases rb1 with
      | nil => simp [diff_mk, drain_lines]
      | cons b2 rb2 => simp [diff_mk, drain_lines]

theorem diff_final_mk (ra : List (List Nat)) (wa : Bool) (rb : List (List Nat)) (wb : Bool)
    (out : List (List Nat)) :
    diff_final (diff_mk ra wa rb wb out) =
      out ++ drain_lines ra wa 97 ++ drain_lines rb wb 98 := by
  show (diff_drain true (diff_drain false ra.length (diff_mk ra wa rb wb out)).dv_iterB.rest.length
    (diff_drain false ra.length (diff_mk ra wa rb wb out))).out_file = _
  rw [diff_drain_A ra.length ra wa rb wb out (le_refl _)]
  show (diff_drain true rb.length (diff_mk [] (if ra = [] then wa else false) rb wb
    (out ++ drain_lines ra wa 97))).out_file = _
  rw [diff_drain_B rb.length _ _ rb wb _ (le_refl _)]
  rfl

theorem diff_class_A_nil (pol : List Nat → DomainView_t) (a : List Nat) :
    diff_class_A pol a [] = WINNER := by
  simp [diff_class_A]

theorem diff_class_B_nil (pol : List Nat → DomainView_t) (b : List Nat) :
    diff_class_B pol b [] = some WINNER := by
  simp [diff_class_B]

theorem diff_class_A_cons (pol : List Nat → DomainView_t) (a b : List Nat)
    (rb : List (List Nat)) (h0 : compare_dv (pol a) (pol b) ≠ dv_A_eq_dv_B)
    (h2 : compare_dv (pol a) (pol b) ≠ dv_B_blk_dv_A) :
    diff_class_A pol a (b :: rb) = diff_class_A pol a rb := by
  simp [diff_class_A, h0, h2]

theorem diff_class_B_cons (pol : List Nat → DomainView_t) (a b : List Nat)
    (ra : List (List Nat)) (h0 : compare_dv (pol a) (pol b) ≠ dv_A_eq_dv_B)
    (h1 : compare_dv (pol a) (pol b) ≠ dv_A_blk_dv_B) :
    diff_class_B pol b (a :: ra) = diff_class_B pol b ra := by
  simp [diff_class_B, h0, h1]

theorem diff_lines_A_cons (pol : List Nat → DomainView_t) (ra : List (List Nat)) (b : List Nat)
    (rb : List (List Nat))
    (h : ∀ a ∈ ra, compare_dv (pol a) (pol b) ≠ dv_A_eq_dv_B ∧
      compare_dv (pol a) (pol b) ≠ dv_B_blk_dv_A) :
    diff_lines_A pol ra (b :: rb) = diff_lines_A pol ra rb := by
  unfold diff_lines_A
  apply List.map_congr_left
  intro a ha
  rw [diff_class_A_cons pol a b rb (h a ha).1 (h a ha).2]

theorem diff_lines_B_cons (pol : List Nat → DomainView_t) (a : List Nat) (ra : List (List Nat))
    (rb : List (List Nat))
    (h : ∀ b ∈ rb, compare_dv (pol a) (pol b) ≠ dv_A_eq_dv_B ∧
      compare_dv (pol a) (pol b) ≠ dv_A_blk_dv_B) :
    diff_lines_B pol (a :: ra) rb = diff_lines_B pol ra rb := by
  unfold diff_lines_B
  induction rb with
  | nil => rfl
  | cons b rb ih =>
    simp only [List.filterMap_cons]
    rw [diff_class_B_cons pol a b ra (h b (by simp)).1 (h b (by simp)).2,
      ih (fun b1 hb1 => h b1 (by simp [hb1]))]

/-! ### How the results of `compare_dv` combine -/

theorem compare_dv_range (x y : DomainView_t) (hx : x.labels ≠ []) (hy : y.labels ≠ []) :
    compare_dv x y = dv_A_eq_dv_B ∨ compare_dv x y = dv_A_lt_dv_B_write_A ∨
    compare_dv x y = dv_A_gt_dv_B_write_B ∨ compare_dv x y = dv_A_blk_dv_B ∨
    compare_dv x y = dv_B_blk_dv_A := by
  unfold compare_dv
  rcases compare_dv_loop_value x.labels.length y.labels.length x.labels y.labels (-1) with
    ⟨_, h⟩ | ⟨_, h⟩ | ⟨_, h⟩
  · exact Or.inr (Or.inl h)
  · exact Or.inr (Or.inr (Or.inl h))
  · rw [h]
    simp only [hx, hy, or_self, if_false]
    split
    · exact Or.inl rfl
    · split
      · exact Or.inr (Or.inr (Or.inr (Or.inl rfl)))
      · exact Or.inr (Or.inr (Or.inr (Or.inr rfl)))

theorem dv_codes_ne :
    dv_A_eq_dv_B ≠ dv_A_lt_dv_B_write_A ∧ dv_A_eq_dv_B ≠ dv_A_gt_dv_B_write_B ∧
    dv_A_eq_dv_B ≠ dv_A_blk_dv_B ∧ dv_A_eq_dv_B ≠ dv_B_blk_dv_A ∧
    dv_A_lt_dv_B_write_A ≠ dv_A_gt_dv_B_write_B ∧ dv_A_lt_dv_B_write_A ≠ dv_A_blk_dv_B ∧
    dv_A_lt_dv_B_write_A ≠ dv_B_blk_dv_A ∧ dv_A_gt_dv_B_write_B ≠ dv_A_blk_dv_B ∧
    dv_A_gt_dv_B_write_B ≠ dv_B_blk_dv_A ∧ dv_A_blk_dv_B ≠ dv_B_blk_dv_A := by
  unfold dv_A_eq_dv_B dv_A_lt_dv_B_write_A dv_A_gt_dv_B_write_B dv_A_blk_dv_B dv_B_blk_dv_A
  decide

theorem cmp_lt_trans (x y z : DomainView_t) (hx : x.labels ≠ []) (hy : y.labels ≠ [])
    (hz : z.labels ≠ []) (h1 : compare_dv x y = dv_A_lt_dv_B_write_A)
    (h2 : compare_dv y z = dv_A_lt_dv_B_write_A) : compare_dv x z = dv_A_lt_dv_B_write_A := by
  rw [(compare_dv_cases x y hx hy).1] at h1
  rw [(compare_dv_cases y z hy hz).1] at h2
  rw [(compare_dv_cases x z hx hz).1]
  exact lex_lt_trans _ _ _ h1 h2

theorem cmp_eq_lt (x y z : DomainView_t) (hx : x.labels ≠ []) (hy : y.labels ≠ [])
    (hz : z.labels ≠ []) (h1 : compare_dv x y = dv_A_eq_dv_B)
    (h2 : compare_dv y z = dv_A_lt_dv_B_write_A) : compare_dv x z = dv_A_lt_dv_B_write_A := by
  rw [(compare_dv_cases x y hx hy).2.2.1] at h1
  rw [(compare_dv_cases y z hy hz).1] at h2
  rw [(compare_dv_cases x z hx hz).1, h1]
  exact h2

theorem cmp_eq_gt (x y z : DomainView_t) (hx : x.labels ≠ []) (hy : y.labels ≠ [])
    (hz : z.labels ≠ []) (h1 : compare_dv x y = dv_A_eq_dv_B)
    (h2 : compare_dv x z = dv_A_lt_dv_B_write_A) : compare_dv z y = dv_A_gt_dv_B_write_B := by
  rw [(compare_dv_cases x y hx hy).2.2.1] at h1
  rw [(compare_dv_cases x z hx hz).1] at h2
  rw [(compare_dv_cases z y hz hy).2.1, ← h1]
  exact h2

theorem cmp_blk_lt (x y z : DomainView_t) (hx : x.labels ≠ []) (hy : y.labels ≠ [])
    (hz : z.labels ≠ []) (h1 : compare_dv x y = dv_A_blk_dv_B)
    (h2 : compare_dv y z = dv_A_lt_dv_B_write_A) :
    compare_dv x z = dv_A_lt_dv_B_write_A ∨ compare_dv x z = dv_A_blk_dv_B := by
  rw [(compare_dv_cases x y hx hy).2.2.2.1] at h1
  rw [(compare_dv_cases y z hy hz).1] at h2
  rw [(compare_dv_cases x z hx hz).1, (compare_dv_cases x z hx hz).2.2.2.1]
  exact prefix_lex_lt _ _ _ h1.1 h2

theorem cmp_blk_gt (x y z : DomainView_t) (hx : x.labels ≠ []) (hy : y.labels ≠ [])
    (hz : z.labels ≠ []) (h1 : compare_dv x y = dv_A_blk_dv_B)
    (h2 : compare_dv x z = dv_A_lt_dv_B_write_A) : compare_dv z y = dv_A_gt_dv_B_write_B := by
  rw [(compare_dv_cases x y hx hy).2.2.2.1] at h1
  rw [(compare_dv_cases x z hx hz).1] at h2
  rw [(compare_dv_cases z y hz hy).2.1]
  exact lex_lt_of_prefix_left _ _ _ h1.1 h2

theorem cmp_gt_gt (x y z : DomainView_t) (hx : x.labels ≠ []) (hy : y.labels ≠ [])
    (hz : z.labels ≠ []) (h1 : compare_dv x y = dv_A_gt_dv_B_write_B)
    (h2 : compare_dv x z = dv_A_lt_dv_B_write_A) : compare_dv z y = dv_A_gt_dv_B_write_B := by
  rw [(compare_dv_cases x y hx hy).2.1] at h1
  rw [(compare_dv_cases x z hx hz).1] at h2
  rw [(compare_dv_cases z y hz hy).2.1]
  exact lex_lt_trans _ _ _ h1 h2

theorem cmp_isblk_gt (x y z : DomainView_t) (hx : x.labels ≠ []) (hy : y.labels ≠ [])
    (hz : z.labels ≠ []) (h1 : compare_dv x y = dv_B_blk_dv_A)
    (h2 : compare_dv x z = dv_A_lt_dv_B_write_A) :
    compare_dv z y = dv_A_gt_dv_B_write_B ∨ compare_dv z y = dv_B_blk_dv_A := by
  rw [(compare_dv_cases x y hx hy).2.2.2.2] at h1
  rw [(compare_dv_cases x z hx hz).1] at h2
  rw [(compare_dv_cases z y hz hy).2.1, (compare_dv_cases z y hz hy).2.2.2.2]
  exact prefix_lex_lt _ _ _ h1.1 h2

theorem cmp_isblk_lt (x y z : DomainView_t) (hx : x.labels ≠ []) (hy : y.labels ≠ [])
    (hz : z.labels ≠ []) (h1 : compare_dv x y = dv_B_blk_dv_A)
    (h2 : compare_dv y z = dv_A_lt_dv_B_write_A) : compare_dv x z = dv_A_lt_dv_B_write_A := by
  rw [(compare_dv_cases x y hx hy).2.2.2.2] at h1
  rw [(compare_dv_cases y z hy hz).1] at h2
  rw [(compare_dv_cases x z hx hz).1]
  exact lex_lt_of_prefix_left _ _ _ h1.1 h2

theorem perm_mid {α : Type} (A B C D : List α) :
    (A ++ B ++ (C ++ D)).Perm (A ++ C ++ (B ++ D)) := by
  simp only [List.append_assoc]
  apply List.Perm.append_left
  rw [← List.append_assoc, ← List.append_assoc]
  exact List.Perm.append_right D List.perm_append_comm

/-- The five states `action_dv` leads to from a state with a current entry on both
sides. -/
theorem action_dv_step (cmp : Int) (a : List Nat) (ra : List (List Nat)) (wa : Bool)
    (b : List Nat) (rb : List (List Nat)) (wb : Bool) (out : List (List Nat)) :
    action_dv cmp write_DV_BUFFER_iter advance_DV_BUFFER_iter false true
        (diff_mk (a :: ra) wa (b :: rb) wb out) =
      if cmp = dv_A_eq_dv_B then
        diff_mk ra false rb false (out ++ if wa then [] else [core_write_DV a NEUTRAL 97])
      else if cmp = dv_A_lt_dv_B_write_A then
        diff_mk ra false (b :: rb) wb (out ++ if wa then [] else [core_write_DV a WINNER 97])
      else if cmp = dv_A_gt_dv_B_write_B then
        diff_mk (a :: ra) wa rb false (out ++ if wb then [] else [core_write_DV b WINNER 98])
      else if cmp = dv_A_blk_dv_B then
        diff_mk (a :: ra) true rb false
          (out ++ ((if wa then [] else [core_write_DV a WINNER 97]) ++
            if wb then [] else [core_write_DV b LOSER 98]))
      else if cmp = dv_B_blk_dv_A then
        diff_mk ra false (b :: rb) true
          (out ++ ((if wb then [] else [core_write_DV b WINNER 98]) ++
            if wa then [] else [core_write_DV a LOSER 97]))
      else diff_mk (a :: ra) wa (b :: rb) wb out := by
  unfold action_dv
  by_cases h0 : cmp = dv_A_eq_dv_B
  · cases wa <;> cases wb <;>
      simp [h0, write_DV_BUFFER_iter, advance_DV_BUFFER_iter, diff_mk]
  · by_cases h7 : cmp = dv_A_lt_dv_B_write_A
    · cases wa <;> cases wb <;>
        simp [h0, h7, write_DV_BUFFER_iter, advance_DV_BUFFER_iter, diff_mk]
    · by_cases h8 : cmp = dv_A_gt_dv_B_write_B
      · cases wa <;> cases wb <;>
          simp [h0, h7, h8, write_DV_BUFFER_iter, advance_DV_BUFFER_iter, diff_mk]
      · by_cases h1 : cmp = dv_A_blk_dv_B
        · cases wa <;> cases wb <;>
            simp [h0, h7, h8, h1, write_DV_BUFFER_iter, advance_DV_BUFFER_iter, diff_mk]
        · by_cases h2 : cmp = dv_B_blk_dv_A
          · cases wa <;> cases wb <;>
              simp [h0, h7, h8, h1, h2, write_DV_BUFFER_iter, advance_DV_BUFFER_iter, diff_mk]
          · simp [h0, h7, h8, h1, h2]

theorem diff_loop_succ (pol : List Nat → DomainView_t) (n : Nat) (s : diff_state) :
    diff_loop pol (n + 1) s =
      diff_rest pol n
        (action_dv (compare_dv (pol (s.dv_iterA.rest.headD [])) (pol (s.dv_iterB.rest.headD [])))
          write_DV_BUFFER_iter advance_DV_BUFFER_iter false true s) := by
  simp only [diff_loop, diff_rest]

theorem diff_expected_A_false (pol : List Nat → DomainView_t) (ra rb : List (List Nat)) :
    diff_expected_A pol false ra rb = diff_lines_A pol ra rb := by
  cases ra <;> simp [diff_expected_A, diff_lines_A]

theorem diff_expected_B_false (pol : List Nat → DomainView_t) (ra rb : List (List Nat)) :
    diff_expected_B pol false ra rb = diff_lines_B pol ra rb := by
  cases rb with
  | nil => simp [diff_expected_B, diff_lines_B]
  | cons b rb =>
    simp only [diff_expected_B, diff_lines_B, List.filterMap_cons, Bool.false_eq_true, if_false]
    cases diff_class_B pol b ra <;> simp

theorem diff_class_A_winner (pol : List Nat → DomainView_t) (a : List Nat)
    (rb : List (List Nat))
    (h : ∀ b ∈ rb, compare_dv (pol a) (pol b) ≠ dv_A_eq_dv_B ∧
      compare_dv (pol a) (pol b) ≠ dv_B_blk_dv_A) :
    diff_class_A pol a rb = WINNER := by
  unfold diff_class_A
  have h1 : ¬ ∃ b ∈ rb, compare_dv (pol a) (pol b) = dv_A_eq_dv_B :=
    fun ⟨b, hb, e⟩ => (h b hb).1 e
  have h2 : ¬ ∃ b ∈ rb, compare_dv (pol a) (pol b) = dv_B_blk_dv_A :=
    fun ⟨b, hb, e⟩ => (h b hb).2 e
  simp only [h1, h2, if_false]

theorem diff_class_B_winner (pol : List Nat → DomainView_t) (b : List Nat)
    (ra : List (List Nat))
    (h : ∀ a ∈ ra, compare_dv (pol a) (pol b) ≠ dv_A_eq_dv_B ∧
      compare_dv (pol a) (pol b) ≠ dv_A_blk_dv_B) :
    diff_class_B pol b ra = some WINNER := by
  unfold diff_class_B
  have h1 : ¬ ∃ a ∈ ra, compare_dv (pol a) (pol b) = dv_A_eq_dv_B :=
    fun ⟨a, ha, e⟩ => (h a ha).1 e
  have h2 : ¬ ∃ a ∈ ra, compare_dv (pol a) (pol b) = dv_A_blk_dv_B :=
    fun ⟨a, ha, e⟩ => (h a ha).2 e
  simp only [h1, h2, if_false]

theorem diff_lines_A_nil (pol : List Nat → DomainView_t) (ra : List (List Nat)) :
    diff_lines_A pol ra [] = ra.map fun x => core_write_DV x WINNER 97 := by
  unfold diff_lines_A
  apply List.map_congr_left
  intro a _
  rw [diff_class_A_nil]

theorem diff_lines_B_nil (pol : List Nat → DomainView_t) (rb : List (List Nat)) :
    diff_lines_B pol [] rb = rb.map fun x => core_write_DV x WINNER 98 := by
  unfold diff_lines_B
  simp only [diff_class_B_nil, Option.map_some']
  induction rb with
  | nil => rfl
  | cons b rb ih => simp only [List.filterMap_cons, List.map_cons, ih]

theorem diff_exit (pol : List Nat → DomainView_t) (fuel : Nat) (ra : List (List Nat))
    (wa : Bool) (rb : List (List Nat)) (wb : Bool) (out : List (List Nat))
    (h : ra = [] ∨ rb = []) :
    ∃ s1, diff_rest pol fuel (diff_mk ra wa rb wb out) = some s1 ∧
      s1.dv_iterA.rest = ra ∧ s1.dv_iterB.rest = rb ∧
      ∃ X, diff_final s1 = out ++ X ∧
        X.Perm (diff_expected_A pol wa ra rb ++ diff_expected_B pol wb ra rb) := by
  have hrest : diff_rest pol fuel (diff_mk ra wa rb wb out) = some (diff_mk ra wa rb wb out) := by
    unfold diff_rest
    have : ¬ ((diff_mk ra wa rb wb out).dv_iterA.rest ≠ [] ∧
        (diff_mk ra wa rb wb out).dv_iterB.rest ≠ []) := by
      simp only [diff_mk]
      rcases h with h | h <;> simp [h]
    rw [if_neg this]
  refine ⟨_, hrest, rfl, rfl, drain_lines ra wa 97 ++ drain_lines rb wb 98, ?_, ?_⟩
  · rw [diff_final_mk, List.append_assoc]
  · have hA : drain_lines ra wa 97 = diff_expected_A pol wa ra rb ∨ rb ≠ [] := by
      by_cases hrb : rb = []
      · left
        subst hrb
        cases ra with
        | nil => rfl
        | cons a ra1 =>
          simp only [drain_lines, diff_expected_A, diff_class_A_nil, diff_lines_A_nil]
      · exact Or.inr hrb
    have hB : drain_lines rb wb 98 = diff_expected_B pol wb ra rb ∨ ra ≠ [] := by
      by_cases hra : ra = []
      · left
        subst hra
        cases rb with
        | nil => rfl
        | cons b rb1 =>
          simp only [drain_lines, diff_expected_B, diff_class_B_nil, diff_lines_B_nil,
            Option.map_some', Option.toList_some]
      · exact Or.inr hra
    rcases h with h | h
    · subst h
      rcases hB with hB | hB
      · rw [hB]
        simp [drain_lines, diff_expected_A]
      · exact absurd rfl hB
    · subst h
      rcases hA with hA | hA
      · rw [hA]
        simp [drain_lines, diff_expected_B]
      · exact absurd rfl hA

/-- The merge loop and the drain loops from a state that satisfies the invariant, with
fuel for one iteration per remaining entry: the loop ends with one side exhausted, and
what is written from that state on is, up to order, one line per remaining rule (none
for a rule of side B that side A holds too) under the code of its class. -/
theorem diff_rest_spec (pol : List Nat → DomainView_t) : ∀ (fuel : Nat)
    (ra : List (List Nat)) (wa : Bool) (rb : List (List Nat)) (wb : Bool)
    (out : List (List Nat)), diff_inv pol ra wa rb wb → ra.length + rb.length ≤ fuel →
    ∃ s1, diff_rest pol fuel (diff_mk ra wa rb wb out) = some s1 ∧
      (s1.dv_iterA.rest = [] ∨ s1.dv_iterB.rest = []) ∧
      ∃ X, diff_final s1 = out ++ X ∧
        X.Perm (diff_expected_A pol wa ra rb ++ diff_expected_B pol wb ra rb) := by
  intro fuel
  induction fuel with
  | zero =>
    intro ra wa rb wb out _ hlen
    have hra : ra = [] := List.length_eq_zero.1 (by omega)
    obtain ⟨s1, h1, h2, _, h4⟩ := diff_exit pol 0 ra wa rb wb out (Or.inl hra)
    exact ⟨s1, h1, Or.inl (by rw [h2, hra]), h4⟩
  | succ n ih =>
    intro ra wa rb wb out hinv hlen
    cases ra with
    | nil =>
      obtain ⟨s1, h1, h2, _, h4⟩ := diff_exit pol (n + 1) [] wa rb wb out (Or.inl rfl)
      exact ⟨s1, h1, Or.inl h2, h4⟩
    | cons a ra =>
      cases rb with
      | nil =>
        obtain ⟨s1, h1, _, h3, h4⟩ := diff_exit pol (n + 1) (a :: ra) wa [] wb out (Or.inr rfl)
        exact ⟨s1, h1, Or.inr h3, h4⟩
      | cons b rb =>
        obtain ⟨hna, hnb, hpa, hpb, hwa, hwb⟩ := hinv
        rw [List.pairwise_cons] at hpa hpb
        obtain ⟨hpa1, hpa2⟩ := hpa
        obtain ⟨hpb1, hpb2⟩ := hpb
        have hnea : (pol a).labels ≠ [] := hna a (by simp)
        have hneb : (pol b).labels ≠ [] := hnb b (by simp)
        have hna1 : ∀ x ∈ ra, (pol x).labels ≠ [] := fun x hx => hna x (by simp [hx])
        have hnb1 : ∀ x ∈ rb, (pol x).labels ≠ [] := fun x hx => hnb x (by simp [hx])
        obtain ⟨c01, c02, c03, c04, c05, c06, c07, c08, c09, c10⟩ := dv_codes_ne
        -- what the `written` flags exclude
        have hwa1 : wa = true → compare_dv (pol a) (pol b) = dv_A_lt_dv_B_write_A ∨
            compare_dv (pol a) (pol b) = dv_A_blk_dv_B := by
          intro h
          obtain ⟨a0, ra0, he, hall⟩ := hwa h
          cases he
          exact hall b (by simp)
        have hwb1 : wb = true → compare_dv (pol a) (pol b) = dv_A_gt_dv_B_write_B ∨
            compare_dv (pol a) (pol b) = dv_B_blk_dv_A := by
          intro h
          obtain ⟨b0, rb0, he, hall⟩ := hwb h
          cases he
          exact hall a (by simp)
        have hloop : diff_rest pol (n + 1) (diff_mk (a :: ra) wa (b :: rb) wb out) =
            diff_rest pol n
              (action_dv (compare_dv (pol a) (pol b)) write_DV_BUFFER_iter
                advance_DV_BUFFER_iter false true (diff_mk (a :: ra) wa (b :: rb) wb out)) := by
          have : diff_rest pol (n + 1) (diff_mk (a :: ra) wa (b :: rb) wb out) =
              diff_loop pol (n + 1) (diff_mk (a :: ra) wa (b :: rb) wb out) := by
            unfold diff_rest
            rw [if_pos]
            simp [diff_mk]
          rw [this, diff_loop_succ]
          rfl
        rw [hloop, action_dv_step]
        simp only [List.length_cons] at hlen
        rcases compare_dv_range (pol a) (pol b) hnea hneb with hc | hc | hc | hc | hc
        · -- A ≡ B
          have hwaF : wa = false := by
            cases wa with
            | false => rfl
            | true =>
              rcases hwa1 rfl with h | h
              · rw [hc] at h; exact absurd h c01
              · rw [hc] at h; exact absurd h c03
          have hwbF : wb = false := by
            cases wb with
            | false => rfl
            | true =>
              rcases hwb1 rfl with h | h
              · rw [hc] at h; exact absurd h c02
              · rw [hc] at h; exact absurd h c04
          subst hwaF hwbF
          rw [if_pos hc]
          have hinv1 : diff_inv pol ra false rb false :=
            ⟨hna1, hnb1, hpa2, hpb2, (fun h => by cases h), (fun h => by cases h)⟩
          obtain ⟨s1, hs1, hex, X1, hf, hp⟩ := ih ra false rb false _ hinv1 (by omega)
          refine ⟨s1, hs1, hex, [core_write_DV a NEUTRAL 97] ++ X1, ?_, ?_⟩
          · rw [hf]
            simp
          · have hA : diff_class_A pol a (b :: rb) = NEUTRAL := by
              unfold diff_class_A
              rw [if_pos ⟨b, by simp, hc⟩]
            have hLA : diff_lines_A pol ra (b :: rb) = diff_lines_A pol ra rb := by
              apply diff_lines_A_cons
              intro a1 ha1
              have := cmp_eq_gt (pol a) (pol b) (pol a1) hnea hneb (hna1 a1 ha1) hc (hpa1 a1 ha1)
              rw [this]
              exact ⟨c02.symm, c09⟩
            have hB : diff_class_B pol b (a :: ra) = none := by
              unfold diff_class_B
              rw [if_pos ⟨a, by simp, hc⟩]
            have hLB : diff_lines_B pol (a :: ra) rb = diff_lines_B pol ra rb := by
              apply diff_lines_B_cons
              intro b1 hb1
              have := cmp_eq_lt (pol a) (pol b) (pol b1) hnea hneb (hnb1 b1 hb1) hc (hpb1 b1 hb1)
              rw [this]
              exact ⟨c01.symm, c06⟩
            rw [diff_expected_A_false, diff_expected_B_false] at hp
            simp only [diff_expected_A, diff_expected_B, Bool.false_eq_true, if_false, hA, hLA, hB,
              hLB, Option.map_none', Option.toList_none, List.nil_append, List.append_assoc]
            exact List.Perm.append_left _ hp
        · -- A < B
          have hwbF : wb = false := by
            cases wb with
            | false => rfl
            | true =>
              rcases hwb1 rfl with h | h
              · rw [hc] at h; exact absurd h c05
              · rw [hc] at h; exact absurd h c07
          subst hwbF
          rw [if_neg (by rw [hc]; exact c01.symm), if_pos hc]
          have hinv1 : diff_inv pol ra false (b :: rb) false :=
            ⟨hna1, hnb, hpa2, List.pairwise_cons.2 ⟨hpb1, hpb2⟩, (fun h => by cases h),
              (fun h => by cases h)⟩
          obtain ⟨s1, hs1, hex, X1, hf, hp⟩ := ih ra false (b :: rb) false _ hinv1
            (by simp only [List.length_cons]; omega)
          refine ⟨s1, hs1, hex, (if wa = true then [] else [core_write_DV a WINNER 97]) ++ X1,
            ?_, ?_⟩
          · rw [hf]
            simp
          · have hall : ∀ b1 ∈ b :: rb,
                compare_dv (pol a) (pol b1) = dv_A_lt_dv_B_write_A := by
              intro b1 hb1
              simp only [List.mem_cons] at hb1
              rcases hb1 with hb1 | hb1
              · rw [hb1]; exact hc
              · exact cmp_lt_trans (pol a) (pol b) (pol b1) hnea hneb (hnb1 b1 hb1) hc
                  (hpb1 b1 hb1)
            have hA : diff_class_A pol a (b :: rb) = WINNER := by
              apply diff_class_A_winner
              intro b1 hb1
              rw [hall b1 hb1]
              exact ⟨c01.symm, c07⟩
            have hLB : diff_lines_B pol (a :: ra) (b :: rb) = diff_lines_B pol ra (b :: rb) := by
              apply diff_lines_B_cons
              intro b1 hb1
              rw [hall b1 hb1]
              exact ⟨c01.symm, c06⟩
            rw [diff_expected_A_false, diff_expected_B_false] at hp
            rw [diff_expected_B_false, hLB]
            simp only [diff_expected_A, hA, List.append_assoc]
            exact List.Perm.append_left _ hp
        · -- A > B
          have hwaF : wa = false := by
            cases wa with
            | false => rfl
            | true =>
              rcases hwa1 rfl with h | h
              · rw [hc] at h; exact absurd h c05.symm
              · rw [hc] at h; exact absurd h c08
          subst hwaF
          rw [if_neg (by rw [hc]; exact c02.symm), if_neg (by rw [hc]; exact c05.symm), if_pos hc]
          have hinv1 : diff_inv pol (a :: ra) false rb false :=
            ⟨hna, hnb1, List.pairwise_cons.2 ⟨hpa1, hpa2⟩, hpb2, (fun h => by cases h),
              (fun h => by cases h)⟩
          obtain ⟨s1, hs1, hex, X1, hf, hp⟩ := ih (a :: ra) false rb false _ hinv1
            (by simp only [List.length_cons]; omega)
          refine ⟨s1, hs1, hex, (if wb = true then [] else [core_write_DV b WINNER 98]) ++ X1,
            ?_, ?_⟩
          · rw [hf]
            simp
          · have hall : ∀ a1 ∈ a :: ra,
                compare_dv (pol a1) (pol b) = dv_A_gt_dv_B_write_B := by
              intro a1 ha1
              simp only [List.mem_cons] at ha1
              rcases ha1 with ha1 | ha1
              · rw [ha1]; exact hc
              · exact cmp_gt_gt (pol a) (pol b) (pol a1) hnea hneb (hna1 a1 ha1) hc
                  (hpa1 a1 ha1)
            have hB : diff_class_B pol b (a :: ra) = some WINNER := by
              apply diff_class_B_winner
              intro a1 ha1
              rw [hall a1 ha1]
              exact ⟨c02.symm, c08⟩
            have hLA : diff_lines_A pol (a :: ra) (b :: rb) = diff_lines_A pol (a :: ra) rb := by
              apply diff_lines_A_cons
              intro a1 ha1
              rw [hall a1 ha1]
              exact ⟨c02.symm, c09⟩
            rw [diff_expected_A_false, diff_expected_B_false] at hp
            rw [diff_expected_A_false, hLA]
            simp only [diff_expected_B, hB, Option.map_some', Option.toList_some]
            have h1 := List.Perm.append_left
              (if wb = true then [] else [core_write_DV b WINNER 98]) hp
            refine h1.trans ?_
            have h2 := perm_mid ([] : List (List Nat))
              (if wb = true then [] else [core_write_DV b WINNER 98])
              (diff_lines_A pol (a :: ra) rb) (diff_lines_B pol (a :: ra) rb)
            simp only [List.nil_append] at h2
            convert h2 using 2
        · -- A blk B
          have hwbF : wb = false := by
            cases wb with
            | false => rfl
            | true =>
              rcases hwb1 rfl with h | h
              · rw [hc] at h; exact absurd h c08.symm
              · rw [hc] at h; exact absurd h c10
          subst hwbF
          rw [if_neg (by rw [hc]; exact c03.symm), if_neg (by rw [hc]; exact c06.symm),
            if_neg (by rw [hc]; exact c08.symm), if_pos hc]
          have hallb : ∀ b1 ∈ rb, compare_dv (pol a) (pol b1) = dv_A_lt_dv_B_write_A ∨
              compare_dv (pol a) (pol b1) = dv_A_blk_dv_B := fun b1 hb1 =>
            cmp_blk_lt (pol a) (pol b) (pol b1) hnea hneb (hnb1 b1 hb1) hc (hpb1 b1 hb1)
          have halla : ∀ a1 ∈ ra, compare_dv (pol a1) (pol b) = dv_A_gt_dv_B_write_B :=
            fun a1 ha1 =>
            cmp_blk_gt (pol a) (pol b) (pol a1) hnea hneb (hna1 a1 ha1) hc (hpa1 a1 ha1)
          have hinv1 : diff_inv pol (a :: ra) true rb false :=
            ⟨hna, hnb1, List.pairwise_cons.2 ⟨hpa1, hpa2⟩, hpb2,
              fun _ => ⟨a, ra, rfl, hallb⟩, (fun h => by cases h)⟩
          obtain ⟨s1, hs1, hex, X1, hf, hp⟩ := ih (a :: ra) true rb false _ hinv1
            (by simp only [List.length_cons]; omega)
          refine ⟨s1, hs1, hex, ((if wa = true then [] else [core_write_DV a WINNER 97]) ++
            [core_write_DV b LOSER 98]) ++ X1, ?_, ?_⟩
          · rw [hf]
            simp
          · have hA : diff_class_A pol a (b :: rb) = WINNER := by
              apply diff_class_A_winner
              intro b1 hb1
              simp only [List.mem_cons] at hb1
              rcases hb1 with hb1 | hb1
              · rw [hb1, hc]; exact ⟨c03.symm, c10⟩
              · rcases hallb b1 hb1 with h | h
                · rw [h]; exact ⟨c01.symm, c07⟩
                · rw [h]; exact ⟨c03.symm, c10⟩
            have hLA : diff_lines_A pol ra (b :: rb) = diff_lines_A pol ra rb := by
              apply diff_lines_A_cons
              intro a1 ha1
              rw [halla a1 ha1]
              exact ⟨c02.symm, c09⟩
            have hB : diff_class_B pol b (a :: ra) = some LOSER := by
              unfold diff_class_B
              have h1 : ¬ ∃ a1 ∈ a :: ra, compare_dv (pol a1) (pol b) = dv_A_eq_dv_B := by
                rintro ⟨a1, ha1, e⟩
                simp only [List.mem_cons] at ha1
                rcases ha1 with ha1 | ha1
                · rw [ha1, hc] at e; exact c03 e.symm
                · rw [halla a1 ha1] at e; exact c02 e.symm
              rw [if_neg h1, if_pos ⟨a, by simp, hc⟩]
            rw [diff_expected_B_false] at hp
            simp only [diff_expected_A, if_true, List.nil_append] at hp
            simp only [diff_expected_A, diff_expected_B, hA, hLA, hB, Bool.false_eq_true,
              if_false, Option.map_some', Option.toList_some]
            have h1 := List.Perm.append_left
              ((if wa = true then [] else [core_write_DV a WINNER 97]) ++
                [core_write_DV b LOSER 98]) hp
            refine h1.trans ?_
            exact perm_mid _ _ _ _
        · -- B blk A
          have hwaF : wa = false := by
            cases wa with
            | false => rfl
            | true =>
              rcases hwa1 rfl with h | h
              · rw [hc] at h; exact absurd h c07.symm
              · rw [hc] at h; exact absurd h c10.symm
          subst hwaF
          rw [if_neg (by rw [hc]; exact c04.symm), if_neg (by rw [hc]; exact c07.symm),
            if_neg (by rw [hc]; exact c09.symm), if_neg (by rw [hc]; exact c10.symm), if_pos hc]
          have halla : ∀ a1 ∈ ra, compare_dv (pol a1) (pol b) = dv_A_gt_dv_B_write_B ∨
              compare_dv (pol a1) (pol b) = dv_B_blk_dv_A := fun a1 ha1 =>
            cmp_isblk_gt (pol a) (pol b) (pol a1) hnea hneb (hna1 a1 ha1) hc (hpa1 a1 ha1)
          have hallb : ∀ b1 ∈ rb, compare_dv (pol a) (pol b1) = dv_A_lt_dv_B_write_A :=
            fun b1 hb1 =>
            cmp_isblk_lt (pol a) (pol b) (pol b1) hnea hneb (hnb1 b1 hb1) hc (hpb1 b1 hb1)
          have hinv1 : diff_inv pol ra false (b :: rb) true :=
            ⟨hna1, hnb, hpa2, List.pairwise_cons.2 ⟨hpb1, hpb2⟩, (fun h => by cases h),
              fun _ => ⟨b, rb, rfl, halla⟩⟩
          obtain ⟨s1, hs1, hex, X1, hf, hp⟩ := ih ra false (b :: rb) true _ hinv1
            (by simp only [List.length_cons]; omega)
          refine ⟨s1, hs1, hex, ((if wb = true then [] else [core_write_DV b WINNER 98]) ++
            [core_write_DV a LOSER 97]) ++ X1, ?_, ?_⟩
          · rw [hf]
            simp
          · have hA : diff_class_A pol a (b :: rb) = LOSER := by
              unfold diff_class_A
              have h1 : ¬ ∃ b1 ∈ b :: rb, compare_dv (pol a) (pol b1) = dv_A_eq_dv_B := by
                rintro ⟨b1, hb1, e⟩
                simp only [List.mem_cons] at hb1
                rcases hb1 with hb1 | hb1
                · rw [hb1, hc] at e; exact c04 e.symm
                · rw [hallb b1 hb1] at e; exact c01 e.symm
              rw [if_neg h1, if_pos ⟨b, by simp, hc⟩]
            have hB : diff_class_B pol b (a :: ra) = some WINNER := by
              apply diff_class_B_winner
              intro a1 ha1
              simp only [List.mem_cons] at ha1
              rcases ha1 with ha1 | ha1
              · rw [ha1, hc]; exact ⟨c04.symm, c10.symm⟩
              · rcases halla a1 ha1 with h | h
                · rw [h]; exact ⟨c02.symm, c08⟩
                · rw [h]; exact ⟨c04.symm, c10.symm⟩
            have hLB : diff_lines_B pol (a :: ra) rb = diff_lines_B pol ra rb := by
              apply diff_lines_B_cons
              intro b1 hb1
              rw [hallb b1 hb1]
              exact ⟨c01.symm, c06⟩
            rw [diff_expected_A_false] at hp
            simp only [diff_expected_B, if_true, List.nil_append] at hp
            simp only [diff_expected_A, diff_expected_B, hA, hB, hLB, Bool.false_eq_true,
              if_false, Option.map_some', Option.toList_some]
            have h1 := List.Perm.append_left
              ((if wb = true then [] else [core_write_DV b WINNER 98]) ++
                [core_write_DV a LOSER 97]) hp
            refine h1.trans ?_
            -- `Wb ++ [a] ++ (LA ++ LB)` against `[a] ++ LA ++ (Wb ++ LB)`
            have h2 := perm_mid ([core_write_DV a LOSER 97])
              (if wb = true then [] else [core_write_DV b WINNER 98])
              (diff_lines_A pol ra (b :: rb)) (diff_lines_B pol ra rb)
            have h3 : ((if wb = true then [] else [core_write_DV b WINNER 98]) ++
                [core_write_DV a LOSER 97] ++
                (diff_lines_A pol ra (b :: rb) ++ diff_lines_B pol ra rb)).Perm
                ([core_write_DV a LOSER 97] ++
                  (if wb = true then [] else [core_write_DV b WINNER 98]) ++
                  (diff_lines_A pol ra (b :: rb) ++ diff_lines_B pol ra rb)) :=
              List.Perm.append_right _ List.perm_append_comm
            exact h3.trans h2

/-! ## The output of the diff -/

/-- The diff of two non-empty inputs, each strictly increasing at the first differing
label, with fuel for one iteration per entry: the output holds, up to order, one line per
rule of A and one line per rule of B that A does not hold, each under the code of its
class. -/
theorem diff_buffer_spec (pol : List Nat → DomainView_t) (fuel : Nat) (A B : List (List Nat))
    (hA : A ≠ []) (hB : B ≠ [])
    (hnA : ∀ x ∈ A, (pol x).labels ≠ []) (hnB : ∀ x ∈ B, (pol x).labels ≠ [])
    (hsA : A.Pairwise (fun x y => lex_lt (pol x).labels (pol y).labels))
    (hsB : B.Pairwise (fun x y => lex_lt (pol x).labels (pol y).labels))
    (hfuel : A.length + B.length ≤ fuel) :
    ∃ out, diff_adbplus_adlists_BUFFER pol fuel A B = some out ∧
      out.Perm (diff_lines_A pol A B ++ diff_lines_B pol A B) := by
  have hinv : diff_inv pol A false B false :=
    ⟨hnA, hnB, hsA.imp (fun h => (compare_dv_lt_iff _ _).2 h),
      hsB.imp (fun h => (compare_dv_lt_iff _ _).2 h), (fun h => by cases h),
      (fun h => by cases h)⟩
  obtain ⟨s1, hs1, _, X, hf, hp⟩ := diff_rest_spec pol fuel A false B false [] hinv hfuel
  have hrest : diff_rest pol fuel (diff_mk A false B false []) =
      diff_loop pol fuel (diff_mk A false B false []) := by
    unfold diff_rest
    rw [if_pos]
    exact ⟨hA, hB⟩
  rw [hrest] at hs1
  refine ⟨diff_final s1, ?_, ?_⟩
  · unfold diff_adbplus_adlists_BUFFER
    rw [if_neg (by simp [hA, hB])]
    simp only [diff_mk] at hs1
    rw [hs1]
    rfl
  · rw [hf, List.nil_append]
    rw [diff_expected_A_false, diff_expected_B_false] at hp
    exact hp

/-- The bytes `core_write_DV` writes for the codes and markers of the diff. -/
theorem core_write_DV_shape (r : List Nat) (code marker : Nat)
    (hc : code = NEUTRAL ∨ code = WINNER ∨ code = LOSER) (hm : marker = 97 ∨ marker = 98) :
    ∃ c1 c2, core_write_DV r code marker = c1 :: c2 :: (r ++ [10]) ∧
      (c1 = 43 ↔ code = WINNER ∧ marker = 97) ∧ (c1 = 45 ↔ code = LOSER) ∧
      (c1 = 32 ∧ c2 = 98 ↔ code = WINNER ∧ marker = 98) := by
  rcases hc with hc | hc | hc <;> rcases hm with hm | hm <;> subst hc <;> subst hm
  · exact ⟨32, 32, rfl, by decide, by decide, by decide⟩
  · exact ⟨32, 32, rfl, by decide, by decide, by decide⟩
  · exact ⟨43, 97, rfl, by decide, by decide, by decide⟩
  · exact ⟨32, 98, rfl, by decide, by decide, by decide⟩
  · exact ⟨45, 97, rfl, by decide, by decide, by decide⟩
  · exact ⟨45, 98, rfl, by decide, by decide, by decide⟩

theorem diff_payload_shape (c1 c2 : Nat) (r : List Nat) :
    diff_payload (c1 :: c2 :: (r ++ [10])) = r := by
  simp [diff_payload]

theorem diff_payload_core (r : List Nat) (code marker : Nat)
    (hc : code = NEUTRAL ∨ code = WINNER ∨ code = LOSER) (hm : marker = 97 ∨ marker = 98) :
    diff_payload (core_write_DV r code marker) = r := by
  obtain ⟨c1, c2, h, _⟩ := core_write_DV_shape r code marker hc hm
  rw [h, diff_payload_shape]

theorem diff_class_A_range (pol : List Nat → DomainView_t) (a : List Nat) (rb : List (List Nat)) :
    diff_class_A pol a rb = NEUTRAL ∨ diff_class_A pol a rb = WINNER ∨
      diff_class_A pol a rb = LOSER := by
  unfold diff_class_A
  split_ifs <;> simp

theorem diff_class_B_range (pol : List Nat → DomainView_t) (b : List Nat) (ra : List (List Nat))
    (code : Nat) (h : diff_class_B pol b ra = some code) :
    code = NEUTRAL ∨ code = WINNER ∨ code = LOSER := by
  unfold diff_class_B at h
  split_ifs at h <;> simp at h <;> simp [← h]

/-- Two entries of a sequence that is strictly increasing at the first differing label:
the labels of neither are a proper prefix of the labels of the other. -/
theorem sorted_pre_eq (pol : List Nat → DomainView_t) (L : List (List Nat))
    (hs : L.Pairwise (fun x y => lex_lt (pol x).labels (pol y).labels))
    (x y : List Nat) (hx : x ∈ L) (hy : y ∈ L)
    (hpre : (pol x).labels <+: (pol y).labels) : (pol x).labels = (pol y).labels := by
  by_cases hxy : x = y
  · rw [hxy]
  · have hsym : Symmetric (fun x y : List Nat => lex_lt (pol x).labels (pol y).labels ∨
        lex_lt (pol y).labels (pol x).labels) := fun _ _ h => h.symm
    have h := List.Pairwise.forall hsym (hs.imp (fun h => Or.inl h)) hx hy hxy
    rcases h with h | h
    · exact absurd hpre (lex_lt_no_pre _ _ h).1
    · exact absurd hpre (lex_lt_no_pre _ _ h).2

theorem sorted_nodup (pol : List Nat → DomainView_t) (L : List (List Nat))
    (hs : L.Pairwise (fun x y => lex_lt (pol x).labels (pol y).labels)) : L.Nodup := by
  unfold List.Nodup
  refine hs.imp ?_
  intro x y h hxy
  rw [hxy] at h
  exact lex_lt_asymm _ _ h h

/-- The class of a rule of side A, by the labels of the rules of side B. -/
theorem diff_class_A_iff (pol : List Nat → DomainView_t) (a : List Nat) (B : List (List Nat))
    (ha : (pol a).labels ≠ []) (hnB : ∀ x ∈ B, (pol x).labels ≠ [])
    (hsB : B.Pairwise (fun x y => lex_lt (pol x).labels (pol y).labels)) :
    (diff_class_A pol a B = NEUTRAL ↔ ∃ b ∈ B, (pol b).labels = (pol a).labels) ∧
    (diff_class_A pol a B = WINNER ↔ ¬ ∃ b ∈ B, (pol b).labels <+: (pol a).labels) ∧
    (diff_class_A pol a B = LOSER ↔
      ∃ b ∈ B, (pol b).labels <+: (pol a).labels ∧ (pol b).labels ≠ (pol a).labels) := by
  have heq : (∃ b ∈ B, compare_dv (pol a) (pol b) = dv_A_eq_dv_B) ↔
      ∃ b ∈ B, (pol b).labels = (pol a).labels := by
    constructor
    · rintro ⟨b, hb, h⟩
      exact ⟨b, hb, ((compare_dv_cases _ _ ha (hnB b hb)).2.2.1.1 h).symm⟩
    · rintro ⟨b, hb, h⟩
      exact ⟨b, hb, (compare_dv_cases _ _ ha (hnB b hb)).2.2.1.2 h.symm⟩
  have hblk : (∃ b ∈ B, compare_dv (pol a) (pol b) = dv_B_blk_dv_A) ↔
      ∃ b ∈ B, (pol b).labels <+: (pol a).labels ∧ (pol b).labels ≠ (pol a).labels := by
    constructor
    · rintro ⟨b, hb, h⟩
      exact ⟨b, hb, (compare_dv_cases _ _ ha (hnB b hb)).2.2.2.2.1 h⟩
    · rintro ⟨b, hb, h⟩
      exact ⟨b, hb, (compare_dv_cases _ _ ha (hnB b hb)).2.2.2.2.2 h⟩
  have hexcl : (∃ b ∈ B, (pol b).labels = (pol a).labels) →
      ¬ ∃ b ∈ B, (pol b).labels <+: (pol a).labels ∧ (pol b).labels ≠ (pol a).labels := by
    rintro ⟨b, hb, e⟩ ⟨b1, hb1, hpre, hne⟩
    rw [← e] at hpre hne
    exact hne (sorted_pre_eq pol B hsB b1 b hb1 hb hpre)
  unfold diff_class_A
  by_cases h1 : ∃ b ∈ B, compare_dv (pol a) (pol b) = dv_A_eq_dv_B
  · rw [if_pos h1]
    have h1a := heq.1 h1
    refine ⟨⟨fun _ => h1a, fun _ => rfl⟩, ⟨fun h => absurd h (by decide), fun h => ?_⟩,
      ⟨fun h => absurd h (by decide), fun h => absurd h (hexcl h1a)⟩⟩
    obtain ⟨b, hb, e⟩ := h1a
    exact absurd ⟨b, hb, e ▸ List.prefix_refl _⟩ h
  · rw [if_neg h1]
    have h1a : ¬ ∃ b ∈ B, (pol b).labels = (pol a).labels := fun h => h1 (heq.2 h)
    by_cases h2 : ∃ b ∈ B, compare_dv (pol a) (pol b) = dv_B_blk_dv_A
    · rw [if_pos h2]
      have h2a := hblk.1 h2
      refine ⟨⟨fun h => absurd h (by decide), fun h => absurd h h1a⟩,
        ⟨fun h => absurd h (by decide), fun h => ?_⟩, ⟨fun _ => h2a, fun _ => rfl⟩⟩
      obtain ⟨b, hb, hpre, _⟩ := h2a
      exact absurd ⟨b, hb, hpre⟩ h
    · rw [if_neg h2]
      have h2a : ¬ ∃ b ∈ B, (pol b).labels <+: (pol a).labels ∧
          (pol b).labels ≠ (pol a).labels := fun h => h2 (hblk.2 h)
      refine ⟨⟨fun h => absurd h (by decide), fun h => absurd h h1a⟩,
        ⟨fun _ => ?_, fun _ => rfl⟩, ⟨fun h => absurd h (by decide), fun h => absurd h h2a⟩⟩
      rintro ⟨b, hb, hpre⟩
      by_cases e : (pol b).labels = (pol a).labels
      · exact h1a ⟨b, hb, e⟩
      · exact h2a ⟨b, hb, hpre, e⟩

/-- The class of a rule of side B, by the labels of the rules of side A. -/
theorem diff_class_B_iff (pol : List Nat → DomainView_t) (b : List Nat) (A : List (List Nat))
    (hb : (pol b).labels ≠ []) (hnA : ∀ x ∈ A, (pol x).labels ≠ [])
    (hsA : A.Pairwise (fun x y => lex_lt (pol x).labels (pol y).labels)) :
    (diff_class_B pol b A = none ↔ ∃ a ∈ A, (pol a).labels = (pol b).labels) ∧
    (diff_class_B pol b A = some WINNER ↔ ¬ ∃ a ∈ A, (pol a).labels <+: (pol b).labels) ∧
    (diff_class_B pol b A = some LOSER ↔
      ∃ a ∈ A, (pol a).labels <+: (pol b).labels ∧ (pol a).labels ≠ (pol b).labels) := by
  have heq : (∃ a ∈ A, compare_dv (pol a) (pol b) = dv_A_eq_dv_B) ↔
      ∃ a ∈ A, (pol a).labels = (pol b).labels := by
    constructor
    · rintro ⟨a, ha, h⟩
      exact ⟨a, ha, (compare_dv_cases _ _ (hnA a ha) hb).2.2.1.1 h⟩
    · rintro ⟨a, ha, h⟩
      exact ⟨a, ha, (compare_dv_cases _ _ (hnA a ha) hb).2.2.1.2 h⟩
  have hblk : (∃ a ∈ A, compare_dv (pol a) (pol b) = dv_A_blk_dv_B) ↔
      ∃ a ∈ A, (pol a).labels <+: (pol b).labels ∧ (pol a).labels ≠ (pol b).labels := by
    constructor
    · rintro ⟨a, ha, h⟩
      exact ⟨a, ha, (compare_dv_cases _ _ (hnA a ha) hb).2.2.2.1.1 h⟩
    · rintro ⟨a, ha, h⟩
      exact ⟨a, ha, (compare_dv_cases _ _ (hnA a ha) hb).2.2.2.1.2 h⟩
  have hexcl : (∃ a ∈ A, (pol a).labels = (pol b).labels) →
      ¬ ∃ a ∈ A, (pol a).labels <+: (pol b).labels ∧ (pol a).labels ≠ (pol b).labels := by
    rintro ⟨a, ha, e⟩ ⟨a1, ha1, hpre, hne⟩
    rw [← e] at hpre hne
    exact hne (sorted_pre_eq pol A hsA a1 a ha1 ha hpre)
  unfold diff_class_B
  by_cases h1 : ∃ a ∈ A, compare_dv (pol a) (pol b) = dv_A_eq_dv_B
  · rw [if_pos h1]
    have h1a := heq.1 h1
    refine ⟨⟨fun _ => h1a, fun _ => rfl⟩, ⟨fun h => absurd h (by simp), fun h => ?_⟩,
      ⟨fun h => absurd h (by simp), fun h => absurd h (hexcl h1a)⟩⟩
    obtain ⟨a, ha, e⟩ := h1a
    exact absurd ⟨a, ha, e ▸ List.prefix_refl _⟩ h
  · rw [if_neg h1]
    have h1a : ¬ ∃ a ∈ A, (pol a).labels = (pol b).labels := fun h => h1 (heq.2 h)
    by_cases h2 : ∃ a ∈ A, compare_dv (pol a) (pol b) = dv_A_blk_dv_B
    · rw [if_pos h2]
      have h2a := hblk.1 h2
      refine ⟨⟨fun h => absurd h (by simp), fun h => absurd h h1a⟩,
        ⟨fun h => absurd h (by decide), fun h => ?_⟩, ⟨fun _ => h2a, fun _ => rfl⟩⟩
      obtain ⟨a, ha, hpre, _⟩ := h2a
      exact absurd ⟨a, ha, hpre⟩ h
    · rw [if_neg h2]
      have h2a : ¬ ∃ a ∈ A, (pol a).labels <+: (pol b).labels ∧
          (pol a).labels ≠ (pol b).labels := fun h => h2 (hblk.2 h)
      refine ⟨⟨fun h => absurd h (by simp), fun h => absurd h h1a⟩,
        ⟨fun _ => ?_, fun _ => rfl⟩, ⟨fun h => absurd h (by decide), fun h => absurd h h2a⟩⟩
      rintro ⟨a, ha, hpre⟩
      by_cases e : (pol a).labels = (pol b).labels
      · exact h1a ⟨a, ha, e⟩
      · exact h2a ⟨a, ha, hpre, e⟩

theorem count_perm {α : Type} [BEq α] {l1 l2 : List α} (h : l1.Perm l2) (a : α) :
    l1.count a = l2.count a := by
  unfold List.count
  exact h.countP_eq _

theorem count_one_of_nodup {α : Type} [BEq α] [LawfulBEq α] (a : α) :
    ∀ l : List α, l.Nodup → a ∈ l → l.count a = 1 := by
  intro l
  induction l with
  | nil => intro _ h; cases h
  | cons x l ih =>
    intro hd hm
    rw [List.nodup_cons] at hd
    rw [List.count_cons]
    by_cases e : x = a
    · subst e
      rw [List.count_eq_zero_of_not_mem hd.1]
      simp
    · have hm1 : a ∈ l := by
        rcases List.mem_cons.1 hm with h | h
        · exact absurd h.symm e
        · exact h
      rw [ih hd.2 hm1]
      simp [e]

theorem diff_lines_A_payload (pol : List Nat → DomainView_t) (A B : List (List Nat)) :
    (diff_lines_A pol A B).map diff_payload = A := by
  unfold diff_lines_A
  rw [List.map_map]
  conv_rhs => rw [← List.map_id A]
  apply List.map_congr_left
  intro a _
  exact diff_payload_core a _ 97 (diff_class_A_range pol a B) (Or.inl rfl)

theorem diff_lines_B_payload (pol : List Nat → DomainView_t) (A : List (List Nat)) :
    ∀ B : List (List Nat), (diff_lines_B pol A B).map diff_payload =
      B.filter (fun b => (diff_class_B pol b A).isSome) := by
  intro B
  induction B with
  | nil => rfl
  | cons b B ih =>
    unfold diff_lines_B at ih ⊢
    rw [List.filterMap_cons, List.filter_cons]
    cases hc : diff_class_B pol b A with
    | none => simpa using ih
    | some code =>
      simp only [Option.map_some', List.map_cons, Option.isSome_some, if_true, ih]
      rw [diff_payload_core b code 98 (diff_class_B_range pol b A code hc) (Or.inr rfl)]

theorem mem_diff_lines_A (pol : List Nat → DomainView_t) (A B : List (List Nat)) (l : List Nat) :
    l ∈ diff_lines_A pol A B ↔ ∃ a ∈ A, l = core_write_DV a (diff_class_A pol a B) 97 := by
  unfold diff_lines_A
  simp only [List.mem_map]
  constructor
  · rintro ⟨a, ha, e⟩; exact ⟨a, ha, e.symm⟩
  · rintro ⟨a, ha, e⟩; exact ⟨a, ha, e.symm⟩

theorem mem_diff_lines_B (pol : List Nat → DomainView_t) (A B : List (List Nat)) (l : List Nat) :
    l ∈ diff_lines_B pol A B ↔
      ∃ b ∈ B, ∃ code, diff_class_B pol b A = some code ∧ l = core_write_DV b code 98 := by
  unfold diff_lines_B
  simp only [List.mem_filterMap, Option.map_eq_some']
  constructor
  · rintro ⟨b, hb, code, hc, e⟩; exact ⟨b, hb, code, hc, e.symm⟩
  · rintro ⟨b, hb, code, hc, e⟩; exact ⟨b, hb, code, hc, e.symm⟩

theorem mem_diff_rules_with (p : List Nat) (out : List (List Nat)) (r : List Nat) :
    r ∈ diff_rules_with p out ↔ ∃ l ∈ out, l.take p.length = p ∧ diff_payload l = r := by
  unfold diff_rules_with
  simp only [List.mem_map, List.mem_filter, decide_eq_true_eq, and_assoc]

/-- C7. Diff completeness. For non-empty inputs A and B whose lines have a view with at
least one label, each input strictly increasing at the first differing label (sorted
and pruned), distinct rules having distinct domains, and with fuel for one iteration of
the merge loop per entry, `diff_adbplus_adlists_BUFFER` returns an output in which every
rule of A ∪ B is the rule of exactly one line, and every line is a rule of A under
marker `a` or a rule of B under marker `b`, written by `core_write_DV` with the code
NEUTRAL, WINNER or LOSER (a WINNER of side `b` reads ` b`). The `written` flag of the
iterators is part of the function, so this holds as well for a rule that wins several
`blk` steps. -/
theorem diff_completeness (pol : List Nat → DomainView_t) (fuel : Nat) (A B : List (List Nat))
    (hA : A ≠ []) (hB : B ≠ [])
    (hnA : ∀ x ∈ A, (pol x).labels ≠ []) (hnB : ∀ x ∈ B, (pol x).labels ≠ [])
    (hsA : A.Pairwise (fun x y => lex_lt (pol x).labels (pol y).labels))
    (hsB : B.Pairwise (fun x y => lex_lt (pol x).labels (pol y).labels))
    (hinj : ∀ a ∈ A, ∀ b ∈ B, (pol a).labels = (pol b).labels → a = b)
    (hfuel : A.length + B.length ≤ fuel) :
    ∃ out, diff_adbplus_adlists_BUFFER pol fuel A B = some out ∧
      (∀ r, r ∈ A ∨ r ∈ B → (out.map diff_payload).count r = 1) ∧
      (∀ l ∈ out, ∃ r code marker, l = core_write_DV r code marker ∧
        (code = NEUTRAL ∨ code = WINNER ∨ code = LOSER) ∧
        ((marker = 97 ∧ r ∈ A) ∨ (marker = 98 ∧ r ∈ B))) := by
  obtain ⟨out, hout, hperm⟩ := diff_buffer_spec pol fuel A B hA hB hnA hnB hsA hsB hfuel
  refine ⟨out, hout, ?_, ?_⟩
  · intro r hr
    have hp := hperm.map diff_payload
    rw [count_perm hp r, List.map_append, diff_lines_A_payload, diff_lines_B_payload,
      List.count_append]
    have hndA := sorted_nodup pol A hsA
    have hndB := sorted_nodup pol B hsB
    by_cases hrA : r ∈ A
    · have h1 : A.count r = 1 := count_one_of_nodup r A hndA hrA
      have h2 : r ∉ B.filter (fun b => (diff_class_B pol b A).isSome) := by
        intro h
        rw [List.mem_filter] at h
        obtain ⟨hrB, hsome⟩ := h
        have hnone : diff_class_B pol r A = none :=
          (diff_class_B_iff pol r A (hnB r hrB) hnA hsA).1.2 ⟨r, hrA, rfl⟩
        rw [hnone] at hsome
        simp at hsome
      rw [h1, List.count_eq_zero_of_not_mem h2]
    · have hrB : r ∈ B := hr.resolve_left hrA
      have hsome : (diff_class_B pol r A).isSome = true := by
        cases hc : diff_class_B pol r A with
        | some c => rfl
        | none =>
          obtain ⟨a, ha, e⟩ := (diff_class_B_iff pol r A (hnB r hrB) hnA hsA).1.1 hc
          have := hinj a ha r hrB e
          rw [this] at ha
          exact absurd ha hrA
      have h1 : A.count r = 0 := List.count_eq_zero_of_not_mem hrA
      have h2 : (B.filter (fun b => (diff_class_B pol b A).isSome)).count r = 1 :=
        count_one_of_nodup r _ (hndB.filter _) (List.mem_filter.2 ⟨hrB, hsome⟩)
      rw [h1, h2]
  · intro l hl
    have hl1 := hperm.mem_iff.1 hl
    rw [List.mem_append] at hl1
    rcases hl1 with hl1 | hl1
    · obtain ⟨a, ha, e⟩ := (mem_diff_lines_A pol A B l).1 hl1
      exact ⟨a, _, 97, e, diff_class_A_range pol a B, Or.inl ⟨rfl, ha⟩⟩
    · obtain ⟨b, hb, code, hc, e⟩ := (mem_diff_lines_B pol A B l).1 hl1
      exact ⟨b, code, 98, e, diff_class_B_range pol b A code hc, Or.inr ⟨rfl, hb⟩⟩

/-- Witness of C7: `||ex.com^` on side A against `||a.ex.com^`, `||b.ex.com^` on side B;
the rule of A wins two `blk` steps and is written once. -/
theorem diff_completeness_witness :
    ∃ out, diff_adbplus_adlists_BUFFER clean_line_view 3 scenario_blk_A scenario_blk_B =
        some out ∧
      (∀ r, r ∈ scenario_blk_A ∨ r ∈ scenario_blk_B → (out.map diff_payload).count r = 1) ∧
      (∀ l ∈ out, ∃ r code marker, l = core_write_DV r code marker ∧
        (code = NEUTRAL ∨ code = WINNER ∨ code = LOSER) ∧
        ((marker = 97 ∧ r ∈ scenario_blk_A) ∨ (marker = 98 ∧ r ∈ scenario_blk_B))) :=
  diff_completeness clean_line_view 3 scenario_blk_A scenario_blk_B (by decide) (by decide)
    (by decide) (by decide)
    (List.Pairwise.imp (fun h => (compare_dv_lt_iff _ _).1 h) (by decide))
    (List.Pairwise.imp (fun h => (compare_dv_lt_iff _ _).1 h) (by decide))
    (by decide) (by decide)

/-- The marker bytes of a line of the diff tell its code and its side. -/
theorem core_write_DV_marker (r : List Nat) (code marker : Nat)
    (hc : code = NEUTRAL ∨ code = WINNER ∨ code = LOSER) (hm : marker = 97 ∨ marker = 98) :
    ((core_write_DV r code marker).take [43].length = [43] ↔ code = WINNER ∧ marker = 97) ∧
    ((core_write_DV r code marker).take [45].length = [45] ↔ code = LOSER) ∧
    ((core_write_DV r code marker).take [32, 98].length = [32, 98] ↔
      code = WINNER ∧ marker = 98) := by
  obtain ⟨c1, c2, h, h1, h2, h3⟩ := core_write_DV_shape r code marker hc hm
  rw [h]
  refine ⟨?_, ?_, ?_⟩
  · rw [← h1]
    simp
  · rw [← h2]
    simp
  · rw [← h3]
    simp

/-- The rules of the lines of the diff that begin with given marker bytes, when the
lines are those of `diff_lines_A` and `diff_lines_B`. -/
theorem diff_rules_with_iff (pol : List Nat → DomainView_t) (A B out : List (List Nat))
    (hperm : out.Perm (diff_lines_A pol A B ++ diff_lines_B pol A B)) (p r : List Nat) :
    r ∈ diff_rules_with p out ↔
      (r ∈ A ∧ (core_write_DV r (diff_class_A pol r B) 97).take p.length = p) ∨
      (r ∈ B ∧ ∃ code, diff_class_B pol r A = some code ∧
        (core_write_DV r code 98).take p.length = p) := by
  rw [mem_diff_rules_with]
  constructor
  · rintro ⟨l, hl, ht, hpay⟩
    have hl1 := hperm.mem_iff.1 hl
    rw [List.mem_append] at hl1
    rcases hl1 with hl1 | hl1
    · obtain ⟨a, ha, e⟩ := (mem_diff_lines_A pol A B l).1 hl1
      have : a = r := by
        rw [← hpay, e, diff_payload_core a _ 97 (diff_class_A_range pol a B) (Or.inl rfl)]
      subst this
      left
      exact ⟨ha, e ▸ ht⟩
    · obtain ⟨b, hb, code, hc, e⟩ := (mem_diff_lines_B pol A B l).1 hl1
      have : b = r := by
        rw [← hpay, e,
          diff_payload_core b code 98 (diff_class_B_range pol b A code hc) (Or.inr rfl)]
      subst this
      right
      exact ⟨hb, code, hc, e ▸ ht⟩
  · rintro (⟨hr, ht⟩ | ⟨hr, code, hc, ht⟩)
    · refine ⟨core_write_DV r (diff_class_A pol r B) 97, ?_, ht,
        diff_payload_core r _ 97 (diff_class_A_range pol r B) (Or.inl rfl)⟩
      apply hperm.mem_iff.2
      rw [List.mem_append]
      left
      exact (mem_diff_lines_A pol A B _).2 ⟨r, hr, rfl⟩
    · refine ⟨core_write_DV r code 98, ?_, ht,
        diff_payload_core r code 98 (diff_class_B_range pol r A code hc) (Or.inr rfl)⟩
      apply hperm.mem_iff.2
      rw [List.mem_append]
      right
      exact (mem_diff_lines_B pol A B _).2 ⟨r, hr, code, hc, rfl⟩

/-- Counterexample to C8: the diff of scenario E of the specification
(A: `||alpha.com^`, `||gamma.com^`; B: `||beta.com^`, `||gamma.com^`, both sorted and
pruned) is `+a||alpha.com^`, ` b||beta.com^`, `  ||gamma.com^`. Its only line that
begins with `+` is the rule `||alpha.com^`, which is not a rule of B, while the rules
`||beta.com^` and `||gamma.com^` of B are on no such line; counting the ` b` line of the
winner of side B as well still leaves out `||gamma.com^`. -/
theorem diff_round_trip_counterexample :
    scenario_E_A.Pairwise (fun x y =>
      compare_dv (clean_line_view x) (clean_line_view y) = dv_A_lt_dv_B_write_A) ∧
    scenario_E_B.Pairwise (fun x y =>
      compare_dv (clean_line_view x) (clean_line_view y) = dv_A_lt_dv_B_write_A) ∧
    ∃ out, diff_adbplus_adlists_BUFFER clean_line_view 4 scenario_E_A scenario_E_B = some out ∧
      out = [[43, 97, 124, 124, 97, 108, 112, 104, 97, 46, 99, 111, 109, 94, 10],
        [32, 98, 124, 124, 98, 101, 116, 97, 46, 99, 111, 109, 94, 10],
        [32, 32, 124, 124, 103, 97, 109, 109, 97, 46, 99, 111, 109, 94, 10]] ∧
      diff_rules_with [43] out = [[124, 124, 97, 108, 112, 104, 97, 46, 99, 111, 109, 94]] ∧
      diff_rules_with [32, 98] out = [[124, 124, 98, 101, 116, 97, 46, 99, 111, 109, 94]] ∧
      ¬ (∀ r, r ∈ diff_rules_with [43] out ↔
          (r ∈ scenario_E_B ∨ (r ∈ scenario_E_A ∧ r ∈ scenario_E_B))) ∧
      ¬ (∀ r, r ∈ diff_rules_with [43] out ++ diff_rules_with [32, 98] out ↔
          (r ∈ scenario_E_B ∨ (r ∈ scenario_E_A ∧ r ∈ scenario_E_B))) := by
  refine ⟨by decide, by decide, _, rfl, by decide, by decide, by decide, ?_, ?_⟩
  · intro h
    exact absurd ((h [124, 124, 103, 97, 109, 109, 97, 46, 99, 111, 109, 94]).2
      (by decide)) (by decide)
  · intro h
    exact absurd ((h [124, 124, 103, 97, 109, 109, 97, 46, 99, 111, 109, 94]).2
      (by decide)) (by decide)

/-- C8 (amended). For non-empty inputs A and B whose lines have a view with at least one
label, each input strictly increasing at the first differing label (sorted and pruned),
with fuel for one iteration of the merge loop per entry, the output of
`diff_adbplus_adlists_BUFFER` is such that: the lines that begin with `+`, stripped of
their two marker bytes, are exactly the rules of A whose domain no rule of B equals or
dominates (not the rules of B); the rules of B whose domain no rule of A equals or
dominates are exactly the lines that begin with ` b`; and the lines that begin with `-`
are exactly the rules eliminated by domination, those whose domain has the domain of a
rule of the other side as a proper suffix. -/
theorem diff_round_trip (pol : List Nat → DomainView_t) (fuel : Nat) (A B : List (List Nat))
    (hA : A ≠ []) (hB : B ≠ [])
    (hnA : ∀ x ∈ A, (pol x).labels ≠ []) (hnB : ∀ x ∈ B, (pol x).labels ≠ [])
    (hsA : A.Pairwise (fun x y => lex_lt (pol x).labels (pol y).labels))
    (hsB : B.Pairwise (fun x y => lex_lt (pol x).labels (pol y).labels))
    (hfuel : A.length + B.length ≤ fuel) :
    ∃ out, diff_adbplus_adlists_BUFFER pol fuel A B = some out ∧
      (∀ r, r ∈ diff_rules_with [43] out ↔
        r ∈ A ∧ ¬ ∃ b ∈ B, (pol b).labels <+: (pol r).labels) ∧
      (∀ r, r ∈ diff_rules_with [32, 98] out ↔
        r ∈ B ∧ ¬ ∃ a ∈ A, (pol a).labels <+: (pol r).labels) ∧
      (∀ r, r ∈ diff_rules_with [45] out ↔
        (r ∈ A ∧ ∃ b ∈ B, (pol b).labels <+: (pol r).labels ∧
          (pol b).labels ≠ (pol r).labels) ∨
        (r ∈ B ∧ ∃ a ∈ A, (pol a).labels <+: (pol r).labels ∧
          (pol a).labels ≠ (pol r).labels)) := by
  obtain ⟨out, hout, hperm⟩ := diff_buffer_spec pol fuel A B hA hB hnA hnB hsA hsB hfuel
  have hmA : ∀ r, _ := fun r =>
    core_write_DV_marker r (diff_class_A pol r B) 97 (diff_class_A_range pol r B) (Or.inl rfl)
  have hmB : ∀ r code, diff_class_B pol r A = some code → _ := fun r code hc =>
    core_write_DV_marker r code 98 (diff_class_B_range pol r A code hc) (Or.inr rfl)
  refine ⟨out, hout, ?_, ?_, ?_⟩
  · intro r
    rw [diff_rules_with_iff pol A B out hperm]
    constructor
    · rintro (⟨hr, ht⟩ | ⟨hr, code, hc, ht⟩)
      · exact ⟨hr, (diff_class_A_iff pol r B (hnA r hr) hnB hsB).2.1.1 ((hmA r).1.1 ht).1⟩
      · exact absurd ((hmB r code hc).1.1 ht).2 (by decide)
    · rintro ⟨hr, h⟩
      left
      refine ⟨hr, (hmA r).1.2 ⟨(diff_class_A_iff pol r B (hnA r hr) hnB hsB).2.1.2 h, rfl⟩⟩
  · intro r
    rw [diff_rules_with_iff pol A B out hperm]
    constructor
    · rintro (⟨hr, ht⟩ | ⟨hr, code, hc, ht⟩)
      · exact absurd ((hmA r).2.2.1 ht).2 (by decide)
      · have hw := ((hmB r code hc).2.2.1 ht).1
        rw [hw] at hc
        exact ⟨hr, (diff_class_B_iff pol r A (hnB r hr) hnA hsA).2.1.1 hc⟩
    · rintro ⟨hr, h⟩
      right
      have hc := (diff_class_B_iff pol r A (hnB r hr) hnA hsA).2.1.2 h
      exact ⟨hr, WINNER, hc, (hmB r WINNER hc).2.2.2 ⟨rfl, rfl⟩⟩
  · intro r
    rw [diff_rules_with_iff pol A B out hperm]
    constructor
    · rintro (⟨hr, ht⟩ | ⟨hr, code, hc, ht⟩)
      · left
        exact ⟨hr, (diff_class_A_iff pol r B (hnA r hr) hnB hsB).2.2.1 ((hmA r).2.1.1 ht)⟩
      · right
        have hw := (hmB r code hc).2.1.1 ht
        rw [hw] at hc
        exact ⟨hr, (diff_class_B_iff pol r A (hnB r hr) hnA hsA).2.2.1 hc⟩
    · rintro (⟨hr, h⟩ | ⟨hr, h⟩)
      · left
        exact ⟨hr, (hmA r).2.1.2 ((diff_class_A_iff pol r B (hnA r hr) hnB hsB).2.2.2 h)⟩
      · right
        have hc := (diff_class_B_iff pol r A (hnB r hr) hnA hsA).2.2.2 h
        exact ⟨hr, LOSER, hc, (hmB r LOSER hc).2.1.2 rfl⟩

/-- Witness of C8 (amended): scenario E of the specification. -/
theorem diff_round_trip_witness :
    ∃ out, diff_adbplus_adlists_BUFFER clean_line_view 4 scenario_E_A scenario_E_B = some out ∧
      (∀ r, r ∈ diff_rules_with [43] out ↔
        r ∈ scenario_E_A ∧
          ¬ ∃ b ∈ scenario_E_B, (clean_line_view b).labels <+: (clean_line_view r).labels) ∧
      (∀ r, r ∈ diff_rules_with [32, 98] out ↔
        r ∈ scenario_E_B ∧
          ¬ ∃ a ∈ scenario_E_A, (clean_line_view a).labels <+: (clean_line_view r).labels) ∧
      (∀ r, r ∈ diff_rules_with [45] out ↔
        (r ∈ scenario_E_A ∧ ∃ b ∈ scenario_E_B,
          (clean_line_view b).labels <+: (clean_line_view r).labels ∧
          (clean_line_view b).labels ≠ (clean_line_view r).labels) ∨
        (r ∈ scenario_E_B ∧ ∃ a ∈ scenario_E_A,
          (clean_line_view a).labels <+: (clean_line_view r).labels ∧
          (clean_line_view a).labels ≠ (clean_line_view r).labels)) :=
  diff_round_trip clean_line_view 4 scenario_E_A scenario_E_B (by decide) (by decide)
    (by decide) (by decide)
    (List.Pairwise.imp (fun h => (compare_dv_lt_iff _ _).1 h) (by decide))
    (List.Pairwise.imp (fun h => (compare_dv_lt_iff _ _).1 h) (by decide))
    (by decide)

/-! ## States of the diff, for inputs in any order -/

theorem suffix_tail {α : Type} (a : α) (ra A : List α) (h : (a :: ra) <:+ A) : ra <:+ A :=
  (List.suffix_cons a ra).trans h

theorem suffix_head_mem {α : Type} (a : α) (ra A : List α) (h : (a :: ra) <:+ A) : a ∈ A :=
  h.subset (by simp)

/-- One step of the merge loop from a state with a current entry on both sides keeps
`diff_wf`, whatever `compare_dv` returned. -/
theorem action_dv_wf (A B : List (List Nat)) (cmp : Int) (a : List Nat) (ra : List (List Nat))
    (wa : Bool) (b : List Nat) (rb : List (List Nat)) (wb : Bool) (out : List (List Nat))
    (h : diff_wf A B (a :: ra) wa (b :: rb) wb out) :
    ∃ ra1 wa1 rb1 wb1 out1,
      action_dv cmp write_DV_BUFFER_iter advance_DV_BUFFER_iter false true
        (diff_mk (a :: ra) wa (b :: rb) wb out) = diff_mk ra1 wa1 rb1 wb1 out1 ∧
      diff_wf A B ra1 wa1 rb1 wb1 out1 := by
  obtain ⟨hsa, hsb, hl, hwa, hwb⟩ := h
  have haA : a ∈ A := suffix_head_mem a ra A hsa
  have hbB : b ∈ B := suffix_head_mem b rb B hsb
  have hsa1 := suffix_tail a ra A hsa
  have hsb1 := suffix_tail b rb B hsb
  have hlineA : ∀ code, (code = NEUTRAL ∨ code = WINNER ∨ code = LOSER) →
      diff_line_ok A B (core_write_DV a code 97) :=
    fun code hc => ⟨a, code, hc, Or.inl ⟨haA, rfl⟩⟩
  have hlineB : ∀ code, (code = WINNER ∨ code = LOSER) →
      diff_line_ok A B (core_write_DV b code 98) := by
    intro code hc
    refine ⟨b, code, Or.inr hc, Or.inr ⟨hbB, ?_, rfl⟩⟩
    rcases hc with hc | hc <;> rw [hc] <;> decide
  have hgrow : ∀ (W : List (List Nat)), (∀ l ∈ W, diff_line_ok A B l) →
      ∀ l ∈ out ++ W, diff_line_ok A B l := by
    intro W hW l hlm
    rcases List.mem_append.1 hlm with h1 | h1
    · exact hl l h1
    · exact hW l h1
  have hopt : ∀ (w : Bool) (x : List Nat), diff_line_ok A B x →
      ∀ l ∈ (if w = true then [] else [x]), diff_line_ok A B l := by
    intro w x hx l hlm
    cases w
    · simp only [Bool.false_eq_true, if_false, List.mem_singleton] at hlm
      rw [hlm]; exact hx
    · simp at hlm
  rw [action_dv_step]
  by_cases h0 : cmp = dv_A_eq_dv_B
  · rw [if_pos h0]
    exact ⟨_, _, _, _, _, rfl, hsa1, hsb1,
      hgrow _ (hopt wa _ (hlineA NEUTRAL (Or.inl rfl))),
      (fun e => by cases e), (fun e => by cases e)⟩
  rw [if_neg h0]
  by_cases h7 : cmp = dv_A_lt_dv_B_write_A
  · rw [if_pos h7]
    refine ⟨_, _, _, _, _, rfl, hsa1, hsb, hgrow _ (hopt wa _ (hlineA WINNER (Or.inr (Or.inl rfl)))),
      (fun e => by cases e), ?_⟩
    intro e
    obtain ⟨b0, rb0, e1, e2⟩ := hwb e
    exact ⟨b0, rb0, e1, List.mem_append_left _ e2⟩
  rw [if_neg h7]
  by_cases h8 : cmp = dv_A_gt_dv_B_write_B
  · rw [if_pos h8]
    refine ⟨_, _, _, _, _, rfl, hsa, hsb1, hgrow _ (hopt wb _ (hlineB WINNER (Or.inl rfl))),
      ?_, (fun e => by cases e)⟩
    intro e
    obtain ⟨a0, ra0, e1, e2⟩ := hwa e
    exact ⟨a0, ra0, e1, List.mem_append_left _ e2⟩
  rw [if_neg h8]
  by_cases h1 : cmp = dv_A_blk_dv_B
  · rw [if_pos h1]
    refine ⟨_, _, _, _, _, rfl, hsa, hsb1, hgrow _ ?_, ?_, (fun e => by cases e)⟩
    · intro l hlm
      rcases List.mem_append.1 hlm with h2 | h2
      · exact hopt wa _ (hlineA WINNER (Or.inr (Or.inl rfl))) l h2
      · exact hopt wb _ (hlineB LOSER (Or.inr rfl)) l h2
    · intro _
      refine ⟨a, ra, rfl, ?_⟩
      cases hw : wa
      · simp
      · obtain ⟨a0, ra0, e1, e2⟩ := hwa hw
        cases e1
        exact List.mem_append_left _ e2
  rw [if_neg h1]
  by_cases h2 : cmp = dv_B_blk_dv_A
  · rw [if_pos h2]
    refine ⟨_, _, _, _, _, rfl, hsa1, hsb, hgrow _ ?_, (fun e => by cases e), ?_⟩
    · intro l hlm
      rcases List.mem_append.1 hlm with h3 | h3
      · exact hopt wb _ (hlineB WINNER (Or.inl rfl)) l h3
      · exact hopt wa _ (hlineA LOSER (Or.inr (Or.inr rfl))) l h3
    · intro _
      refine ⟨b, rb, rfl, ?_⟩
      cases hw : wb
      · simp
      · obtain ⟨b0, rb0, e1, e2⟩ := hwb hw
        cases e1
        exact List.mem_append_left _ e2
  rw [if_neg h2]
  exact ⟨_, _, _, _, _, rfl, hsa, hsb, hl, hwa, hwb⟩

/-- The state in which the merge loop stops, when it stops, satisfies `diff_wf`. -/
theorem diff_loop_wf (pol : List Nat → DomainView_t) (A B : List (List Nat)) :
    ∀ (fuel : Nat) (ra : List (List Nat)) (wa : Bool) (rb : List (List Nat)) (wb : Bool)
      (out : List (List Nat)) (s1 : diff_state),
      ra ≠ [] → rb ≠ [] → diff_wf A B ra wa rb wb out →
      diff_loop pol fuel (diff_mk ra wa rb wb out) = some s1 →
      ∃ ra1 wa1 rb1 wb1 out1, s1 = diff_mk ra1 wa1 rb1 wb1 out1 ∧
        diff_wf A B ra1 wa1 rb1 wb1 out1 ∧ (ra1 = [] ∨ rb1 = []) := by
  intro fuel
  induction fuel with
  | zero =>
    intro ra wa rb wb out s1 _ _ _ h
    simp [diff_loop] at h
  | succ n ih =>
    intro ra wa rb wb out s1 hra hrb hwf h
    cases ra with
    | nil => exact absurd rfl hra
    | cons a ra =>
      cases rb with
      | nil => exact absurd rfl hrb
      | cons b rb =>
        rw [diff_loop_succ] at h
        obtain ⟨ra1, wa1, rb1, wb1, out1, hstep, hwf1⟩ :=
          action_dv_wf A B (compare_dv (pol a) (pol b)) a ra wa b rb wb out hwf
        have hstep1 : action_dv
            (compare_dv (pol ((diff_mk (a :: ra) wa (b :: rb) wb out).dv_iterA.rest.headD []))
              (pol ((diff_mk (a :: ra) wa (b :: rb) wb out).dv_iterB.rest.headD [])))
            write_DV_BUFFER_iter advance_DV_BUFFER_iter false true
            (diff_mk (a :: ra) wa (b :: rb) wb out) = diff_mk ra1 wa1 rb1 wb1 out1 := hstep
        rw [hstep1] at h
        unfold diff_rest at h
        by_cases hc : ra1 ≠ [] ∧ rb1 ≠ []
        · rw [if_pos (by simpa [diff_mk] using hc)] at h
          exact ih ra1 wa1 rb1 wb1 out1 s1 hc.1 hc.2 hwf1 h
        · rw [if_neg (by simpa [diff_mk] using hc)] at h
          refine ⟨ra1, wa1, rb1, wb1, out1, (Option.some.inj h).symm, hwf1, ?_⟩
          by_cases e : ra1 = []
          · exact Or.inl e
          · right
            by_contra e2
            exact hc ⟨e, e2⟩

/-- The output of the diff, whenever it returns one: the lines written when the merge
loop stops, then the remaining entries of either side as winners. -/
theorem diff_buffer_wf (pol : List Nat → DomainView_t) (fuel : Nat) (A B out : List (List Nat))
    (h : diff_adbplus_adlists_BUFFER pol fuel A B = some out) :
    ∃ ra1 wa1 rb1 wb1 out1,
      diff_loop pol fuel (diff_mk A false B false []) = some (diff_mk ra1 wa1 rb1 wb1 out1) ∧
      diff_wf A B ra1 wa1 rb1 wb1 out1 ∧ (ra1 = [] ∨ rb1 = []) ∧
      out = out1 ++ drain_lines ra1 wa1 97 ++ drain_lines rb1 wb1 98 := by
  unfold diff_adbplus_adlists_BUFFER at h
  by_cases he : A = [] ∨ B = []
  · rw [if_pos he] at h
    cases h
  · rw [if_neg he] at h
    have hA : A ≠ [] := fun e => he (Or.inl e)
    have hB : B ≠ [] := fun e => he (Or.inr e)
    cases hl : diff_loop pol fuel (diff_mk A false B false []) with
    | none =>
      simp only [diff_mk] at hl
      rw [hl] at h
      cases h
    | some s1 =>
      have hwf0 : diff_wf A B A false B false [] :=
        ⟨List.suffix_refl A, List.suffix_refl B, (fun l hl => by cases hl),
          (fun e => by cases e), (fun e => by cases e)⟩
      obtain ⟨ra1, wa1, rb1, wb1, out1, hs1, hwf, hex⟩ :=
        diff_loop_wf pol A B fuel A false B false [] s1 hA hB hwf0 hl
      refine ⟨ra1, wa1, rb1, wb1, out1, by rw [hs1], hwf, hex, ?_⟩
      simp only [diff_mk] at hl
      rw [hl] at h
      have h1 : diff_final s1 = out := Option.some.inj h
      rw [← h1, hs1, diff_final_mk]

theorem drain_lines_mem (rest : List (List Nat)) (w : Bool) (marker : Nat) (l : List Nat)
    (h : l ∈ drain_lines rest w marker) : ∃ r ∈ rest, l = core_write_DV r WINNER marker := by
  cases rest with
  | nil => simp [drain_lines] at h
  | cons a r =>
    simp only [drain_lines, List.mem_append, List.mem_map] at h
    rcases h with h | ⟨x, hx, e⟩
    · cases w
      · simp only [Bool.false_eq_true, if_false, List.mem_singleton] at h
        exact ⟨a, by simp, h⟩
      · simp at h
    · exact ⟨x, by simp [hx], e.symm⟩

/-- C11. Diff line format. `core_write_DV` writes two marker bytes, the rule bytes and one
line feed: two spaces for NEUTRAL, `+a` for a winner of side `a`, ` b` for a winner
of side `b`, `-a` and `-b` for a loser. Every line of every output of
`diff_adbplus_adlists_BUFFER` (inputs in any order, any view of a line) is written so:
it is a rule of A under NEUTRAL, WINNER or LOSER with marker `a`, or a rule of B under
WINNER or LOSER with marker `b`. -/
theorem diff_line_format (pol : List Nat → DomainView_t) (fuel : Nat)
    (A B out : List (List Nat))
    (h : diff_adbplus_adlists_BUFFER pol fuel A B = some out) :
    (∀ r : List Nat,
      core_write_DV r NEUTRAL 97 = [32, 32] ++ r ++ [10] ∧
      core_write_DV r NEUTRAL 98 = [32, 32] ++ r ++ [10] ∧
      core_write_DV r WINNER 97 = [43, 97] ++ r ++ [10] ∧
      core_write_DV r WINNER 98 = [32, 98] ++ r ++ [10] ∧
      core_write_DV r LOSER 97 = [45, 97] ++ r ++ [10] ∧
      core_write_DV r LOSER 98 = [45, 98] ++ r ++ [10]) ∧
    ∀ l ∈ out, ∃ r code, (code = NEUTRAL ∨ code = WINNER ∨ code = LOSER) ∧
      ((r ∈ A ∧ l = core_write_DV r code 97) ∨
        (r ∈ B ∧ code ≠ NEUTRAL ∧ l = core_write_DV r code 98)) := by
  refine ⟨fun r => ⟨rfl, rfl, rfl, rfl, rfl, rfl⟩, ?_⟩
  obtain ⟨ra1, wa1, rb1, wb1, out1, _, hwf, _, hout⟩ := diff_buffer_wf pol fuel A B out h
  obtain ⟨hsa, hsb, hl, _, _⟩ := hwf
  intro l hlm
  rw [hout] at hlm
  rcases List.mem_append.1 hlm with h1 | h1
  · rcases List.mem_append.1 h1 with h2 | h2
    · exact hl l h2
    · obtain ⟨r, hr, e⟩ := drain_lines_mem ra1 wa1 97 l h2
      exact ⟨r, WINNER, Or.inr (Or.inl rfl), Or.inl ⟨hsa.subset hr, e⟩⟩
  · obtain ⟨r, hr, e⟩ := drain_lines_mem rb1 wb1 98 l h1
    exact ⟨r, WINNER, Or.inr (Or.inl rfl), Or.inr ⟨hsb.subset hr, by decide, e⟩⟩

/-- Witness of C11: scenario E of the specification, A = `||alpha.com^`, `||gamma.com^` and
B = `||beta.com^`, `||gamma.com^`, gives `+a||alpha.com^`, ` b||beta.com^`,
`  ||gamma.com^`. -/
theorem diff_line_format_witness :
    diff_adbplus_adlists_BUFFER clean_line_view 4 scenario_E_A scenario_E_B =
      some [[43, 97, 124, 124, 97, 108, 112, 104, 97, 46, 99, 111, 109, 94, 10],
        [32, 98, 124, 124, 98, 101, 116, 97, 46, 99, 111, 109, 94, 10],
        [32, 32, 124, 124, 103, 97, 109, 109, 97, 46, 99, 111, 109, 94, 10]] ∧
    ((∀ r : List Nat,
      core_write_DV r NEUTRAL 97 = [32, 32] ++ r ++ [10] ∧
      core_write_DV r NEUTRAL 98 = [32, 32] ++ r ++ [10] ∧
      core_write_DV r WINNER 97 = [43, 97] ++ r ++ [10] ∧
      core_write_DV r WINNER 98 = [32, 98] ++ r ++ [10] ∧
      core_write_DV r LOSER 97 = [45, 97] ++ r ++ [10] ∧
      core_write_DV r LOSER 98 = [45, 98] ++ r ++ [10]) ∧
    ∀ l ∈ [[43, 97, 124, 124, 97, 108, 112, 104, 97, 46, 99, 111, 109, 94, 10],
        [32, 98, 124, 124, 98, 101, 116, 97, 46, 99, 111, 109, 94, 10],
        [32, 32, 124, 124, 103, 97, 109, 109, 97, 46, 99, 111, 109, 94, 10]],
      ∃ r code, (code = NEUTRAL ∨ code = WINNER ∨ code = LOSER) ∧
        ((r ∈ scenario_E_A ∧ l = core_write_DV r code 97) ∨
          (r ∈ scenario_E_B ∧ code ≠ NEUTRAL ∧ l = core_write_DV r code 98))) :=
  ⟨by decide, diff_line_format clean_line_view 4 scenario_E_A scenario_E_B _ (by decide)⟩

/-- Every rule of side A is the rule of exactly one line of the diff. -/
theorem diff_count_A (pol : List Nat → DomainView_t) (A B out : List (List Nat))
    (hnB : ∀ x ∈ B, (pol x).labels ≠ [])
    (hnA : ∀ x ∈ A, (pol x).labels ≠ [])
    (hsA : A.Pairwise (fun x y => lex_lt (pol x).labels (pol y).labels))
    (hperm : out.Perm (diff_lines_A pol A B ++ diff_lines_B pol A B))
    (r : List Nat) (hrA : r ∈ A) : (out.map diff_payload).count r = 1 := by
  have hp := hperm.map diff_payload
  rw [count_perm hp r, List.map_append, diff_lines_A_payload, diff_lines_B_payload,
    List.count_append]
  have h1 : A.count r = 1 := count_one_of_nodup r A (sorted_nodup pol A hsA) hrA
  have h2 : r ∉ B.filter (fun b => (diff_class_B pol b A).isSome) := by
    intro h
    rw [List.mem_filter] at h
    obtain ⟨hrB, hsome⟩ := h
    have hnone : diff_class_B pol r A = none :=
      (diff_class_B_iff pol r A (hnB r hrB) hnA hsA).1.2 ⟨r, hrA, rfl⟩
    rw [hnone] at hsome
    simp at hsome
  rw [h1, List.count_eq_zero_of_not_mem h2]

/-- A rule of side B that is on a winner line of the diff is the rule of exactly one
line. -/
theorem diff_count_B (pol : List Nat → DomainView_t) (A B out : List (List Nat))
    (hnA : ∀ x ∈ A, (pol x).labels ≠ []) (hnB : ∀ x ∈ B, (pol x).labels ≠ [])
    (hsA : A.Pairwise (fun x y => lex_lt (pol x).labels (pol y).labels))
    (hsB : B.Pairwise (fun x y => lex_lt (pol x).labels (pol y).labels))
    (hperm : out.Perm (diff_lines_A pol A B ++ diff_lines_B pol A B))
    (r : List Nat) (hrB : r ∈ B) (hline : core_write_DV r WINNER 98 ∈ out) :
    (out.map diff_payload).count r = 1 := by
  by_cases hrA : r ∈ A
  · exact diff_count_A pol A B out hnB hnA hsA hperm r hrA
  · have hl1 := hperm.mem_iff.1 hline
    have hsome : (diff_class_B pol r A).isSome = true := by
      rcases List.mem_append.1 hl1 with h1 | h1
      · obtain ⟨a, _, e⟩ := (mem_diff_lines_A pol A B _).1 h1
        obtain ⟨c1, c2, hshape, _, _, h3⟩ :=
          core_write_DV_shape a (diff_class_A pol a B) 97 (diff_class_A_range pol a B)
            (Or.inl rfl)
        have e1 : core_write_DV r WINNER 98 = 32 :: 98 :: (r ++ [10]) := rfl
        rw [e1, hshape] at e
        injection e with e2 e3
        injection e3 with e4 _
        have := (h3.1 ⟨e2.symm, e4.symm⟩).2
        exact absurd this (by decide)
      · obtain ⟨b, _, code, hc, e⟩ := (mem_diff_lines_B pol A B _).1 h1
        have hpay := congrArg diff_payload e
        rw [diff_payload_core r WINNER 98 (Or.inr (Or.inl rfl)) (Or.inr rfl),
          diff_payload_core b code 98 (diff_class_B_range pol b A code hc) (Or.inr rfl)] at hpay
        rw [hpay, hc]
        rfl
    have hp := hperm.map diff_payload
    rw [count_perm hp r, List.map_append, diff_lines_A_payload, diff_lines_B_payload,
      List.count_append]
    have h1 : A.count r = 0 := List.count_eq_zero_of_not_mem hrA
    have h2 : (B.filter (fun b => (diff_class_B pol b A).isSome)).count r = 1 :=
      count_one_of_nodup r _ ((sorted_nodup pol B hsB).filter _)
        (List.mem_filter.2 ⟨hrB, hsome⟩)
    rw [h1, h2]

theorem drain_lines_has (rest : List (List Nat)) (w : Bool) (marker : Nat) (out : List (List Nat))
    (hw : w = true → ∃ a r1, rest = a :: r1 ∧ core_write_DV a WINNER marker ∈ out)
    (r : List Nat) (hr : r ∈ rest) :
    core_write_DV r WINNER marker ∈ out ++ drain_lines rest w marker := by
  cases rest with
  | nil => cases hr
  | cons a r1 =>
    rcases List.mem_cons.1 hr with e | hmem
    · subst e
      cases hwv : w
      · simp [drain_lines]
      · obtain ⟨a0, r0, e1, e2⟩ := hw hwv
        cases e1
        exact List.mem_append_left _ e2
    · apply List.mem_append_right
      simp only [drain_lines, List.mem_append, List.mem_map]
      exact Or.inr ⟨r, hmem, rfl⟩

/-- C12. Diff drain. For non-empty inputs A and B, each sorted and pruned (strictly
increasing at the first differing label), and fuel for one iteration of the merge loop
per entry: the merge loop stops in a state `s` with one side exhausted, the remaining
entries being the inputs from the current positions on; the output is what is written
by then, followed by one WINNER line per remaining entry of side A and then of side B,
in the order of the entries, without the line of a current entry whose `written` flag
is set; such an entry is on a WINNER line written before the loop stopped; and every
remaining rule is on a WINNER line of the output and is the rule of exactly one
line. -/
theorem diff_drain_spec (pol : List Nat → DomainView_t) (fuel : Nat) (A B : List (List Nat))
    (hA : A ≠ []) (hB : B ≠ [])
    (hnA : ∀ x ∈ A, (pol x).labels ≠ []) (hnB : ∀ x ∈ B, (pol x).labels ≠ [])
    (hsA : A.Pairwise (fun x y => lex_lt (pol x).labels (pol y).labels))
    (hsB : B.Pairwise (fun x y => lex_lt (pol x).labels (pol y).labels))
    (hfuel : A.length + B.length ≤ fuel) :
    ∃ s out, diff_loop pol fuel (diff_mk A false B false []) = some s ∧
      diff_adbplus_adlists_BUFFER pol fuel A B = some out ∧
      (s.dv_iterA.rest = [] ∨ s.dv_iterB.rest = []) ∧
      s.dv_iterA.rest <:+ A ∧ s.dv_iterB.rest <:+ B ∧
      out = s.out_file ++ drain_lines s.dv_iterA.rest s.dv_iterA.written 97 ++
        drain_lines s.dv_iterB.rest s.dv_iterB.written 98 ∧
      (s.dv_iterA.written = true → ∃ a ra, s.dv_iterA.rest = a :: ra ∧
        core_write_DV a WINNER 97 ∈ s.out_file) ∧
      (s.dv_iterB.written = true → ∃ b rb, s.dv_iterB.rest = b :: rb ∧
        core_write_DV b WINNER 98 ∈ s.out_file) ∧
      (∀ r ∈ s.dv_iterA.rest, core_write_DV r WINNER 97 ∈ out ∧
        (out.map diff_payload).count r = 1) ∧
      (∀ r ∈ s.dv_iterB.rest, core_write_DV r WINNER 98 ∈ out ∧
        (out.map diff_payload).count r = 1) := by
  obtain ⟨out, hout, hperm⟩ := diff_buffer_spec pol fuel A B hA hB hnA hnB hsA hsB hfuel
  obtain ⟨ra1, wa1, rb1, wb1, out1, hloop, hwf, hex, heq⟩ :=
    diff_buffer_wf pol fuel A B out hout
  obtain ⟨hsa, hsb, _, hwa, hwb⟩ := hwf
  have hinA : ∀ r ∈ ra1, core_write_DV r WINNER 97 ∈ out := by
    intro r hr
    rw [heq]
    exact List.mem_append_left _ (drain_lines_has ra1 wa1 97 out1 hwa r hr)
  have hinB : ∀ r ∈ rb1, core_write_DV r WINNER 98 ∈ out := by
    intro r hr
    rw [heq, List.append_assoc]
    have h1 := drain_lines_has rb1 wb1 98 out1 hwb r hr
    rcases List.mem_append.1 h1 with h2 | h2
    · exact List.mem_append_left _ h2
    · exact List.mem_append_right _ (List.mem_append_right _ h2)
  refine ⟨diff_mk ra1 wa1 rb1 wb1 out1, out, hloop, hout, hex, hsa, hsb, heq, hwa, hwb, ?_, ?_⟩
  · intro r hr
    exact ⟨hinA r hr, diff_count_A pol A B out hnB hnA hsA hperm r (hsa.subset hr)⟩
  · intro r hr
    exact ⟨hinB r hr,
      diff_count_B pol A B out hnA hnB hsA hsB hperm r (hsb.subset hr) (hinB r hr)⟩

/-- Witness of C12: `||ex.com^` on side A against `||a.ex.com^`, `||b.ex.com^` on side B;
the loop stops with side B exhausted and the rule of A current and already written. -/
theorem diff_drain_spec_witness :
    ∃ s out, diff_loop clean_line_view 3 (diff_mk scenario_blk_A false scenario_blk_B false []) =
        some s ∧
      diff_adbplus_adlists_BUFFER clean_line_view 3 scenario_blk_A scenario_blk_B = some out ∧
      (s.dv_iterA.rest = [] ∨ s.dv_iterB.rest = []) ∧
      s.dv_iterA.rest <:+ scenario_blk_A ∧ s.dv_iterB.rest <:+ scenario_blk_B ∧
      out = s.out_file ++ drain_lines s.dv_iterA.rest s.dv_iterA.written 97 ++
        drain_lines s.dv_iterB.rest s.dv_iterB.written 98 ∧
      (s.dv_iterA.written = true → ∃ a ra, s.dv_iterA.rest = a :: ra ∧
        core_write_DV a WINNER 97 ∈ s.out_file) ∧
      (s.dv_iterB.written = true → ∃ b rb, s.dv_iterB.rest = b :: rb ∧
        core_write_DV b WINNER 98 ∈ s.out_file) ∧
      (∀ r ∈ s.dv_iterA.rest, core_write_DV r WINNER 97 ∈ out ∧
        (out.map diff_payload).count r = 1) ∧
      (∀ r ∈ s.dv_iterB.rest, core_write_DV r WINNER 98 ∈ out ∧
        (out.map diff_payload).count r = 1) :=
  diff_drain_spec clean_line_view 3 scenario_blk_A scenario_blk_B (by decide) (by decide)
    (by decide) (by decide)
    (List.Pairwise.imp (fun h => (compare_dv_lt_iff _ _).1 h) (by decide))
    (List.Pairwise.imp (fun h => (compare_dv_lt_iff _ _).1 h) (by decide))
    (by decide)

/-! ## The line parser -/

theorem scan_to_end_nz : ∀ (rest : List Nat) (c : Nat), 0 ∉ rest →
    scan_to_end rest c = c + rest.length := by
  intro rest
  induction rest with
  | nil => intro c _; rfl
  | cons x rest ih =>
    intro c h
    have hx : x ≠ 0 := fun e => h (by simp [e])
    have hr : 0 ∉ rest := fun e => h (by simp [e])
    simp only [scan_to_end, LINE_TERMINAL, ne_eq, hx, not_false_eq_true, and_self, if_true,
      List.length_cons]
    rw [ih (c + 1) hr]
    omega

theorem getD_last (l : List Nat) :
    l.getD (l.length - 1) 0 = (l.getLast?).getD 0 := by
  rw [List.getLast?_eq_getElem?, List.getD_eq_getElem?_getD]

theorem parse_switch_bars (rest : List Nat) :
    parse_switch (124 :: 124 :: rest) = some (2, 2, MATCH_POSSIBLE) := by
  simp [parse_switch]

/-- The function `parse_adbplus_line` on a line that begins with `||`. -/
theorem parse_bars (lv : AdbplusView_t) (rest : List Nat) (h0 : 0 ∉ rest) :
    parse_adbplus_line lv (124 :: 124 :: rest) =
      if (124 :: 124 :: rest).getLast? = some 94 then
        (true, { data := 2, len := rest.length - 1, ms := strength MATCH_FULL })
      else (false, { lv with ms := strength MATCH_BOGUS }) := by
  have hscan : scan_to_end rest 2 = 2 + rest.length := scan_to_end_nz rest 2 h0
  have hpeak : (124 :: 124 :: rest).getD (2 + rest.length - 1) 0 =
      ((124 :: 124 :: rest).getLast?).getD 0 := by
    have := getD_last (124 :: 124 :: rest)
    rw [← this]
    congr 1
    simp only [List.length_cons]
    omega
  obtain ⟨x, hx⟩ : ∃ x, (124 :: 124 :: rest).getLast? = some x := by
    cases h : (124 :: 124 :: rest).getLast? with
    | none => simp at h
    | some x => exact ⟨x, rfl⟩
  unfold parse_adbplus_line
  rw [parse_switch_bars]
  show parse_scan lv (124 :: 124 :: rest) 2 2 MATCH_POSSIBLE = _
  unfold parse_scan
  have hdrop : (124 :: 124 :: rest).drop 2 = rest := rfl
  rw [hdrop, hscan]
  dsimp only
  rw [hpeak, hx]
  by_cases h94 : x = 94
  · subst h94
    simp
  · simp [h94]

theorem parse_nil (lv : AdbplusView_t) :
    parse_adbplus_line lv [] = (false, { lv with ms := strength MATCH_BOGUS }) := by
  simp [parse_adbplus_line, parse_switch]

theorem parse_comment (lv : AdbplusView_t) (rest : List Nat) :
    parse_adbplus_line lv (33 :: rest) = (true, { lv with ms := MATCH_COMMENT }) := by
  simp [parse_adbplus_line, parse_switch, parse_scan]

theorem parse_header (lv : AdbplusView_t) (rest : List Nat) :
    parse_adbplus_line lv (91 :: rest) = (true, { lv with ms := MATCH_HEADER }) := by
  simp [parse_adbplus_line, parse_switch, parse_scan]

theorem parse_other (lv : AdbplusView_t) (c : Nat) (rest : List Nat)
    (h1 : c ≠ 33) (h2 : c ≠ 91) (h3 : c ≠ 124) :
    parse_adbplus_line lv (c :: rest) = (false, { lv with ms := strength MATCH_BOGUS }) := by
  simp [parse_adbplus_line, parse_switch, h1, h2, h3]

theorem parse_bar_other (lv : AdbplusView_t) (rest : List Nat) (h : rest.head? ≠ some 124) :
    parse_adbplus_line lv (124 :: rest) = (false, { lv with ms := strength MATCH_BOGUS }) := by
  have hsw : parse_switch (124 :: rest) = some (1, 0, strength MATCH_BOGUS) := by
    cases rest with
    | nil => simp [parse_switch]
    | cons d r =>
      simp only [List.head?_cons, ne_eq, Option.some.injEq] at h
      simp [parse_switch, h]
  unfold parse_adbplus_line
  rw [hsw]
  simp [parse_scan]

/-- The results of `parse_adbplus_line`: false with `MATCH_BOGUS`, or true with
`MATCH_COMMENT`, `MATCH_HEADER` or `MATCH_FULL`. -/
theorem parse_results (lv : AdbplusView_t) (input_line : List Nat) :
    ((parse_adbplus_line lv input_line).1 = false ∧
      (parse_adbplus_line lv input_line).2.ms = strength MATCH_BOGUS) ∨
    ((parse_adbplus_line lv input_line).1 = true ∧
      ((parse_adbplus_line lv input_line).2.ms = MATCH_COMMENT ∨
       (parse_adbplus_line lv input_line).2.ms = MATCH_HEADER ∨
       (parse_adbplus_line lv input_line).2.ms = strength MATCH_FULL)) := by
  unfold parse_adbplus_line
  cases hs : parse_switch input_line with
  | none => exact Or.inl ⟨rfl, rfl⟩
  | some t =>
    obtain ⟨c, prev, ms⟩ := t
    show (_ ∧ _) ∨ (_ ∧ _)
    simp only [parse_scan]
    split_ifs with h1 h2
    · right
      refine ⟨rfl, ?_⟩
      rcases h1 with h1 | h1
      · exact Or.inl h1
      · exact Or.inr (Or.inl h1)
    · exact Or.inr ⟨rfl, Or.inr (Or.inr rfl)⟩
    · exact Or.inl ⟨rfl, rfl⟩

theorem bars_of_take (line : List Nat) (hb : line.take 2 = [124, 124]) :
    ∃ rest, line = 124 :: 124 :: rest := by
  cases line with
  | nil => simp at hb
  | cons a l1 =>
    cases l1 with
    | nil => simp at hb
    | cons b rest =>
      simp only [List.take_succ_cons, List.take_zero, List.cons.injEq, and_true] at hb
      exact ⟨rest, by rw [hb.1, hb.2]⟩

theorem bars_slice (rest : List Nat) (he : (124 :: 124 :: rest).getLast? = some 94) :
    rest ≠ [] ∧ rest.take (rest.length - 1) ++ [94] = rest := by
  have hne : rest ≠ [] := by
    intro e
    rw [e] at he
    simp at he
  refine ⟨hne, ?_⟩
  have h1 : rest.getLast? = some 94 := by
    cases rest with
    | nil => exact absurd rfl hne
    | cons x r => simpa [List.getLast?_cons_cons] using he
  have h2 : rest.getLast hne = 94 := by
    rw [List.getLast?_eq_getLast rest hne] at h1
    exact Option.some.inj h1
  rw [← List.dropLast_eq_take, ← h2]
  exact List.dropLast_append_getLast hne

/-- C13. Block-rule parsing: for every line (the bytes before the terminating NUL) that
begins with `||` and whose last byte is `^`, `parse_adbplus_line` returns true with
`MATCH_FULL`, a domain slice that starts at offset 2, right after the leading `||`, and
has length (line length - 3): the bytes between the leading `||` and the trailing `^`.
And whenever the parser returns true with a strength in `lv->ms`, on any input, the
strength is `MATCH_FULL`. -/
theorem block_rule_parsing (lv : AdbplusView_t) (line : List Nat) (h0 : 0 ∉ line)
    (hb : line.take 2 = [124, 124]) (he : line.getLast? = some 94) :
    parse_adbplus_line lv line =
      (true, { data := 2, len := line.length - 3, ms := strength MATCH_FULL }) ∧
    [124, 124] ++ (line.drop 2).take (line.length - 3) ++ [94] = line ∧
    ∀ (lv1 : AdbplusView_t) (input : List Nat) (s : MatchStrength_t),
      (parse_adbplus_line lv1 input).1 = true →
      (parse_adbplus_line lv1 input).2.ms = strength s → s = MATCH_FULL := by
  obtain ⟨rest, hl⟩ := bars_of_take line hb
  subst hl
  have h0r : 0 ∉ rest := fun e => h0 (by simp [e])
  obtain ⟨_, hslice⟩ := bars_slice rest he
  refine ⟨?_, ?_, ?_⟩
  · rw [parse_bars lv rest h0r, if_pos he]
    simp
  · have : (124 :: 124 :: rest).length - 3 = rest.length - 1 := by
      simp only [List.length_cons]
      omega
    rw [this]
    show 124 :: 124 :: (rest.take (rest.length - 1) ++ [94]) = _
    rw [hslice]
  · intro lv1 input s h1 h2
    rcases parse_results lv1 input with ⟨hf, _⟩ | ⟨_, hm | hm | hm⟩
    · rw [hf] at h1
      cases h1
    · rw [hm] at h2
      cases h2
    · rw [hm] at h2
      cases h2
    · rw [hm] at h2
      injection h2 with h3
      exact h3.symm

/-- Witness of C13: the line `||a.c^`. -/
theorem block_rule_parsing_witness :
    parse_adbplus_line ⟨0, 0, strength MATCH_NOTSET⟩ [124, 124, 97, 46, 99, 94] =
      (true, { data := 2, len := 3, ms := strength MATCH_FULL }) ∧
    [124, 124] ++ (([124, 124, 97, 46, 99, 94] : List Nat).drop 2).take
      ([124, 124, 97, 46, 99, 94].length - 3) ++ [94] = [124, 124, 97, 46, 99, 94] ∧
    ∀ (lv1 : AdbplusView_t) (input : List Nat) (s : MatchStrength_t),
      (parse_adbplus_line lv1 input).1 = true →
      (parse_adbplus_line lv1 input).2.ms = strength s → s = MATCH_FULL :=
  block_rule_parsing ⟨0, 0, strength MATCH_NOTSET⟩ [124, 124, 97, 46, 99, 94]
    (by decide) (by decide) (by decide)

/-- Counterexample to C14: the line `||^` is not classified Bogus; `parse_adbplus_line`
returns true for it, with `MATCH_FULL` and a domain slice of length 0. -/
theorem empty_domain_counterexample :
    parse_adbplus_line ⟨0, 0, strength MATCH_NOTSET⟩ [124, 124, 94] =
      (true, { data := 2, len := 0, ms := strength MATCH_FULL }) := by
  decide

/-- C14 (amended). Whenever `parse_adbplus_line` classifies a line (the bytes before the
terminating NUL) as a block rule, the line begins with `||`, ends with `^` and has at
least three bytes, and the extracted domain starts at offset 2 and has length
(line length - 3); this length is 0 exactly for the line `||^`, which is classified
`MATCH_FULL` with an empty domain, not Bogus. -/
theorem empty_domain_parse (lv v : AdbplusView_t) (line : List Nat) (h0 : 0 ∉ line)
    (h : parse_adbplus_line lv line = (true, v)) (hF : v.ms = strength MATCH_FULL) :
    line.take 2 = [124, 124] ∧ line.getLast? = some 94 ∧ 3 ≤ line.length ∧
    v.data = 2 ∧ v.len = line.length - 3 ∧
    (v.len = 0 ↔ line = [124, 124, 94]) ∧
    parse_adbplus_line lv [124, 124, 94] =
      (true, { data := 2, len := 0, ms := strength MATCH_FULL }) := by
  have hlast : parse_adbplus_line lv [124, 124, 94] =
      (true, { data := 2, len := 0, ms := strength MATCH_FULL }) := by
    rw [parse_bars lv [94] (by decide)]
    rfl
  cases line with
  | nil =>
    rw [parse_nil] at h
    cases h
  | cons c l1 =>
    by_cases c1 : c = 33
    · subst c1
      rw [parse_comment] at h
      injection h with _ h2
      rw [← h2] at hF
      cases hF
    by_cases c2 : c = 91
    · subst c2
      rw [parse_header] at h
      injection h with _ h2
      rw [← h2] at hF
      cases hF
    by_cases c3 : c = 124
    · subst c3
      by_cases hd : l1.head? = some 124
      · cases l1 with
        | nil => simp at hd
        | cons d rest =>
          simp only [List.head?_cons, Option.some.injEq] at hd
          subst hd
          have h0r : 0 ∉ rest := fun e => h0 (by simp [e])
          rw [parse_bars lv rest h0r] at h
          by_cases he : (124 :: 124 :: rest).getLast? = some 94
          · rw [if_pos he] at h
            injection h with _ h2
            obtain ⟨hne, hslice⟩ := bars_slice rest he
            have hlen : 1 ≤ rest.length := by
              cases rest with
              | nil => exact absurd rfl hne
              | cons x r => simp
            subst h2
            refine ⟨rfl, he, by simp only [List.length_cons]; omega, rfl,
              by simp only [List.length_cons]; omega, ?_, hlast⟩
            constructor
            · intro hz
              have hz1 : rest.length - 1 = 0 := hz
              have hl1 : rest.length = 1 := by omega
              rw [hz1] at hslice
              simp only [List.take_zero, List.nil_append] at hslice
              rw [← hslice]
            · intro e
              injection e with _ e1
              injection e1 with _ e2
              rw [e2]
              rfl
          · rw [if_neg he] at h
            cases h
      · rw [parse_bar_other lv l1 hd] at h
        cases h
    · rw [parse_other lv c l1 c1 c2 c3] at h
      cases h

/-- Witness of C14 (amended): the line `||^`. -/
theorem empty_domain_parse_witness :
    ([124, 124, 94] : List Nat).take 2 = [124, 124] ∧
    ([124, 124, 94] : List Nat).getLast? = some 94 ∧ 3 ≤ ([124, 124, 94] : List Nat).length ∧
    (⟨2, 0, strength MATCH_FULL⟩ : AdbplusView_t).data = 2 ∧
    (⟨2, 0, strength MATCH_FULL⟩ : AdbplusView_t).len = ([124, 124, 94] : List Nat).length - 3 ∧
    ((⟨2, 0, strength MATCH_FULL⟩ : AdbplusView_t).len = 0 ↔
      ([124, 124, 94] : List Nat) = [124, 124, 94]) ∧
    parse_adbplus_line ⟨0, 0, strength MATCH_NOTSET⟩ [124, 124, 94] =
      (true, { data := 2, len := 0, ms := strength MATCH_FULL }) :=
  empty_domain_parse ⟨0, 0, strength MATCH_NOTSET⟩ ⟨2, 0, strength MATCH_FULL⟩ [124, 124, 94]
    (by decide) (by decide) rfl

/-- C15. Comment and header classification: for every line whose first byte is `!`,
`parse_adbplus_line` returns true with `MATCH_COMMENT`, and for every line whose first
byte is `[` it returns true with `MATCH_HEADER`, whatever bytes follow; `data` and `len`
of the caller's struct are left as they were. -/
theorem comment_header_classification (lv : AdbplusView_t) (rest : List Nat) :
    parse_adbplus_line lv (33 :: rest) = (true, { lv with ms := MATCH_COMMENT }) ∧
    parse_adbplus_line lv (91 :: rest) = (true, { lv with ms := MATCH_HEADER }) :=
  ⟨parse_comment lv rest, parse_header lv rest⟩

/-- C16. Bogus classification: `parse_adbplus_line` returns false with `MATCH_BOGUS` for
the empty line, for every line whose first byte is none of `!`, `[`, `|`, for every
line that starts with `|` not followed by a second `|`, and for every line that starts
with `||` but does not end in `^`; it returns true exactly for the lines that start
with `!`, the lines that start with `[`, and the lines of the form `||...^`. A line is
the bytes before the terminating NUL. -/
theorem bogus_classification (lv : AdbplusView_t) (line : List Nat) (h0 : 0 ∉ line) :
    (line = [] → parse_adbplus_line lv line = (false, { lv with ms := strength MATCH_BOGUS })) ∧
    (∀ c rest, line = c :: rest → c ≠ 33 → c ≠ 91 → c ≠ 124 →
      parse_adbplus_line lv line = (false, { lv with ms := strength MATCH_BOGUS })) ∧
    (∀ rest, line = 124 :: rest → rest.head? ≠ some 124 →
      parse_adbplus_line lv line = (false, { lv with ms := strength MATCH_BOGUS })) ∧
    (line.take 2 = [124, 124] → line.getLast? ≠ some 94 →
      parse_adbplus_line lv line = (false, { lv with ms := strength MATCH_BOGUS })) ∧
    ((parse_adbplus_line lv line).1 = true ↔
      line.head? = some 33 ∨ line.head? = some 91 ∨
        (line.take 2 = [124, 124] ∧ line.getLast? = some 94)) := by
  have hbars : ∀ rest, line = 124 :: 124 :: rest →
      parse_adbplus_line lv line =
        if line.getLast? = some 94 then
          (true, { data := 2, len := rest.length - 1, ms := strength MATCH_FULL })
        else (false, { lv with ms := strength MATCH_BOGUS }) := by
    intro rest e
    subst e
    exact parse_bars lv rest (fun e => h0 (by simp [e]))
  refine ⟨?_, ?_, ?_, ?_, ?_⟩
  · intro e
    rw [e, parse_nil]
  · intro c rest e h1 h2 h3
    rw [e, parse_other lv c rest h1 h2 h3]
  · intro rest e h
    rw [e, parse_bar_other lv rest h]
  · intro hb he
    obtain ⟨rest, e⟩ := bars_of_take line hb
    rw [hbars rest e, if_neg he]
  · cases hline : line with
    | nil => simp [parse_nil]
    | cons c l1 =>
      by_cases c1 : c = 33
      · subst c1
        simp [parse_comment]
      by_cases c2 : c = 91
      · subst c2
        simp [parse_header]
      by_cases c3 : c = 124
      · subst c3
        by_cases hd : l1.head? = some 124
        · cases l1 with
          | nil => simp at hd
          | cons d rest =>
            simp only [List.head?_cons, Option.some.injEq] at hd
            subst hd
            have := hbars rest hline
            rw [hline] at this
            rw [this]
            by_cases he : (124 :: 124 :: rest).getLast? = some 94
            · rw [if_pos he]
              simp only [true_iff]
              exact Or.inr (Or.inr ⟨rfl, he⟩)
            · rw [if_neg he]
              constructor
              · intro h; cases h
              · rintro (h | h | ⟨_, h⟩)
                · simp at h
                · simp at h
                · exact absurd h he
        · rw [parse_bar_other lv l1 hd]
          have : ¬ (124 :: l1).take 2 = [124, 124] := by
            intro hb
            obtain ⟨rest, e⟩ := bars_of_take _ hb
            injection e with _ e1
            rw [e1] at hd
            exact hd rfl
          constructor
          · intro h; cases h
          · rintro (h | h | ⟨h, _⟩)
            · simp at h
            · simp at h
            · exact absurd h this
      · rw [parse_other lv c l1 c1 c2 c3]
        have : ¬ (c :: l1).take 2 = [124, 124] := by
          intro hb
          obtain ⟨rest, e⟩ := bars_of_take _ hb
          injection e with e1 _
          exact c3 e1
        constructor
        · intro h; cases h
        · rintro (h | h | ⟨h, _⟩)
          · simp only [List.head?_cons, Option.some.injEq] at h
            exact absurd h c1
          · simp only [List.head?_cons, Option.some.injEq] at h
            exact absurd h c2
          · exact absurd h this

/-- Witness of C16: the line `||a.c`, which does not end in `^`. -/
theorem bogus_classification_witness :
    parse_adbplus_line ⟨0, 0, strength MATCH_NOTSET⟩ [124, 124, 97, 46, 99] =
      (false, ⟨0, 0, strength MATCH_BOGUS⟩) :=
  (bogus_classification ⟨0, 0, strength MATCH_NOTSET⟩ [124, 124, 97, 46, 99]
    (by decide)).2.2.2.1 (by decide) (by decide)

/-! ## Insertions that change nothing -/

theorem tld_set_slot_self : ∀ (c : TLD_context_impl_t) (k : Label),
    tld_set_slot c k (tld_slot c k) = c := by
  intro c
  induction c with
  | nil => intro k; rfl
  | cons e rest ih =>
    intro k
    by_cases h : e.tld = k
    · subst h
      simp [tld_set_slot, tld_slot]
    · simp [tld_set_slot, tld_slot, h, ih]

theorem insert_tld_of_mem (k : Label) : ∀ (c : TLD_context_impl_t),
    k ∈ c.map TLD_entry_impl_t.tld → hash_context_insert_tld c k = c := by
  intro c
  induction c with
  | nil => intro h; simp at h
  | cons e rest ih =>
    intro h
    by_cases he : e.tld = k
    · simp [hash_context_insert_tld, he]
    · have : k ∈ rest.map TLD_entry_impl_t.tld := by
        simp only [List.map_cons, List.mem_cons] at h
        rcases h with h | h
        · exact absurd h.symm he
        · exact h
      simp [hash_context_insert_tld, he, ih this]

theorem insert_tld_of_not_mem (k : Label) : ∀ (c : TLD_context_impl_t),
    k ∉ c.map TLD_entry_impl_t.tld →
    hash_context_insert_tld c k = c ++ [{ tld := k, child := nil }] := by
  intro c
  induction c with
  | nil => intro _; rfl
  | cons e rest ih =>
    intro h
    simp only [List.map_cons, List.mem_cons, not_or] at h
    have he : ¬ e.tld = k := fun e1 => h.1 e1.symm
    simp [hash_context_insert_tld, he, ih h.2]

theorem tld_mem_of_slot (k : Label) : ∀ (c : TLD_context_impl_t),
    tld_slot c k ≠ nil → k ∈ c.map TLD_entry_impl_t.tld := by
  intro c
  induction c with
  | nil => intro h; exact absurd rfl h
  | cons e rest ih =>
    intro h
    by_cases he : e.tld = k
    · simp [he]
    · simp only [tld_slot, he, if_false] at h
      simp [ih h]

/-- An accepted view that is covered in a well-formed index, by a `MATCH_FULL` info on a
prefix of its labels or by an info at least as strong on its own node, leaves the
index as it is. -/
theorem insert_covered (c : TLD_context_impl_t) (dv : DomainView_t) (hc : CtxOK c)
    (tld : Label) (it : List Label) (hl : dv.labels = tld :: it)
    (hslot : tld_slot c tld ≠ nil)
    (hcov : (∃ q i, q <+: dv.labels ∧ ctx_term_at c q = some i ∧
        i.match_strength = MATCH_FULL) ∨
      ∃ i, ctx_term_at c dv.labels = some i ∧
        dv.match_strength.rank ≤ i.match_strength.rank) :
    insert_DomainTree c dv = some c := by
  unfold insert_DomainTree
  by_cases h1 : dv.match_strength = MATCH_NOTSET
  · rw [if_pos h1]
  rw [if_neg h1]
  by_cases h2 : dv.match_strength = MATCH_BOGUS
  · rw [if_pos h2]
  rw [if_neg h2]
  have hmem := tld_mem_of_slot tld c hslot
  have hnoop : insert_noop dv it (tld_slot c tld) :=
    (ctx_noop_iff dv c tld it hl).1 (Or.inr hcov)
  obtain ⟨dt1, hd, _, _, _, hsame, _⟩ :=
    insert_descent_spec dv it (tld_slot c tld) (CtxOK_slot c hc tld).1
  rw [hl]
  simp only [insert_tld_of_mem tld c hmem, insert_below_eq, hd, hsame hnoop, tld_set_slot_self]

theorem ctx_term_labels (c : TLD_context_impl_t) (q : List Label) (i : DomainInfo_t)
    (h : ctx_term_at c q = some i) :
    ∃ tld it, q = tld :: it ∧ tld_slot c tld ≠ nil := by
  cases q with
  | nil => simp [ctx_term_at] at h
  | cons tld it =>
    refine ⟨tld, it, rfl, ?_⟩
    intro e
    simp only [ctx_term_at, e, term_at_nil] at h
    cases h

theorem CtxOK_notlong : CtxOK scenario_notlong_index := by
  refine ⟨by simp [scenario_notlong_index], ?_⟩
  intro e he
  simp only [scenario_notlong_index, List.mem_singleton] at he
  subst he
  simp [WellFormed, KeysNodup, keys]

/-- C17. Strength rejection: for every index and every view whose strength is
`MATCH_NOTSET` or `MATCH_BOGUS`, `insert_DomainTree` returns with the index as it was:
no TLD entry, node or info is added, replaced or removed. -/
theorem strength_rejection (c : TLD_context_impl_t) (dv : DomainView_t)
    (h : dv.match_strength = MATCH_NOTSET ∨ dv.match_strength = MATCH_BOGUS) :
    insert_DomainTree c dv = some c := by
  unfold insert_DomainTree
  rcases h with h | h
  · rw [if_pos h]
  · by_cases h1 : dv.match_strength = MATCH_NOTSET
    · rw [if_pos h1]
    · rw [if_neg h1, if_pos h]

/-- Witness of C17: `abc.www.strong-o-weak.com` with `MATCH_BOGUS` into the index that
holds `notlong.com`, and with `MATCH_NOTSET` into the empty index (`test_uninitialized`). -/
theorem strength_rejection_witness :
    insert_DomainTree scenario_notlong_index
        ⟨[[99, 111, 109], [115, 116, 114, 111, 110, 103, 45, 111, 45, 119, 101, 97, 107],
          [119, 119, 119], [97, 98, 99]], MATCH_BOGUS, 0, ⟨0, 29⟩⟩ =
      some scenario_notlong_index ∧
    insert_DomainTree []
        ⟨[[99, 111, 109], [115, 116, 114, 111, 110, 103, 45, 111, 45, 119, 101, 97, 107],
          [119, 119, 119], [97, 98, 99]], MATCH_NOTSET, 0, ⟨0, 29⟩⟩ = some [] :=
  ⟨strength_rejection _ _ (Or.inr rfl), strength_rejection _ _ (Or.inl rfl)⟩

/-- Counterexample to C18: inserting the bare TLD `com` with `MATCH_FULL` into the empty
index does not leave the index as it was; it gains the entry `com` with an empty
subtree slot. -/
theorem short_domain_counterexample :
    insert_DomainTree [] ⟨[[99, 111, 109]], MATCH_FULL, 0, ⟨0, 7⟩⟩ =
      some [{ tld := [99, 111, 109], child := nil }] ∧
    insert_DomainTree [] ⟨[[99, 111, 109]], MATCH_FULL, 0, ⟨0, 7⟩⟩ ≠ some [] := by
  decide

/-- C18 (amended). Short-domain insert: for every index and every view with exactly one
label (a bare TLD) and an accepted strength, `insert_DomainTree` returns the index
after `hash_context_insert_tld` for that label: no node or info is added, replaced or
removed, every entry of the index stays as it was, and when the index had no entry
with the label, one entry with that label and an empty subtree slot is appended. -/
theorem short_domain_insert (c : TLD_context_impl_t) (dv : DomainView_t) (k : Label)
    (hl : dv.labels = [k]) (hacc : accepted dv) :
    insert_DomainTree c dv = some (hash_context_insert_tld c k) ∧
    (k ∈ c.map TLD_entry_impl_t.tld → hash_context_insert_tld c k = c) ∧
    (k ∉ c.map TLD_entry_impl_t.tld →
      hash_context_insert_tld c k = c ++ [{ tld := k, child := nil }]) := by
  refine ⟨?_, insert_tld_of_mem k c, insert_tld_of_not_mem k c⟩
  unfold insert_DomainTree
  rw [if_neg hacc.1, if_neg hacc.2, hl]
  simp only [insert_below, find_leaf_Domain, Bool.false_eq_true, if_false, tld_set_slot_self]

/-- Witness of C18 (amended): the bare TLD `com` into the empty index and into the index
that holds `notlong.com`. -/
theorem short_domain_insert_witness :
    (insert_DomainTree [] ⟨[[99, 111, 109]], MATCH_FULL, 0, ⟨0, 7⟩⟩ =
        some (hash_context_insert_tld [] [99, 111, 109]) ∧
      ([99, 111, 109] ∈ ([] : TLD_context_impl_t).map TLD_entry_impl_t.tld →
        hash_context_insert_tld [] [99, 111, 109] = []) ∧
      ([99, 111, 109] ∉ ([] : TLD_context_impl_t).map TLD_entry_impl_t.tld →
        hash_context_insert_tld [] [99, 111, 109] =
          [] ++ [{ tld := [99, 111, 109], child := nil }])) ∧
    insert_DomainTree scenario_notlong_index ⟨[[99, 111, 109]], MATCH_FULL, 0, ⟨0, 7⟩⟩ =
      some scenario_notlong_index :=
  ⟨short_domain_insert [] ⟨[[99, 111, 109]], MATCH_FULL, 0, ⟨0, 7⟩⟩ [99, 111, 109] rfl
      (by decide),
    by decide⟩

/-- C19. Dominated insert is a no-op: for every well-formed index and every incoming view
(any strength), if a prefix of the view's labels in TLD-first order (its own domain or
a shorter suffix of the dotted name) is the domain of a node that carries a
`MATCH_FULL` info (in a well-formed index such a node is a leaf), `insert_DomainTree`
returns with the whole index as it was. -/
theorem dominated_insert_noop (c : TLD_context_impl_t) (dv : DomainView_t) (hc : CtxOK c)
    (q : List Label) (i : DomainInfo_t) (hq : q <+: dv.labels)
    (hi : ctx_term_at c q = some i) (hF : i.match_strength = MATCH_FULL) :
    insert_DomainTree c dv = some c := by
  obtain ⟨tld, it0, hq0, hslot⟩ := ctx_term_labels c q i hi
  obtain ⟨t, ht⟩ := hq
  have hl : dv.labels = tld :: (it0 ++ t) := by
    rw [← ht, hq0]
    rfl
  exact insert_covered c dv hc tld (it0 ++ t) hl hslot (Or.inl ⟨q, i, ⟨t, ht⟩, hi, hF⟩)

/-- Witness of C19: after the `MATCH_FULL` rule `notlong.com`, inserting
`01proxy.notlong.com` changes nothing. -/
theorem dominated_insert_noop_witness :
    insert_all [] [scenario_notlong] = some scenario_notlong_index ∧
    insert_DomainTree scenario_notlong_index scenario_proxy = some scenario_notlong_index :=
  ⟨by decide,
    dominated_insert_noop scenario_notlong_index scenario_proxy CtxOK_notlong
      [[99, 111, 109], [110, 111, 116, 108, 111, 110, 103]]
      (convert_DomainInfo scenario_notlong) (by decide) (by decide) rfl⟩

/-- C20. Equal-or-weaker insert is dropped: for every well-formed index in which the node
of the incoming view's own domain carries an info of strength greater than or equal to
the incoming strength, `insert_DomainTree` returns with the whole index as it was; in
particular that node keeps its info (source context and `line_info` of the rule
inserted first) and its children. -/
theorem weaker_insert_dropped (c : TLD_context_impl_t) (dv : DomainView_t) (hc : CtxOK c)
    (i : DomainInfo_t) (hi : ctx_term_at c dv.labels = some i)
    (hr : dv.match_strength.rank ≤ i.match_strength.rank) :
    insert_DomainTree c dv = some c ∧
    ∀ c1, insert_DomainTree c dv = some c1 → ctx_term_at c1 dv.labels = some i := by
  obtain ⟨tld, it, hl, hslot⟩ := ctx_term_labels c dv.labels i hi
  have h := insert_covered c dv hc tld it hl hslot (Or.inr ⟨i, hi, hr⟩)
  refine ⟨h, ?_⟩
  intro c1 h1
  rw [h] at h1
  cases h1
  exact hi

/-- Witness of C20: after `notlong.com` (`MATCH_FULL`, line at offset 0), inserting
`notlong.com` again from another line (`MATCH_FULL`, or `MATCH_WEAK`) changes nothing. -/
theorem weaker_insert_dropped_witness :
    (insert_DomainTree scenario_notlong_index
        ⟨[[99, 111, 109], [110, 111, 116, 108, 111, 110, 103]], MATCH_FULL, 1, ⟨40, 15⟩⟩ =
      some scenario_notlong_index ∧
    ∀ c1, insert_DomainTree scenario_notlong_index
        ⟨[[99, 111, 109], [110, 111, 116, 108, 111, 110, 103]], MATCH_FULL, 1, ⟨40, 15⟩⟩ =
          some c1 →
      ctx_term_at c1 [[99, 111, 109], [110, 111, 116, 108, 111, 110, 103]] =
        some (convert_DomainInfo scenario_notlong)) :=
  weaker_insert_dropped scenario_notlong_index
    ⟨[[99, 111, 109], [110, 111, 116, 108, 111, 110, 103]], MATCH_FULL, 1, ⟨40, 15⟩⟩
    CtxOK_notlong (convert_DomainInfo scenario_notlong) (by decide) (by decide)

/-! ## Nodes of the tree -/

theorem node_at_nil (p : List Label) : node_at p nil = none := by
  cases p with
  | nil => rfl
  | cons l p =>
    cases p with
    | nil => rfl
    | cons l2 p2 => rfl

theorem node_at_cons (l : Label) (p : List Label) (dt : DomainTree_t) :
    node_at (l :: p) dt =
      match HASH_FIND dt l with
      | none => none
      | some e => if p = [] then some e else node_at p e.2 := by
  cases p with
  | nil =>
    cases h : HASH_FIND dt l <;> simp [node_at, h]
  | cons l2 p2 =>
    cases h : HASH_FIND dt l <;> simp [node_at, h]

theorem term_at_eq_node_at : ∀ (p : List Label) (dt : DomainTree_t),
    term_at p dt = (node_at p dt).bind Prod.fst := by
  intro p
  induction p with
  | nil => intro dt; rfl
  | cons l p ih =>
    intro dt
    rw [term_at_cons, node_at_cons]
    cases h : HASH_FIND dt l with
    | none => rfl
    | some e =>
      by_cases hp : p = []
      · simp [hp]
      · simp only [hp, if_false]
        exact ih e.2

theorem WellFormed_node_at : ∀ (p : List Label) (dt : DomainTree_t), WellFormed dt →
    ∀ e, node_at p dt = some e →
      (e.2 = nil → e.1 ≠ none) ∧
      (∀ i, e.1 = some i → i.match_strength = MATCH_FULL → e.2 = nil) ∧ WellFormed e.2 := by
  intro p
  induction p with
  | nil => intro dt _ e he; cases he
  | cons l p ih =>
    intro dt hw e he
    rw [node_at_cons] at he
    cases h : HASH_FIND dt l with
    | none => rw [h] at he; cases he
    | some e0 =>
      rw [h] at he
      have h0 := WellFormed_find l dt hw e0 h
      by_cases hp : p = []
      · simp only [hp, if_true, Option.some.injEq] at he
        rw [← he]
        exact h0
      · simp only [hp, if_false] at he
        exact ih e0.2 h0.2.2 e he

theorem FullIsLeaf_of_WellFormed : ∀ dt : DomainTree_t, WellFormed dt → FullIsLeaf dt := by
  intro dt
  induction dt with
  | nil => intro _; trivial
  | node tld di child next ih1 ih2 =>
    intro h
    simp only [WellFormed] at h
    exact ⟨h.2.1, ih1 h.2.2.1, ih2 h.2.2.2⟩

/-- C23. Full-implies-leaf invariant: in every index reached from the empty index by a
sequence of `insert_DomainTree` calls with views of at least two labels (any
strengths, in particular Weak or Full), every entry whose info has strength
`MATCH_FULL` has no children: structurally for every entry of every table, and for
the node of every domain. -/
theorem full_implies_leaf (rs : List DomainView_t) (h2 : ∀ r ∈ rs, 2 ≤ r.labels.length) :
    ∃ c, insert_all [] rs = some c ∧
      (∀ e ∈ c, FullIsLeaf e.child) ∧
      ∀ p i child, ctx_node_at c p = some (some i, child) →
        i.match_strength = MATCH_FULL → child = nil := by
  have hne : ∀ r ∈ rs, r.labels ≠ [] := by
    intro r hr e
    have := h2 r hr
    rw [e] at this
    simp at this
  obtain ⟨c, hc, hok, _⟩ := insert_all_spec rs hne
  refine ⟨c, hc, fun e he => FullIsLeaf_of_WellFormed _ (hok.2 e he).1, ?_⟩
  intro p i child hp hF
  cases p with
  | nil => cases hp
  | cons tld it =>
    have hw := (CtxOK_slot c hok tld).1
    exact (WellFormed_node_at it _ hw _ hp).2.1 i rfl hF

/-- Witness of C23: scenario A. -/
theorem full_implies_leaf_witness :
    ∃ c, insert_all [] scenario_A = some c ∧
      (∀ e ∈ c, FullIsLeaf e.child) ∧
      ∀ p i child, ctx_node_at c p = some (some i, child) →
        i.match_strength = MATCH_FULL → child = nil :=
  full_implies_leaf scenario_A (by decide)

/-! ## The TLD index: insert-or-get -/

theorem insert_tld_entry_of_not_mem (k : Label) : ∀ (c : TLD_context_impl_t),
    k ∉ c.map TLD_entry_impl_t.tld → hash_context_insert_tld_entry c k = c.length := by
  intro c
  induction c with
  | nil => intro _; rfl
  | cons e rest ih =>
    intro h
    simp only [List.map_cons, List.mem_cons, not_or] at h
    have he : ¬ e.tld = k := fun h' => h.1 h'.symm
    simp [hash_context_insert_tld_entry, he, ih h.2]

theorem insert_tld_entry_get (k : Label) : ∀ (c : TLD_context_impl_t),
    (hash_context_insert_tld c k)[hash_context_insert_tld_entry c k]? =
      some { tld := k, child := tld_slot c k } := by
  intro c
  induction c with
  | nil => simp [hash_context_insert_tld, hash_context_insert_tld_entry, tld_slot]
  | cons e rest ih =>
    by_cases he : e.tld = k
    · subst he
      simp [hash_context_insert_tld, hash_context_insert_tld_entry, tld_slot]
    · simp [hash_context_insert_tld, hash_context_insert_tld_entry, tld_slot, he, ih]

theorem insert_tld_entry_first (k : Label) : ∀ (c : TLD_context_impl_t) (j : Nat),
    j < hash_context_insert_tld_entry c k →
    ∀ e, (hash_context_insert_tld c k)[j]? = some e → e.tld ≠ k := by
  intro c
  induction c with
  | nil => intro j hj; simp [hash_context_insert_tld_entry] at hj
  | cons e0 rest ih =>
    intro j hj e he
    by_cases h0 : e0.tld = k
    · simp [hash_context_insert_tld_entry, h0] at hj
    · simp only [hash_context_insert_tld_entry, h0, if_false] at hj
      simp only [hash_context_insert_tld, h0, if_false] at he
      cases j with
      | zero =>
        simp at he
        rw [← he]; exact h0
      | succ j =>
        simp only [List.getElem?_cons_succ] at he
        exact ih j (by omega) e he

theorem insert_tld_nodup (k : Label) (c : TLD_context_impl_t)
    (h : (c.map TLD_entry_impl_t.tld).Nodup) :
    ((hash_context_insert_tld c k).map TLD_entry_impl_t.tld).Nodup := by
  rw [tlds_insert_tld]
  by_cases hk : k ∈ c.map TLD_entry_impl_t.tld
  · simp only [hk, if_true]; exact h
  · simp only [hk, if_false]
    rw [List.nodup_append]
    refine ⟨h, List.nodup_singleton _, ?_⟩
    intro a ha hb
    simp only [List.mem_singleton] at hb
    subst hb
    exact hk ha

/-- C27. TLD index insert-or-get: for every index and label, `hash_context_insert_tld`
returns the `child` slot of an entry of the resulting index that carries exactly the
label and the subtree the label had before (the first such entry); when an entry with
the label exists the index is unchanged; otherwise exactly one entry is added, at the
end, holding the label and an empty slot, and that is the entry returned; a second
call with the same label returns the same entry and changes nothing; and pairwise
distinct entry labels stay pairwise distinct. -/
theorem tld_insert_or_get (c : TLD_context_impl_t) (k : Label) :
    (hash_context_insert_tld c k)[hash_context_insert_tld_entry c k]? =
        some { tld := k, child := tld_slot c k } ∧
    (∀ j, j < hash_context_insert_tld_entry c k →
        ∀ e, (hash_context_insert_tld c k)[j]? = some e → e.tld ≠ k) ∧
    (k ∈ c.map TLD_entry_impl_t.tld → hash_context_insert_tld c k = c) ∧
    (k ∉ c.map TLD_entry_impl_t.tld →
        hash_context_insert_tld c k = c ++ [{ tld := k, child := nil }] ∧
        hash_context_insert_tld_entry c k = c.length ∧ tld_slot c k = nil) ∧
    hash_context_insert_tld (hash_context_insert_tld c k) k = hash_context_insert_tld c k ∧
    hash_context_insert_tld_entry (hash_context_insert_tld c k) k =
        hash_context_insert_tld_entry c k ∧
    (∀ k2, tld_slot (hash_context_insert_tld c k) k2 = tld_slot c k2) ∧
    ((c.map TLD_entry_impl_t.tld).Nodup →
        ((hash_context_insert_tld c k).map TLD_entry_impl_t.tld).Nodup ∧
        ((hash_context_insert_tld (hash_context_insert_tld c k) k).map
          TLD_entry_impl_t.tld).Nodup) := by
  have hmem : k ∈ (hash_context_insert_tld c k).map TLD_entry_impl_t.tld := by
    rw [tlds_insert_tld]
    by_cases hk : k ∈ c.map TLD_entry_impl_t.tld <;> simp [hk]
  have hidem := insert_tld_of_mem k (hash_context_insert_tld c k) hmem
  refine ⟨insert_tld_entry_get k c, insert_tld_entry_first k c, insert_tld_of_mem k c, ?_,
    hidem, ?_, fun k2 => tld_slot_insert_tld k c k2, ?_⟩
  · intro hk
    refine ⟨insert_tld_of_not_mem k c hk, insert_tld_entry_of_not_mem k c hk, ?_⟩
    clear hmem hidem
    induction c with
    | nil => rfl
    | cons e rest ih =>
      simp only [List.map_cons, List.mem_cons, not_or] at hk
      have he : ¬ e.tld = k := fun h' => hk.1 h'.symm
      simp only [tld_slot, he, if_false]
      exact ih hk.2
  · clear hmem hidem
    induction c with
    | nil => simp [hash_context_insert_tld, hash_context_insert_tld_entry]
    | cons e rest ih =>
      by_cases he : e.tld = k
      · simp [hash_context_insert_tld, hash_context_insert_tld_entry, he]
      · simp [hash_context_insert_tld, hash_context_insert_tld_entry, he, ih]
  · intro hnd
    have h1 := insert_tld_nodup k c hnd
    exact ⟨h1, by rw [hidem]; exact h1⟩

/-! ## One label order -/

theorem label_precedes_iff : ∀ (a b : Label), label_precedes a b = true ↔ a < b := by
  intro a
  induction a with
  | nil =>
    intro b
    cases b with
    | nil => simp [label_precedes]
    | cons y ys =>
      have : ([] : List Nat) < y :: ys := List.Lex.nil
      simp [label_precedes, this]
  | cons x xs ih =>
    intro b
    cases b with
    | nil =>
      have hn : ¬ (x :: xs < ([] : List Nat)) := List.Lex.not_nil_right _ _
      simp [label_precedes, hn]
    | cons y ys =>
      rw [list_cons_lt_cons, ← ih ys]
      simp [label_precedes]

theorem compare_dv_label_eq (a b : Label) : compare_dv_label a b = sort_by_tld a b := rfl

/-- C28. One label order everywhere: for labels `a`, `b` of 1 to 63 bytes the
comparators `sort_by_tld` (tree children), `sort_TLD_entry_by_tld` (TLD index) and the
per-label comparison of `compare_dv` are each negative exactly when `a` precedes `b`
(lexicographic on the bytes, a proper prefix first), zero exactly when `a = b`, and
positive exactly when `b` precedes `a`, so they agree in sign; the order is a strict
total order (irreflexive, transitive, exactly one of precedes, equal, follows); and
the loop of `compare_dv` decides each pair of labels by that comparison. -/
theorem one_label_order (a b : Label) (ha1 : 1 ≤ a.length) (ha : a.length ≤ 63)
    (hb1 : 1 ≤ b.length) (hb : b.length ≤ 63) :
    ((sort_by_tld a b < 0 ↔ label_precedes a b = true) ∧
      (sort_by_tld a b = 0 ↔ a = b) ∧
      (0 < sort_by_tld a b ↔ label_precedes b a = true)) ∧
    ((sort_TLD_entry_by_tld a b < 0 ↔ label_precedes a b = true) ∧
      (sort_TLD_entry_by_tld a b = 0 ↔ a = b) ∧
      (0 < sort_TLD_entry_by_tld a b ↔ label_precedes b a = true)) ∧
    ((compare_dv_label a b < 0 ↔ label_precedes a b = true) ∧
      (compare_dv_label a b = 0 ↔ a = b) ∧
      (0 < compare_dv_label a b ↔ label_precedes b a = true)) ∧
    (Int.sign (sort_TLD_entry_by_tld a b) = Int.sign (sort_by_tld a b) ∧
      Int.sign (compare_dv_label a b) = Int.sign (sort_by_tld a b)) ∧
    (label_precedes a a = false ∧
      (∀ c : Label, label_precedes a b = true → label_precedes b c = true →
        label_precedes a c = true) ∧
      (label_precedes a b = true ∨ a = b ∨ label_precedes b a = true) ∧
      ¬ (label_precedes a b = true ∧ a = b) ∧
      ¬ (label_precedes a b = true ∧ label_precedes b a = true) ∧
      ¬ (a = b ∧ label_precedes b a = true)) ∧
    (∀ (segsA segsB : Nat) (as bs : List Label) (last_cmp : Int),
      compare_dv_loop segsA segsB (a :: as) (b :: bs) last_cmp =
        if compare_dv_label a b = 0 then
          compare_dv_loop segsA segsB as bs
            (if segsA = segsB then dv_A_eq_dv_B
             else if segsA < segsB then dv_A_blk_dv_B
             else dv_B_blk_dv_A)
        else if compare_dv_label a b < 0 then dv_A_lt_dv_B_write_A
        else dv_A_gt_dv_B_write_B) := by
  have hs := sort_by_tld_spec a b
  have he : sort_TLD_entry_by_tld a b = sort_by_tld a b :=
    sort_TLD_entry_by_tld_eq a b (by omega) (by omega)
  have hc : compare_dv_label a b = sort_by_tld a b := rfl
  have hab := label_precedes_iff a b
  have hba := label_precedes_iff b a
  have h1 : (sort_by_tld a b < 0 ↔ label_precedes a b = true) ∧
      (sort_by_tld a b = 0 ↔ a = b) ∧
      (0 < sort_by_tld a b ↔ label_precedes b a = true) :=
    ⟨hs.1.trans hab.symm, hs.2.1, hs.2.2.trans hba.symm⟩
  refine ⟨h1, by rw [he]; exact h1, by rw [hc]; exact h1, ⟨by rw [he], by rw [hc]⟩, ?_, ?_⟩
  · refine ⟨?_, ?_, ?_, ?_, ?_, ?_⟩
    · have := label_precedes_iff a a
      cases h : label_precedes a a with
      | false => rfl
      | true => exact absurd (this.1 h) (lt_irrefl a)
    · intro c h1 h2
      exact (label_precedes_iff a c).2 (lt_trans (hab.1 h1) ((label_precedes_iff b c).1 h2))
    · rcases lt_trichotomy a b with h | h | h
      · exact Or.inl (hab.2 h)
      · exact Or.inr (Or.inl h)
      · exact Or.inr (Or.inr (hba.2 h))
    · rintro ⟨h, e⟩
      exact absurd (hab.1 h) (by rw [e]; exact lt_irrefl b)
    · rintro ⟨h, h'⟩
      exact lt_asymm (hab.1 h) (hba.1 h')
    · rintro ⟨e, h⟩
      exact absurd (hba.1 h) (by rw [e]; exact lt_irrefl b)
  · intro segsA segsB as bs last_cmp
    rfl

/-- Witness of C28: the labels `com` and `co`. -/
theorem one_label_order_witness :
    sort_by_tld [99, 111] [99, 111, 109] < 0 ∧
      label_precedes [99, 111] [99, 111, 109] = true :=
  ⟨by decide,
   (one_label_order [99, 111] [99, 111, 109] (by decide) (by decide) (by decide)
      (by decide)).1.1.1 (by decide)⟩

/-! ## Emission order by position -/

theorem pairwise_index_lt {α : Type} (R : α → α → Prop) (l : List α) (hp : l.Pairwise R)
    (hasym : ∀ a b, R a b → R b a → False) (i j : Nat) (x y : α)
    (hi : l[i]? = some x) (hj : l[j]? = some y) (hxy : R x y) : i < j := by
  by_contra hlt
  have hle : j ≤ i := Nat.le_of_not_lt hlt
  rcases Nat.eq_or_lt_of_le hle with h | h
  · subst h
    rw [hi] at hj
    cases hj
    exact hasym x x hxy hxy
  · obtain ⟨hi1, hi2⟩ := List.getElem?_eq_some_iff.1 hi
    obtain ⟨hj1, hj2⟩ := List.getElem?_eq_some_iff.1 hj
    have := List.pairwise_iff_getElem.1 hp j i hj1 hi1 h
    rw [hi2, hj2] at this
    exact hasym x y hxy this

/-- C24. Emission order: for every list of views (none without labels, first labels
shorter than `2^31` bytes) the insertions succeed and consolidation emits in
depth-first post-order by label: the emitted sequence is pairwise in emission order;
for sibling nodes `n ++ [a]` and `n ++ [b]` (TLD entries when `n` is empty) with `a`
before `b` in the label order, every rule at or below the first is emitted before
every rule at or below the second; and every rule of a proper descendant of a node is
emitted before the node's own rule. -/
theorem emission_order (rs : List DomainView_t) (hne : ∀ r ∈ rs, r.labels ≠ [])
    (hlen : ∀ r ∈ rs, tld_len_ok r) :
    ∃ c, insert_all [] rs = some c ∧
      consolidate_emitted c = (consolidate_dom c).map Prod.snd ∧
      (consolidate_dom c).Pairwise (fun x y => post_lt x.1 y.1) ∧
      (∀ (i j : Nat) (x y : List Label × DomainInfo_t),
        (consolidate_dom c)[i]? = some x → (consolidate_dom c)[j]? = some y →
        ∀ (n : List Label) (a b : Label) (s t : List Label),
          x.1 = n ++ a :: s → y.1 = n ++ b :: t → label_precedes a b = true → i < j) ∧
      (∀ (i j : Nat) (x y : List Label × DomainInfo_t),
        (consolidate_dom c)[i]? = some x → (consolidate_dom c)[j]? = some y →
        ∀ (l : Label) (s : List Label), x.1 = y.1 ++ l :: s → i < j) := by
  obtain ⟨c, hc, hok, _, hk, _⟩ := insert_all_spec rs hne
  have hpw := consolidate_dom_sorted c hok (tld_len_of_index rs hlen c hk)
  have hasym : ∀ a b : List Label × DomainInfo_t, post_lt a.1 b.1 → post_lt b.1 a.1 → False :=
    fun a b => post_lt_asymm a.1 b.1
  refine ⟨c, hc, consolidate_emitted_eq c, hpw, ?_, ?_⟩
  · intro i j x y hi hj n a b s t hx hy hab
    refine pairwise_index_lt _ _ hpw hasym i j x y hi hj (Or.inl ?_)
    exact ⟨n, a, b, s, t, hx, hy, (label_precedes_iff a b).1 hab⟩
  · intro i j x y hi hj l s hx
    refine pairwise_index_lt _ _ hpw hasym i j x y hi hj (Or.inr ⟨?_, ?_⟩)
    · rw [hx]; exact List.prefix_append _ _
    · intro e
      rw [e] at hx
      have := congrArg List.length hx
      simp at this

/-- Witness of C24: the inputs `z.com`, `a.net`, `a.com` emit `a.com`, `z.com`, `a.net`. -/
theorem emission_order_witness :
    (∃ c, insert_all []
        [⟨[[99, 111, 109], [122]], MATCH_FULL, 0, ⟨0, 9⟩⟩,
         ⟨[[110, 101, 116], [97]], MATCH_FULL, 0, ⟨10, 9⟩⟩,
         ⟨[[99, 111, 109], [97]], MATCH_FULL, 0, ⟨20, 9⟩⟩] = some c ∧
      consolidate_emitted c = (consolidate_dom c).map Prod.snd ∧
      (consolidate_dom c).Pairwise (fun x y => post_lt x.1 y.1) ∧
      (∀ (i j : Nat) (x y : List Label × DomainInfo_t),
        (consolidate_dom c)[i]? = some x → (consolidate_dom c)[j]? = some y →
        ∀ (n : List Label) (a b : Label) (s t : List Label),
          x.1 = n ++ a :: s → y.1 = n ++ b :: t → label_precedes a b = true → i < j) ∧
      (∀ (i j : Nat) (x y : List Label × DomainInfo_t),
        (consolidate_dom c)[i]? = some x → (consolidate_dom c)[j]? = some y →
        ∀ (l : Label) (s : List Label), x.1 = y.1 ++ l :: s → i < j)) ∧
    (insert_all []
        [⟨[[99, 111, 109], [122]], MATCH_FULL, 0, ⟨0, 9⟩⟩,
         ⟨[[110, 101, 116], [97]], MATCH_FULL, 0, ⟨10, 9⟩⟩,
         ⟨[[99, 111, 109], [97]], MATCH_FULL, 0, ⟨20, 9⟩⟩]).map
      (fun c => (consolidate_dom c).map Prod.fst) =
      some [[[99, 111, 109], [97]], [[99, 111, 109], [122]], [[110, 101, 116], [97]]] :=
  ⟨emission_order
    [⟨[[99, 111, 109], [122]], MATCH_FULL, 0, ⟨0, 9⟩⟩,
     ⟨[[110, 101, 116], [97]], MATCH_FULL, 0, ⟨10, 9⟩⟩,
     ⟨[[99, 111, 109], [97]], MATCH_FULL, 0, ⟨20, 9⟩⟩]
    (by decide) (by decide), by decide⟩

/-! ## Replacement at an existing node -/

theorem at_entry_cons (f : Option DomainInfo_t → DomainTree_t → Option DomainInfo_t × DomainTree_t)
    (l : Label) (it : List Label) (dt : DomainTree_t) :
    at_entry f (l :: it) dt =
      with_entry dt l (fun d c => if it = [] then f d c else (d, at_entry f it c)) := by
  cases it with
  | nil => simp [at_entry]
  | cons l2 it2 => simp [at_entry]

/-- The node the write goes to holds what `f` makes of it. -/
theorem node_at_at_entry_self
    (f : Option DomainInfo_t → DomainTree_t → Option DomainInfo_t × DomainTree_t) :
    ∀ (it : List Label) (dt : DomainTree_t) (e : Option DomainInfo_t × DomainTree_t),
    node_at it dt = some e → node_at it (at_entry f it dt) = some (f e.1 e.2) := by
  intro it
  induction it with
  | nil => intro dt e h; cases h
  | cons l it ih =>
    intro dt e h
    rw [node_at_cons] at h
    rw [at_entry_cons, node_at_cons, HASH_FIND_with_entry, if_pos rfl]
    cases hf : HASH_FIND dt l with
    | none => rw [hf] at h; cases h
    | some e0 =>
      rw [hf] at h
      by_cases hit : it = []
      · simp only [hit, if_true, Option.some.injEq] at h
        subst h
        simp [hit]
      · simp only [hit, if_false] at h
        simp only [Option.map_some', hit, if_false]
        exact ih e0.2 e h

/-- A write at `it` leaves the info of every node outside the subtree of `it`. -/
theorem node_at_at_entry_info
    (f : Option DomainInfo_t → DomainTree_t → Option DomainInfo_t × DomainTree_t) :
    ∀ (it : List Label) (dt : DomainTree_t) (p : List Label), ¬ it <+: p →
    (node_at p (at_entry f it dt)).map Prod.fst = (node_at p dt).map Prod.fst := by
  intro it
  induction it with
  | nil => intro dt p h; exact absurd List.nil_prefix h
  | cons l it ih =>
    intro dt p h
    cases p with
    | nil => rfl
    | cons k p =>
      rw [at_entry_cons, node_at_cons, node_at_cons, HASH_FIND_with_entry]
      by_cases hk : k = l
      · subst hk
        rw [if_pos rfl]
        have hp : ¬ it <+: p := fun hpre => h ((List.prefix_cons_inj k).2 hpre)
        have hit : it ≠ [] := fun e => hp (e ▸ List.nil_prefix)
        cases hf : HASH_FIND dt k with
        | none => rfl
        | some e0 =>
          simp only [Option.map_some', hit, if_false]
          by_cases hpn : p = []
          · simp [hpn]
          · simp only [hpn, if_false]
            exact ih e0.2 p hp
      · rw [if_neg hk]

/-- A write at `it` leaves every node that is neither above nor below `it` as it was. -/
theorem node_at_at_entry_other
    (f : Option DomainInfo_t → DomainTree_t → Option DomainInfo_t × DomainTree_t) :
    ∀ (it : List Label) (dt : DomainTree_t) (p : List Label), ¬ it <+: p → ¬ p <+: it →
    node_at p (at_entry f it dt) = node_at p dt := by
  intro it
  induction it with
  | nil => intro dt p h; exact absurd List.nil_prefix h
  | cons l it ih =>
    intro dt p h h2
    cases p with
    | nil => rfl
    | cons k p =>
      rw [at_entry_cons, node_at_cons, node_at_cons, HASH_FIND_with_entry]
      by_cases hk : k = l
      · subst hk
        rw [if_pos rfl]
        have hp : ¬ it <+: p := fun hpre => h ((List.prefix_cons_inj k).2 hpre)
        have hp2 : ¬ p <+: it := fun hpre => h2 ((List.prefix_cons_inj k).2 hpre)
        have hit : it ≠ [] := fun e => hp (e ▸ List.nil_prefix)
        have hpn : p ≠ [] := fun e => hp2 (e ▸ List.nil_prefix)
        cases hf : HASH_FIND dt k with
        | none => rfl
        | some e0 =>
          simp only [Option.map_some', hit, hpn, if_false]
          exact ih e0.2 p hp hp2
      · rw [if_neg hk]

/-- The nodes below a node are the nodes of its table of children. -/
theorem node_at_append : ∀ (it : List Label) (dt : DomainTree_t)
    (e : Option DomainInfo_t × DomainTree_t) (q : List Label),
    node_at it dt = some e → q ≠ [] → node_at (it ++ q) dt = node_at q e.2 := by
  intro it
  induction it with
  | nil => intro dt e q h; cases h
  | cons l it ih =>
    intro dt e q h hq
    rw [node_at_cons] at h
    rw [List.cons_append, node_at_cons]
    cases hf : HASH_FIND dt l with
    | none => rw [hf] at h; cases h
    | some e0 =>
      rw [hf] at h
      have hne : it ++ q ≠ [] := by simp [hq]
      simp only [hne, if_false]
      by_cases hit : it = []
      · simp only [hit, if_true, Option.some.injEq] at h
        subst h
        simp [hit]
      · simp only [hit, if_false] at h
        exact ih e0.2 e q h hq

theorem node_at_append_none : ∀ (it : List Label) (dt : DomainTree_t) (q : List Label),
    node_at it dt = none → it ≠ [] → node_at (it ++ q) dt = none := by
  intro it
  induction it with
  | nil => intro dt q _ h; exact absurd rfl h
  | cons l it ih =>
    intro dt q h _
    rw [node_at_cons] at h
    rw [List.cons_append, node_at_cons]
    cases hf : HASH_FIND dt l with
    | none => rfl
    | some e0 =>
      rw [hf] at h
      by_cases hit : it = []
      · simp [hit] at h
      · simp only [hit, if_false] at h
        have hne : it ++ q ≠ [] := by simp [hit]
        simp only [hne, if_false]
        exact ih e0.2 q h hit

/-- When the node of the labels exists, has an info or children, and its info is not
`MATCH_FULL`, the descent reaches it and applies `replace_if_stronger` there. -/
theorem insert_descent_at_node (dv : DomainView_t) : ∀ (it : List Label) (dt : DomainTree_t)
    (e : Option DomainInfo_t × DomainTree_t), node_at it dt = some e →
    (e.2 = nil → e.1 ≠ none) → (∀ i, e.1 = some i → i.match_strength ≠ MATCH_FULL) →
    insert_descent dv it dt = some (at_entry (replace_if_stronger dv) it dt) := by
  intro it
  induction it with
  | nil => intro dt e h; cases h
  | cons l it ih =>
    intro dt e h hleaf hnf
    rw [node_at_cons] at h
    rw [at_entry_cons]
    unfold insert_descent
    cases hf : HASH_FIND dt l with
    | none => rw [hf] at h; cases h
    | some e0 =>
      obtain ⟨d0, c0⟩ := e0
      rw [hf] at h
      by_cases hit : it = []
      · simp only [hit, if_true, Option.some.injEq] at h
        subst h
        have hg : (if leaf_DomainTree c0 then
              d0.map (fun i => decide (i.match_strength = MATCH_FULL))
            else some false) = some false := by
          by_cases hl : leaf_DomainTree c0 = true
          · rw [if_pos hl]
            have hc := (leaf_iff c0).1 hl
            cases d0 with
            | none => exact absurd rfl (hleaf hc)
            | some i => simp [hnf i rfl]
          · rw [if_neg hl]
        simp only [hg, hit, if_true]
      · simp only [hit, if_false] at h
        have hc0 : c0 ≠ nil := by
          intro e0
          rw [e0, node_at_nil] at h
          cases h
        have hl : ¬ leaf_DomainTree c0 = true := fun hl => hc0 ((leaf_iff c0).1 hl)
        simp only [hl, hit, if_false]
        rw [ih c0 e h hleaf hnf]
        simp only [Option.map_some', Option.some.injEq, Bool.false_eq_true, if_false]
        refine with_entry_congr l
          (fun d _ => (d, at_entry (replace_if_stronger dv) it c0))
          (fun d c => (d, at_entry (replace_if_stronger dv) it c)) dt ?_
        intro e1 he1
        rw [hf] at he1
        cases he1
        rfl

theorem replace_if_stronger_of_weaker (dv : DomainView_t) (di : Option DomainInfo_t)
    (child : DomainTree_t)
    (h : ∀ i, di = some i → i.match_strength.rank < dv.match_strength.rank) :
    replace_if_stronger dv di child =
      (some (convert_DomainInfo dv),
        if dv.match_strength = MATCH_FULL then nil else child) := by
  cases di with
  | none => rfl
  | some i =>
    have := h i rfl
    simp [replace_if_stronger, this]

theorem ctx_node_at_set_slot (c : TLD_context_impl_t) (tld : Label) (dt : DomainTree_t)
    (hmem : tld ∈ c.map TLD_entry_impl_t.tld) (k : Label) (p : List Label) :
    ctx_node_at (tld_set_slot c tld dt) (k :: p) =
      if k = tld then node_at p dt else ctx_node_at c (k :: p) := by
  simp only [ctx_node_at]
  rw [tld_slot_set_slot tld dt c k hmem]
  by_cases hk : k = tld
  · simp [hk]
  · simp [hk]

/-- C21. Stronger insert replaces and prunes: for every index in which the node E of the
incoming rule's exact domain exists and has an info or children, if E has no info or
an info strictly weaker than the incoming strength, `insert_DomainTree` succeeds and
afterwards E's info is the incoming rule's (strength, source context, `line_info`);
E's table of children is empty when the incoming strength is `MATCH_FULL` (no node
below E exists any more) and is the table it was otherwise (every node below E is as
it was); every node outside E's subtree keeps its info, every node neither above nor
below E is entirely as it was, and the TLD entries are the same. -/
theorem stronger_insert_replaces (c : TLD_context_impl_t) (dv : DomainView_t)
    (hacc : accepted dv) (di : Option DomainInfo_t) (child : DomainTree_t)
    (hE : ctx_node_at c dv.labels = some (di, child))
    (hleaf : child = nil → di ≠ none)
    (hweak : ∀ i, di = some i → i.match_strength.rank < dv.match_strength.rank) :
    ∃ c1, insert_DomainTree c dv = some c1 ∧
      ctx_node_at c1 dv.labels =
        some (some (convert_DomainInfo dv),
          if dv.match_strength = MATCH_FULL then nil else child) ∧
      (∀ q, q ≠ [] → ctx_node_at c1 (dv.labels ++ q) =
        if dv.match_strength = MATCH_FULL then none else ctx_node_at c (dv.labels ++ q)) ∧
      (∀ p, ¬ dv.labels <+: p →
        (ctx_node_at c1 p).map Prod.fst = (ctx_node_at c p).map Prod.fst) ∧
      (∀ p, ¬ dv.labels <+: p → ¬ p <+: dv.labels → ctx_node_at c1 p = ctx_node_at c p) ∧
      c1.map TLD_entry_impl_t.tld = c.map TLD_entry_impl_t.tld := by
  cases hl : dv.labels with
  | nil => rw [hl] at hE; cases hE
  | cons tld it =>
    rw [hl] at hE
    simp only [ctx_node_at] at hE
    have hslot : tld_slot c tld ≠ nil := by
      intro e
      rw [e, node_at_nil] at hE
      cases hE
    have hmem := tld_mem_of_slot tld c hslot
    have hnf : ∀ i, di = some i → i.match_strength ≠ MATCH_FULL := by
      intro i hi e
      have := hweak i hi
      rw [e] at this
      revert this
      cases dv.match_strength <;> decide
    have hd := insert_descent_at_node dv it (tld_slot c tld) (di, child) hE hleaf hnf
    have hself := node_at_at_entry_self (replace_if_stronger dv) it (tld_slot c tld)
      (di, child) hE
    rw [replace_if_stronger_of_weaker dv di child hweak] at hself
    have hins : insert_DomainTree c dv =
        some (tld_set_slot c tld (at_entry (replace_if_stronger dv) it (tld_slot c tld))) := by
      unfold insert_DomainTree
      rw [if_neg hacc.1, if_neg hacc.2, hl]
      simp only [insert_tld_of_mem tld c hmem, insert_below_eq, hd]
    refine ⟨_, hins, ?_, ?_, ?_, ?_, tlds_set_slot tld _ c⟩
    · rw [ctx_node_at_set_slot c tld _ hmem, if_pos rfl]
      exact hself
    · intro q hq
      rw [List.cons_append, ctx_node_at_set_slot c tld _ hmem, if_pos rfl,
        node_at_append it _ _ q hself hq]
      simp only [ctx_node_at]
      rw [node_at_append it _ _ q hE hq]
      by_cases hF : dv.match_strength = MATCH_FULL
      · simp only [hF, if_true]
        exact node_at_nil q
      · simp only [hF, if_false]
    · intro p hp
      cases p with
      | nil => rfl
      | cons k p =>
        rw [ctx_node_at_set_slot c tld _ hmem]
        by_cases hk : k = tld
        · subst hk
          rw [if_pos rfl]
          simp only [ctx_node_at]
          exact node_at_at_entry_info _ it _ p
            (fun h => hp ((List.prefix_cons_inj k).2 h))
        · rw [if_neg hk]
    · intro p hp hp2
      cases p with
      | nil => rfl
      | cons k p =>
        rw [ctx_node_at_set_slot c tld _ hmem]
        by_cases hk : k = tld
        · subst hk
          rw [if_pos rfl]
          simp only [ctx_node_at]
          exact node_at_at_entry_other _ it _ p
            (fun h => hp ((List.prefix_cons_inj k).2 h))
            (fun h => hp2 ((List.prefix_cons_inj k).2 h))
        · rw [if_neg hk]

/-- Witness of C21: after the `MATCH_WEAK` rules `a.b.c.com` and `b.c.com`, the
`MATCH_FULL` rule `c.com` takes the node of `c.com`, which had no info, and removes
everything below it; consolidation then emits `c.com` only. -/
theorem stronger_insert_replaces_witness :
    ctx_node_at scenario_weak_pair_index scenario_full_ccom.labels =
      some (none, node [98] (some ⟨0, MATCH_WEAK, ⟨10, 7⟩⟩)
        (node [97] (some ⟨0, MATCH_WEAK, ⟨0, 9⟩⟩) nil nil) nil) ∧
    (∃ c1, insert_DomainTree scenario_weak_pair_index scenario_full_ccom = some c1 ∧
      ctx_node_at c1 scenario_full_ccom.labels =
        some (some (convert_DomainInfo scenario_full_ccom),
          if scenario_full_ccom.match_strength = MATCH_FULL then nil
          else node [98] (some ⟨0, MATCH_WEAK, ⟨10, 7⟩⟩)
            (node [97] (some ⟨0, MATCH_WEAK, ⟨0, 9⟩⟩) nil nil) nil) ∧
      (∀ q, q ≠ [] → ctx_node_at c1 (scenario_full_ccom.labels ++ q) =
        if scenario_full_ccom.match_strength = MATCH_FULL then none
        else ctx_node_at scenario_weak_pair_index (scenario_full_ccom.labels ++ q)) ∧
      (∀ p, ¬ scenario_full_ccom.labels <+: p →
        (ctx_node_at c1 p).map Prod.fst =
          (ctx_node_at scenario_weak_pair_index p).map Prod.fst) ∧
      (∀ p, ¬ scenario_full_ccom.labels <+: p → ¬ p <+: scenario_full_ccom.labels →
        ctx_node_at c1 p = ctx_node_at scenario_weak_pair_index p) ∧
      c1.map TLD_entry_impl_t.tld =
        scenario_weak_pair_index.map TLD_entry_impl_t.tld) ∧
    (insert_all [] (scenario_weak_pair ++ [scenario_full_ccom])).map
      (fun c => (consolidate_dom c).map Prod.fst) = some [[[99, 111, 109], [99]]] :=
  ⟨by decide,
    stronger_insert_replaces scenario_weak_pair_index scenario_full_ccom (by decide) none
      (node [98] (some ⟨0, MATCH_WEAK, ⟨10, 7⟩⟩)
        (node [97] (some ⟨0, MATCH_WEAK, ⟨0, 9⟩⟩) nil nil) nil)
      (by decide) (by decide) (fun i h => by cases h),
    by decide⟩

/-! ## The terminal nodes are listed once -/

theorem terminals_nodup : ∀ (t : DomainTree_t) (pfx : List Label), KeysNodup t →
    (terminals pfx t).Nodup := by
  intro t
  induction t with
  | nil => intro pfx _; simp [terminals]
  | node tld di child next ih1 ih2 =>
    intro pfx hk
    have hk0 := hk
    simp only [KeysNodup] at hk
    have hnone : HASH_FIND next tld = none := (HASH_FIND_none_iff tld next).2 hk.1
    have hA : ∀ x ∈ terminals (pfx ++ [tld]) child,
        ∃ q, q ≠ [] ∧ x.1 = pfx ++ tld :: q := by
      intro x hx
      obtain ⟨q, hq, ht⟩ := (mem_terminals_iff child (pfx ++ [tld]) hk.2.1 x.1 x.2).1 hx
      refine ⟨q, ?_, by simp [hq]⟩
      intro e
      subst e
      simp [term_at] at ht
    have hM : ∀ x ∈ di.toList.map (fun i => (pfx ++ [tld], i)), x.1 = pfx ++ [tld] := by
      intro x hx
      simp only [List.mem_map] at hx
      obtain ⟨i, _, rfl⟩ := hx
      rfl
    have hB : ∀ x ∈ terminals pfx next, ∃ l q, l ≠ tld ∧ x.1 = pfx ++ l :: q := by
      intro x hx
      obtain ⟨q, hq, ht⟩ := (mem_terminals_iff next pfx hk.2.2 x.1 x.2).1 hx
      cases q with
      | nil => simp [term_at] at ht
      | cons l q1 =>
        refine ⟨l, q1, ?_, hq⟩
        intro e
        subst e
        rw [term_at_cons, hnone] at ht
        cases ht
    simp only [terminals]
    rw [List.nodup_append, List.nodup_append]
    refine ⟨⟨ih1 (pfx ++ [tld]) hk.2.1, ?_, ?_⟩, ih2 pfx hk.2.2, ?_⟩
    · cases di with
      | none => simp
      | some i => simp
    · intro x hx hx2
      obtain ⟨q, hq, h1⟩ := hA x hx
      have h2 := hM x hx2
      rw [h1] at h2
      have := List.append_cancel_left h2
      simp at this
      exact hq this
    · intro x hx hx2
      obtain ⟨l, q, hl, h2⟩ := hB x hx2
      rcases List.mem_append.1 hx with h | h
      · obtain ⟨q1, _, h1⟩ := hA x h
        rw [h1] at h2
        have := List.append_cancel_left h2
        simp only [List.cons.injEq] at this
        exact hl this.1.symm
      · have h1 := hM x h
        rw [h1] at h2
        have := List.append_cancel_left h2
        simp only [List.cons.injEq] at this
        exact hl this.1.symm

theorem ctx_terminals_nodup : ∀ (c : TLD_context_impl_t), CtxOK c → (ctx_terminals c).Nodup := by
  intro c
  induction c with
  | nil => intro _; simp [ctx_terminals]
  | cons e rest ih =>
    intro hc
    have hrest : CtxOK rest := by
      refine ⟨?_, fun e1 he1 => hc.2 e1 (List.mem_cons_of_mem _ he1)⟩
      have := hc.1
      simp only [List.map_cons, List.nodup_cons] at this
      exact this.2
    have hnot : e.tld ∉ rest.map TLD_entry_impl_t.tld := by
      have := hc.1
      simp only [List.map_cons, List.nodup_cons] at this
      exact this.1
    have hunf : ctx_terminals (e :: rest) = terminals [e.tld] e.child ++ ctx_terminals rest := by
      simp [ctx_terminals]
    rw [hunf, List.nodup_append]
    refine ⟨terminals_nodup e.child [e.tld] (hc.2 e (List.mem_cons_self _ _)).2, ih hrest, ?_⟩
    intro x hx hx2
    obtain ⟨q, hq, _⟩ := (mem_terminals_iff e.child [e.tld]
      (hc.2 e (List.mem_cons_self _ _)).2 x.1 x.2).1 hx
    unfold ctx_terminals at hx2
    simp only [List.mem_flatten, List.mem_map] at hx2
    obtain ⟨l, ⟨e2, he2, rfl⟩, hx3⟩ := hx2
    obtain ⟨q2, hq2, _⟩ := (mem_terminals_iff e2.child [e2.tld] (hrest.2 e2 he2).2 x.1 x.2).1 hx3
    rw [hq] at hq2
    simp only [List.singleton_append, List.cons.injEq] at hq2
    exact hnot (hq2.1 ▸ List.mem_map_of_mem _ he2)

/-! ## Weak rules do not subsume -/

theorem CtxOK_weak_pair : CtxOK scenario_weak_pair_index := by
  obtain ⟨c, hc, hok, _⟩ := insert_all_spec scenario_weak_pair (by decide)
  have : scenario_weak_pair_index = c := by
    unfold scenario_weak_pair_index
    rw [hc]
    rfl
  rw [this]
  exact hok

/-- Counterexample to C22: the index holds the `MATCH_WEAK` rules `a.b.c.com` and
`b.c.com`, so it holds a rule at a domain longer than `b.c.com` and no `MATCH_FULL`
rule at `b.c.com`, `c.com` or `com`; inserting a `MATCH_WEAK` rule at `b.c.com` leaves
the index as it was, and the number of terminal nodes stays two. -/
theorem weak_insert_counterexample :
    ctx_term_at scenario_weak_pair_index [[99, 111, 109], [99], [98], [97]] =
      some ⟨0, MATCH_WEAK, ⟨0, 9⟩⟩ ∧
    ctx_term_at scenario_weak_pair_index [[99, 111, 109], [99], [98]] =
      some ⟨0, MATCH_WEAK, ⟨10, 7⟩⟩ ∧
    ctx_term_at scenario_weak_pair_index [[99, 111, 109], [99]] = none ∧
    ctx_term_at scenario_weak_pair_index [[99, 111, 109]] = none ∧
    (ctx_terminals scenario_weak_pair_index).length = 2 ∧
    insert_DomainTree scenario_weak_pair_index scenario_weak_bccom_again =
      some scenario_weak_pair_index ∧
    ((insert_DomainTree scenario_weak_pair_index scenario_weak_bccom_again).map
      fun c => (ctx_terminals c).length) = some 2 := by
  decide

/-- C22 (amended). Weak rules do not subsume: for every well-formed index and every
incoming rule (accepted strength, at least two labels) with no `MATCH_FULL` rule at
its domain d or at any shorter suffix of d, `insert_DomainTree` succeeds and every
node that is not d or below d, in particular every ancestor of d, keeps its rule;
when d carries no rule yet the incoming rule is added at d; when moreover the
incoming strength is `MATCH_WEAK`, every existing rule is kept, also below d, so the
terminal nodes afterwards are the ones before plus d and their number grows by
exactly one; and when d already carries a rule at least as strong, the index stays
as it was. -/
theorem weak_insert_coexists (c : TLD_context_impl_t) (dv : DomainView_t) (hc : CtxOK c)
    (hacc : accepted dv) (h2 : 2 ≤ dv.labels.length)
    (hnoFull : ∀ q i, q <+: dv.labels → ctx_term_at c q = some i →
      i.match_strength ≠ MATCH_FULL) :
    ∃ c1, insert_DomainTree c dv = some c1 ∧
      (∀ p, ¬ dv.labels <+: p → ctx_term_at c1 p = ctx_term_at c p) ∧
      (ctx_term_at c dv.labels = none →
        ctx_term_at c1 dv.labels = some (convert_DomainInfo dv)) ∧
      (dv.match_strength = MATCH_WEAK → ctx_term_at c dv.labels = none →
        (∀ p, p ≠ dv.labels → ctx_term_at c1 p = ctx_term_at c p) ∧
        (ctx_terminals c1).Perm ((dv.labels, convert_DomainInfo dv) :: ctx_terminals c) ∧
        (ctx_terminals c1).length = (ctx_terminals c).length + 1) ∧
      (∀ i, ctx_term_at c dv.labels = some i →
        dv.match_strength.rank ≤ i.match_strength.rank → c1 = c) := by
  have hne : dv.labels ≠ [] := by
    intro e
    rw [e] at h2
    simp at h2
  obtain ⟨c1, hins, hok1, _, _, hnoop, hchg⟩ := insert_DomainTree_spec c dv hc hacc hne
  have hnoop_iff : ctx_noop dv (ctx_term_at c) ↔
      ∃ i, ctx_term_at c dv.labels = some i ∧
        dv.match_strength.rank ≤ i.match_strength.rank := by
    unfold ctx_noop
    constructor
    · rintro (h | ⟨q, i, hq, hi, hF⟩ | h)
      · omega
      · exact absurd hF (hnoFull q i hq hi)
      · exact h
    · intro h
      exact Or.inr (Or.inr h)
  have hnone : ctx_term_at c dv.labels = none → ¬ ctx_noop dv (ctx_term_at c) := by
    intro hn h
    obtain ⟨i, hi, _⟩ := hnoop_iff.1 h
    rw [hn] at hi
    cases hi
  refine ⟨c1, hins, ?_, ?_, ?_, ?_⟩
  · intro p hp
    by_cases hno : ctx_noop dv (ctx_term_at c)
    · exact hnoop hno p
    · rw [hchg hno p]
      have h1 : p ≠ dv.labels := fun e => hp (e ▸ List.prefix_refl _)
      simp [h1, hp]
  · intro hn
    rw [hchg (hnone hn) dv.labels]
    simp
  · intro hW hn
    have hnF : ¬ dv.match_strength = MATCH_FULL := by
      rw [hW]
      decide
    have hterm : ∀ p, p ≠ dv.labels → ctx_term_at c1 p = ctx_term_at c p := by
      intro p hp
      rw [hchg (hnone hn) p]
      simp [hp, hnF]
    have hperm : (ctx_terminals c1).Perm
        ((dv.labels, convert_DomainInfo dv) :: ctx_terminals c) := by
      rw [List.perm_ext_iff_of_nodup (ctx_terminals_nodup c1 hok1)]
      · intro x
        obtain ⟨p, i⟩ := x
        rw [mem_ctx_terminals_iff c1 hok1, List.mem_cons, mem_ctx_terminals_iff c hc]
        by_cases hp : p = dv.labels
        · subst hp
          rw [hchg (hnone hn) dv.labels, hn]
          simp
          exact eq_comm
        · rw [hterm p hp]
          simp [hp]
      · rw [List.nodup_cons]
        refine ⟨?_, ctx_terminals_nodup c hc⟩
        rw [mem_ctx_terminals_iff c hc, hn]
        simp
    exact ⟨hterm, hperm, by rw [hperm.length_eq]; rfl⟩
  · intro i hi hr
    obtain ⟨tld, it, hl, hslot⟩ := ctx_term_labels c dv.labels i hi
    have h := insert_covered c dv hc tld it hl hslot (Or.inr ⟨i, hi, hr⟩)
    rw [h] at hins
    cases hins
    rfl

/-- Witness of C22 (amended): the index holds the `MATCH_WEAK` rules `a.b.c.com` and
`b.c.com`; inserting the `MATCH_WEAK` rule `c.com` keeps both and adds `c.com`. -/
theorem weak_insert_coexists_witness :
    (ctx_terminals scenario_weak_pair_index).length = 2 ∧
    ((insert_DomainTree scenario_weak_pair_index scenario_weak_ccom).map
      fun c => (ctx_terminals c).length) = some 3 ∧
    ∃ c1, insert_DomainTree scenario_weak_pair_index scenario_weak_ccom = some c1 ∧
      (∀ p, ¬ scenario_weak_ccom.labels <+: p →
        ctx_term_at c1 p = ctx_term_at scenario_weak_pair_index p) ∧
      (ctx_term_at scenario_weak_pair_index scenario_weak_ccom.labels = none →
        ctx_term_at c1 scenario_weak_ccom.labels =
          some (convert_DomainInfo scenario_weak_ccom)) ∧
      (scenario_weak_ccom.match_strength = MATCH_WEAK →
        ctx_term_at scenario_weak_pair_index scenario_weak_ccom.labels = none →
        (∀ p, p ≠ scenario_weak_ccom.labels →
          ctx_term_at c1 p = ctx_term_at scenario_weak_pair_index p) ∧
        (ctx_terminals c1).Perm
          ((scenario_weak_ccom.labels, convert_DomainInfo scenario_weak_ccom) ::
            ctx_terminals scenario_weak_pair_index) ∧
        (ctx_terminals c1).length = (ctx_terminals scenario_weak_pair_index).length + 1) ∧
      (∀ i, ctx_term_at scenario_weak_pair_index scenario_weak_ccom.labels = some i →
        scenario_weak_ccom.match_strength.rank ≤ i.match_strength.rank →
        c1 = scenario_weak_pair_index) :=
  ⟨by decide, by decide,
    weak_insert_coexists scenario_weak_pair_index scenario_weak_ccom CtxOK_weak_pair
      (by decide) (by decide) (by
        intro q i hq hi
        have hq1 : q ∈ [[], [[99, 111, 109]], [[99, 111, 109], [99]]] := by
          have := (List.mem_inits q scenario_weak_ccom.labels).2 hq
          simpa [scenario_weak_ccom, List.inits] using this
        exfalso
        simp only [List.mem_cons, List.mem_singleton, List.not_mem_nil, or_false] at hq1
        rcases hq1 with h | h | h
        · subst h
          cases hi
        · subst h
          have h0 : ctx_term_at scenario_weak_pair_index [[99, 111, 109]] = none := by decide
          rw [h0] at hi
          cases hi
        · subst h
          have h0 : ctx_term_at scenario_weak_pair_index [[99, 111, 109], [99]] = none := by
            decide
          rw [h0] at hi
          cases hi)⟩

/-! ## The argument check of the diff mode -/

/-- C30, evaluated on the code. In diff mode (no `-D`), after a successful
`do_parse_input_args`, `parse_input_args` returns false for no path argument and for
more than two. With exactly one path argument and no output file asked for it returns
true: the check `remainder <= 0 || remainder > 2` lets the count pass,
`read_argv_path` is called on the null pointer `argv[optind+1]`, and `input_paths_B`
gets one entry whose path is the null pointer `pfb_strdup` returns. With one path
argument it returns false only when an output file was asked for without a name. With
exactly two path arguments it returns true and both lists hold one copied path. -/
theorem diff_mode_argument_check (iargs : input_args_t) (st : stat_outcome)
    (hd : iargs.deduplicate_mode = false) :
    (∀ paths : List (List Nat), paths.length = 0 ∨ 2 < paths.length →
      parse_input_args true iargs st paths = some (false, iargs)) ∧
    (∀ a : List Nat, iargs.write_to_output_file = false →
      parse_input_args true iargs st [a] =
        some (true, { iargs with input_paths_A := [pfb_strdup (some a)],
                                 input_paths_B := [none] })) ∧
    (∀ a : List Nat, (parse_input_args true iargs st [a]).map Prod.fst = some false ↔
      (iargs.write_to_output_file = true ∧
        (iargs.output_filename = none ∨ iargs.output_filename = some []))) ∧
    (∀ a b : List Nat, iargs.write_to_output_file = false →
      parse_input_args true iargs st [a, b] =
        some (true, { iargs with input_paths_A := [pfb_strdup (some a)],
                                 input_paths_B := [pfb_strdup (some b)] })) := by
  obtain ⟨d, w, o, pa, pb⟩ := iargs
  simp only at hd
  subst hd
  refine ⟨?_, ?_, ?_, ?_⟩
  · intro paths h
    have h1 : (decide ((paths.length : Int) ≤ 0) || decide ((paths.length : Int) > 2)) =
        true := by
      rcases h with h | h
      · simp [h]
      · simp only [Bool.or_eq_true, decide_eq_true_eq]
        right
        omega
    simp only [parse_input_args, Bool.not_true, Bool.false_eq_true, if_false, Bool.false_and,
      Bool.not_false, Bool.true_and, h1, if_true]
  · intro a hw
    simp only at hw
    subst hw
    simp only [parse_input_args, read_argv_path, paths_list_add, Bool.not_true,
      Bool.false_eq_true, if_false, Bool.false_and, Bool.not_false, Bool.true_and,
      List.length_singleton, Nat.cast_one, List.nil_append]
    rfl
  · intro a
    cases w <;> cases st <;> cases o with
    | none => simp [parse_input_args, read_argv_path, paths_list_add, extract_stat_info]
    | some name =>
      cases name <;>
        simp [parse_input_args, read_argv_path, paths_list_add, extract_stat_info]
  · intro a b hw
    simp only at hw
    subst hw
    simp [parse_input_args, read_argv_path, paths_list_add]

/-- Witness of C30: the command line `prog a` in diff mode is accepted, and the second
list of paths holds a null path; no path and three paths are refused. -/
theorem diff_mode_argument_check_witness :
    parse_input_args true ⟨false, false, none, [], []⟩ stat_outcome.stat_ok [[97]] =
      some (true, ⟨false, false, none, [some [97]], [none]⟩) ∧
    (parse_input_args true ⟨false, false, none, [], []⟩ stat_outcome.stat_ok [[97]]).map
      Prod.fst ≠ some false ∧
    parse_input_args true ⟨false, false, none, [], []⟩ stat_outcome.stat_ok [] =
      some (false, ⟨false, false, none, [], []⟩) ∧
    parse_input_args true ⟨false, false, none, [], []⟩ stat_outcome.stat_ok
      [[97], [98], [99]] = some (false, ⟨false, false, none, [], []⟩) :=
  ⟨(diff_mode_argument_check ⟨false, false, none, [], []⟩ stat_outcome.stat_ok rfl).2.1
      [97] rfl,
    by decide, by decide, by decide⟩

/-! ## The layout of the buffer sink -/

theorem write_BUFFER_step (p : List Nat) (c : pfb_out_buffer_t) (hp : p.length ≤ 2048)
    (hinv : buffer_inv c) (hu : c.litelines.used + 1 < 2147483648) :
    ∃ c1, pfb_out_context_write_BUFFER p c = some c1 ∧ buffer_inv c1 ∧
      c1.buffer = c.buffer ++ p ++ [LINE_TERMINAL] ∧
      c1.next_idx = c.next_idx + p.length + 1 ∧
      c1.litelines.li = c.litelines.li ++ [⟨(c.next_idx : Int), p.length⟩] ∧
      c1.litelines.used = c.litelines.used + 1 := by
  obtain ⟨buf, next, alloc, ⟨lalloc, used, li⟩⟩ := c
  obtain ⟨h1, h2, h3, h4, h5, h6, h7, h8, h9⟩ := hinv
  simp only at h1 h2 h3 h4 h5 h6 h7 h8 h9 hu
  have halloc : alloc < 35184372088832 := by omega
  have hsub : (alloc + 18446744073709551616 - next) % 18446744073709551616 = alloc - next := by
    have e1 : alloc + 18446744073709551616 - next = (alloc - next) + 18446744073709551616 := by
      omega
    rw [e1, Nat.add_mod_right]
    exact Nat.mod_eq_of_lt (by omega)
  have hc : (p.length + 1) % 4294967296 = p.length + 1 := Nat.mod_eq_of_lt (by omega)
  have hgrow : (alloc + alloc / 2) % 18446744073709551616 = alloc + alloc / 2 :=
    Nat.mod_eq_of_lt (by omega)
  have hfit : next + p.length + 1 ≤
      (if p.length + 1 < alloc - next then alloc else alloc + alloc / 2) := by
    split_ifs with h <;> omega
  have hl : (realloc_litelines ⟨lalloc, used, li⟩).used = used ∧
      (realloc_litelines ⟨lalloc, used, li⟩).li = li ∧
      used < (realloc_litelines ⟨lalloc, used, li⟩).alloc ∧
      (realloc_litelines ⟨lalloc, used, li⟩).alloc ≤ used + 1 + (used + 1) / 2 + 10 := by
    unfold realloc_litelines
    split_ifs with h
    · simp only at h
      have hm1 : (10 + lalloc / 2) % 4294967296 = 10 + lalloc / 2 :=
        Nat.mod_eq_of_lt (by omega)
      have hm2 : (lalloc + (10 + lalloc / 2)) % 4294967296 = lalloc + (10 + lalloc / 2) :=
        Nat.mod_eq_of_lt (by omega)
      simp only [hm1, hm2]
      refine ⟨trivial, trivial, ?_, ?_⟩ <;> omega
    · simp only at h
      refine ⟨rfl, rfl, ?_, ?_⟩ <;> simp only <;> omega
  obtain ⟨hl1, hl2, hl3, hl4⟩ := hl
  have htake : List.take next buf = buf := by
    rw [← h1]
    exact List.take_length buf
  have htake2 : List.take used li = li := by
    rw [← h2]
    exact List.take_length li
  have hmod : p.length % 65536 = p.length := Nat.mod_eq_of_lt (by omega)
  refine ⟨{ buffer := buf ++ p ++ [LINE_TERMINAL]
            next_idx := next + p.length + 1
            alloc_len := if p.length + 1 < alloc - next then alloc else alloc + alloc / 2
            litelines :=
              { alloc := (realloc_litelines ⟨lalloc, used, li⟩).alloc
                used := used + 1
                li := li ++ [⟨(next : Int), p.length⟩] } }, ?_, ?_, rfl, rfl, rfl, rfl⟩
  · unfold pfb_out_context_write_BUFFER
    simp only [hsub, hc, hgrow, hfit, hl1, hl2, hl3, if_true, htake, htake2, hmod]
  · unfold buffer_inv
    simp only [List.length_append, List.length_singleton, List.length_cons,
      List.length_nil]
    refine ⟨by omega, by omega, hfit, ?_, ?_, ?_, by omega, by omega, hl4⟩
    · split_ifs with h <;> omega
    · split_ifs with h <;> omega
    · split_ifs with h <;> omega

theorem write_all_BUFFER_spec : ∀ (ps : List (List Nat)) (c : pfb_out_buffer_t),
    buffer_inv c → (∀ p ∈ ps, p.length ≤ 2048) →
    c.litelines.used + ps.length < 2147483648 →
    ∃ c1, write_all_BUFFER ps c = some c1 ∧ buffer_inv c1 ∧
      c1.buffer = c.buffer ++ (ps.map fun p => p ++ [LINE_TERMINAL]).flatten ∧
      c1.litelines.li = c.litelines.li ++ litelines_of c.next_idx ps ∧
      c1.litelines.used = c.litelines.used + ps.length := by
  intro ps
  induction ps with
  | nil =>
    intro c hinv _ _
    exact ⟨c, rfl, hinv, by simp, by simp [litelines_of], rfl⟩
  | cons p ps ih =>
    intro c hinv hlen hu
    simp only [List.length_cons] at hu
    obtain ⟨c1, hw, hinv1, hb1, hn1, hl1, hu1⟩ :=
      write_BUFFER_step p c (hlen p (List.mem_cons_self _ _)) hinv (by omega)
    obtain ⟨c2, hw2, hinv2, hb2, hl2, hu2⟩ :=
      ih c1 hinv1 (fun q hq => hlen q (List.mem_cons_of_mem _ hq)) (by omega)
    refine ⟨c2, ?_, hinv2, ?_, ?_, ?_⟩
    · simp only [write_all_BUFFER, hw, hw2]
    · rw [hb2, hb1]
      simp
    · rw [hl2, hl1, hn1]
      simp [litelines_of]
    · rw [hu2, hu1, List.length_cons]
      omega

theorem litelines_of_get : ∀ (ps : List (List Nat)) (off i : Nat) (p : List Nat),
    ps[i]? = some p →
    (litelines_of off ps)[i]? =
      some ⟨((off + ((ps.take i).map fun q => q.length + 1).sum : Nat) : Int), p.length⟩ := by
  intro ps
  induction ps with
  | nil => intro off i p h; simp at h
  | cons q ps ih =>
    intro off i p h
    cases i with
    | zero =>
      simp only [List.getElem?_cons_zero, Option.some.injEq] at h
      subst h
      simp [litelines_of]
    | succ i =>
      simp only [List.getElem?_cons_succ] at h
      simp only [litelines_of, List.getElem?_cons_succ, List.take_succ_cons, List.map_cons,
        List.sum_cons]
      rw [ih (off + q.length + 1) i p h]
      congr 3
      omega

theorem flatten_entry : ∀ (ps : List (List Nat)) (i : Nat) (p : List Nat),
    ps[i]? = some p →
    (((ps.map fun q => q ++ [LINE_TERMINAL]).flatten.drop
        ((ps.take i).map fun q => q.length + 1).sum).take (p.length + 1)) =
      p ++ [LINE_TERMINAL] := by
  intro ps
  induction ps with
  | nil => intro i p h; simp at h
  | cons q ps ih =>
    intro i p h
    cases i with
    | zero =>
      simp only [List.getElem?_cons_zero, Option.some.injEq] at h
      subst h
      simp only [List.take_zero, List.map_nil, List.sum_nil, List.drop_zero, List.map_cons,
        List.flatten_cons]
      rw [List.take_append_of_le_length (by simp)]
      exact List.take_of_length_le (by simp)
    | succ i =>
      simp only [List.getElem?_cons_succ] at h
      simp only [List.take_succ_cons, List.map_cons, List.sum_cons, List.flatten_cons]
      have hlen : (q ++ [LINE_TERMINAL]).length = q.length + 1 := by simp
      rw [← hlen, ← List.drop_drop, List.drop_left]
      exact ih i p h

/-- C26. Buffer sink layout: starting from the empty buffer sink of `main` (4096 bytes
allocated, empty line index), the writes of payloads `p1..pn` of at most 2048 bytes
each (the longest line the reader delivers), fewer than `2^31` of them, through
`pfb_out_context_write_BUFFER` all succeed, and afterwards the first `next_idx` bytes
of the store are `p1 \0 p2 \0 ... pn \0`, the line index has exactly `n` used
entries, and entry `i` is (offset = sum over `j < i` of `len(pj) + 1`, length =
`len(pi)`), so that the `len(pi) + 1` bytes at that offset are `pi` followed by the
terminator. -/
theorem buffer_sink_layout (ps : List (List Nat)) (hlen : ∀ p ∈ ps, p.length ≤ 2048)
    (hn : ps.length < 2147483648) :
    ∃ c, write_all_BUFFER ps out_buffer_init = some c ∧
      c.buffer = (ps.map fun p => p ++ [LINE_TERMINAL]).flatten ∧
      c.next_idx = c.buffer.length ∧
      c.next_idx = (ps.map fun p => p.length + 1).sum ∧
      c.litelines.used = ps.length ∧
      c.litelines.li = litelines_of 0 ps ∧
      c.litelines.li.length = ps.length ∧
      ∀ (i : Nat) (p : List Nat), ps[i]? = some p →
        c.litelines.li[i]? =
          some ⟨((((ps.take i).map fun q => q.length + 1).sum : Nat) : Int), p.length⟩ ∧
        ((c.buffer.drop ((ps.take i).map fun q => q.length + 1).sum).take (p.length + 1)) =
          p ++ [LINE_TERMINAL] := by
  have hinit : buffer_inv out_buffer_init := by
    unfold buffer_inv out_buffer_init
    simp
  obtain ⟨c, hw, hinv, hb, hl, hu⟩ :=
    write_all_BUFFER_spec ps out_buffer_init hinit hlen (by simpa [out_buffer_init] using hn)
  have hb1 : c.buffer = (ps.map fun p => p ++ [LINE_TERMINAL]).flatten := by
    rw [hb]
    rfl
  have hl1 : c.litelines.li = litelines_of 0 ps := by
    rw [hl]
    rfl
  have hu1 : c.litelines.used = ps.length := by
    rw [hu]
    simp [out_buffer_init]
  have hsum : ∀ qs : List (List Nat),
      (qs.map fun p => p ++ [LINE_TERMINAL]).flatten.length =
        (qs.map fun p => p.length + 1).sum := by
    intro qs
    induction qs with
    | nil => rfl
    | cons q qs ih =>
      simp only [List.map_cons, List.flatten_cons, List.length_append, List.length_singleton,
        List.sum_cons, ih]
  refine ⟨c, hw, hb1, hinv.1.symm, ?_, hu1, hl1, ?_, ?_⟩
  · rw [← hinv.1, hb1, hsum]
  · rw [hinv.2.1, hu1]
  · intro i p hp
    refine ⟨?_, ?_⟩
    · rw [hl1, litelines_of_get ps 0 i p hp]
      simp
    · rw [hb1]
      exact flatten_entry ps i p hp

/-- Witness of C26: the payloads `||a.com^` and `||b.com^`. -/
theorem buffer_sink_layout_witness :
    write_all_BUFFER [[124, 124, 97, 46, 99, 111, 109, 94],
        [124, 124, 98, 46, 99, 111, 109, 94]] out_buffer_init =
      some { buffer := [124, 124, 97, 46, 99, 111, 109, 94, 0,
                        124, 124, 98, 46, 99, 111, 109, 94, 0]
             next_idx := 18
             alloc_len := 4096
             litelines := { alloc := 10, used := 2, li := [⟨0, 8⟩, ⟨9, 8⟩] } } ∧
    ∃ c, write_all_BUFFER [[124, 124, 97, 46, 99, 111, 109, 94],
        [124, 124, 98, 46, 99, 111, 109, 94]] out_buffer_init = some c ∧
      c.litelines.used = 2 :=
  ⟨by decide,
    (buffer_sink_layout [[124, 124, 97, 46, 99, 111, 109, 94],
        [124, 124, 98, 46, 99, 111, 109, 94]] (by decide) (by decide)).imp
      fun _ h => ⟨h.1, h.2.2.2.2.1⟩⟩

/-! ## Carry-over -/

theorem pfb_insert_eq (udv : List Nat → Option (List Label)) (pfbc : Nat)
    (pld : PortLineData_t) (s : carry_over_t × TLD_context_impl_t) :
    pfb_insert udv pfbc pld s =
      if is_carry_over pld = true then some (insert_carry_over s.1 pld.li, s.2)
      else
        match line_view udv pfbc pld with
        | none => some s
        | some dv => (insert_DomainTree s.2 dv).map fun t => (s.1, t) := by
  unfold pfb_insert is_carry_over line_view
  rcases parse_results ⟨0, 0, strength MATCH_NOTSET⟩ pld.data with ⟨h1, h2⟩ | ⟨h1, h2 | h2 | h2⟩
  · simp [h1]
  · simp [h1, h2]
  · simp [h1, h2]
  · simp only [h1, h2, Bool.true_eq_false, if_false]
    cases hu : udv (List.take (parse_adbplus_line ⟨0, 0, strength MATCH_NOTSET⟩ pld.data).2.len
        (List.drop (parse_adbplus_line ⟨0, 0, strength MATCH_NOTSET⟩ pld.data).2.data pld.data)) <;>
      simp

theorem line_view_of_carry (udv : List Nat → Option (List Label)) (pfbc : Nat)
    (pld : PortLineData_t) (h : is_carry_over pld = true) : line_view udv pfbc pld = none := by
  unfold is_carry_over at h
  unfold line_view
  simp only [Bool.and_eq_true, Bool.or_eq_true, decide_eq_true_eq] at h
  rcases h with ⟨h1, h2 | h2⟩ <;> simp [h1, h2]

theorem line_view_full (udv : List Nat → Option (List Label)) (pfbc : Nat)
    (pld : PortLineData_t) (v : DomainView_t) (h : line_view udv pfbc pld = some v) :
    v.match_strength = MATCH_FULL ∧ v.context = pfbc ∧ v.li = pld.li := by
  unfold line_view at h
  rcases parse_results ⟨0, 0, strength MATCH_NOTSET⟩ pld.data with ⟨h1, h2⟩ | ⟨h1, h2 | h2 | h2⟩
  · simp [h1] at h
  · simp [h1, h2] at h
  · simp [h1, h2] at h
  · simp only [h1, h2, Bool.true_eq_false, if_false, Option.map_eq_some'] at h
    obtain ⟨labels, _, rfl⟩ := h
    exact ⟨rfl, rfl, rfl⟩

theorem pfb_insert_lines_eq (udv : List Nat → Option (List Label)) (pfbc : Nat) :
    ∀ (lines : List PortLineData_t) (co : carry_over_t) (t : TLD_context_impl_t),
    pfb_insert_lines udv pfbc lines (co, t) =
      (insert_all t (lines.filterMap (line_view udv pfbc))).map fun t1 =>
        (((lines.filter fun pld => is_carry_over pld).map fun pld => pld.li).foldl
          insert_carry_over co, t1) := by
  intro lines
  induction lines with
  | nil => intro co t; rfl
  | cons pld rest ih =>
    intro co t
    simp only [pfb_insert_lines, pfb_insert_eq]
    by_cases hc : is_carry_over pld = true
    · simp only [hc, if_true, List.filter_cons_of_pos, List.map_cons, List.foldl_cons,
        List.filterMap_cons, line_view_of_carry udv pfbc pld hc]
      exact ih _ _
    · simp only [hc, if_false, Bool.false_eq_true]
      cases hv : line_view udv pfbc pld with
      | none =>
        simp only [List.filterMap_cons, hv]
        rw [List.filter_cons_of_neg (by simpa using hc)]
        exact ih _ _
      | some dv =>
        simp only [List.filterMap_cons, hv, insert_all]
        rw [List.filter_cons_of_neg (by simpa using hc)]
        cases hi : insert_DomainTree t dv with
        | none => rfl
        | some t1 =>
          simp only [Option.map_some']
          exact ih _ _

theorem foldl_insert_carry_over : ∀ (ls : List line_info_t) (co : carry_over_t),
    co.li.length = co.used →
    (ls.foldl insert_carry_over co).li = co.li ++ ls ∧
    (ls.foldl insert_carry_over co).used = co.used + ls.length := by
  intro ls
  induction ls with
  | nil => intro co _; simp
  | cons l ls ih =>
    intro co h
    have h1 : (insert_carry_over co l).li = co.li ++ [l] := by
      simp only [insert_carry_over]
      rw [← h, List.take_length]
    have h2 : (insert_carry_over co l).used = co.used + 1 := rfl
    have h3 : (insert_carry_over co l).li.length = (insert_carry_over co l).used := by
      rw [h1, h2, List.length_append, h]
      rfl
    obtain ⟨e1, e2⟩ := ih (insert_carry_over co l) h3
    simp only [List.foldl_cons, List.length_cons]
    rw [e1, e2, h1, h2]
    exact ⟨by simp, by omega⟩

/-! ## The line reader and overlong lines -/

theorem takeWhile_all {α : Type} (p : α → Bool) : ∀ (l rest : List α), (∀ x ∈ l, p x = true) →
    (l ++ rest).takeWhile p = l ++ rest.takeWhile p ∧
    (l ++ rest).dropWhile p = rest.dropWhile p := by
  intro l
  induction l with
  | nil => intro rest _; exact ⟨rfl, rfl⟩
  | cons a l ih =>
    intro rest h
    have ha : p a = true := h a (List.mem_cons_self _ _)
    obtain ⟨e1, e2⟩ := ih rest (fun x hx => h x (List.mem_cons_of_mem _ hx))
    simp only [List.cons_append, List.takeWhile_cons, List.dropWhile_cons, ha, if_true]
    exact ⟨by rw [e1], e2⟩

/-- A span without a newline byte: everything is taken, nothing is left. -/
theorem load_LineData_no_newline (buffer : List Nat) (ld : LineData_t)
    (h : ∀ x ∈ buffer, not_newline x = true) :
    load_LineData buffer ld =
      (false, [],
        if ld.li.line_len + buffer.length + 1 > MAX_ALLOC_LINE then
          { ld with data := []
                    li := { ld.li with
                      line_len := (ld.li.line_len + buffer.length) % 65536 } }
        else
          { data := ld.data ++ buffer
            alloc := if ld.li.line_len + buffer.length + 1 > ld.alloc then
              ld.li.line_len + buffer.length + 1 else ld.alloc
            li := { ld.li with line_len := (ld.li.line_len + buffer.length) % 65536 } }) := by
  have h1 := takeWhile_all not_newline buffer [] h
  simp only [List.append_nil, List.takeWhile_nil, List.dropWhile_nil] at h1
  unfold load_LineData
  simp only [h1.1, h1.2]
  split_ifs <;> simp

/-- A span whose bytes before the first `'\n'` are `line`. -/
theorem load_LineData_newline (line rest : List Nat) (ld : LineData_t)
    (h : ∀ x ∈ line, not_newline x = true) :
    load_LineData (line ++ 10 :: rest) ld =
      (decide (ld.li.line_len + line.length ≠ 0), 10 :: rest,
        if ld.li.line_len + line.length + 1 > MAX_ALLOC_LINE then
          { ld with data := []
                    li := { ld.li with
                      line_len := (ld.li.line_len + line.length) % 65536 } }
        else
          { data := ld.data ++ line
            alloc := if ld.li.line_len + line.length + 1 > ld.alloc then
              ld.li.line_len + line.length + 1 else ld.alloc
            li := { ld.li with line_len := (ld.li.line_len + line.length) % 65536 } }) := by
  have h1 := takeWhile_all not_newline line (10 :: rest) h
  have h2 : List.takeWhile not_newline (10 :: rest) = [] := by
    simp [List.takeWhile_cons, not_newline]
  have h3 : List.dropWhile not_newline (10 :: rest) = 10 :: rest := by
    simp [List.dropWhile_cons, not_newline]
  rw [h2, h3] at h1
  simp only [List.append_nil] at h1
  unfold load_LineData
  simp only [h1.1, h1.2]
  split_ifs <;> simp

theorem read_pfb_line_loop_append : ∀ (l1 l2 : List (List Nat)) (s : reader_state),
    read_pfb_line_loop (l1 ++ l2) s =
      (read_pfb_line_loop l1 s).bind (read_pfb_line_loop l2) := by
  intro l1
  induction l1 with
  | nil => intro l2 s; rfl
  | cons c l1 ih =>
    intro l2 s
    simp only [List.cons_append, read_pfb_line_loop]
    by_cases hc : c = []
    · simp only [hc, if_true]
      exact ih l2 s
    · simp only [hc, if_false]
      cases read_pfb_line_chunk c.length c s with
      | none => rfl
      | some s1 => exact ih l2 s1

/-- A chunk of 4096 bytes without a newline byte, met while nothing is held of the
pending line: nothing is kept and the 16-bit length moves on by 4096. -/
theorem read_chunk_overlong (c : List Nat) (s : reader_state) (hlen : c.length = 4096)
    (hc : ∀ x ∈ c, not_newline x = true) (hd : s.ld.data = []) :
    read_pfb_line_chunk c.length c s =
      some { s with ld := { s.ld with
        li := { s.ld.li with line_len := (s.ld.li.line_len + 4096) % 65536 } } } := by
  rw [hlen]
  show read_pfb_line_chunk (4095 + 1) c s = _
  unfold read_pfb_line_chunk
  rw [load_LineData_no_newline c s.ld hc, hlen]
  have hbig : s.ld.li.line_len + 4096 + 1 > MAX_ALLOC_LINE := by
    unfold MAX_ALLOC_LINE MAX_ACCEPTABLE_LINE_LENGTH
    omega
  obtain ⟨⟨d, a, li⟩, f, calls⟩ := s
  simp only at hd
  subst hd
  simp [hbig]

theorem read_loop_overlong : ∀ (big : List (List Nat)) (d : List Nat) (a : Nat) (off : Int)
    (len : Nat) (f : Int) (calls : List PortLineData_t),
    (∀ c ∈ big, c.length = 4096 ∧ ∀ x ∈ c, not_newline x = true) → d = [] → len < 65536 →
    read_pfb_line_loop big ⟨⟨d, a, ⟨off, len⟩⟩, f, calls⟩ =
      some ⟨⟨d, a, ⟨off, (len + 4096 * big.length) % 65536⟩⟩, f, calls⟩ := by
  intro big
  induction big with
  | nil =>
    intro d a off len f calls _ _ hl
    simp only [read_pfb_line_loop, List.length_nil, Nat.mul_zero, Nat.add_zero,
      Nat.mod_eq_of_lt hl]
  | cons c big ih =>
    intro d a off len f calls h hd hl
    obtain ⟨hlen, hc⟩ := h c (List.mem_cons_self _ _)
    have hne : c ≠ [] := by
      intro e
      rw [e] at hlen
      simp at hlen
    simp only [read_pfb_line_loop, hne, if_false,
      read_chunk_overlong c ⟨⟨d, a, ⟨off, len⟩⟩, f, calls⟩ hlen hc hd]
    rw [ih d a off ((len + 4096) % 65536) f calls
      (fun c1 h1 => h c1 (List.mem_cons_of_mem _ h1)) hd (Nat.mod_lt _ (by decide))]
    simp only [List.length_cons, Option.some.injEq, reader_state.mk.injEq, LineData_t.mk.injEq,
      line_info_t.mk.injEq, and_true, true_and]
    omega

/-- A last chunk that holds the rest `t` of a line and its `'\n'`, met while nothing is
held of the pending line and its 16-bit length is `len`. -/
theorem read_chunk_tail (t : List Nat) (s : reader_state)
    (ht : ∀ x ∈ t, not_newline x = true) (hd : s.ld.data = [])
    (h1 : s.ld.li.line_len + t.length ≠ 0) :
    read_pfb_line_chunk (t ++ [10]).length (t ++ [10]) s =
      some { ld := { s.ld with
               alloc := if s.ld.li.line_len + t.length + 1 > MAX_ALLOC_LINE then s.ld.alloc
                 else if s.ld.li.line_len + t.length + 1 > s.ld.alloc then
                   s.ld.li.line_len + t.length + 1 else s.ld.alloc
               data := [], li := ⟨0, 0⟩ }
             f_location := s.f_location +
               (((s.ld.li.line_len + t.length) % 65536 : Nat) : Int) + 1
             calls := s.calls ++
               [⟨if s.ld.li.line_len + t.length + 1 > MAX_ALLOC_LINE then [] else t,
                 ⟨s.f_location, (s.ld.li.line_len + t.length) % 65536⟩⟩] } := by
  have hl : (t ++ [10]).length = t.length + 1 := by simp
  have hdec : decide (s.ld.li.line_len + t.length ≠ 0) = true := decide_eq_true h1
  have htk : List.takeWhile (fun c => !not_newline c) [10] = [10] := by decide
  have hdk : List.dropWhile (fun c => !not_newline c) [10] = [] := by decide
  rw [hl]
  unfold read_pfb_line_chunk
  rw [load_LineData_newline t [] s.ld ht]
  simp only [hdec, htk, hdk, if_true, List.length_singleton, reset_LineData]
  obtain ⟨⟨d, a, li⟩, f, calls⟩ := s
  simp only at hd
  subst hd
  by_cases h2 : li.line_len + t.length + 1 > MAX_ALLOC_LINE
  · simp only [h2, if_true, List.nil_append]
    rfl
  · simp only [h2, if_false, List.nil_append]
    rfl

/-- With as many iterations allowed as the span has bytes, the inner loop of
`read_pfb_line` runs to its end. -/
theorem read_pfb_line_chunk_total : ∀ (n : Nat) (pos_buffer : List Nat) (s : reader_state),
    pos_buffer ≠ [] → pos_buffer.length ≤ n →
    ∃ s1, read_pfb_line_chunk n pos_buffer s = some s1 := by
  intro n
  induction n with
  | zero =>
    intro pos_buffer s hne hlen
    exact absurd (List.length_eq_zero.1 (Nat.le_zero.1 hlen)) hne
  | succ n ih =>
    intro pos_buffer s hne hlen
    have hshort : (List.dropWhile (fun c => !not_newline c)
        (load_LineData pos_buffer s.ld).2.1).length < pos_buffer.length := by
      have hpos : (load_LineData pos_buffer s.ld).2.1 = pos_buffer.dropWhile not_newline := by
        unfold load_LineData
        simp only
        split_ifs <;> rfl
      rw [hpos]
      cases pos_buffer with
      | nil => exact absurd rfl hne
      | cons c rest =>
        by_cases hc : not_newline c = true
        · rw [List.dropWhile_cons_of_pos hc]
          exact Nat.lt_succ_of_le
            (((List.dropWhile_sublist _).trans (List.dropWhile_sublist _)).length_le)
        · rw [List.dropWhile_cons_of_neg hc, List.dropWhile_cons_of_pos (by simpa using hc)]
          exact Nat.lt_succ_of_le (List.dropWhile_sublist _).length_le
    unfold read_pfb_line_chunk
    simp only []
    by_cases h2 : List.dropWhile (fun c => !not_newline c)
        (load_LineData pos_buffer s.ld).2.1 = []
    · rw [if_pos h2]
      exact ⟨_, rfl⟩
    · rw [if_neg h2]
      exact ih _ _ h2 (by omega)

/-- C29, evaluated on the code. A line of `65536 + n` bytes (`1 ≤ n ≤ 2048`) followed by
`'\n'` and read in chunks of 4096 bytes is not dropped: after the sixteen full chunks
the 16-bit `line_len` is back at zero, and the callback is handed the last `n` bytes
of the line as line data, with `line_len = n`. Within one chunk the limit works: a
line of at most 2048 bytes is delivered intact, a longer one with empty data. -/
theorem overlong_line_wraps (big : List (List Nat)) (t : List Nat) (hbig : big.length = 16)
    (h4096 : ∀ c ∈ big, c.length = 4096 ∧ ∀ x ∈ c, not_newline x = true)
    (ht : ∀ x ∈ t, not_newline x = true) (ht1 : 1 ≤ t.length) (ht2 : t.length ≤ 2048) :
    read_pfb_line (big ++ [t ++ [10]]) = some [⟨t, ⟨0, t.length⟩⟩] ∧
    (∀ l : List Nat, (∀ x ∈ l, not_newline x = true) → 1 ≤ l.length → l.length ≤ 4095 →
      read_pfb_line [l ++ [10]] =
        some [⟨if l.length ≤ 2048 then l else [], ⟨0, l.length⟩⟩]) := by
  constructor
  · unfold read_pfb_line
    rw [read_pfb_line_loop_append]
    unfold init_LineData
    rw [read_loop_overlong big [] 100 0 0 0 [] h4096 rfl (by decide), hbig]
    have hne : t ++ [10] ≠ [] := by simp
    have hz : (0 + 4096 * 16) % 65536 = 0 := by decide
    simp only [Option.some_bind, read_pfb_line_loop, hne, if_false, hz]
    rw [read_chunk_tail t _ ht rfl (by simp only; omega)]
    have hm : (0 + t.length) % 65536 = t.length := by
      rw [Nat.zero_add]
      exact Nat.mod_eq_of_lt (by omega)
    have hfit : ¬ (0 + t.length + 1 > MAX_ALLOC_LINE) := by
      unfold MAX_ALLOC_LINE MAX_ACCEPTABLE_LINE_LENGTH
      omega
    simp only [hm, hfit, if_false, ne_eq, not_true_eq_false, List.nil_append]
  · intro l hl h1 h2
    unfold read_pfb_line
    have hne : l ++ [10] ≠ [] := by simp
    simp only [read_pfb_line_loop, hne, if_false]
    unfold init_LineData
    rw [read_chunk_tail l _ hl rfl (by simp only; omega)]
    have hm : (0 + l.length) % 65536 = l.length := by
      rw [Nat.zero_add]
      exact Nat.mod_eq_of_lt (by omega)
    simp only [hm, ne_eq, not_true_eq_false, if_false, List.nil_append]
    by_cases h3 : l.length ≤ 2048
    · have hfit : ¬ (0 + l.length + 1 > MAX_ALLOC_LINE) := by
        unfold MAX_ALLOC_LINE MAX_ACCEPTABLE_LINE_LENGTH
        omega
      simp only [hfit, h3, if_false, if_true]
    · have hfit : 0 + l.length + 1 > MAX_ALLOC_LINE := by
        unfold MAX_ALLOC_LINE MAX_ACCEPTABLE_LINE_LENGTH
        omega
      simp only [hfit, h3, if_false, if_true]

/-- Witness of C29: the line of 65636 bytes `a` and its `'\n'`, in chunks of 4096 bytes;
the callback receives the last 100 bytes. -/
theorem overlong_line_wraps_witness :
    read_pfb_line (List.replicate 16 (List.replicate 4096 97) ++
        [List.replicate 100 97 ++ [10]]) =
      some [⟨List.replicate 100 97, ⟨0, 100⟩⟩] := by
  have h := (overlong_line_wraps (List.replicate 16 (List.replicate 4096 97))
    (List.replicate 100 97) (List.length_replicate _ _)
    (by
      intro c hc
      rw [List.eq_of_mem_replicate hc]
      refine ⟨List.length_replicate _ _, ?_⟩
      intro x hx
      rw [List.eq_of_mem_replicate hx]
      rfl)
    (by
      intro x hx
      rw [List.eq_of_mem_replicate hx]
      rfl)
    (by rw [List.length_replicate]; decide) (by rw [List.length_replicate]; decide)).1
  rw [List.length_replicate] at h
  exact h

/-! ## The visitor -/

/-- C31, evaluated on the code. After the insertions `notlong.com` (Full) and
`www.somedomain.com` (Weak) of `test_e2e_discovered` the subtree of `com` holds two
terminal nodes, and `visit_DomainTree` calls the visitor once only, for `notlong.com`:
for the entry `somedomain` the body recurses into the children of the first entry
`notlong` again, not into its own. With `a.b.com` and `x.com` the visitor is called
twice for `a.b.com`: once per entry of the table of `com`. -/
theorem visit_first_child_only :
    (insert_all [] scenario_discovered).map
        (fun c => (terminals [[99, 111, 109]] (tld_slot c [99, 111, 109])).map Prod.snd) =
      some [⟨0, MATCH_FULL, ⟨0, 11⟩⟩, ⟨0, MATCH_WEAK, ⟨12, 18⟩⟩] ∧
    (insert_all [] scenario_discovered).map
        (fun c => visit_DomainTree (tld_slot c [99, 111, 109])) =
      some [⟨0, MATCH_FULL, ⟨0, 11⟩⟩] ∧
    (insert_all [] scenario_two_siblings).map
        (fun c => (terminals [[99, 111, 109]] (tld_slot c [99, 111, 109])).map Prod.snd) =
      some [⟨0, MATCH_WEAK, ⟨0, 7⟩⟩, ⟨0, MATCH_WEAK, ⟨8, 5⟩⟩] ∧
    (insert_all [] scenario_two_siblings).map
        (fun c => visit_DomainTree (tld_slot c [99, 111, 109])) =
      some [⟨0, MATCH_WEAK, ⟨0, 7⟩⟩, ⟨0, MATCH_WEAK, ⟨0, 7⟩⟩, ⟨0, MATCH_WEAK, ⟨8, 5⟩⟩] := by
  decide

/-! ## `compare_dv` under a swap of its arguments -/

theorem compare_dv_nil_left (dv_A dv_B : DomainView_t) (h : dv_A.labels = []) :
    compare_dv dv_A dv_B = -1 := by
  unfold compare_dv
  rw [h]
  rfl

theorem compare_dv_nil_right (dv_A dv_B : DomainView_t) (h : dv_B.labels = []) :
    compare_dv dv_A dv_B = -1 := by
  unfold compare_dv
  rw [h]
  cases dv_A.labels <;> rfl

/-- C37. The function `compare_dv` is consistent under swapping its arguments: for all
views A and B, `compare_dv(A,B)` is `A≡B` iff `compare_dv(B,A)` is `A≡B`, it is `A<B`
iff `compare_dv(B,A)` is `A>B` (and `A>B` iff the swap is `A<B`), and it is `A blk B`
iff `compare_dv(B,A)` is `B blk A` (and conversely); and for every view A with at
least one label, `compare_dv(A,A)` is `A≡B`. -/
theorem compare_dv_swap (dv_A dv_B : DomainView_t) :
    (compare_dv dv_A dv_B = dv_A_eq_dv_B ↔ compare_dv dv_B dv_A = dv_A_eq_dv_B) ∧
    (compare_dv dv_A dv_B = dv_A_lt_dv_B_write_A ↔
      compare_dv dv_B dv_A = dv_A_gt_dv_B_write_B) ∧
    (compare_dv dv_A dv_B = dv_A_gt_dv_B_write_B ↔
      compare_dv dv_B dv_A = dv_A_lt_dv_B_write_A) ∧
    (compare_dv dv_A dv_B = dv_A_blk_dv_B ↔ compare_dv dv_B dv_A = dv_B_blk_dv_A) ∧
    (compare_dv dv_A dv_B = dv_B_blk_dv_A ↔ compare_dv dv_B dv_A = dv_A_blk_dv_B) ∧
    (dv_A.labels ≠ [] → compare_dv dv_A dv_A = dv_A_eq_dv_B) := by
  have hcodes : dv_A_lt_dv_B_write_A = 7 ∧ dv_A_gt_dv_B_write_B = 8 ∧ dv_A_eq_dv_B = 0 ∧
      dv_A_blk_dv_B = 1 ∧ dv_B_blk_dv_A = 2 := ⟨rfl, rfl, rfl, rfl, rfl⟩
  obtain ⟨e7, e8, e0, e1, e2⟩ := hcodes
  have hrefl : dv_A.labels ≠ [] → compare_dv dv_A dv_A = dv_A_eq_dv_B :=
    fun h => (compare_dv_cases dv_A dv_A h h).2.2.1.2 rfl
  by_cases hA : dv_A.labels = []
  · rw [compare_dv_nil_left dv_A dv_B hA, compare_dv_nil_right dv_B dv_A hA, e0, e1, e2, e7, e8]
    exact ⟨by decide, by decide, by decide, by decide, by decide, fun h => absurd hA h⟩
  by_cases hB : dv_B.labels = []
  · rw [compare_dv_nil_right dv_A dv_B hB, compare_dv_nil_left dv_B dv_A hB, e0, e1, e2, e7, e8]
    exact ⟨by decide, by decide, by decide, by decide, by decide, hrefl⟩
  obtain ⟨a1, a2, a3, a4, a5⟩ := compare_dv_cases dv_A dv_B hA hB
  obtain ⟨b1, b2, b3, b4, b5⟩ := compare_dv_cases dv_B dv_A hB hA
  refine ⟨?_, a1.trans b2.symm, a2.trans b1.symm, a4.trans b5.symm, a5.trans b4.symm, hrefl⟩
  rw [a3, b3]
  exact eq_comm

/-! ## Consolidation reaches every TLD entry; every leaf is terminal -/

theorem consolidate_loop_full : ∀ l : List TLD_entry_impl_t, (∀ e ∈ l, e.child ≠ nil) →
    consolidate_loop l = (l.map fun e => transfer_DomainInfo e.child).flatten := by
  intro l
  induction l with
  | nil => intro _; rfl
  | cons e rest ih =>
    intro h
    simp only [consolidate_loop, List.map_cons, List.flatten_cons]
    rw [if_neg (h e (by simp)), ih (fun e1 h1 => h e1 (by simp [h1]))]

/-- C34. Consolidation reaches every TLD: for every list of views with at least two
labels each (any strengths), the insertions succeed and in the resulting index every
TLD entry has a non-empty subtree slot; so the loop of `pfb_consolidate`, which stops
at the first entry with an empty slot, runs over all entries: when the index has an
entry, `pfb_consolidate` hands over the infos of `transfer_DomainInfo` of every TLD
entry, in the sorted order of the entries, and these are the rules of all terminal
nodes of the index, each once. -/
theorem consolidate_reaches_every_tld (rs : List DomainView_t)
    (h2 : ∀ r ∈ rs, 2 ≤ r.labels.length) :
    ∃ c, insert_all [] rs = some c ∧
      (∀ e ∈ c, e.child ≠ nil) ∧
      (∀ e ∈ hash_context_sort_entries c, e.child ≠ nil) ∧
      consolidate_loop (hash_context_sort_entries c) =
        ((hash_context_sort_entries c).map fun e => transfer_DomainInfo e.child).flatten ∧
      (c ≠ [] → pfb_consolidate c =
        some ((hash_context_sort_entries c).map fun e => transfer_DomainInfo e.child).flatten) ∧
      (hash_context_sort_entries c).Perm c ∧
      (consolidate_dom c).Perm (ctx_terminals c) ∧
      consolidate_emitted c = (consolidate_dom c).map Prod.snd := by
  obtain ⟨c, hc, _, _, hnn, _, _⟩ := dedup_members rs h2
  have hs : ∀ e ∈ hash_context_sort_entries c, e.child ≠ nil := by
    intro e he
    unfold hash_context_sort_entries at he
    rw [List.mem_insertionSort] at he
    exact hnn e he
  have hfull := consolidate_loop_full (hash_context_sort_entries c) hs
  refine ⟨c, hc, hnn, hs, hfull, ?_, List.perm_insertionSort _ _,
    consolidate_dom_perm c hnn, consolidate_emitted_eq c⟩
  intro hne
  unfold pfb_consolidate
  cases hsort : hash_context_sort_entries c with
  | nil =>
    exfalso
    have := List.length_insertionSort tld_entry_le c
    unfold hash_context_sort_entries at hsort
    rw [hsort] at this
    exact hne (List.length_eq_zero.1 this.symm)
  | cons e rest =>
    simp only
    rw [← hsort, hfull]

/-- Witness of C34: scenario C of the specification, with the TLD entries `com` and
`net`. -/
theorem consolidate_reaches_every_tld_witness :
    (∃ c, insert_all []
        [⟨[[99, 111, 109], [122]], MATCH_FULL, 0, ⟨0, 9⟩⟩,
         ⟨[[110, 101, 116], [97]], MATCH_FULL, 0, ⟨10, 9⟩⟩,
         ⟨[[99, 111, 109], [97]], MATCH_FULL, 0, ⟨20, 9⟩⟩] = some c ∧
      (∀ e ∈ c, e.child ≠ nil)) ∧
    (insert_all []
        [⟨[[99, 111, 109], [122]], MATCH_FULL, 0, ⟨0, 9⟩⟩,
         ⟨[[110, 101, 116], [97]], MATCH_FULL, 0, ⟨10, 9⟩⟩,
         ⟨[[99, 111, 109], [97]], MATCH_FULL, 0, ⟨20, 9⟩⟩]).bind pfb_consolidate =
      some [⟨0, MATCH_FULL, ⟨20, 9⟩⟩, ⟨0, MATCH_FULL, ⟨0, 9⟩⟩, ⟨0, MATCH_FULL, ⟨10, 9⟩⟩] :=
  ⟨(consolidate_reaches_every_tld
      [⟨[[99, 111, 109], [122]], MATCH_FULL, 0, ⟨0, 9⟩⟩,
       ⟨[[110, 101, 116], [97]], MATCH_FULL, 0, ⟨10, 9⟩⟩,
       ⟨[[99, 111, 109], [97]], MATCH_FULL, 0, ⟨20, 9⟩⟩] (by decide)).imp
      (fun _ h => ⟨h.1, h.2.1⟩),
    by decide⟩

/-- A table built by `ctor_DomainTree` holds the info of the view at the node of its
last label, the entry `find_leaf_Domain` then returns. -/
theorem node_at_ctor (dv : DomainView_t) : ∀ (it : List Label) (dt : DomainTree_t) (l : Label),
    HASH_FIND dt l = none →
    node_at (l :: it) (ctor_DomainTree dv dt l it) = some (some (convert_DomainInfo dv), nil) := by
  intro it
  induction it with
  | nil =>
    intro dt l h
    simp only [ctor_DomainTree, node_at]
    rw [HASH_FIND_HASH_ADD]
    simp [h]
  | cons l2 it ih =>
    intro dt l h
    simp only [ctor_DomainTree, node_at]
    rw [HASH_FIND_HASH_ADD]
    simp only [h, if_true]
    exact ih nil l2 rfl

/-- C35. Every leaf is terminal: for every list of views with at least two labels each
(any strengths), the insertions succeed and in the resulting index every node without
children carries an info, whose strength is above `MATCH_NOTSET` (it is the strength
of an accepted view, so neither `MATCH_NOTSET` nor `MATCH_BOGUS`): at every entry that
`find_leaf_Domain` finds to be a leaf, `entry->di` is not null and its strength is
above `MATCH_NOTSET`. The entry that `ctor_DomainTree` returns carries the info of the
incoming view. -/
theorem every_leaf_terminal (rs : List DomainView_t) (h2 : ∀ r ∈ rs, 2 ≤ r.labels.length) :
    ∃ c, insert_all [] rs = some c ∧
      (∀ p di child, ctx_node_at c p = some (di, child) → leaf_DomainTree child = true →
        ∃ i, di = some i ∧ MATCH_NOTSET.rank < i.match_strength.rank ∧
          i.match_strength ≠ MATCH_NOTSET ∧ i.match_strength ≠ MATCH_BOGUS) ∧
      (∀ e ∈ c, WellFormed e.child) ∧
      (∀ (dv : DomainView_t) (dt : DomainTree_t) (l : Label) (it : List Label),
        HASH_FIND dt l = none →
        node_at (l :: it) (ctor_DomainTree dv dt l it) =
          some (some (convert_DomainInfo dv), nil)) := by
  have hne : ∀ r ∈ rs, r.labels ≠ [] := by
    intro r hr e
    have := h2 r hr
    rw [e] at this
    simp at this
  obtain ⟨c, hc, hok, hcov, _⟩ := insert_all_spec rs hne
  refine ⟨c, hc, ?_, fun e he => (hok.2 e he).1,
    fun dv dt l it h => node_at_ctor dv it dt l h⟩
  intro p di child hp hleaf
  have hnil : child = nil := (leaf_iff child).1 hleaf
  cases p with
  | nil => cases hp
  | cons tld it =>
    have hw := (CtxOK_slot c hok tld).1
    have h1 := (WellFormed_node_at it _ hw _ hp).1 hnil
    cases di with
    | none => exact absurd rfl h1
    | some i =>
      refine ⟨i, rfl, ?_⟩
      have ht : ctx_term_at c (tld :: it) = some i := by
        simp only [ctx_term_at, ctx_node_at] at hp ⊢
        rw [term_at_eq_node_at, hp]
        rfl
      obtain ⟨_, r, _, hacc, _, hconv⟩ := hcov.1 _ _ ht
      have hs : i.match_strength = r.match_strength := by rw [hconv]; rfl
      rw [hs]
      obtain ⟨ha1, ha2⟩ := hacc
      refine ⟨?_, ha1, ha2⟩
      revert ha1 ha2
      cases r.match_strength <;> decide

/-- Witness of C35: scenario A. -/
theorem every_leaf_terminal_witness :
    ∃ c, insert_all [] scenario_A = some c ∧
      ∀ p di child, ctx_node_at c p = some (di, child) → leaf_DomainTree child = true →
        ∃ i, di = some i ∧ MATCH_NOTSET.rank < i.match_strength.rank ∧
          i.match_strength ≠ MATCH_NOTSET ∧ i.match_strength ≠ MATCH_BOGUS :=
  (every_leaf_terminal scenario_A (by decide)).imp fun _ h => ⟨h.1, h.2.1⟩

/-! ## The headroom of the line index -/

theorem write_BUFFER_litelines (p : List Nat) (c c1 : pfb_out_buffer_t)
    (h : pfb_out_context_write_BUFFER p c = some c1) :
    (c1.litelines.alloc, c1.litelines.used) =
      litelines_step (c.litelines.alloc, c.litelines.used) := by
  unfold pfb_out_context_write_BUFFER at h
  simp only at h
  have hr : ∀ l : LiteLineData_t,
      (realloc_litelines ⟨l.alloc, l.used, []⟩).alloc = (realloc_litelines l).alloc ∧
      (realloc_litelines l).used = l.used := by
    intro l
    unfold realloc_litelines
    simp only
    split_ifs <;> exact ⟨rfl, rfl⟩
  split_ifs at h with h1 h2
  all_goals
    simp only [Option.some.injEq] at h
    rw [← h]
    simp only [litelines_step, (hr c.litelines).1, (hr c.litelines).2]

theorem write_all_BUFFER_litelines : ∀ (ps : List (List Nat)) (c c1 : pfb_out_buffer_t),
    write_all_BUFFER ps c = some c1 →
    (c1.litelines.alloc, c1.litelines.used) =
      Nat.iterate litelines_step ps.length (c.litelines.alloc, c.litelines.used) := by
  intro ps
  induction ps with
  | nil =>
    intro c c1 h
    simp only [write_all_BUFFER, Option.some.injEq] at h
    rw [h]
    rfl
  | cons p ps ih =>
    intro c c1 h
    simp only [write_all_BUFFER] at h
    cases hw : pfb_out_context_write_BUFFER p c with
    | none => rw [hw] at h; cases h
    | some c2 =>
      rw [hw] at h
      simp only at h
      rw [ih c2 c1 h, write_BUFFER_litelines p c c2 hw]
      rfl

/-- C36, evaluated on the code. From the empty buffer sink of `main` (line index with
`alloc` 0 and `used` 0) the writes of ten rules (payloads of at most 2048 bytes)
succeed and leave the line index with `used = 10` and `alloc = 10`:
`realloc_litelines` grows the index only before a write that finds it full, so
`used < alloc`, which `main` asserts after sorting, does not hold. For any number of
such writes `0 < alloc`, `used ≤ alloc` and `used` is the number of writes. -/
theorem litelines_headroom (ps : List (List Nat)) (hlen : ∀ p ∈ ps, p.length ≤ 2048)
    (hn : ps.length < 2147483648) :
    ∃ c, write_all_BUFFER ps out_buffer_init = some c ∧
      c.litelines.used = ps.length ∧ c.litelines.used ≤ c.litelines.alloc ∧
      (1 ≤ ps.length → 0 < c.litelines.alloc ∧ 0 < c.litelines.used) ∧
      (ps.length = 10 → c.litelines.used = 10 ∧ c.litelines.alloc = 10 ∧
        ¬ c.litelines.used < c.litelines.alloc) ∧
      (1 ≤ ps.length → ps.length ≤ 9 → c.litelines.used < c.litelines.alloc) := by
  have hinit : buffer_inv out_buffer_init := by
    unfold buffer_inv out_buffer_init
    simp
  obtain ⟨c, hw, hinv, _, _, hu⟩ :=
    write_all_BUFFER_spec ps out_buffer_init hinit hlen (by simpa [out_buffer_init] using hn)
  have hu1 : c.litelines.used = ps.length := by
    rw [hu]
    simp [out_buffer_init]
  have hit := write_all_BUFFER_litelines ps out_buffer_init c hw
  have hle : c.litelines.used ≤ c.litelines.alloc := hinv.2.2.2.2.2.2.2.1
  refine ⟨c, hw, hu1, hle, ?_, ?_, ?_⟩
  · intro h1
    omega
  · intro h10
    rw [h10] at hit
    have h2 : Nat.iterate litelines_step 10 (out_buffer_init.litelines.alloc,
        out_buffer_init.litelines.used) = (10, 10) := by decide
    rw [h2] at hit
    have ha : c.litelines.alloc = 10 := congrArg Prod.fst hit
    have hb : c.litelines.used = 10 := congrArg Prod.snd hit
    rw [ha, hb]
    exact ⟨rfl, rfl, by decide⟩
  · intro h1 h9
    have hk : ∀ k, 1 ≤ k → k ≤ 9 → (Nat.iterate litelines_step k
        (out_buffer_init.litelines.alloc, out_buffer_init.litelines.used)).1 = 10 := by
      decide
    have ha : c.litelines.alloc = 10 := by
      have := congrArg Prod.fst hit
      simp only at this
      rw [this]
      exact hk ps.length h1 h9
    omega

/-- Witness of C36: ten rules `||a.com^`. -/
theorem litelines_headroom_witness :
    (write_all_BUFFER (List.replicate 10 [124, 124, 97, 46, 99, 111, 109, 94])
        out_buffer_init).map (fun c => (c.litelines.alloc, c.litelines.used)) =
      some (10, 10) ∧
    ∃ c, write_all_BUFFER (List.replicate 10 [124, 124, 97, 46, 99, 111, 109, 94])
        out_buffer_init = some c ∧ c.litelines.used = 10 ∧ c.litelines.alloc = 10 ∧
      ¬ c.litelines.used < c.litelines.alloc :=
  ⟨by decide,
    (litelines_headroom (List.replicate 10 [124, 124, 97, 46, 99, 111, 109, 94])
      (by decide) (by decide)).imp fun _ h => ⟨h.1, h.2.2.2.2.1 (by decide)⟩⟩

/-! ## The postcondition of `load_LineData` -/

theorem load_LineData_split (line rest : List Nat) (ld : LineData_t)
    (hline : ∀ x ∈ line, not_newline x = true)
    (hrest : rest = [] ∨ ∃ c r, rest = c :: r ∧ (c = 10 ∨ c = 13)) :
    load_LineData (line ++ rest) ld =
      (decide (ld.li.line_len + line.length ≠ 0) && decide (rest ≠ []), rest,
        if ld.li.line_len + line.length + 1 > MAX_ALLOC_LINE then
          { ld with data := []
                    li := { ld.li with
                      line_len := (ld.li.line_len + line.length) % 65536 } }
        else
          { data := ld.data ++ line
            alloc := if ld.li.line_len + line.length + 1 > ld.alloc then
              ld.li.line_len + line.length + 1 else ld.alloc
            li := { ld.li with line_len := (ld.li.line_len + line.length) % 65536 } }) := by
  have h1 := takeWhile_all not_newline line rest hline
  have h2 : List.takeWhile not_newline rest = [] ∧ List.dropWhile not_newline rest = rest := by
    rcases hrest with h | ⟨c, r, h, hc⟩
    · rw [h]
      exact ⟨rfl, rfl⟩
    · have hc1 : not_newline c = false := by
        rcases hc with hc | hc <;> rw [hc] <;> rfl
      rw [h]
      simp [List.takeWhile_cons, List.dropWhile_cons, hc1]
  rw [h2.1, h2.2, List.append_nil] at h1
  unfold load_LineData
  simp only [h1.1, h1.2]
  split_ifs <;> rfl

/-- C32. Postcondition of `load_LineData`: for every span, written as the bytes `line`
before its first `'\n'` or `'\r'` and the rest from that byte on (empty when the span
holds none), and every pending line state with `line_len + |line|` within the limit
of 2048 bytes: `pos_buffer` is left at the rest (at `end_buffer` when it is empty),
`line_len` grows by `|line|`, exactly the bytes of `line` are appended to the pending
line, and the result is true iff the rest is not empty and the new `line_len` is not
zero. In particular a span that begins with a newline byte while nothing is pending
gives false, `line_len` 0 and `pos_buffer` at the start of the span; and a line split
over two spans is held as the concatenation of its parts when its newline is met. -/
theorem load_LineData_post (line rest : List Nat) (ld : LineData_t)
    (hline : ∀ x ∈ line, not_newline x = true)
    (hrest : rest = [] ∨ ∃ c r, rest = c :: r ∧ (c = 10 ∨ c = 13))
    (hlim : ld.li.line_len + line.length ≤ MAX_ACCEPTABLE_LINE_LENGTH) :
    (load_LineData (line ++ rest) ld).2.1 = rest ∧
    (load_LineData (line ++ rest) ld).2.2.li.line_len = ld.li.line_len + line.length ∧
    (load_LineData (line ++ rest) ld).2.2.li.offset = ld.li.offset ∧
    (load_LineData (line ++ rest) ld).2.2.data = ld.data ++ line ∧
    ((load_LineData (line ++ rest) ld).1 = true ↔
      rest ≠ [] ∧ (load_LineData (line ++ rest) ld).2.2.li.line_len ≠ 0) ∧
    (line = [] → ld.li.line_len = 0 → rest ≠ [] →
      (load_LineData (line ++ rest) ld).1 = false ∧
      (load_LineData (line ++ rest) ld).2.2.li.line_len = 0 ∧
      (load_LineData (line ++ rest) ld).2.1 = line ++ rest) ∧
    (∀ line2 rest2 : List Nat, rest = [] → (∀ x ∈ line2, not_newline x = true) →
      (∃ c r, rest2 = c :: r ∧ (c = 10 ∨ c = 13)) →
      ld.li.line_len + line.length + line2.length ≤ MAX_ACCEPTABLE_LINE_LENGTH →
      ld.li.line_len + line.length + line2.length ≠ 0 →
      (load_LineData (line2 ++ rest2) (load_LineData (line ++ rest) ld).2.2).1 = true ∧
      (load_LineData (line2 ++ rest2) (load_LineData (line ++ rest) ld).2.2).2.1 = rest2 ∧
      (load_LineData (line2 ++ rest2) (load_LineData (line ++ rest) ld).2.2).2.2.data =
        ld.data ++ line ++ line2 ∧
      (load_LineData (line2 ++ rest2) (load_LineData (line ++ rest) ld).2.2).2.2.li.line_len =
        ld.li.line_len + line.length + line2.length) := by
  have hfit : ¬ (ld.li.line_len + line.length + 1 > MAX_ALLOC_LINE) := by
    unfold MAX_ALLOC_LINE
    omega
  have hmod : (ld.li.line_len + line.length) % 65536 = ld.li.line_len + line.length := by
    apply Nat.mod_eq_of_lt
    unfold MAX_ACCEPTABLE_LINE_LENGTH at hlim
    omega
  have hload := load_LineData_split line rest ld hline hrest
  simp only [hfit, if_false, hmod] at hload
  rw [hload]
  refine ⟨rfl, rfl, rfl, rfl, ?_, ?_, ?_⟩
  · simp only [Bool.and_eq_true, decide_eq_true_eq]
    exact ⟨fun h => ⟨h.2, h.1⟩, fun h => ⟨h.2, h.1⟩⟩
  · intro h1 h2 h3
    simp only [h1, h2, List.length_nil, List.nil_append]
    exact ⟨by simp, trivial, trivial⟩
  · intro line2 rest2 hr hline2 hrest2 hlim2 hnz
    have hfit2 : ¬ (ld.li.line_len + line.length + line2.length + 1 > MAX_ALLOC_LINE) := by
      unfold MAX_ALLOC_LINE
      omega
    have hmod2 : (ld.li.line_len + line.length + line2.length) % 65536 =
        ld.li.line_len + line.length + line2.length := by
      apply Nat.mod_eq_of_lt
      unfold MAX_ACCEPTABLE_LINE_LENGTH at hlim2
      omega
    have hne2 : rest2 ≠ [] := by
      obtain ⟨c, r, h, _⟩ := hrest2
      rw [h]
      simp
    rw [load_LineData_split line2 rest2 _ hline2 (Or.inr hrest2)]
    simp only [hfit2, if_false, hmod2, hnz, hne2, ne_eq, not_false_eq_true, decide_True,
      Bool.and_self, and_self]

/-- Witness of C32: the two spans `"ab"` and `"cd\nxy"` with nothing pending. -/
theorem load_LineData_post_witness :
    load_LineData [97, 98] init_LineData =
      (false, [], { data := [97, 98], alloc := 100, li := ⟨0, 2⟩ }) ∧
    load_LineData [99, 100, 10, 120, 121] (load_LineData [97, 98] init_LineData).2.2 =
      (true, [10, 120, 121], { data := [97, 98, 99, 100], alloc := 100, li := ⟨0, 4⟩ }) ∧
    load_LineData [10] init_LineData = (false, [10], init_LineData) ∧
    (load_LineData ([97, 98] ++ []) init_LineData).2.2.data = init_LineData.data ++ [97, 98] :=
  ⟨by decide, by decide, by decide,
    (load_LineData_post [97, 98] [] init_LineData (by decide) (Or.inl rfl)
      (by decide)).2.2.2.1⟩

/-! ## The classes of the diff -/

/-- A line of the diff tells its rule, its code and, unless the code is NEUTRAL, its
side. -/
theorem core_write_DV_inj (r r2 : List Nat) (code code2 marker marker2 : Nat)
    (hc : code = NEUTRAL ∨ code = WINNER ∨ code = LOSER)
    (hc2 : code2 = NEUTRAL ∨ code2 = WINNER ∨ code2 = LOSER)
    (hm : marker = 97 ∨ marker = 98) (hm2 : marker2 = 97 ∨ marker2 = 98)
    (h : core_write_DV r code marker = core_write_DV r2 code2 marker2) :
    r = r2 ∧ code = code2 ∧ (code = NEUTRAL ∨ marker = marker2) := by
  rcases hc with hc | hc | hc <;> rcases hc2 with hc2 | hc2 | hc2 <;>
    rcases hm with hm | hm <;> rcases hm2 with hm2 | hm2 <;>
    subst hc <;> subst hc2 <;> subst hm <;> subst hm2 <;>
    simp [core_write_DV, NEUTRAL, WINNER, LOSER] at h ⊢ <;> exact h

theorem diff_class_B_not_neutral (pol : List Nat → DomainView_t) (b : List Nat)
    (ra : List (List Nat)) : diff_class_B pol b ra ≠ some NEUTRAL := by
  unfold diff_class_B
  split_ifs <;> simp [NEUTRAL, WINNER, LOSER]

/-- The lines under marker `a` in an output that holds the lines of `diff_lines_A` and
`diff_lines_B`. -/
theorem diff_line_A_mem (pol : List Nat → DomainView_t) (A B out : List (List Nat))
    (hperm : out.Perm (diff_lines_A pol A B ++ diff_lines_B pol A B))
    (a : List Nat) (ha : a ∈ A) (code : Nat)
    (hc : code = NEUTRAL ∨ code = WINNER ∨ code = LOSER) :
    core_write_DV a code 97 ∈ out ↔ diff_class_A pol a B = code := by
  rw [hperm.mem_iff, List.mem_append, mem_diff_lines_A, mem_diff_lines_B]
  constructor
  · rintro (⟨a2, _, e⟩ | ⟨b, _, code2, hc2, e⟩)
    · obtain ⟨e1, e2, _⟩ := core_write_DV_inj a a2 code _ 97 97 hc
        (diff_class_A_range pol a2 B) (Or.inl rfl) (Or.inl rfl) e
      rw [e1, e2]
    · obtain ⟨_, e2, e3⟩ := core_write_DV_inj a b code code2 97 98 hc
        (diff_class_B_range pol b A code2 hc2) (Or.inl rfl) (Or.inr rfl) e
      rcases e3 with e3 | e3
      · rw [← e2, e3] at hc2
        exact absurd hc2 (diff_class_B_not_neutral pol b A)
      · exact absurd e3 (by decide)
  · intro h
    left
    exact ⟨a, ha, by rw [h]⟩

/-- The lines under marker `b`, for the codes WINNER and LOSER. -/
theorem diff_line_B_mem (pol : List Nat → DomainView_t) (A B out : List (List Nat))
    (hperm : out.Perm (diff_lines_A pol A B ++ diff_lines_B pol A B))
    (b : List Nat) (hb : b ∈ B) (code : Nat) (hc : code = WINNER ∨ code = LOSER) :
    core_write_DV b code 98 ∈ out ↔ diff_class_B pol b A = some code := by
  have hc3 : code = NEUTRAL ∨ code = WINNER ∨ code = LOSER := Or.inr hc
  have hnn : code ≠ NEUTRAL := by
    rcases hc with h | h <;> rw [h] <;> decide
  rw [hperm.mem_iff, List.mem_append, mem_diff_lines_A, mem_diff_lines_B]
  constructor
  · rintro (⟨a2, _, e⟩ | ⟨b2, _, code2, hc2, e⟩)
    · obtain ⟨_, _, e3⟩ := core_write_DV_inj b a2 code _ 98 97 hc3
        (diff_class_A_range pol a2 B) (Or.inr rfl) (Or.inl rfl) e
      rcases e3 with e3 | e3
      · exact absurd e3 hnn
      · exact absurd e3 (by decide)
    · obtain ⟨e1, e2, _⟩ := core_write_DV_inj b b2 code code2 98 98 hc3
        (diff_class_B_range pol b2 A code2 hc2) (Or.inr rfl) (Or.inr rfl) e
      rw [e1, e2]
      exact hc2
  · intro h
    right
    exact ⟨b, hb, code, h, rfl⟩

/-- C33. Diff classification: for non-empty inputs A and B whose lines have a view with
at least one label, each strictly increasing at the first differing label (sorted, no
rule dominating another on its side), with fuel for one iteration of the merge loop
per entry, the diff returns an output in which a rule of A is on the NEUTRAL line iff
a rule of B has the identical domain, on the loser line `-a` iff the domain of a rule
of B is a proper prefix of its labels (TLD first: a proper label-boundary suffix of
its name), and on the winner line `+a` iff neither holds; and a rule of B is on no
line under marker `b` iff a rule of A has the identical domain, whose NEUTRAL line
then stands for both, on the loser line `-b` iff the domain of a rule of A is a
proper prefix of its labels, and on the winner line ` b` iff neither holds. -/
theorem diff_classification (pol : List Nat → DomainView_t) (fuel : Nat)
    (A B : List (List Nat)) (hA : A ≠ []) (hB : B ≠ [])
    (hnA : ∀ x ∈ A, (pol x).labels ≠ []) (hnB : ∀ x ∈ B, (pol x).labels ≠ [])
    (hsA : A.Pairwise (fun x y => lex_lt (pol x).labels (pol y).labels))
    (hsB : B.Pairwise (fun x y => lex_lt (pol x).labels (pol y).labels))
    (hfuel : A.length + B.length ≤ fuel) :
    ∃ out, diff_adbplus_adlists_BUFFER pol fuel A B = some out ∧
      (∀ a ∈ A,
        (core_write_DV a NEUTRAL 97 ∈ out ↔ ∃ b ∈ B, (pol b).labels = (pol a).labels) ∧
        (core_write_DV a LOSER 97 ∈ out ↔
          ∃ b ∈ B, (pol b).labels <+: (pol a).labels ∧ (pol b).labels ≠ (pol a).labels) ∧
        (core_write_DV a WINNER 97 ∈ out ↔
          ¬ ∃ b ∈ B, (pol b).labels <+: (pol a).labels)) ∧
      (∀ b ∈ B,
        ((core_write_DV b WINNER 98 ∉ out ∧ core_write_DV b LOSER 98 ∉ out) ↔
          ∃ a ∈ A, (pol a).labels = (pol b).labels) ∧
        (∀ a ∈ A, (pol a).labels = (pol b).labels → core_write_DV a NEUTRAL 97 ∈ out) ∧
        (core_write_DV b LOSER 98 ∈ out ↔
          ∃ a ∈ A, (pol a).labels <+: (pol b).labels ∧ (pol a).labels ≠ (pol b).labels) ∧
        (core_write_DV b WINNER 98 ∈ out ↔
          ¬ ∃ a ∈ A, (pol a).labels <+: (pol b).labels)) := by
  obtain ⟨out, hout, hperm⟩ := diff_buffer_spec pol fuel A B hA hB hnA hnB hsA hsB hfuel
  refine ⟨out, hout, ?_, ?_⟩
  · intro a ha
    obtain ⟨c1, c2, c3⟩ := diff_class_A_iff pol a B (hnA a ha) hnB hsB
    exact ⟨(diff_line_A_mem pol A B out hperm a ha NEUTRAL (Or.inl rfl)).trans c1,
      (diff_line_A_mem pol A B out hperm a ha LOSER (Or.inr (Or.inr rfl))).trans c3,
      (diff_line_A_mem pol A B out hperm a ha WINNER (Or.inr (Or.inl rfl))).trans c2⟩
  · intro b hb
    obtain ⟨c1, c2, c3⟩ := diff_class_B_iff pol b A (hnB b hb) hnA hsA
    have hw := diff_line_B_mem pol A B out hperm b hb WINNER (Or.inl rfl)
    have hl := diff_line_B_mem pol A B out hperm b hb LOSER (Or.inr rfl)
    refine ⟨?_, ?_, hl.trans c3, hw.trans c2⟩
    · rw [← c1, hw, hl]
      constructor
      · rintro ⟨h1, h2⟩
        cases hcl : diff_class_B pol b A with
        | none => rfl
        | some code =>
          have := diff_class_B_range pol b A code hcl
          rcases this with h | h | h
          · rw [h] at hcl
            exact absurd hcl (diff_class_B_not_neutral pol b A)
          · rw [h] at hcl
            exact absurd hcl h1
          · rw [h] at hcl
            exact absurd hcl h2
      · intro h
        rw [h]
        exact ⟨by simp, by simp⟩
    · intro a ha hab
      obtain ⟨d1, _, _⟩ := diff_class_A_iff pol a B (hnA a ha) hnB hsB
      exact (diff_line_A_mem pol A B out hperm a ha NEUTRAL (Or.inl rfl)).2
        (d1.2 ⟨b, hb, hab.symm⟩)

/-- Witness of C33: scenario E of the specification. -/
theorem diff_classification_witness :
    diff_adbplus_adlists_BUFFER clean_line_view 4 scenario_E_A scenario_E_B =
      some [[43, 97, 124, 124, 97, 108, 112, 104, 97, 46, 99, 111, 109, 94, 10],
        [32, 98, 124, 124, 98, 101, 116, 97, 46, 99, 111, 109, 94, 10],
        [32, 32, 124, 124, 103, 97, 109, 109, 97, 46, 99, 111, 109, 94, 10]] ∧
    ∃ out, diff_adbplus_adlists_BUFFER clean_line_view 4 scenario_E_A scenario_E_B =
      some out :=
  ⟨by decide,
    (diff_classification clean_line_view 4 scenario_E_A scenario_E_B (by decide) (by decide)
      (by decide) (by decide)
      (by
        unfold scenario_E_A
        simp only [List.pairwise_cons, List.mem_singleton, List.not_mem_nil, forall_eq,
          List.Pairwise.nil, and_true, false_implies, implies_true]
        exact (compare_dv_lt_iff _ _).1 (by decide))
      (by
        unfold scenario_E_B
        simp only [List.pairwise_cons, List.mem_singleton, List.not_mem_nil, forall_eq,
          List.Pairwise.nil, and_true, false_implies, implies_true]
        exact (compare_dv_lt_iff _ _).1 (by decide))
      (by decide)).imp fun _ h => h.1⟩

/-! ## Termination of the diff merge -/

/-- One step of the merge loop on views with labels: one iterator or both move on by one
entry. -/
theorem diff_step_advances (pol : List Nat → DomainView_t) (a : List Nat)
    (ra : List (List Nat)) (wa : Bool) (b : List Nat) (rb : List (List Nat)) (wb : Bool)
    (out : List (List Nat)) (ha : (pol a).labels ≠ []) (hb : (pol b).labels ≠ []) :
    ∃ ra1 wa1 rb1 wb1 out1,
      action_dv (compare_dv (pol a) (pol b)) write_DV_BUFFER_iter advance_DV_BUFFER_iter
          false true (diff_mk (a :: ra) wa (b :: rb) wb out) =
        diff_mk ra1 wa1 rb1 wb1 out1 ∧
      ((ra1 = ra ∧ rb1 = rb) ∨ (ra1 = ra ∧ rb1 = b :: rb) ∨ (ra1 = a :: ra ∧ rb1 = rb)) := by
  have hcodes : dv_A_lt_dv_B_write_A = 7 ∧ dv_A_gt_dv_B_write_B = 8 ∧ dv_A_eq_dv_B = 0 ∧
      dv_A_blk_dv_B = 1 ∧ dv_B_blk_dv_A = 2 := ⟨rfl, rfl, rfl, rfl, rfl⟩
  obtain ⟨e7, e8, e0, e1, e2⟩ := hcodes
  rw [action_dv_step]
  rcases compare_dv_range (pol a) (pol b) ha hb with h | h | h | h | h
  · rw [h, if_pos rfl]
    exact ⟨_, _, _, _, _, rfl, Or.inl ⟨rfl, rfl⟩⟩
  · rw [h, if_neg (by rw [e7, e0]; decide), if_pos rfl]
    exact ⟨_, _, _, _, _, rfl, Or.inr (Or.inl ⟨rfl, rfl⟩)⟩
  · rw [h, if_neg (by rw [e8, e0]; decide), if_neg (by rw [e8, e7]; decide), if_pos rfl]
    exact ⟨_, _, _, _, _, rfl, Or.inr (Or.inr ⟨rfl, rfl⟩)⟩
  · rw [h, if_neg (by rw [e1, e0]; decide), if_neg (by rw [e1, e7]; decide),
      if_neg (by rw [e1, e8]; decide), if_pos rfl]
    exact ⟨_, _, _, _, _, rfl, Or.inr (Or.inr ⟨rfl, rfl⟩)⟩
  · rw [h, if_neg (by rw [e2, e0]; decide), if_neg (by rw [e2, e7]; decide),
      if_neg (by rw [e2, e8]; decide), if_neg (by rw [e2, e1]; decide), if_pos rfl]
    exact ⟨_, _, _, _, _, rfl, Or.inr (Or.inl ⟨rfl, rfl⟩)⟩

theorem diff_rest_mk (pol : List Nat → DomainView_t) (m : Nat) (ra : List (List Nat))
    (wa : Bool) (rb : List (List Nat)) (wb : Bool) (out : List (List Nat)) :
    diff_rest pol m (diff_mk ra wa rb wb out) =
      if ra ≠ [] ∧ rb ≠ [] then diff_loop pol m (diff_mk ra wa rb wb out)
      else some (diff_mk ra wa rb wb out) := rfl

/-- The merge loop on entries whose views have labels stops within one iteration less
than there are entries, with one side exhausted, and more fuel changes nothing. -/
theorem diff_loop_terminates (pol : List Nat → DomainView_t) : ∀ (n : Nat)
    (ra : List (List Nat)) (wa : Bool) (rb : List (List Nat)) (wb : Bool)
    (out : List (List Nat)),
    (∀ x ∈ ra, (pol x).labels ≠ []) → (∀ x ∈ rb, (pol x).labels ≠ []) →
    ra ≠ [] → rb ≠ [] → ra.length + rb.length ≤ n + 1 →
    ∃ ra1 wa1 rb1 wb1 out1,
      (∀ m, n ≤ m → diff_loop pol m (diff_mk ra wa rb wb out) =
        some (diff_mk ra1 wa1 rb1 wb1 out1)) ∧
      (ra1 = [] ∨ rb1 = []) ∧ ra1 <:+ ra ∧ rb1 <:+ rb := by
  intro n
  induction n with
  | zero =>
    intro ra wa rb wb out _ _ hra hrb hlen
    exfalso
    cases ra with
    | nil => exact hra rfl
    | cons a ra =>
      cases rb with
      | nil => exact hrb rfl
      | cons b rb =>
        simp only [List.length_cons] at hlen
        omega
  | succ n ih =>
    intro ra wa rb wb out hnA hnB hra hrb hlen
    cases ra with
    | nil => exact absurd rfl hra
    | cons a ra =>
      cases rb with
      | nil => exact absurd rfl hrb
      | cons b rb =>
        obtain ⟨ra1, wa1, rb1, wb1, out1, hstep, hcase⟩ :=
          diff_step_advances pol a ra wa b rb wb out (hnA a (List.mem_cons_self _ _))
            (hnB b (List.mem_cons_self _ _))
        have hsA : ra1 <:+ a :: ra := by
          rcases hcase with ⟨h, _⟩ | ⟨h, _⟩ | ⟨h, _⟩
          · subst h; exact List.suffix_cons a ra1
          · subst h; exact List.suffix_cons a ra1
          · subst h; exact List.suffix_refl _
        have hsB : rb1 <:+ b :: rb := by
          rcases hcase with ⟨_, h⟩ | ⟨_, h⟩ | ⟨_, h⟩
          · subst h; exact List.suffix_cons b rb1
          · subst h; exact List.suffix_refl _
          · subst h; exact List.suffix_cons b rb1
        have hlen1 : ra1.length + rb1.length ≤ n + 1 := by
          simp only [List.length_cons] at hlen
          rcases hcase with ⟨h1, h2⟩ | ⟨h1, h2⟩ | ⟨h1, h2⟩
          · subst h1; subst h2; omega
          · subst h1; subst h2; simp only [List.length_cons]; omega
          · subst h1; subst h2; simp only [List.length_cons]; omega
        have hloop : ∀ m, diff_loop pol (m + 1) (diff_mk (a :: ra) wa (b :: rb) wb out) =
            diff_rest pol m (diff_mk ra1 wa1 rb1 wb1 out1) := by
          intro m
          rw [diff_loop_succ]
          show diff_rest pol m (action_dv (compare_dv (pol a) (pol b)) write_DV_BUFFER_iter
            advance_DV_BUFFER_iter false true (diff_mk (a :: ra) wa (b :: rb) wb out)) = _
          rw [hstep]
        by_cases hboth : ra1 ≠ [] ∧ rb1 ≠ []
        · obtain ⟨ra2, wa2, rb2, wb2, out2, h2, hex, hs2A, hs2B⟩ :=
            ih ra1 wa1 rb1 wb1 out1
              (fun x hx => hnA x (hsA.subset hx)) (fun x hx => hnB x (hsB.subset hx))
              hboth.1 hboth.2 hlen1
          refine ⟨ra2, wa2, rb2, wb2, out2, ?_, hex, hs2A.trans hsA, hs2B.trans hsB⟩
          intro m hm
          obtain ⟨m1, rfl⟩ : ∃ m1, m = m1 + 1 := ⟨m - 1, by omega⟩
          rw [hloop m1, diff_rest_mk, if_pos hboth]
          exact h2 m1 (by omega)
        · refine ⟨ra1, wa1, rb1, wb1, out1, ?_, ?_, hsA, hsB⟩
          · intro m hm
            obtain ⟨m1, rfl⟩ : ∃ m1, m = m1 + 1 := ⟨m - 1, by omega⟩
            rw [hloop m1, diff_rest_mk, if_neg hboth]
          · by_cases h1 : ra1 = []
            · exact Or.inl h1
            · right
              by_contra h2
              exact hboth ⟨h1, h2⟩

/-- C38. The diff merge terminates: for non-empty inputs A and B whose lines have a view
with at least one label (sorted or not), every `action_dv` step of the merge loop
moves at least one of the two iterators on by one entry and none back, so the loop
stops within `|A| + |B|` iterations (any larger bound gives the same state), with one
side exhausted; every iteration of a drain loop moves its iterator on by one entry;
after the two drain loops both iterators are exhausted; and the function returns its
output. -/
theorem diff_merge_terminates (pol : List Nat → DomainView_t) (A B : List (List Nat))
    (hA : A ≠ []) (hB : B ≠ [])
    (hnA : ∀ x ∈ A, (pol x).labels ≠ []) (hnB : ∀ x ∈ B, (pol x).labels ≠ []) :
    (∀ (a : List Nat) (ra : List (List Nat)) (wa : Bool) (b : List Nat)
        (rb : List (List Nat)) (wb : Bool) (out : List (List Nat)),
      (a :: ra) <:+ A → (b :: rb) <:+ B →
      ∃ ra1 wa1 rb1 wb1 out1,
        action_dv (compare_dv (pol a) (pol b)) write_DV_BUFFER_iter advance_DV_BUFFER_iter
            false true (diff_mk (a :: ra) wa (b :: rb) wb out) =
          diff_mk ra1 wa1 rb1 wb1 out1 ∧
        ((ra1 = ra ∧ rb1 = rb) ∨ (ra1 = ra ∧ rb1 = b :: rb) ∨ (ra1 = a :: ra ∧ rb1 = rb)) ∧
        ra1.length + rb1.length < (a :: ra).length + (b :: rb).length) ∧
    (∃ ra1 wa1 rb1 wb1 out1,
      (∀ fuel, A.length + B.length ≤ fuel →
        diff_loop pol fuel (diff_mk A false B false []) =
          some (diff_mk ra1 wa1 rb1 wb1 out1)) ∧
      (ra1 = [] ∨ rb1 = []) ∧ ra1 <:+ A ∧ rb1 <:+ B ∧
      (diff_drain false ra1.length (diff_mk ra1 wa1 rb1 wb1 out1)).dv_iterA.rest = [] ∧
      (diff_drain false ra1.length (diff_mk ra1 wa1 rb1 wb1 out1)).dv_iterB.rest = rb1 ∧
      (diff_drain true rb1.length
        (diff_drain false ra1.length (diff_mk ra1 wa1 rb1 wb1 out1))).dv_iterA.rest = [] ∧
      (diff_drain true rb1.length
        (diff_drain false ra1.length (diff_mk ra1 wa1 rb1 wb1 out1))).dv_iterB.rest = [] ∧
      (∀ fuel, A.length + B.length ≤ fuel →
        diff_adbplus_adlists_BUFFER pol fuel A B =
          some (diff_final (diff_mk ra1 wa1 rb1 wb1 out1)))) ∧
    (∀ s : diff_state,
      (advance_DV_BUFFER_iter false (write_DV_BUFFER_iter false WINNER s)).dv_iterA.rest =
        s.dv_iterA.rest.tail ∧
      (advance_DV_BUFFER_iter false (write_DV_BUFFER_iter false WINNER s)).dv_iterB.rest =
        s.dv_iterB.rest ∧
      (advance_DV_BUFFER_iter true (write_DV_BUFFER_iter true WINNER s)).dv_iterB.rest =
        s.dv_iterB.rest.tail ∧
      (advance_DV_BUFFER_iter true (write_DV_BUFFER_iter true WINNER s)).dv_iterA.rest =
        s.dv_iterA.rest) := by
  refine ⟨?_, ?_, ?_⟩
  · intro a ra wa b rb wb out hsa hsb
    obtain ⟨ra1, wa1, rb1, wb1, out1, hstep, hcase⟩ :=
      diff_step_advances pol a ra wa b rb wb out
        (hnA a (hsa.subset (List.mem_cons_self _ _)))
        (hnB b (hsb.subset (List.mem_cons_self _ _)))
    refine ⟨ra1, wa1, rb1, wb1, out1, hstep, hcase, ?_⟩
    rcases hcase with ⟨h1, h2⟩ | ⟨h1, h2⟩ | ⟨h1, h2⟩
    · subst h1; subst h2; simp only [List.length_cons]; omega
    · subst h1; subst h2; simp only [List.length_cons]; omega
    · subst h1; subst h2; simp only [List.length_cons]; omega
  · have hpos : 1 ≤ A.length + B.length := by
      cases A with
      | nil => exact absurd rfl hA
      | cons a A1 => simp only [List.length_cons]; omega
    obtain ⟨ra1, wa1, rb1, wb1, out1, hloop, hex, hsA, hsB⟩ :=
      diff_loop_terminates pol (A.length + B.length - 1) A false B false [] hnA hnB hA hB
        (by omega)
    have hloop1 : ∀ fuel, A.length + B.length ≤ fuel →
        diff_loop pol fuel (diff_mk A false B false []) =
          some (diff_mk ra1 wa1 rb1 wb1 out1) :=
      fun fuel h => hloop fuel (by omega)
    have hdA := diff_drain_A ra1.length ra1 wa1 rb1 wb1 out1 (le_refl _)
    refine ⟨ra1, wa1, rb1, wb1, out1, hloop1, hex, hsA, hsB, ?_, ?_, ?_, ?_, ?_⟩
    · rw [hdA]; rfl
    · rw [hdA]; rfl
    · rw [hdA, diff_drain_B rb1.length _ _ rb1 wb1 _ (le_refl _)]; rfl
    · rw [hdA, diff_drain_B rb1.length _ _ rb1 wb1 _ (le_refl _)]; rfl
    · intro fuel hf
      have h := hloop1 fuel hf
      unfold diff_adbplus_adlists_BUFFER
      rw [if_neg (by simp [hA, hB])]
      simp only [diff_mk] at h
      simp only [h]
      rfl
  · intro s
    obtain ⟨⟨ra, wa, ma⟩, ⟨rb, wb, mb⟩, out⟩ := s
    cases wa <;> cases wb <;>
      simp [advance_DV_BUFFER_iter, write_DV_BUFFER_iter]

/-- Witness of C38: scenario E of the specification, three iterations of the merge
loop. -/
theorem diff_merge_terminates_witness :
    diff_loop clean_line_view 3 (diff_mk scenario_E_A false scenario_E_B false []) =
      some (diff_mk [] false [] false
        [[43, 97, 124, 124, 97, 108, 112, 104, 97, 46, 99, 111, 109, 94, 10],
         [32, 98, 124, 124, 98, 101, 116, 97, 46, 99, 111, 109, 94, 10],
         [32, 32, 124, 124, 103, 97, 109, 109, 97, 46, 99, 111, 109, 94, 10]]) ∧
    ∃ ra1 wa1 rb1 wb1 out1,
      (∀ fuel, scenario_E_A.length + scenario_E_B.length ≤ fuel →
        diff_loop clean_line_view fuel (diff_mk scenario_E_A false scenario_E_B false []) =
          some (diff_mk ra1 wa1 rb1 wb1 out1)) ∧
      (ra1 = [] ∨ rb1 = []) :=
  ⟨by decide,
    (diff_merge_terminates clean_line_view scenario_E_A scenario_E_B (by decide) (by decide)
      (by decide) (by decide)).2.1.imp fun _ h1 => h1.imp fun _ h2 => h2.imp fun _ h3 =>
        h3.imp fun _ h4 => h4.imp fun _ h5 => ⟨h5.1, h5.2.1⟩⟩

/-! ## Writing lines -/

theorem line_at_length_le (bytes : List Nat) (li : line_info_t) :
    (line_at bytes li).length ≤ li.line_len := by
  unfold line_at
  rw [List.length_take]
  exact Nat.min_le_left _ _

theorem pfb_write_line_eq {σ : Type} (w : List Nat → σ → Option σ) (f : FILE_t)
    (li : line_info_t) (o : σ) (h0 : 0 ≤ li.offset) (hl : li.line_len ≤ rw_buffer_size) :
    pfb_write_line w f li o =
      (w (line_at f.bytes li) o).map fun o1 =>
        (⟨f.bytes, li.offset.toNat + (line_at f.bytes li).length⟩, o1) := by
  have hle := line_at_length_le f.bytes li
  unfold line_at at hle
  simp only [pfb_write_line, write_line_from_file, fseek_SET, if_pos h0, fread, line_at]
  rw [if_pos (le_trans hle hl)]

theorem pfb_write_line_overflow {σ : Type} (w : List Nat → σ → Option σ) (f : FILE_t)
    (li : line_info_t) (o : σ) (h0 : 0 ≤ li.offset)
    (hl : rw_buffer_size < (line_at f.bytes li).length) :
    pfb_write_line w f li o = none := by
  unfold line_at at hl
  simp only [pfb_write_line, write_line_from_file, fseek_SET, if_pos h0, fread]
  rw [if_neg (Nat.not_le.2 hl)]

theorem pfb_write_line_bytes {σ : Type} (w : List Nat → σ → Option σ) (f : FILE_t)
    (li : line_info_t) (o : σ) (r : FILE_t × σ) (h : pfb_write_line w f li o = some r) :
    r.1.bytes = f.bytes := by
  simp only [pfb_write_line, write_line_from_file, fseek_SET, fread] at h
  split_ifs at h
  all_goals
    simp only [Option.map_eq_some'] at h
    obtain ⟨_, _, rfl⟩ := h
    rfl

theorem pfb_write_lines_eq {σ : Type} (w : List Nat → σ → Option σ) :
    ∀ (ls : List line_info_t) (f : FILE_t) (o : σ),
    (∀ li ∈ ls, 0 ≤ li.offset ∧ li.line_len ≤ rw_buffer_size) →
    (pfb_write_lines w ls (f, o)).map (fun r => (r.1.bytes, r.2)) =
      (write_all w (ls.map (line_at f.bytes)) o).map fun o1 => (f.bytes, o1) := by
  intro ls
  induction ls with
  | nil => intro f o _; rfl
  | cons li rest ih =>
    intro f o h
    obtain ⟨h0, hl⟩ := h li (List.mem_cons_self _ _)
    simp only [pfb_write_lines, List.map_cons, write_all, pfb_write_line_eq w f li o h0 hl]
    cases hw : w (line_at f.bytes li) o with
    | none => rfl
    | some o1 =>
      simp only [Option.map_some']
      exact ih _ o1 (fun l hl1 => h l (List.mem_cons_of_mem _ hl1))

theorem pfb_write_lines_overflow {σ : Type} (w : List Nat → σ → Option σ) :
    ∀ (ls : List line_info_t) (f : FILE_t) (o : σ),
    (∃ li ∈ ls, 0 ≤ li.offset ∧ rw_buffer_size < (line_at f.bytes li).length) →
    pfb_write_lines w ls (f, o) = none := by
  intro ls
  induction ls with
  | nil => intro f o h; obtain ⟨li, hli, _⟩ := h; cases hli
  | cons l rest ih =>
    intro f o h
    simp only [pfb_write_lines]
    cases hw : pfb_write_line w f l o with
    | none => rfl
    | some s1 =>
      simp only
      obtain ⟨li, hli, h0, hl⟩ := h
      rcases List.mem_cons.1 hli with e | hmem
      · subst e
        rw [pfb_write_line_overflow w f li o h0 hl] at hw
        cases hw
      · have hb := pfb_write_line_bytes w f l o s1 hw
        obtain ⟨f1, o1⟩ := s1
        simp only at hb
        exact ih f1 o1 ⟨li, hmem, h0, by rw [hb]; exact hl⟩

theorem write_all_FILE : ∀ (ps : List (List Nat)) (o : List Nat),
    write_all pfb_out_context_write_FILE ps o = some (o ++ (ps.map fun p => p ++ [10]).flatten) := by
  intro ps
  induction ps with
  | nil => intro o; simp [write_all]
  | cons p ps ih =>
    intro o
    simp only [write_all, pfb_out_context_write_FILE, ih, List.map_cons, List.flatten_cons,
      List.append_assoc]

theorem file_of_set (cs : List pfb_context_t) (k : Nat) (c c1 : pfb_context_t)
    (hk : cs[k]? = some c) (hb : c1.in_file.bytes = c.in_file.bytes) (j : Nat) :
    file_of (cs.set k c1) j = file_of cs j := by
  unfold file_of
  by_cases hj : k = j
  · subst hj
    have hlt : k < cs.length := by
      rcases Nat.lt_or_ge k cs.length with h | h
      · exact h
      · rw [List.getElem?_eq_none h] at hk
        cases hk
    rw [List.getElem?_set_self hlt, hk]
    exact hb
  · rw [List.getElem?_set_ne hj]

theorem set_proj (cs : List pfb_context_t) (k : Nat) (c c1 : pfb_context_t)
    (hk : cs[k]? = some c) (hb : c1.in_file.bytes = c.in_file.bytes) (hc : c1.co = c.co) :
    (cs.set k c1).map (fun x => (x.in_file.bytes, x.co)) =
      cs.map fun x => (x.in_file.bytes, x.co) := by
  rw [List.map_set, hb, hc]
  apply List.ext_getElem?
  intro j
  by_cases hj : k = j
  · subst hj
    have hlt : k < cs.length := by
      rcases Nat.lt_or_ge k cs.length with h | h
      · exact h
      · rw [List.getElem?_eq_none h] at hk
        cases hk
    rw [List.getElem?_set_self (by rw [List.length_map]; exact hlt), List.getElem?_map, hk]
    rfl
  · rw [List.getElem?_set_ne hj]

theorem pfb_write_DomainInfo_all_eq {σ : Type} (w : List Nat → σ → Option σ) :
    ∀ (ds : List DomainInfo_t) (cs : List pfb_context_t) (oc : pfb_out_context_t σ),
    (∀ d ∈ ds, d.context < cs.length ∧ 0 ≤ d.li.offset ∧ d.li.line_len ≤ rw_buffer_size) →
    (pfb_write_DomainInfo_all w ds (cs, oc)).map
        (fun s => (s.1.map (fun x => (x.in_file.bytes, x.co)), s.2.out, s.2.counter)) =
      (write_all w (ds.map fun d => line_at (file_of cs d.context) d.li) oc.out).map fun o1 =>
        (cs.map (fun x => (x.in_file.bytes, x.co)), o1, oc.counter + ds.length) := by
  intro ds
  induction ds with
  | nil => intro cs oc _; rfl
  | cons d rest ih =>
    intro cs oc h
    obtain ⟨hlt, h0, hl⟩ := h d (List.mem_cons_self _ _)
    have hk : cs[d.context]? = some (cs[d.context]) := List.getElem?_eq_getElem hlt
    have hf : file_of cs d.context = (cs[d.context]).in_file.bytes := by
      unfold file_of
      rw [hk]
    simp only [pfb_write_DomainInfo_all, pfb_write_DomainInfo, hk, List.map_cons, write_all,
      pfb_write_line_eq w _ d.li oc.out h0 hl, hf, Option.map_map]
    cases hw : w (line_at (cs[d.context]).in_file.bytes d.li) oc.out with
    | none => rfl
    | some o1 =>
      simp only [Option.map_some', Function.comp]
      rw [ih _ _ (fun d1 hd1 => by
        obtain ⟨a, b, c⟩ := h d1 (List.mem_cons_of_mem _ hd1)
        exact ⟨by rw [List.length_set]; exact a, b, c⟩)]
      have hset := set_proj cs d.context (cs[d.context])
        { in_file := ⟨(cs[d.context]).in_file.bytes,
            d.li.offset.toNat + (line_at (cs[d.context]).in_file.bytes d.li).length⟩,
          co := (cs[d.context]).co } hk rfl rfl
      have hfo : ∀ j, file_of (cs.set d.context
          { in_file := ⟨(cs[d.context]).in_file.bytes,
              d.li.offset.toNat + (line_at (cs[d.context]).in_file.bytes d.li).length⟩,
            co := (cs[d.context]).co }) j = file_of cs j :=
        fun j => file_of_set cs d.context (cs[d.context])
          { in_file := ⟨(cs[d.context]).in_file.bytes,
              d.li.offset.toNat + (line_at (cs[d.context]).in_file.bytes d.li).length⟩,
            co := (cs[d.context]).co } hk rfl j
      simp only [hfo, hset, List.length_cons]
      cases write_all w (rest.map fun d => line_at (file_of cs d.context) d.li) o1 with
      | none => rfl
      | some o2 =>
        simp only [Option.map_some', Option.some.injEq, Prod.mk.injEq, true_and]
        omega

/-! ## Total emission -/

theorem pfb_consolidate_eq_emitted (c : TLD_context_impl_t) (h : c ≠ []) :
    pfb_consolidate c = some (consolidate_emitted c) := by
  obtain ⟨out, hout⟩ := pfb_consolidate_isSome c h
  unfold consolidate_emitted
  rw [hout]
  rfl

theorem pfb_consolidate_out_eq {σ : Type} (w : List Nat → σ → Option σ)
    (c : TLD_context_impl_t) (h : c ≠ []) (cs : List pfb_context_t)
    (oc : pfb_out_context_t σ)
    (hli : ∀ d ∈ consolidate_emitted c,
      d.context < cs.length ∧ 0 ≤ d.li.offset ∧ d.li.line_len ≤ rw_buffer_size) :
    (pfb_consolidate_out w c (cs, oc)).map
        (fun s => (s.1.map (fun x => (x.in_file.bytes, x.co)), s.2.out, s.2.counter)) =
      (write_all w ((consolidate_emitted c).map fun d => line_at (file_of cs d.context) d.li)
          oc.out).map fun o1 =>
        (cs.map (fun x => (x.in_file.bytes, x.co)), o1,
          oc.counter + (consolidate_emitted c).length) := by
  unfold pfb_consolidate_out
  rw [pfb_consolidate_eq_emitted c h]
  exact pfb_write_DomainInfo_all_eq w _ cs oc hli

/-- The counterexample of C6. First, the views `com` (one label) and `a.net`: both
insertions succeed and `a.net` is a terminal node of the index, but `pfb_consolidate`
stops at the empty slot of the TLD entry `com` and hands nothing to the emit callback.
Second, the rule `a.com` with a `line_info` of 513 bytes in a file of 513 bytes: the
callback `pfb_write_DomainInfo` reads 513 bytes into the buffer of 512 and the run has
no defined result. Third, the empty index: `pfb_consolidate` reads the null root. -/
theorem total_emission_counterexample :
    (∃ c, insert_all [] scenario_bare_tld = some c ∧
      ([[110, 101, 116], [97]], (⟨0, MATCH_FULL, ⟨8, 9⟩⟩ : DomainInfo_t)) ∈ ctx_terminals c ∧
      pfb_consolidate c = some []) ∧
    (∃ c, insert_all [] scenario_long_rule = some c ∧
      pfb_consolidate c = some [⟨0, MATCH_FULL, ⟨0, 513⟩⟩] ∧
      pfb_consolidate_out pfb_out_context_write_FILE c
        (pfb_open_contexts [List.replicate 513 97], ⟨[], 0⟩) = none) ∧
    (insert_all [] [] = some [] ∧
      pfb_consolidate_out pfb_out_context_write_FILE []
        (pfb_open_contexts [[]], ⟨[], 0⟩) = none) := by
  refine ⟨⟨_, rfl, by decide, by decide⟩, ⟨_, rfl, by decide, ?_⟩, rfl, rfl⟩
  have hc : insert_all [] scenario_long_rule =
      some [⟨[99, 111, 109], DomainTree_t.node [97] (some ⟨0, MATCH_FULL, ⟨0, 513⟩⟩)
        DomainTree_t.nil DomainTree_t.nil⟩] := by decide
  have h1 : pfb_consolidate [⟨[99, 111, 109], DomainTree_t.node [97]
      (some ⟨0, MATCH_FULL, ⟨0, 513⟩⟩) DomainTree_t.nil DomainTree_t.nil⟩] =
      some [⟨0, MATCH_FULL, ⟨0, 513⟩⟩] := by decide
  have h2 : pfb_write_line pfb_out_context_write_FILE ⟨List.replicate 513 97, 0⟩ ⟨0, 513⟩ [] =
      none := by
    apply pfb_write_line_overflow _ _ _ _ (by decide)
    simp only [line_at, Int.toNat_zero, List.drop_zero, List.length_take, List.length_replicate]
    decide
  show pfb_consolidate_out pfb_out_context_write_FILE
    [⟨[99, 111, 109], DomainTree_t.node [97] (some ⟨0, MATCH_FULL, ⟨0, 513⟩⟩)
        DomainTree_t.nil DomainTree_t.nil⟩] _ = none
  unfold pfb_consolidate_out
  rw [h1]
  simp only [pfb_write_DomainInfo_all, pfb_write_DomainInfo, pfb_open_contexts, List.map_cons,
    List.map_nil, List.getElem?_cons_zero, h2, Option.map_none']

/-- C6 (amended). Total emission: for every index built by `insert_DomainTree` calls from
views with at least two labels each, the insertions succeed, the sequence
`pfb_consolidate` hands to the emit callback is a permutation of the infos of the
terminal nodes of the index (each terminal node once, nothing else), and the info of
every terminal node is the `convert_DomainInfo` of an accepted input view with the
node's domain: its source context and `line_info` are those of that input rule. When an
input view is accepted the index is not empty and `pfb_consolidate` returns. When
moreover every emitted info points to one of the input contexts and has a `line_info`
with an offset that is not negative and a `line_len` of at most `rw_buffer_size` (512),
the run of `pfb_consolidate` with the collector `pfb_write_DomainInfo` returns, leaves
the files and carry-over lists of the input contexts as they are, adds the number of
emitted rules to `counter`, and hands to `writer_cb`, in emission order, for each
emitted rule the `line_len` bytes at its offset of the file of its context; with the
writer `pfb_out_context_write_FILE` the bytes appended to the output are these lines,
each followed by `'\n'`. -/
theorem total_emission (rs : List DomainView_t) (h2 : ∀ r ∈ rs, 2 ≤ r.labels.length) :
    ∃ c, insert_all [] rs = some c ∧
      (consolidate_emitted c).Perm ((ctx_terminals c).map Prod.snd) ∧
      (consolidate_dom c).Perm (ctx_terminals c) ∧
      consolidate_emitted c = (consolidate_dom c).map Prod.snd ∧
      (∀ x ∈ ctx_terminals c, ∃ r ∈ rs, accepted r ∧ r.labels = x.1 ∧
        x.2 = convert_DomainInfo r ∧ x.2.context = r.context ∧ x.2.li = r.li) ∧
      ((∃ r ∈ rs, accepted r) → c ≠ [] ∧ pfb_consolidate c = some (consolidate_emitted c)) ∧
      ((∃ r ∈ rs, accepted r) →
        ∀ (σ : Type) (writer_cb : List Nat → σ → Option σ) (cs : List pfb_context_t)
          (oc : pfb_out_context_t σ),
        (∀ d ∈ consolidate_emitted c,
          d.context < cs.length ∧ 0 ≤ d.li.offset ∧ d.li.line_len ≤ rw_buffer_size) →
        (pfb_consolidate_out writer_cb c (cs, oc)).map
            (fun s => (s.1.map (fun x => (x.in_file.bytes, x.co)), s.2.out, s.2.counter)) =
          (write_all writer_cb
              ((consolidate_emitted c).map fun d => line_at (file_of cs d.context) d.li)
              oc.out).map fun o1 =>
            (cs.map (fun x => (x.in_file.bytes, x.co)), o1,
              oc.counter + (consolidate_emitted c).length)) ∧
      ((∃ r ∈ rs, accepted r) →
        ∀ (cs : List pfb_context_t) (oc : pfb_out_context_t (List Nat)),
        (∀ d ∈ consolidate_emitted c,
          d.context < cs.length ∧ 0 ≤ d.li.offset ∧ d.li.line_len ≤ rw_buffer_size) →
        (pfb_consolidate_out pfb_out_context_write_FILE c (cs, oc)).map
            (fun s => (s.1.map (fun x => (x.in_file.bytes, x.co)), s.2.out, s.2.counter)) =
          some (cs.map (fun x => (x.in_file.bytes, x.co)),
            oc.out ++ ((consolidate_emitted c).map fun d =>
              line_at (file_of cs d.context) d.li ++ [10]).flatten,
            oc.counter + (consolidate_emitted c).length)) := by
  obtain ⟨c, hc, hok, hcov, hnn, hk, hmem⟩ := dedup_members rs h2
  have hperm := consolidate_dom_perm c hnn
  have hne : (∃ r ∈ rs, accepted r) → c ≠ [] := by
    rintro ⟨r, hr, hacc⟩ e
    have h2r := h2 r hr
    cases hl : r.labels with
    | nil => rw [hl] at h2r; simp at h2r
    | cons k rest =>
      have : k ∈ c.map TLD_entry_impl_t.tld := (hk k).2 ⟨r, hr, hacc, by rw [hl]; rfl⟩
      rw [e] at this
      simp at this
  refine ⟨c, hc, ?_, hperm, consolidate_emitted_eq c, ?_, ?_, ?_, ?_⟩
  · rw [consolidate_emitted_eq]
    exact hperm.map Prod.snd
  · intro x hx
    have hx1 : (x.1, x.2) ∈ ctx_terminals c := hx
    rw [mem_ctx_terminals_iff c hok] at hx1
    obtain ⟨_, r, hr, hacc, hrl, hconv⟩ := hcov.1 x.1 x.2 hx1
    exact ⟨r, hr, hacc, hrl, hconv, by rw [hconv]; rfl, by rw [hconv]; rfl⟩
  · intro h
    exact ⟨hne h, pfb_consolidate_eq_emitted c (hne h)⟩
  · intro h σ w cs oc hli
    exact pfb_consolidate_out_eq w c (hne h) cs oc hli
  · intro h cs oc hli
    rw [pfb_consolidate_out_eq pfb_out_context_write_FILE c (hne h) cs oc hli, write_all_FILE]
    simp only [Option.map_some', List.map_map]
    rfl

/-- Witness of C6: the rules `||b.com^` and `||a.com^` of the file `[Adblock Plus]`,
`! title`, `||b.com^`, `||a.com^`: consolidation writes `||a.com^` and `||b.com^`, each
with its `'\n'`, and counts two rules. -/
theorem total_emission_witness :
    ∃ c, insert_all [] scenario_carry_views = some c ∧
      (consolidate_emitted c).Perm ((ctx_terminals c).map Prod.snd) ∧
      (pfb_consolidate_out pfb_out_context_write_FILE c
          (pfb_open_contexts [scenario_carry], ⟨[], 0⟩)).map
          (fun s => (s.2.out, s.2.counter)) =
        some ([124, 124, 97, 46, 99, 111, 109, 94, 10,
          124, 124, 98, 46, 99, 111, 109, 94, 10], 2) := by
  obtain ⟨c, hc, hp, _, _, _, _, _, hfile⟩ := total_emission scenario_carry_views (by decide)
  have h0 : insert_all [] scenario_carry_views =
      some [⟨[99, 111, 109], DomainTree_t.node [98] (some ⟨0, MATCH_FULL, ⟨23, 8⟩⟩)
        DomainTree_t.nil (DomainTree_t.node [97] (some ⟨0, MATCH_FULL, ⟨32, 8⟩⟩)
          DomainTree_t.nil DomainTree_t.nil)⟩] := by decide
  rw [h0] at hc
  have hc1 := (Option.some.inj hc).symm
  subst hc1
  refine ⟨_, h0, hp, ?_⟩
  have h := hfile ⟨_, List.mem_cons_self _ _, by decide⟩
    (pfb_open_contexts [scenario_carry]) ⟨[], 0⟩ (by decide)
  have hm : ∀ x : Option (List pfb_context_t × pfb_out_context_t (List Nat)),
      x.map (fun s => (s.2.out, s.2.counter)) =
        (x.map (fun s => (s.1.map (fun x => (x.in_file.bytes, x.co)), s.2.out,
          s.2.counter))).map Prod.snd := by
    intro x
    cases x <;> rfl
  rw [hm, h]
  decide

/-! ## The reader on a file -/

theorem line_at_append (done line rest : List Nat) :
    line_at (done ++ line ++ rest) ⟨(done.length : Int), line.length⟩ = line := by
  unfold line_at
  simp only [Int.toNat_ofNat, List.append_assoc, List.drop_left, List.take_left]

theorem load_LineData_pos (buf : List Nat) (ld : LineData_t) :
    (load_LineData buf ld).2.1 = buf.dropWhile not_newline ∧
    (load_LineData buf ld).1 =
      (decide (ld.li.line_len + (buf.takeWhile not_newline).length ≠ 0) &&
        decide (buf.dropWhile not_newline ≠ [])) ∧
    (load_LineData buf ld).2.2.li.line_len =
      (ld.li.line_len + (buf.takeWhile not_newline).length) % 65536 ∧
    (ld.li.line_len + (buf.takeWhile not_newline).length ≤ MAX_ACCEPTABLE_LINE_LENGTH →
      (load_LineData buf ld).2.2.data = ld.data ++ buf.takeWhile not_newline) ∧
    (MAX_ACCEPTABLE_LINE_LENGTH < ld.li.line_len + (buf.takeWhile not_newline).length →
      (load_LineData buf ld).2.2.data = []) := by
  unfold load_LineData MAX_ALLOC_LINE MAX_ACCEPTABLE_LINE_LENGTH
  simp only
  by_cases h : ld.li.line_len + (buf.takeWhile not_newline).length + 1 > 2048 + 1
  · rw [if_pos h]
    refine ⟨rfl, rfl, rfl, ?_, fun _ => rfl⟩
    intro h1
    omega
  · rw [if_neg h]
    refine ⟨rfl, rfl, rfl, fun _ => rfl, ?_⟩
    intro h1
    omega

theorem reader_step_inv (bytes : List Nat) (hrun : short_lines bytes) (buf : List Nat)
    (s : reader_state) (pre post : List Nat) (hb : bytes = pre ++ buf ++ post)
    (hinv : reader_inv bytes pre s) :
    reader_inv bytes
      (pre ++ buf.takeWhile not_newline ++
        ((load_LineData buf s.ld).2.1.takeWhile fun c => !not_newline c))
      { (if (load_LineData buf s.ld).1 then
            ({ ld := reset_LineData (load_LineData buf s.ld).2.2
               f_location := s.f_location + ((load_LineData buf s.ld).2.2.li.line_len : Int)
               calls := s.calls ++ [⟨(load_LineData buf s.ld).2.2.data,
                 ⟨s.f_location, (load_LineData buf s.ld).2.2.li.line_len⟩⟩] } : reader_state)
          else { s with ld := (load_LineData buf s.ld).2.2 }) with
        f_location :=
          (if (load_LineData buf s.ld).1 then
            ({ ld := reset_LineData (load_LineData buf s.ld).2.2
               f_location := s.f_location + ((load_LineData buf s.ld).2.2.li.line_len : Int)
               calls := s.calls ++ [⟨(load_LineData buf s.ld).2.2.data,
                 ⟨s.f_location, (load_LineData buf s.ld).2.2.li.line_len⟩⟩] } : reader_state)
          else { s with ld := (load_LineData buf s.ld).2.2 }).f_location +
          ((((load_LineData buf s.ld).2.1.takeWhile fun c => !not_newline c).length : Nat) :
            Int) } := by
  obtain ⟨done, pending, hpre, hloc, hll, hpend, hd1, hd2, hcalls⟩ := hinv
  obtain ⟨e1, e2, e3, e4, e5⟩ := load_LineData_pos buf s.ld
  have hbuf : buf.takeWhile not_newline ++ buf.dropWhile not_newline = buf :=
    List.takeWhile_append_dropWhile _ _
  have hseg : ∀ x ∈ buf.takeWhile not_newline, not_newline x = true :=
    fun x hx => List.mem_takeWhile_imp hx
  generalize hsg : buf.takeWhile not_newline = seg at *
  generalize hrs : buf.dropWhile not_newline = rest at *
  have hbytes : bytes = done ++ (pending ++ seg) ++ (rest ++ post) := by
    rw [hb, hpre, ← hbuf]
    simp only [List.append_assoc]
  have hnw : pending.length + seg.length < 65536 := by
    have h := hrun done ((pending ++ seg) ++ (rest ++ post))
      (by rw [hbytes]; simp only [List.append_assoc])
    rw [(takeWhile_all not_newline (pending ++ seg) (rest ++ post) (by
      intro x hx
      rcases List.mem_append.1 hx with h1 | h1
      · exact hpend x h1
      · exact hseg x h1)).1] at h
    simp only [List.length_append] at h
    omega
  rw [hll] at e2 e3 e4 e5
  rw [Nat.mod_eq_of_lt hnw] at e3
  generalize load_LineData buf s.ld = r at *
  obtain ⟨found, pos, ld1⟩ := r
  simp only at e1 e2 e3 e4 e5
  subst e1
  simp only
  generalize hsk : List.takeWhile (fun c => !not_newline c) pos = skipped
  cases found with
  | true =>
    have h2 := e2.symm
    simp only [Bool.and_eq_true, decide_eq_true_eq] at h2
    simp only [if_true]
    refine ⟨pre ++ seg ++ skipped, [], by simp, ?_, ?_, by simp, fun _ => rfl, ?_, ?_⟩
    · simp only [hloc, e3, hpre, List.length_append]
      push_cast
      omega
    · rfl
    · intro h
      simp at h
    · intro c hc
      rcases List.mem_append.1 hc with h | h
      · exact hcalls c h
      · rw [List.mem_singleton] at h
        subst h
        refine ⟨by rw [hloc]; exact Int.natCast_nonneg _, ?_, ?_⟩
        · intro hle
          simp only [e3] at hle ⊢
          rw [e4 hle, hd1 (by omega), hloc, hbytes, ← List.length_append]
          exact (line_at_append done (pending ++ seg) _).symm
        · intro hlt
          simp only [e3] at hlt
          exact e5 hlt
  | false =>
    simp only [Bool.false_eq_true, if_false]
    by_cases hrest : pos = []
    · subst hrest
      simp only [List.takeWhile_nil] at hsk
      subst hsk
      refine ⟨done, pending ++ seg, by rw [hpre]; simp, ?_, ?_, ?_, ?_, ?_, hcalls⟩
      · simp [hloc]
      · simp only [e3, List.length_append]
      · intro x hx
        rcases List.mem_append.1 hx with h1 | h1
        · exact hpend x h1
        · exact hseg x h1
      · intro hle
        simp only [List.length_append] at hle
        rw [e4 hle, hd1 (by omega)]
      · intro hlt
        simp only [List.length_append] at hlt
        exact e5 hlt
    · have h2 : pending.length + seg.length = 0 := by
        by_contra hne
        have : (decide (pending.length + seg.length ≠ 0) && decide (pos ≠ [])) = true := by
          simp [hne, hrest]
        rw [this] at e2
        cases e2
      have hp : pending = [] := List.length_eq_zero.1 (by omega)
      have hs : seg = [] := List.length_eq_zero.1 (by omega)
      subst hp
      subst hs
      refine ⟨done ++ skipped, [], by rw [hpre]; simp, ?_, ?_, by simp, ?_, ?_, hcalls⟩
      · simp only [hloc, List.length_append]
        push_cast
        rfl
      · simpa using e3
      · intro _
        have := e4 (by simp [MAX_ACCEPTABLE_LINE_LENGTH])
        rw [this, hd1 (by simp [MAX_ACCEPTABLE_LINE_LENGTH])]
        rfl
      · intro h
        simp [MAX_ACCEPTABLE_LINE_LENGTH] at h

theorem read_chunk_inv (bytes : List Nat) (hrun : short_lines bytes) :
    ∀ (n : Nat) (buf : List Nat) (s : reader_state) (pre post : List Nat),
    bytes = pre ++ buf ++ post → buf ≠ [] → buf.length ≤ n → reader_inv bytes pre s →
    ∃ s1, read_pfb_line_chunk n buf s = some s1 ∧ reader_inv bytes (pre ++ buf) s1 := by
  intro n
  induction n with
  | zero =>
    intro buf s pre post _ hne hlen _
    exact absurd (List.length_eq_zero.1 (Nat.le_zero.1 hlen)) hne
  | succ n ih =>
    intro buf s pre post hb hne hlen hinv
    have hstep := reader_step_inv bytes hrun buf s pre post hb hinv
    have hpos := (load_LineData_pos buf s.ld).1
    have hbuf : buf.takeWhile not_newline ++ buf.dropWhile not_newline = buf :=
      List.takeWhile_append_dropWhile _ _
    have hrest : (buf.dropWhile not_newline).takeWhile (fun c => !not_newline c) ++
        (buf.dropWhile not_newline).dropWhile (fun c => !not_newline c) =
          buf.dropWhile not_newline := List.takeWhile_append_dropWhile _ _
    have hsplit : buf = buf.takeWhile not_newline ++
        ((buf.dropWhile not_newline).takeWhile (fun c => !not_newline c) ++
          (buf.dropWhile not_newline).dropWhile (fun c => !not_newline c)) := by
      rw [hrest, hbuf]
    have hshort : ((buf.dropWhile not_newline).dropWhile fun c => !not_newline c).length <
        buf.length := by
      cases buf with
      | nil => exact absurd rfl hne
      | cons a rest =>
        by_cases ha : not_newline a = true
        · have h1 : ((a :: rest).dropWhile not_newline).length ≤ rest.length := by
            rw [List.dropWhile_cons_of_pos ha]
            exact (List.dropWhile_suffix _).length_le
          have h2 := (List.dropWhile_suffix (fun c => !not_newline c)
            (l := (a :: rest).dropWhile not_newline)).length_le
          simp only [List.length_cons]
          omega
        · have h1 : (a :: rest).dropWhile not_newline = a :: rest :=
            List.dropWhile_cons_of_neg ha
          rw [h1, List.dropWhile_cons_of_pos (by simpa using ha)]
          have h2 := (List.dropWhile_suffix (fun c => !not_newline c) (l := rest)).length_le
          simp only [List.length_cons]
          omega
    simp only [read_pfb_line_chunk]
    rw [hpos] at hstep ⊢
    by_cases hp2 : (buf.dropWhile not_newline).dropWhile (fun c => !not_newline c) = []
    · rw [if_pos hp2]
      refine ⟨_, rfl, ?_⟩
      have hpb : pre ++ buf = pre ++ buf.takeWhile not_newline ++
          (buf.dropWhile not_newline).takeWhile (fun c => !not_newline c) := by
        conv_lhs => rw [hsplit, hp2]
        simp only [List.append_nil, List.append_assoc]
      rw [hpb]
      exact hstep
    · rw [if_neg hp2]
      have hb2 : bytes = (pre ++ buf.takeWhile not_newline ++
          (buf.dropWhile not_newline).takeWhile (fun c => !not_newline c)) ++
          ((buf.dropWhile not_newline).dropWhile fun c => !not_newline c) ++ post := by
        conv_lhs => rw [hb, hsplit]
        simp only [List.append_assoc]
      obtain ⟨s1, hs1, hinv1⟩ := ih _ _ _ post hb2 hp2 (by omega) hstep
      refine ⟨s1, hs1, ?_⟩
      have hpb : pre ++ buf = (pre ++ buf.takeWhile not_newline ++
          (buf.dropWhile not_newline).takeWhile (fun c => !not_newline c)) ++
          ((buf.dropWhile not_newline).dropWhile fun c => !not_newline c) := by
        conv_lhs => rw [hsplit]
        simp only [List.append_assoc]
      rw [hpb]
      exact hinv1

theorem read_loop_inv (bytes : List Nat) (hrun : short_lines bytes) :
    ∀ (chunks : List (List Nat)) (s : reader_state) (pre post : List Nat),
    bytes = pre ++ chunks.flatten ++ post → reader_inv bytes pre s →
    ∃ s1, read_pfb_line_loop chunks s = some s1 ∧
      reader_inv bytes (pre ++ chunks.flatten) s1 := by
  intro chunks
  induction chunks with
  | nil =>
    intro s pre post _ hinv
    exact ⟨s, rfl, by simpa using hinv⟩
  | cons c rest ih =>
    intro s pre post hb hinv
    simp only [read_pfb_line_loop]
    by_cases hc : c = []
    · subst hc
      simp only [if_true, List.flatten_cons, List.nil_append] at hb ⊢
      exact ih s pre post hb hinv
    · rw [if_neg hc]
      have hb1 : bytes = pre ++ c ++ (rest.flatten ++ post) := by
        rw [hb]
        simp only [List.flatten_cons, List.append_assoc]
      obtain ⟨s1, hs1, hinv1⟩ := read_chunk_inv bytes hrun c.length c s pre _ hb1 hc
        (Nat.le_refl _) hinv
      rw [hs1]
      simp only
      have hb2 : bytes = (pre ++ c) ++ rest.flatten ++ post := by
        rw [hb]
        simp only [List.flatten_cons, List.append_assoc]
      obtain ⟨s2, hs2, hinv2⟩ := ih s1 (pre ++ c) post hb2 hinv1
      refine ⟨s2, hs2, ?_⟩
      simpa only [List.flatten_cons, List.append_assoc] using hinv2

theorem read_pfb_line_ok (bytes : List Nat) (hrun : short_lines bytes)
    (chunks : List (List Nat)) (hch : chunks.flatten = bytes) :
    ∃ lines, read_pfb_line chunks = some lines ∧ ∀ c ∈ lines, line_ok bytes c := by
  have hinit : reader_inv bytes [] ⟨init_LineData, 0, []⟩ :=
    ⟨[], [], rfl, rfl, rfl, by simp, fun _ => rfl, fun _ => rfl, by simp⟩
  obtain ⟨s, hs, done, pending, hpre, hloc, hll, hpend, hd1, hd2, hcalls⟩ :=
    read_loop_inv bytes hrun chunks ⟨init_LineData, 0, []⟩ [] [] (by simp [hch]) hinit
  unfold read_pfb_line
  rw [hs]
  simp only
  by_cases hz : s.ld.li.line_len ≠ 0
  · rw [if_pos hz]
    refine ⟨_, rfl, ?_⟩
    intro c hc
    rcases List.mem_append.1 hc with h | h
    · exact hcalls c h
    · rw [List.mem_singleton] at h
      subst h
      have hbytes : bytes = done ++ pending ++ [] := by
        rw [← hch]
        simpa using hpre
      refine ⟨by rw [hloc]; exact Int.natCast_nonneg _, ?_, ?_⟩
      · intro hle
        simp only [hll] at hle ⊢
        rw [hd1 hle, hloc, hbytes]
        exact (line_at_append done pending []).symm
      · intro hlt
        simp only [hll] at hlt
        exact hd2 hlt
  · rw [if_neg hz]
    exact ⟨_, rfl, hcalls⟩

theorem read_chunk_nonneg : ∀ (n : Nat) (buf : List Nat) (s s1 : reader_state),
    read_pfb_line_chunk n buf s = some s1 →
    (0 ≤ s.f_location ∧ ∀ c ∈ s.calls, 0 ≤ c.li.offset) →
    (0 ≤ s1.f_location ∧ ∀ c ∈ s1.calls, 0 ≤ c.li.offset) := by
  intro n
  induction n with
  | zero => intro buf s s1 h _; cases h
  | succ n ih =>
    intro buf s s1 h hinv
    simp only [read_pfb_line_chunk] at h
    have hstep : (fun s2 : reader_state => 0 ≤ s2.f_location ∧ ∀ c ∈ s2.calls, 0 ≤ c.li.offset)
        { (if (load_LineData buf s.ld).1 then
            ({ ld := reset_LineData (load_LineData buf s.ld).2.2
               f_location := s.f_location + ((load_LineData buf s.ld).2.2.li.line_len : Int)
               calls := s.calls ++ [⟨(load_LineData buf s.ld).2.2.data,
                 ⟨s.f_location, (load_LineData buf s.ld).2.2.li.line_len⟩⟩] } : reader_state)
          else { s with ld := (load_LineData buf s.ld).2.2 }) with
          f_location :=
            (if (load_LineData buf s.ld).1 then
              ({ ld := reset_LineData (load_LineData buf s.ld).2.2
                 f_location := s.f_location + ((load_LineData buf s.ld).2.2.li.line_len : Int)
                 calls := s.calls ++ [⟨(load_LineData buf s.ld).2.2.data,
                   ⟨s.f_location, (load_LineData buf s.ld).2.2.li.line_len⟩⟩] } : reader_state)
            else { s with ld := (load_LineData buf s.ld).2.2 }).f_location +
            ((((load_LineData buf s.ld).2.1.takeWhile fun c => !not_newline c).length : Nat) :
              Int) } := by
      cases (load_LineData buf s.ld).1 with
      | true =>
        simp only [if_true]
        refine ⟨by have := hinv.1; omega, ?_⟩
        intro c hc
        rcases List.mem_append.1 hc with h1 | h1
        · exact hinv.2 c h1
        · rw [List.mem_singleton] at h1
          subst h1
          exact hinv.1
      | false =>
        simp only [Bool.false_eq_true, if_false]
        exact ⟨by have := hinv.1; omega, hinv.2⟩
    by_cases hp : List.dropWhile (fun c => !not_newline c) (load_LineData buf s.ld).2.1 = []
    · rw [if_pos hp] at h
      simp only [Option.some.injEq] at h
      rw [← h]
      exact hstep
    · rw [if_neg hp] at h
      exact ih _ _ _ h hstep

theorem read_loop_nonneg : ∀ (chunks : List (List Nat)) (s s1 : reader_state),
    read_pfb_line_loop chunks s = some s1 →
    (0 ≤ s.f_location ∧ ∀ c ∈ s.calls, 0 ≤ c.li.offset) →
    (0 ≤ s1.f_location ∧ ∀ c ∈ s1.calls, 0 ≤ c.li.offset) := by
  intro chunks
  induction chunks with
  | nil =>
    intro s s1 h hinv
    simp only [read_pfb_line_loop, Option.some.injEq] at h
    rw [← h]
    exact hinv
  | cons c rest ih =>
    intro s s1 h hinv
    simp only [read_pfb_line_loop] at h
    by_cases hc : c = []
    · rw [if_pos hc] at h
      exact ih s s1 h hinv
    · rw [if_neg hc] at h
      cases h2 : read_pfb_line_chunk c.length c s with
      | none => rw [h2] at h; cases h
      | some s2 =>
        rw [h2] at h
        exact ih s2 s1 h (read_chunk_nonneg _ _ _ _ h2 hinv)

theorem read_pfb_line_nonneg (chunks : List (List Nat)) (lines : List PortLineData_t)
    (h : read_pfb_line chunks = some lines) : ∀ c ∈ lines, 0 ≤ c.li.offset := by
  unfold read_pfb_line at h
  cases h1 : read_pfb_line_loop chunks ⟨init_LineData, 0, []⟩ with
  | none => rw [h1] at h; cases h
  | some s =>
    rw [h1] at h
    have hinv := read_loop_nonneg chunks _ s h1 ⟨le_refl _, by simp⟩
    simp only at h
    split_ifs at h
    · simp only [Option.some.injEq] at h
      subst h
      intro c hc
      rcases List.mem_append.1 hc with h2 | h2
      · exact hinv.2 c h2
      · rw [List.mem_singleton] at h2
        subst h2
        exact hinv.1
    · simp only [Option.some.injEq] at h
      subst h
      exact hinv.2

theorem read_pfb_line_loop_total : ∀ (chunks : List (List Nat)) (s : reader_state),
    ∃ s1, read_pfb_line_loop chunks s = some s1 := by
  intro chunks
  induction chunks with
  | nil => intro s; exact ⟨s, rfl⟩
  | cons c rest ih =>
    intro s
    simp only [read_pfb_line_loop]
    by_cases hc : c = []
    · rw [if_pos hc]
      exact ih s
    · rw [if_neg hc]
      obtain ⟨s1, hs1⟩ := read_pfb_line_chunk_total c.length c s hc (Nat.le_refl _)
      rw [hs1]
      exact ih s1

theorem read_pfb_line_total (chunks : List (List Nat)) :
    ∃ lines, read_pfb_line chunks = some lines := by
  unfold read_pfb_line
  obtain ⟨s, hs⟩ := read_pfb_line_loop_total chunks ⟨init_LineData, 0, []⟩
  rw [hs]
  simp only
  split_ifs
  · exact ⟨_, rfl⟩
  · exact ⟨_, rfl⟩

theorem fread_chunks_spec (bs : Nat) (hbs : 0 < bs) (bytes : List Nat) :
    ∀ (n p : Nat), p ≤ bytes.length → bytes.length - p < n →
    ∃ chunks, fread_chunks bs n ⟨bytes, p⟩ = some (chunks, ⟨bytes, bytes.length⟩) ∧
      chunks.flatten = bytes.drop p := by
  intro n
  induction n with
  | zero => intro p _ h; omega
  | succ n ih =>
    intro p hp hn
    simp only [fread_chunks, fread]
    have hlen : ((bytes.drop p).take bs).length = min bs (bytes.length - p) := by
      rw [List.length_take, List.length_drop]
    by_cases hlt : ((bytes.drop p).take bs).length < bs
    · rw [if_pos hlt]
      have h1 : bytes.length - p < bs := by
        rw [hlen] at hlt
        omega
      refine ⟨[(bytes.drop p).take bs], ?_, ?_⟩
      · have : p + ((bytes.drop p).take bs).length = bytes.length := by
          rw [hlen]
          omega
        rw [this]
      · simp only [List.flatten_cons, List.flatten_nil, List.append_nil]
        exact List.take_of_length_le (by rw [List.length_drop]; omega)
    · rw [if_neg hlt]
      have h1 : ((bytes.drop p).take bs).length = bs := by
        rw [hlen] at hlt ⊢
        omega
      have h2 : bs ≤ bytes.length - p := by
        rw [hlen] at h1
        omega
      rw [h1]
      obtain ⟨chunks, hc, hf⟩ := ih (p + bs) (by omega) (by omega)
      rw [hc]
      refine ⟨(bytes.drop p).take bs :: chunks, rfl, ?_⟩
      simp only [List.flatten_cons, hf]
      rw [← List.drop_drop]
      exact List.take_append_drop _ _

theorem read_pfb_line_FILE_total (bytes : List Nat) :
    ∃ lines, read_pfb_line_FILE ⟨bytes, 0⟩ = some (lines, ⟨bytes, bytes.length⟩) ∧
      (∀ c ∈ lines, 0 ≤ c.li.offset) ∧
      (short_lines bytes → ∀ c ∈ lines, line_ok bytes c) := by
  obtain ⟨chunks, hc, hf⟩ := fread_chunks_spec READ_BUFFER_SIZE (by decide) bytes
    (bytes.length + 1) 0 (Nat.zero_le _) (by omega)
  obtain ⟨lines, hl⟩ := read_pfb_line_total chunks
  refine ⟨lines, ?_, read_pfb_line_nonneg chunks lines hl, ?_⟩
  · simp only [read_pfb_line_FILE, hc, hl, Option.map_some']
  · intro hrun
    obtain ⟨lines1, hl1, hok⟩ := read_pfb_line_ok bytes hrun chunks (by simpa using hf)
    rw [hl] at hl1
    rw [Option.some.inj hl1]
    exact hok

/-! ## Carry-over and the output of a dedup run -/

theorem file_lines_spec (bytes : List Nat) :
    read_pfb_line_FILE ⟨bytes, 0⟩ = some (file_lines bytes, ⟨bytes, bytes.length⟩) ∧
    (∀ c ∈ file_lines bytes, 0 ≤ c.li.offset) ∧
    (short_lines bytes → ∀ c ∈ file_lines bytes, line_ok bytes c) := by
  obtain ⟨lines, h, h0, hok⟩ := read_pfb_line_FILE_total bytes
  have e : file_lines bytes = lines := by
    unfold file_lines
    rw [h]
  rw [e]
  exact ⟨h, h0, hok⟩

theorem emitted_from_views (rs : List DomainView_t) (hne : ∀ r ∈ rs, r.labels ≠ []) :
    ∃ c, insert_all [] rs = some c ∧ (rs.filter (fun r => decide (accepted r)) ≠ [] → c ≠ []) ∧
      ∀ d ∈ consolidate_emitted c, ∃ r ∈ rs, accepted r ∧ d = convert_DomainInfo r := by
  obtain ⟨c, hc, hok, hcov, hk, _⟩ := insert_all_spec rs hne
  refine ⟨c, hc, ?_, ?_⟩
  · intro hf e
    obtain ⟨r, rest, hr⟩ := List.exists_cons_of_ne_nil hf
    have hrm : r ∈ rs.filter (fun r => decide (accepted r)) := by
      rw [hr]
      exact List.mem_cons_self _ _
    rw [List.mem_filter] at hrm
    obtain ⟨k, rest2, hl⟩ := List.exists_cons_of_ne_nil (hne r hrm.1)
    have : k ∈ c.map TLD_entry_impl_t.tld :=
      (hk k).2 ⟨r, hrm.1, by simpa using hrm.2, by rw [hl]; rfl⟩
    rw [e] at this
    simp at this
  · intro d hd
    rw [consolidate_emitted_eq] at hd
    obtain ⟨x, hx, rfl⟩ := List.mem_map.1 hd
    have hx1 : x ∈ ctx_terminals c :=
      (full_perm_ctx_terminals c).subset ((consolidate_loop_dom_sublist _).subset hx)
    have hx2 : (x.1, x.2) ∈ ctx_terminals c := hx1
    rw [mem_ctx_terminals_iff c hok] at hx2
    obtain ⟨_, r, hr, hacc, _, hconv⟩ := hcov.1 x.1 x.2 hx2
    exact ⟨r, hr, hacc, hconv⟩

theorem pfb_read_all_single (udv : List Nat → Option (List Label)) (file : List Nat) :
    pfb_read_all udv 0 (pfb_open_contexts [file]) [] =
      (insert_all [] ((file_lines file).filterMap (line_view udv 0))).map fun t =>
        ([{ in_file := ⟨file, file.length⟩,
            co := (((file_lines file).filter fun pld => is_carry_over pld).map
              fun pld => pld.li).foldl insert_carry_over ⟨0, 0, []⟩ }], t) := by
  simp only [pfb_read_all, pfb_open_contexts, List.map_cons, List.map_nil, pfb_read_one_context,
    (file_lines_spec file).1, pfb_insert_lines_eq]
  cases insert_all [] ((file_lines file).filterMap (line_view udv 0)) <;> rfl

theorem pfb_read_all_length (udv : List Nat → Option (List Label)) :
    ∀ (cs : List pfb_context_t) (pfbc : Nat) (t : TLD_context_impl_t)
      (r : List pfb_context_t × TLD_context_impl_t),
    pfb_read_all udv pfbc cs t = some r → r.1.length = cs.length := by
  intro cs
  induction cs with
  | nil =>
    intro pfbc t r h
    simp only [pfb_read_all, Option.some.injEq] at h
    rw [← h]
  | cons c rest ih =>
    intro pfbc t r h
    simp only [pfb_read_all] at h
    cases h1 : pfb_read_one_context udv pfbc c t with
    | none => rw [h1] at h; cases h
    | some s1 =>
      obtain ⟨c1, t1⟩ := s1
      rw [h1] at h
      simp only at h
      cases h2 : pfb_read_all udv (pfbc + 1) rest t1 with
      | none => rw [h2] at h; cases h
      | some s2 =>
        obtain ⟨cs2, t2⟩ := s2
        rw [h2] at h
        simp only [Option.some.injEq] at h
        rw [← h]
        simp only [List.length_cons]
        rw [← ih (pfbc + 1) t1 (cs2, t2) h2]

theorem pfb_write_carry_over_many {σ : Type} (w : List Nat → σ → Option σ)
    (pcc : List pfb_context_t × pfb_out_context_t σ) (h : pcc.1.length ≠ 1) :
    pfb_write_carry_over w pcc = some pcc := by
  obtain ⟨cs, oc⟩ := pcc
  cases cs with
  | nil => rfl
  | cons a rest =>
    cases rest with
    | nil => exact absurd rfl h
    | cons b rest2 => rfl

theorem pfb_write_lines_FILE (ls : List line_info_t) (f : FILE_t) (o : List Nat)
    (h : ∀ li ∈ ls, 0 ≤ li.offset ∧ li.line_len ≤ rw_buffer_size) :
    ∃ f1, pfb_write_lines pfb_out_context_write_FILE ls (f, o) =
        some (f1, o ++ (ls.map fun li => line_at f.bytes li ++ [10]).flatten) ∧
      f1.bytes = f.bytes := by
  have h1 := pfb_write_lines_eq pfb_out_context_write_FILE ls f o h
  rw [write_all_FILE] at h1
  cases h2 : pfb_write_lines pfb_out_context_write_FILE ls (f, o) with
  | none => rw [h2] at h1; cases h1
  | some r =>
    rw [h2] at h1
    simp only [Option.map_some', Option.some.injEq, Prod.mk.injEq, List.map_map] at h1
    obtain ⟨f1, o1⟩ := r
    simp only at h1
    refine ⟨f1, ?_, h1.1⟩
    rw [h1.2]
    rfl

theorem carry_over_list (file : List Nat) :
    ((((file_lines file).filter fun pld => is_carry_over pld).map
        fun pld => pld.li).foldl insert_carry_over ⟨0, 0, []⟩).li.take
      ((((file_lines file).filter fun pld => is_carry_over pld).map
        fun pld => pld.li).foldl insert_carry_over ⟨0, 0, []⟩).used =
      ((file_lines file).filter fun pld => is_carry_over pld).map fun pld => pld.li := by
  have hco := foldl_insert_carry_over
    (((file_lines file).filter fun pld => is_carry_over pld).map fun pld => pld.li)
    ⟨0, 0, []⟩ rfl
  rw [hco.1, hco.2]
  simp only [List.nil_append, Nat.zero_add]
  exact List.take_of_length_le (Nat.le_refl _)

theorem sort_single_none_of_read (udv : List Nat → Option (List Label)) (file : List Nat)
    (oc : pfb_out_context_t (List Nat)) (b : Bool)
    (h : insert_all [] ((file_lines file).filterMap (line_view udv 0)) = none) :
    sort_adbplus_adlists udv pfb_out_context_write_FILE [file] oc b =
      none := by
  simp only [sort_adbplus_adlists, pfb_read_all_single, h, Option.map_none']

theorem sort_single_eq (udv : List Nat → Option (List Label)) (file : List Nat)
    (oc : pfb_out_context_t (List Nat)) (t : TLD_context_impl_t)
    (h : insert_all [] ((file_lines file).filterMap (line_view udv 0)) = some t) :
    sort_adbplus_adlists udv pfb_out_context_write_FILE [file] oc true =
      match pfb_write_lines pfb_out_context_write_FILE
          (((file_lines file).filter fun pld => is_carry_over pld).map fun pld => pld.li)
          (⟨file, file.length⟩, oc.out) with
      | none => none
      | some r =>
        pfb_consolidate_out pfb_out_context_write_FILE t
          ([{ in_file := r.1,
              co := (((file_lines file).filter fun pld => is_carry_over pld).map
                fun pld => pld.li).foldl insert_carry_over ⟨0, 0, []⟩ }],
            { oc with out := r.2 }) := by
  simp only [sort_adbplus_adlists, pfb_read_all_single, h, Option.map_some', if_true,
    pfb_write_carry_over, carry_over_list]
  cases pfb_write_lines pfb_out_context_write_FILE
      (((file_lines file).filter fun pld => is_carry_over pld).map fun pld => pld.li)
      (⟨file, file.length⟩, oc.out) <;> rfl

theorem sort_single_output (udv : List Nat → Option (List Label)) (file : List Nat)
    (oc : pfb_out_context_t (List Nat)) (t : TLD_context_impl_t)
    (h : insert_all [] ((file_lines file).filterMap (line_view udv 0)) = some t)
    (hne : t ≠ [])
    (hcl : ∀ pld ∈ file_lines file, is_carry_over pld = true →
      pld.li.line_len ≤ rw_buffer_size)
    (hel : ∀ d ∈ consolidate_emitted t,
      d.context = 0 ∧ 0 ≤ d.li.offset ∧ d.li.line_len ≤ rw_buffer_size) :
    (sort_adbplus_adlists udv pfb_out_context_write_FILE [file] oc
        true).map (fun s => (s.2.out, s.2.counter)) =
      some (oc.out ++
          (((file_lines file).filter fun pld => is_carry_over pld).map
            fun pld => line_at file pld.li ++ [10]).flatten ++
          ((consolidate_emitted t).map fun d => line_at file d.li ++ [10]).flatten,
        oc.counter + (consolidate_emitted t).length) := by
  rw [sort_single_eq udv file oc t h]
  obtain ⟨f1, hw, hb⟩ := pfb_write_lines_FILE
    (((file_lines file).filter fun pld => is_carry_over pld).map fun pld => pld.li)
    ⟨file, file.length⟩ oc.out (by
      intro li hli
      obtain ⟨pld, hpld, rfl⟩ := List.mem_map.1 hli
      rw [List.mem_filter] at hpld
      exact ⟨(file_lines_spec file).2.1 pld hpld.1, hcl pld hpld.1 hpld.2⟩)
  rw [hw]
  simp only at hb ⊢
  generalize (((file_lines file).filter fun pld => is_carry_over pld).map
    fun pld => pld.li).foldl insert_carry_over ⟨0, 0, []⟩ = co0
  have hlines : ((consolidate_emitted t).map fun d =>
      line_at (file_of [⟨f1, co0⟩] d.context) d.li) =
      (consolidate_emitted t).map fun d => line_at file d.li := by
    apply List.map_congr_left
    intro d hd
    rw [(hel d hd).1]
    show line_at f1.bytes d.li = _
    rw [hb]
  have hc := pfb_consolidate_out_eq pfb_out_context_write_FILE t hne [⟨f1, co0⟩]
    { oc with out := oc.out ++ ((((file_lines file).filter fun pld => is_carry_over pld).map
        fun pld => pld.li).map fun li => line_at file li ++ [10]).flatten }
    (by
      intro d hd
      obtain ⟨a, b, c⟩ := hel d hd
      exact ⟨by rw [a]; exact Nat.zero_lt_one, b, c⟩)
  rw [write_all_FILE, hlines] at hc
  have hm : ∀ x : Option (List pfb_context_t × pfb_out_context_t (List Nat)),
      x.map (fun s => (s.2.out, s.2.counter)) =
        (x.map (fun s => (s.1.map (fun x => (x.in_file.bytes, x.co)), s.2.out,
          s.2.counter))).map Prod.snd := by
    intro x
    cases x <;> rfl
  rw [hm, hc]
  simp only [Option.map_some', List.map_map]
  rfl

theorem short_lines_of_length (bytes : List Nat) (h : bytes.length < 65536) :
    short_lines bytes := by
  intro p q hpq
  have h1 : (q.takeWhile not_newline).length ≤ q.length :=
    (List.takeWhile_sublist _).length_le
  have h2 : q.length ≤ bytes.length := by
    rw [hpq, List.length_append]
    omega
  omega

theorem is_carry_over_data (pld : PortLineData_t) (h : is_carry_over pld = true) :
    pld.data ≠ [] := by
  intro e
  obtain ⟨d, li⟩ := pld
  simp only at e
  subst e
  simp [is_carry_over, parse_adbplus_line, parse_switch] at h

theorem line_view_data (udv : List Nat → Option (List Label)) (pfbc : Nat)
    (pld : PortLineData_t) (v : DomainView_t) (h : line_view udv pfbc pld = some v) :
    pld.data ≠ [] := by
  intro e
  obtain ⟨d, li⟩ := pld
  simp only at e
  subst e
  simp [line_view, parse_adbplus_line, parse_switch] at h

theorem line_at_data (file : List Nat) (hs : short_lines file) (pld : PortLineData_t)
    (hp : pld ∈ file_lines file) (hd : pld.data ≠ []) : line_at file pld.li = pld.data := by
  obtain ⟨_, h1, h2⟩ := (file_lines_spec file).2.2 hs pld hp
  rcases Nat.lt_or_ge MAX_ACCEPTABLE_LINE_LENGTH pld.li.line_len with h | h
  · exact absurd (h2 h) hd
  · exact (h1 h).symm

/-- C25, evaluated on the code. A dedup run on the single file `file`, with the output
sink of `pfb_init_out_context`. The reader delivers the lines `file_lines file`; when no
line of the file has 65536 bytes or more, the data of every line delivered with data is
the text the recorded `line_info` names in the file. First, the case in which the claim
holds: when moreover the views of the rule lines have labels, there is a rule line, and
the header and comment lines and the emitted rules are at most `rw_buffer_size` (512)
bytes long, the run returns and has appended to the output every header and comment
line of the file, each once with its `'\n'` and in the order of the file (wherever it
stood relative to the rules), and after them the emitted rules in emission order, each
the text of its own line with `'\n'`, and `counter` has grown by the number of emitted
rules. Second, a file without a rule line (comments only): the run has no defined
result, `pfb_consolidate` reads the null root of the empty index. Third, a file with a
header or comment line for which more than 512 bytes are read: the run has no defined
result, `write_line_from_file` reads them into the buffer of 512 bytes. Last, with any
number of input contexts other than one `pfb_write_carry_over` writes nothing, and the
run with carry-over is the run without. -/
theorem carry_over_output (update_DomainView : List Nat → Option (List Label))
    (file : List Nat) (oc : pfb_out_context_t (List Nat)) :
    read_pfb_line_FILE ⟨file, 0⟩ = some (file_lines file, ⟨file, file.length⟩) ∧
    (short_lines file → ∀ pld ∈ file_lines file, pld.data ≠ [] →
      line_at file pld.li = pld.data) ∧
    (short_lines file →
      (∀ v ∈ (file_lines file).filterMap (line_view update_DomainView 0), v.labels ≠ []) →
      (file_lines file).filterMap (line_view update_DomainView 0) ≠ [] →
      (∀ pld ∈ file_lines file, is_carry_over pld = true →
        pld.li.line_len ≤ rw_buffer_size) →
      ∃ t, insert_all [] ((file_lines file).filterMap (line_view update_DomainView 0)) =
          some t ∧
        (∀ d ∈ consolidate_emitted t, ∃ pld ∈ file_lines file, ∃ v,
          line_view update_DomainView 0 pld = some v ∧ d = convert_DomainInfo v ∧
          d.li = pld.li ∧ line_at file d.li = pld.data) ∧
        ((∀ d ∈ consolidate_emitted t, d.li.line_len ≤ rw_buffer_size) →
          (sort_adbplus_adlists update_DomainView pfb_out_context_write_FILE
              [file] oc true).map (fun s => (s.2.out, s.2.counter)) =
            some (oc.out ++
                (((file_lines file).filter fun pld => is_carry_over pld).map
                  fun pld => pld.data ++ [10]).flatten ++
                ((consolidate_emitted t).map fun d => line_at file d.li ++ [10]).flatten,
              oc.counter + (consolidate_emitted t).length))) ∧
    ((file_lines file).filterMap (line_view update_DomainView 0) = [] →
      sort_adbplus_adlists update_DomainView pfb_out_context_write_FILE
        [file] oc true = none) ∧
    ((∃ pld ∈ file_lines file, is_carry_over pld = true ∧
        rw_buffer_size < (line_at file pld.li).length) →
      sort_adbplus_adlists update_DomainView pfb_out_context_write_FILE
        [file] oc true = none) ∧
    (∀ pcc : List pfb_context_t × pfb_out_context_t (List Nat), pcc.1.length ≠ 1 →
      pfb_write_carry_over pfb_out_context_write_FILE pcc = some pcc) ∧
    (∀ files : List (List Nat), files.length ≠ 1 →
      sort_adbplus_adlists update_DomainView pfb_out_context_write_FILE files oc true =
        sort_adbplus_adlists update_DomainView pfb_out_context_write_FILE files oc false) := by
  refine ⟨(file_lines_spec file).1, line_at_data file, ?_, ?_, ?_,
    pfb_write_carry_over_many _, ?_⟩
  · intro hs hne hrule hcl
    obtain ⟨t, ht, htne, hem⟩ :=
      emitted_from_views ((file_lines file).filterMap (line_view update_DomainView 0)) hne
    have hfrom : ∀ d ∈ consolidate_emitted t, ∃ pld ∈ file_lines file, ∃ v,
        line_view update_DomainView 0 pld = some v ∧ d = convert_DomainInfo v ∧
        d.li = pld.li ∧ line_at file d.li = pld.data := by
      intro d hd
      obtain ⟨v, hv, _, hconv⟩ := hem d hd
      obtain ⟨pld, hpld, hlv⟩ := List.mem_filterMap.1 hv
      have hli : d.li = pld.li := by
        rw [hconv]
        exact (line_view_full update_DomainView 0 pld v hlv).2.2
      refine ⟨pld, hpld, v, hlv, hconv, hli, ?_⟩
      rw [hli]
      exact line_at_data file hs pld hpld (line_view_data update_DomainView 0 pld v hlv)
    have hacc : ((file_lines file).filterMap (line_view update_DomainView 0)).filter
        (fun r => decide (accepted r)) ≠ [] := by
      obtain ⟨v, rest, hv⟩ := List.exists_cons_of_ne_nil hrule
      have hvm : v ∈ (file_lines file).filterMap (line_view update_DomainView 0) := by
        rw [hv]
        exact List.mem_cons_self _ _
      obtain ⟨pld, _, hlv⟩ := List.mem_filterMap.1 hvm
      have hF := (line_view_full update_DomainView 0 pld v hlv).1
      have hmem : v ∈ ((file_lines file).filterMap (line_view update_DomainView 0)).filter
          (fun r => decide (accepted r)) := by
        rw [List.mem_filter]
        refine ⟨hvm, ?_⟩
        have hacc : accepted v := by
          unfold accepted
          rw [hF]
          exact ⟨by decide, by decide⟩
        exact decide_eq_true hacc
      intro e
      rw [e] at hmem
      cases hmem
    refine ⟨t, ht, hfrom, ?_⟩
    intro hel
    rw [sort_single_output update_DomainView file oc t ht (htne hacc) hcl (by
      intro d hd
      obtain ⟨pld, hpld, v, hlv, hconv, hli, _⟩ := hfrom d hd
      refine ⟨?_, ?_, hel d hd⟩
      · rw [hconv]
        exact (line_view_full update_DomainView 0 pld v hlv).2.1
      · rw [hli]
        exact (file_lines_spec file).2.1 pld hpld)]
    have hcarry : ((file_lines file).filter fun pld => is_carry_over pld).map
        (fun pld => line_at file pld.li ++ [10]) =
        ((file_lines file).filter fun pld => is_carry_over pld).map
          fun pld => pld.data ++ [10] := by
      apply List.map_congr_left
      intro pld hpld
      rw [List.mem_filter] at hpld
      rw [line_at_data file hs pld hpld.1 (is_carry_over_data pld hpld.2)]
    rw [hcarry]
  · intro hnone
    have ht : insert_all [] ((file_lines file).filterMap (line_view update_DomainView 0)) =
        some [] := by
      rw [hnone]
      rfl
    rw [sort_single_eq update_DomainView file oc [] ht]
    cases pfb_write_lines pfb_out_context_write_FILE
        (((file_lines file).filter fun pld => is_carry_over pld).map fun pld => pld.li)
        (⟨file, file.length⟩, oc.out) <;> rfl
  · rintro ⟨pld, hpld, hco, hlong⟩
    cases ht : insert_all [] ((file_lines file).filterMap (line_view update_DomainView 0)) with
    | none => exact sort_single_none_of_read update_DomainView file oc true ht
    | some t =>
      rw [sort_single_eq update_DomainView file oc t ht,
        pfb_write_lines_overflow pfb_out_context_write_FILE _ ⟨file, file.length⟩ oc.out
          ⟨pld.li, List.mem_map.2 ⟨pld, List.mem_filter.2 ⟨hpld, hco⟩, rfl⟩,
            (file_lines_spec file).2.1 pld hpld, hlong⟩]
  · intro files hlen
    unfold sort_adbplus_adlists
    cases h : pfb_read_all update_DomainView 0 (pfb_open_contexts files) [] with
    | none => rfl
    | some r =>
      obtain ⟨cs, t⟩ := r
      have hl := pfb_read_all_length update_DomainView _ 0 [] (cs, t) h
      simp only [pfb_open_contexts, List.length_map] at hl
      have := pfb_write_carry_over_many pfb_out_context_write_FILE (cs, oc)
        (by rw [hl]; exact hlen)
      simp only [this, if_true, Bool.false_eq_true, if_false]

/-- Witness of C25: the file `[Adblock Plus]`, `! title`, `||b.com^`, `||a.com^` gives the
lines `[Adblock Plus]`, `! title`, `||a.com^`, `||b.com^`; the file of the one comment
`! t` and the file with a comment line of 600 bytes have no defined result. -/
theorem carry_over_output_witness :
    (sort_adbplus_adlists update_DomainView_spec pfb_out_context_write_FILE
        [scenario_carry] ⟨[], 0⟩ true).map
        (fun s => (s.2.out, s.2.counter)) =
      some ([91, 65, 100, 98, 108, 111, 99, 107, 32, 80, 108, 117, 115, 93, 10,
        33, 32, 116, 105, 116, 108, 101, 10,
        124, 124, 97, 46, 99, 111, 109, 94, 10,
        124, 124, 98, 46, 99, 111, 109, 94, 10], 2) ∧
    sort_adbplus_adlists update_DomainView_spec pfb_out_context_write_FILE
      [scenario_comment_only] ⟨[], 0⟩ true = none ∧
    sort_adbplus_adlists update_DomainView_spec pfb_out_context_write_FILE
      [scenario_long_comment] ⟨[], 0⟩ true = none := by
  refine ⟨?_, ?_, ?_⟩
  · obtain ⟨t, ht, _, hout⟩ :=
      (carry_over_output update_DomainView_spec scenario_carry ⟨[], 0⟩).2.2.1
        (short_lines_of_length _ (by decide)) (by decide) (by decide) (by decide)
    have h0 : insert_all []
        ((file_lines scenario_carry).filterMap (line_view update_DomainView_spec 0)) =
        some [⟨[99, 111, 109], DomainTree_t.node [98] (some ⟨0, MATCH_FULL, ⟨23, 8⟩⟩)
          DomainTree_t.nil (DomainTree_t.node [97] (some ⟨0, MATCH_FULL, ⟨32, 8⟩⟩)
            DomainTree_t.nil DomainTree_t.nil)⟩] := by decide
    rw [h0] at ht
    have ht1 := (Option.some.inj ht).symm
    subst ht1
    rw [hout (by decide)]
    decide
  · exact (carry_over_output update_DomainView_spec scenario_comment_only ⟨[], 0⟩).2.2.2.1
      (by decide)
  · exact (carry_over_output update_DomainView_spec scenario_long_comment ⟨[], 0⟩).2.2.2.2.1
      ⟨⟨33 :: List.replicate 599 97, ⟨0, 600⟩⟩,
        by set_option maxRecDepth 100000 in decide,
        by set_option maxRecDepth 100000 in decide,
        by set_option maxRecDepth 100000 in decide⟩

end AdbDedup
